import Mathlib

/-!
# Distributed sparse key index (`stk::parallel::DistributedIndex`)

A shallow embedding of `packages/stk/stk_util/stk_util/parallel/DistributedIndex.cpp`.

* `KeyType` is `uint64_t`; a key is written as a natural number (`Nat`).
* `ProcType` is a signed integer (`Int`): ranks are non-negative and `-1` is the tombstone
  written by `RemoveKeyProc::mark`.
* A collective operation is described rank by rank: the arguments every rank passes are
  given as a function of the rank, the index content of every rank likewise, and the
  embedding of an operation returns what one rank `r` ends up with.  The message a rank
  `p` packs for a rank `r` is the receive buffer of `p` on `r`.
* Machine integers are numbers brought into the range of their type where the source can
  leave it: `size_t`, `unsigned long` and `KeyType` values are taken modulo `2 ^ 64`,
  `long` values are brought into range by `to_long`, the `int` product of `chunk_inc` is
  taken in 32 bits, and an iterator of a vector of keys moves modulo `2 ^ 61` keys.
* A read at the end position of `m_key_usage` yields what the storage of the vector holds
  there; the definitions with the suffix `_stored` take that key as an argument.
-/

namespace DistributedIndex

/-- Type `DistributedIndex::KeyProc`, the pair `(key, rank)`: a `KeyType` (unsigned 64-bit
integer, here a natural number) and a `ProcType` (signed integer, `-1` marks an erased
entry). -/
abbrev KeyProc := Nat × Int

/-- Type `DistributedIndex::KeySpan`, the closed interval `[first, second]` of keys. -/
abbrev KeySpan := Nat × Nat

/-- Each chunk is 4096 keys. -/
def DISTRIBUTED_INDEX_CHUNK_BITS : Nat := 12

/-- Number of keys of one chunk, `size_t(1) << DISTRIBUTED_INDEX_CHUNK_BITS`. -/
def DISTRIBUTED_INDEX_CHUNK_SIZE : Nat := 1 <<< DISTRIBUTED_INDEX_CHUNK_BITS

/-- Comparison `KeyProcLess::operator()(KeyProc, KeyProc)`:
`lhs.first != rhs.first ? lhs.first < rhs.first : lhs.second < rhs.second`. -/
def KeyProcLess (lhs rhs : KeyProc) : Prop :=
  if lhs.1 ≠ rhs.1 then lhs.1 < rhs.1 else lhs.2 < rhs.2

instance KeyProcLess.decidable : DecidableRel KeyProcLess := fun lhs rhs => by
  unfold KeyProcLess; exact inferInstance

/-- Order in which `std::sort( i , j , KeyProcLess() )` leaves two neighbours:
the later one is not less than the earlier one. -/
def KeyProcNotGreater (lhs rhs : KeyProc) : Prop := ¬ KeyProcLess rhs lhs

instance KeyProcNotGreater.decidable : DecidableRel KeyProcNotGreater := fun lhs rhs => by
  unfold KeyProcNotGreater; exact inferInstance

/-- Function `std::sort` with `KeyProcLess` (also the default `operator<` of the pair,
which is the same lexicographic order).  The comparison is a strict total order on
pairs, so the sorted sequence does not depend on the sorting algorithm. -/
def sort (key_usage : List KeyProc) : List KeyProc :=
  key_usage.insertionSort KeyProcNotGreater

/-- Scan of `std::unique` after its first element: `prev` is the last element kept. -/
def uniqueAux (prev : KeyProc) : List KeyProc → List KeyProc
  | [] => []
  | b :: t => if prev = b then uniqueAux prev t else b :: uniqueAux b t

/-- Function `std::unique` followed by the `erase` of the tail: of every run of equal
neighbours the first is kept. -/
def unique : List KeyProc → List KeyProc
  | [] => []
  | a :: t => a :: uniqueAux a t

/-- Function `sort_unique`: sort with `KeyProcLess`, then drop equal neighbours. -/
def sort_unique (key_usage : List KeyProc) : List KeyProc :=
  unique (sort key_usage)

/-- Method `DistributedIndex::to_which_proc`:
`( key >> DISTRIBUTED_INDEX_CHUNK_BITS ) % m_comm_size`, returned as a `ProcType`.
`m_comm_size` is the number of ranks, a positive `ProcType`; the remainder is taken in the
unsigned type of the key and, being smaller than `m_comm_size`, fits `ProcType`. -/
def to_which_proc (m_comm_size : Nat) (key : Nat) : Int :=
  (((key >>> DISTRIBUTED_INDEX_CHUNK_BITS) % m_comm_size : Nat) : Int)

/-! ### `update_keys` -/

/-- Span search of `update_keys`:
`for ( ; j != je ; ++j ) { if ( j->first <= *i && *i <= j->second ) { break ; } }`,
true when the loop leaves before `je`. -/
def in_some_span (m_key_span : List KeySpan) (key : Nat) : Bool :=
  m_key_span.any (fun j => decide (j.1 ≤ key) && decide (key ≤ j.2))

/-- Counter `local_bad_input` of `update_keys`: one more for every key of
`add_new_keys` for which the span search reaches `je`. -/
def local_bad_input (m_key_span : List KeySpan) (add_new_keys : List Nat) : Nat :=
  add_new_keys.foldl
    (fun bad i => if in_some_span m_key_span i then bad else bad + 1) 0

/-- Vectors `count_remove` and `count_add` of `update_keys` after their counting loop:
`m_comm_size` zeros, then `++count[ to_which_proc( *i ) ]` for every key that this
rank does not own. -/
def count_keys (m_comm_size : Nat) (m_comm_rank : Int) (keys : List Nat) :
    List Nat :=
  keys.foldl
    (fun count i =>
      let p := to_which_proc m_comm_size i
      if p ≠ m_comm_rank then count.set p.toNat (count.getD p.toNat 0 + 1) else count)
    (List.replicate m_comm_size 0)

/-- Modelled from the spec: `CommAll::allocate_buffers( ... , error_flag )` of
`stk_util/parallel/ParallelComm.hpp`, which is not part of the sources.  It returns, on
every rank, the OR of the `error_flag` given by the ranks `0 .. m_comm_size - 1`. -/
def allocate_buffers (m_comm_size : Nat) (error_flag : Nat → Bool) : Bool :=
  (List.range m_comm_size).any error_flag

/-- Modelled from the spec: `CommAll::communicate()` of
`stk_util/parallel/ParallelComm.hpp`, which is not part of the sources.  After it,
`all.recv_buffer( p )` on the rank `r` holds what the rank `p` packed into its
`all.send_buffer( r )`, in pack order.  Here `send_buffer p dest` is the content of the send
buffer of the rank `p` for the destination `dest`. -/
def recv_buffer {α : Type} (send_buffer : Nat → Nat → List α) (r p : Nat) : List α :=
  send_buffer p r

/-- Packing pass of `update_keys` on the rank `m_comm_rank`, seen from the destination
`p`: the content of `all.send_buffer( p )` when `all.communicate()` is called.  The
buffer holds `count_remove[p]` when one of the two counts is not zero, then the keys of
`remove_existing_keys` owned by `p`, then the keys of `add_new_keys` owned by `p`; keys
owned by the packing rank itself are not packed. -/
def update_keys_pack (m_comm_size : Nat) (m_comm_rank : Int)
    (add_new_keys remove_existing_keys : List Nat) (p : Nat) : List Nat :=
  let count_remove := count_keys m_comm_size m_comm_rank remove_existing_keys
  let count_add := count_keys m_comm_size m_comm_rank add_new_keys
  let routed := fun (i : Nat) =>
    decide (to_which_proc m_comm_size i ≠ m_comm_rank) &&
      decide (to_which_proc m_comm_size i = (p : Int))
  (if count_remove.getD p 0 ≠ 0 ∨ count_add.getD p 0 ≠ 0 then [count_remove.getD p 0]
    else [])
    ++ remove_existing_keys.filter routed
    ++ add_new_keys.filter routed

/-- Loop `while ( i != key_usage.end() && kp != *i ) { ++i ; }` of
`RemoveKeyProc::mark` followed by `i->second = -1` on an exact hit. -/
def mark_scan (kp : KeyProc) : List KeyProc → List KeyProc
  | [] => []
  | i :: rest => if kp ≠ i then i :: mark_scan kp rest else (i.1, -1) :: rest

/-- Loop of `std::lower_bound` in the standard library: the range still searched starts at
the position `first` and has `len` elements; `half = len >> 1`, `middle = first + half`,
and the search goes on in `[middle + 1, first + len)` when `middle->first < key`, in
`[first, middle)` otherwise.  The first argument bounds the number of halvings; `len`
halvings always suffice. -/
def lower_bound_loop (key_usage : List KeyProc) (key : Nat) : Nat → Nat → Nat → Nat
  | 0, first, _ => first
  | fuel + 1, first, len =>
    if len = 0 then first
    else
      match key_usage[first + len / 2]? with
      | some middle =>
        if middle.1 < key then
          lower_bound_loop key_usage key fuel (first + len / 2 + 1) (len - len / 2 - 1)
        else lower_bound_loop key_usage key fuel first (len / 2)
      | none => first

/-- Function `std::lower_bound( begin , end , key , KeyProcLess() )` with the
comparison `lhs.first < rhs`, as a position in `key_usage`. -/
def lower_bound (key_usage : List KeyProc) (key : Nat) : Nat :=
  lower_bound_loop key_usage key key_usage.length 0 key_usage.length

/-- Function `RemoveKeyProc::mark`: from the lower bound of `kp.first` scan forward
for the element equal to `kp` and overwrite its rank with `-1`. -/
def mark (key_usage : List KeyProc) (kp : KeyProc) : List KeyProc :=
  let i := lower_bound key_usage kp.1
  key_usage.take i ++ mark_scan kp (key_usage.drop i)

/-- Function `RemoveKeyProc::clean`: `remove_if` of the elements with
`kp.second < 0`, then `erase` of the tail. -/
def clean (key_usage : List KeyProc) : List KeyProc :=
  key_usage.filter (fun kp => !decide (kp.2 < 0))

/-- First read of a receive buffer in `update_keys`: when `buf.remaining()`, unpack
`remove_count` and then `remove_count` keys. -/
def unpack_remove : List Nat → List Nat
  | [] => []
  | remove_count :: rest => rest.take remove_count

/-- Second read of the same receive buffer in `update_keys`:
`while ( buf.remaining() )` unpack a key, starting where the first read stopped. -/
def unpack_add : List Nat → List Nat
  | [] => []
  | remove_count :: rest => rest.drop remove_count

/-- Part of `update_keys` after `all.communicate()` on the rank `m_comm_rank`, where
`recv_buffer p` is the content of `all.recv_buffer( p )`: mark the removed pairs of the
keys owned here, mark the received ones, `clean`, append the added pairs of the keys
owned here, append the received ones, `sort_unique`. -/
def update_keys_apply (m_comm_size : Nat) (m_comm_rank : Nat)
    (m_key_usage : List KeyProc) (add_new_keys remove_existing_keys : List Nat)
    (recv_buffer : Nat → List Nat) : List KeyProc :=
  let owned := fun (i : Nat) =>
    decide (to_which_proc m_comm_size i = (m_comm_rank : Int))
  let local_removed :=
    ((remove_existing_keys.filter owned).map
      (fun i => ((i, to_which_proc m_comm_size i) : KeyProc))).foldl mark m_key_usage
  let removed :=
    (List.range m_comm_size).foldl
      (fun key_usage p =>
        ((unpack_remove (recv_buffer p)).map
          (fun key => ((key, (p : Int)) : KeyProc))).foldl mark key_usage)
      local_removed
  let cleaned := clean removed
  let local_added :=
    cleaned ++ (add_new_keys.filter owned).map
      (fun i => ((i, to_which_proc m_comm_size i) : KeyProc))
  let added :=
    local_added ++ (List.range m_comm_size).flatMap
      (fun p => (unpack_add (recv_buffer p)).map (fun key => ((key, (p : Int)) : KeyProc)))
  sort_unique added

/-- What a call of `update_keys` leaves on one rank: whether it threw, and the content of
`m_key_usage` afterwards. -/
structure UpdateResult where
  /-- The call ended with `throw std::runtime_error`. -/
  threw : Bool
  /-- Content of `m_key_usage` when the call ends. -/
  m_key_usage : List KeyProc
deriving DecidableEq

/-- Method `DistributedIndex::update_keys` as a collective over the ranks
`0 .. m_comm_size - 1`, seen from the rank `r`: rank `p` passes `add_new_keys p` and
`remove_existing_keys p` and holds `m_key_usage p`.  When the OR of the error flags is
set the call throws before `m_key_usage` is touched; otherwise the rank `r` applies its
own lists and the buffers packed for it by every rank.  The sizing pass (`buf.skip`) only
reserves the space that the packing pass fills and is not represented; its reads of
`count_remove` and `count_add` are those of `sizing_in_range`, and a read past the end of
a cleared vector is taken to be without effect on the throw. -/
def update_keys (m_comm_size : Nat) (m_key_span : List KeySpan)
    (add_new_keys remove_existing_keys : Nat → List Nat)
    (m_key_usage : Nat → List KeyProc) (r : Nat) : UpdateResult :=
  let global_bad_input :=
    allocate_buffers m_comm_size
      (fun p => decide (0 < local_bad_input m_key_span (add_new_keys p)))
  if global_bad_input then
    { threw := true, m_key_usage := m_key_usage r }
  else
    { threw := false,
      m_key_usage :=
        update_keys_apply m_comm_size r (m_key_usage r) (add_new_keys r)
          (remove_existing_keys r)
          (recv_buffer
            (fun p dest =>
              update_keys_pack m_comm_size (p : Int) (add_new_keys p)
                (remove_existing_keys p) dest) r) }

/-! ### `query` -/

/-- Function `query_pack`, as the sequence of its `all.send_buffer( k->second ).pack( *j )`
calls, each given as (destination, packed pair).  The first argument is the part of
`key_usage` from the iterator `i` on: every request first advances `i` past the smaller
keys, then packs the run of entries whose key equals the requested one, and the loop over
the requests stops as soon as `i` is at the end. -/
def query_pack : List KeyProc → List KeyProc → List (Int × KeyProc)
  | _, [] => []
  | [], _ :: _ => []
  | i :: usage, k :: request =>
    let advanced := (i :: usage).dropWhile (fun e => decide (e.1 < k.1))
    (advanced.takeWhile (fun j => decide (j.1 = k.1))).map (fun j => (k.2, j))
      ++ query_pack advanced request

/-- Content of `all.send_buffer( dest )` after the packing pass of
`query( request , ... )` on a rank that holds `key_usage` and is given `request`: the pairs
that `query_pack` packed for `dest`, in pack order. -/
def query_send (key_usage request : List KeyProc) (dest : Nat) : List KeyProc :=
  (query_pack key_usage request).filterMap
    (fun m => if m.1 = (dest : Int) then some m.2 else none)

/-- Method `DistributedIndex::query( request , sharing_of_keys )` as a collective, seen
from the rank `r`: the receive buffers of the ranks `0 .. m_comm_size - 1` are unpacked
in rank order and the result is sorted with `std::sort`. -/
def query_request (m_comm_size : Nat) (m_key_usage : Nat → List KeyProc)
    (request : Nat → List KeyProc) (r : Nat) : List KeyProc :=
  sort ((List.range m_comm_size).flatMap
    (recv_buffer (fun p dest => query_send (m_key_usage p) (request p) dest) r))

/-- Method `DistributedIndex::query( sharing_of_local_keys )`:
`query( m_key_usage , sharing_of_local_keys )`. -/
def query_void (m_comm_size : Nat) (m_key_usage : Nat → List KeyProc) (r : Nat) :
    List KeyProc :=
  query_request m_comm_size m_key_usage m_key_usage r

/-- Content of `all.send_buffer( dest )` after the packing pass of `query( keys , ... )`:
`all.send_buffer( to_which_proc( *k ) ).pack<KeyType>( *k )` for every key, so the keys
owned by `dest`, in the order of `keys`. -/
def query_keys_send (m_comm_size : Nat) (keys : List Nat) (dest : Nat) : List Nat :=
  keys.filter (fun k => decide (to_which_proc m_comm_size k = (dest : Int)))

/-- Request list that the rank `q` builds in `query( keys , ... )`: every rank `p` packs
each of its keys for the owner of the key, the rank `q` unpacks the buffers in rank order
into pairs `(key, p)`, and the list goes through `sort_unique`. -/
def query_keys_request (m_comm_size : Nat) (keys : Nat → List Nat) (q : Nat) :
    List KeyProc :=
  sort_unique ((List.range m_comm_size).flatMap
    (fun p =>
      (recv_buffer (fun p dest => query_keys_send m_comm_size (keys p) dest) q p).map
        (fun k => ((k, (p : Int)) : KeyProc))))

/-- Method `DistributedIndex::query( keys , sharing_keys )` as a collective, seen from the
rank `r`: rank `p` passes `keys p`. -/
def query_keys (m_comm_size : Nat) (m_key_usage : Nat → List KeyProc)
    (keys : Nat → List Nat) (r : Nat) : List KeyProc :=
  query_request m_comm_size m_key_usage (query_keys_request m_comm_size keys) r

/-! ### `generate_new_keys`

The 64-bit unsigned types `KeyType`, `size_t` and `unsigned long` compute modulo `2 ^ 64`;
a loop that need not end returns an `Option`, `none` meaning that the loop does not end. -/

/-- Part of the constructor after the validity check: `m_key_span` is the given list of
spans, or, when the list is empty, the single span from
`std::numeric_limits<KeyType>::min()` to `std::numeric_limits<KeyType>::max()`. -/
def constructed_key_span (partition_bounds : List KeySpan) : List KeySpan :=
  if partition_bounds.length = 0 then [(0, 2 ^ 64 - 1)] else partition_bounds

/-- Search loop of the constructor for `m_chunk_first[ i ]`:
`while ( m_comm_rank != to_which_proc( key_span_first + chunk_iter *
DISTRIBUTED_INDEX_CHUNK_SIZE ) ) { ++chunk_iter ; }`.  The first argument bounds the
number of iterations.  The searched key, hence its owner, repeats with period `2 ^ 52` in
`chunk_iter`, so a search that has not ended after `2 ^ 52` iterations never ends. -/
def chunk_first_loop (m_comm_size : Nat) (m_comm_rank : Int) (key_span_first : Nat) :
    Nat → Nat → Option Nat
  | 0, _ => none
  | fuel + 1, chunk_iter =>
    if m_comm_rank ≠ to_which_proc m_comm_size
        ((key_span_first + chunk_iter * DISTRIBUTED_INDEX_CHUNK_SIZE) % 2 ^ 64) then
      chunk_first_loop m_comm_size m_comm_rank key_span_first fuel (chunk_iter + 1)
    else some chunk_iter

/-- Vector `m_chunk_first` that the constructor computes on the rank `m_comm_rank`, one
entry per span; `none` when a search loop does not end. -/
def chunk_first (m_comm_size : Nat) (m_comm_rank : Int) : List KeySpan → Option (List Nat)
  | [] => some []
  | span :: rest =>
    (chunk_first_loop m_comm_size m_comm_rank span.1 (2 ^ 52) 0).bind
      (fun chunk_iter => (chunk_first m_comm_size m_comm_rank rest).map (chunk_iter :: ·))

/-- Counting loop of `generate_new_keys_global_counts` for one span, on the part of
`m_key_usage` from the iterator `j` on: the count and the part from the new `j` on.
`skipping = some key` is the inner loop `while ( key == j->first ) { ++j ; }`, `none` the
outer test `j != end && j->first <= key_span_last`.  The inner loop has no test for the end
of `m_key_usage`; the key read at the end position is taken to differ from `key`.
`count_used_reads_end` tells when that read happens, and `count_used_stored` takes the key
read there as an argument. -/
def count_used (key_span_last : Nat) : Option Nat → List KeyProc → Nat × List KeyProc
  | _, [] => (0, [])
  | skipping, j :: rest =>
    if skipping = some j.1 then count_used key_span_last skipping rest
    else if j.1 ≤ key_span_last then
      ((count_used key_span_last (some j.1) rest).1 + 1,
        (count_used key_span_last (some j.1) rest).2)
    else (0, j :: rest)

/-- Loop `for ( size_t i = 0 ; i < m_span_count && j != m_key_usage.end() ; ++i )` of
`generate_new_keys_global_counts`: the entries `local_counts[ i ]` of the used keys, one per
span, the iterator `j` going on from span to span. -/
def local_used : List KeySpan → List KeyProc → List Nat
  | [], _ => []
  | span :: rest, j =>
    (count_used span.2 none j).1 :: local_used rest (count_used span.2 none j).2

/-- Vector `local_counts` of `generate_new_keys_global_counts`, of size
`2 * m_span_count + 1`: used keys per span, requested keys per span
(`i < requests.size() ? requests[i] : 0`), error flag `m_span_count != requests.size()`. -/
def local_counts (m_key_span : List KeySpan) (m_key_usage : List KeyProc)
    (requests : List Nat) : List Nat :=
  local_used m_key_span m_key_usage
    ++ (List.range m_key_span.length).map
      (fun i => if i < requests.length then requests.getD i 0 else 0)
    ++ [if m_key_span.length ≠ requests.length then 1 else 0]

/-- Modelled from the spec: `MPI_Allreduce( ... , MPI_UNSIGNED_LONG , MPI_SUM , m_comm )`,
the elementwise sum over the ranks `0 .. m_comm_size - 1`, replicated on every rank; the
entry `k` of the result, an `unsigned long`. -/
def all_reduce_sum (m_comm_size : Nat) (local_vector : Nat → List Nat) (k : Nat) : Nat :=
  ((List.range m_comm_size).map (fun p => (local_vector p).getD k 0)).sum % 2 ^ 64

/-- Value `span_available` of `generate_new_keys_global_counts`:
`( 1 + m_key_span[i].second - m_key_span[i].first ) - global_counts[i]` in `size_t`. -/
def span_available (span : KeySpan) (used : Nat) : Nat :=
  ((1 + span.2 + 2 ^ 64 - span.1) % 2 ^ 64 + 2 ^ 64 - used) % 2 ^ 64

/-- What `generate_new_keys_global_counts` leaves: whether it threw, and the two output
vectors. -/
structure GlobalCounts where
  /-- The call ended with `throw std::runtime_error`. -/
  threw : Bool
  /-- Global count of the used keys, per span. -/
  existing_global_sum : List Nat
  /-- Global count of the requested keys, per span. -/
  requests_global_sum : List Nat
deriving DecidableEq

/-- Method `DistributedIndex::generate_new_keys_global_counts` as a collective: rank `p`
holds `m_key_usage p` and passes `requests p`; the result is the same on every rank. -/
def generate_new_keys_global_counts (m_comm_size : Nat) (m_key_span : List KeySpan)
    (m_key_usage : Nat → List KeyProc) (requests : Nat → List Nat) : GlobalCounts :=
  let m_span_count := m_key_span.length
  let global_counts := all_reduce_sum m_comm_size
    (fun p => local_counts m_key_span (m_key_usage p) (requests p))
  let bad_request := decide (global_counts (2 * m_span_count) ≠ 0)
  let exhausted := (List.range m_span_count).any
    (fun i => decide (span_available (m_key_span.getD i (0, 0)) (global_counts i)
      < global_counts (i + m_span_count)))
  { threw := bad_request || exhausted,
    existing_global_sum := (List.range m_span_count).map global_counts,
    requests_global_sum :=
      (List.range m_span_count).map (fun i => global_counts (i + m_span_count)) }

/-- Body of the loop `for ( ; key_iter <= key_last ; ++key_iter )` of local planning, on
the pair of the part of `m_key_usage` from the iterator `j` on and of `contrib_keys`:
contribute `key_iter` when `j` is at the end or `key_iter < j->first`, otherwise move `j`
past the entries with the key `key_iter`. -/
def plan_key (key_iter : Nat) (state : List KeyProc × List Nat) : List KeyProc × List Nat :=
  match state.1 with
  | [] => (state.1, state.2 ++ [key_iter])
  | j :: _ =>
    if key_iter < j.1 then (state.1, state.2 ++ [key_iter])
    else (state.1.dropWhile (fun e => decide (key_iter = e.1)), state.2)

/-- Body of the loop over the chunks of local planning for the chunk that starts at
`key_begin`: `key_last`, the `std::lower_bound` from `j`, and the loop over the keys
`key_begin .. key_last`.  When `key_last` is the largest key, `++key_iter` wraps around and
the loop over the keys does not end. -/
def plan_chunk (key_begin key_global_max : Nat) (state : List KeyProc × List Nat) :
    Option (List KeyProc × List Nat) :=
  let key_last := min ((key_begin + DISTRIBUTED_INDEX_CHUNK_SIZE - 1) % 2 ^ 64) key_global_max
  let j := state.1.drop (lower_bound state.1 key_begin)
  if key_begin ≤ key_last ∧ key_last = 2 ^ 64 - 1 then none
  else
    some ((List.range' key_begin (key_last + 1 - key_begin)).foldl
      (fun state key_iter => plan_key key_iter state) (j, state.2))

/-- Loop `for ( key_begin = ... ; key_begin <= key_global_max ; key_begin += chunk_inc )`
of local planning.  The first argument bounds the number of iterations: `key_begin` repeats
after at most `2 ^ 52` steps, so a loop that has not ended by then never ends. -/
def plan_chunks (key_global_max chunk_inc : Nat) :
    Nat → Nat → List KeyProc × List Nat → Option (List KeyProc × List Nat)
  | 0, _, _ => none
  | fuel + 1, key_begin, state =>
    if key_begin ≤ key_global_max then
      (plan_chunk key_begin key_global_max state).bind
        (plan_chunks key_global_max chunk_inc fuel ((key_begin + chunk_inc) % 2 ^ 64))
    else some state

/-- Value of an integer in `long`, 64 bits in two's complement: the conversion of a
difference of two `size_t` values to `long`, and the result of a sum or difference of
`long` values. -/
def to_long (difference : Int) : Int :=
  (difference + 2 ^ 63) % 2 ^ 64 - 2 ^ 63

/-- Variables of `generate_new_keys_local_planning`: the iterator `j` (as the part of
`m_key_usage` from `j` on) and the three output vectors. -/
structure Planning where
  /-- Part of `m_key_usage` from the iterator `j` on. -/
  j : List KeyProc
  /-- Per span, the keys still needed (positive) or left for donation (negative). -/
  new_request : List Int
  /-- Keys this rank keeps for itself (`new_keys` of `generate_new_keys`). -/
  requested_keys : List Nat
  /-- Keys this rank found free and does not keep. -/
  contrib_keys : List Nat
deriving DecidableEq

/-- Value `chunk_inc` of local planning, `m_comm_size * DISTRIBUTED_INDEX_CHUNK_SIZE`
converted to `size_t`.  The factors are the `int` `m_comm_size` and an enumerator, so the
product is formed in `int`; from `2 ^ 19` ranks on it does not fit, and the value is then
the product wrapped to 32 bits (`0` for `2 ^ 20` ranks), sign-extended to `size_t`. -/
def chunk_inc (m_comm_size : Nat) : Nat :=
  ((m_comm_size * DISTRIBUTED_INDEX_CHUNK_SIZE + 2 ^ 31) % 2 ^ 32 + 2 ^ 64 - 2 ^ 31) % 2 ^ 64

/-- Body of the loop over the spans of `generate_new_keys_local_planning` for the span `i`:
walk the chunks of this rank up to `key_global_max`, keep the last `keep` contributed keys
and record `new_request[i]`. -/
def plan_span (m_comm_size : Nat) (m_key_span : List KeySpan) (m_chunk_first : List Nat)
    (existing_global_sum requests_global_sum requests_local : List Nat) (i : Nat)
    (state : Planning) : Option Planning :=
  let final_key_count := (existing_global_sum.getD i 0 + requests_global_sum.getD i 0) % 2 ^ 64
  let key_span_first := (m_key_span.getD i (0, 0)).1
  let key_global_max := (key_span_first + final_key_count + 2 ^ 64 - 1) % 2 ^ 64
  let init_size := state.contrib_keys.length
  let key_inc := chunk_inc m_comm_size
  let key_begin :=
    (key_span_first + m_chunk_first.getD i 0 * DISTRIBUTED_INDEX_CHUNK_SIZE) % 2 ^ 64
  (plan_chunks key_global_max key_inc (2 ^ 52 + 1) key_begin
      (state.j, state.contrib_keys)).map
    (fun walked =>
      let this_contrib := walked.2.length - init_size
      let keep := min (requests_local.getD i 0) this_contrib
      { j := walked.1,
        new_request :=
          state.new_request ++ [to_long ((requests_local.getD i 0 : Int) - (this_contrib : Int))],
        requested_keys := state.requested_keys ++ walked.2.drop (walked.2.length - keep),
        contrib_keys := walked.2.take (walked.2.length - keep) })

/-- Loop over the spans of `generate_new_keys_local_planning`, for the span indices of the
list. -/
def plan_spans (m_comm_size : Nat) (m_key_span : List KeySpan) (m_chunk_first : List Nat)
    (existing_global_sum requests_global_sum requests_local : List Nat) :
    List Nat → Planning → Option Planning
  | [], state => some state
  | i :: rest, state =>
    (plan_span m_comm_size m_key_span m_chunk_first existing_global_sum requests_global_sum
        requests_local i state).bind
      (plan_spans m_comm_size m_key_span m_chunk_first existing_global_sum
        requests_global_sum requests_local rest)

/-- Method `DistributedIndex::generate_new_keys_local_planning` on one rank; `none` when a
loop does not end. -/
def generate_new_keys_local_planning (m_comm_size : Nat) (m_key_span : List KeySpan)
    (m_chunk_first : List Nat) (m_key_usage : List KeyProc)
    (existing_global_sum requests_global_sum requests_local : List Nat) : Option Planning :=
  plan_spans m_comm_size m_key_span m_chunk_first existing_global_sum requests_global_sum
    requests_local (List.range m_key_span.length)
    { j := m_key_usage, new_request := [], requested_keys := [], contrib_keys := [] }

/-- Modelled from the spec: `MPI_Allgather` of `new_request`; the entry
`new_request_global[ p * m_span_count + i ]` is the entry `i` of the vector of the rank
`p`. -/
def new_request_global (new_request : Nat → List Int) (p i : Nat) : Int :=
  (new_request p).getD i 0

/-- Variables of the donation loop of `generate_new_keys_global_planning` for one span. -/
structure Donate where
  /-- What the previous donors and this one have donated so far. -/
  previous_donate : Int
  /-- What this rank has still to donate. -/
  my_total_donate : Int
  /-- Accumulated requests of the receivers seen so far. -/
  previous_receive : Int
  /-- Entries `my_donations[ p * m_span_count + i ]` of the ranks `p` seen so far. -/
  my_donations : List Int
deriving DecidableEq

/-- Body of the loop `for ( int p = 0 ; p < m_comm_size && 0 < my_total_donate ; ++p )` of
`generate_new_keys_global_planning` for the rank `p` with the request `new_request_p`; once
`my_total_donate` is used up the loop is left and the remaining entries stay `0`.  The
variables are `long`: every sum and difference is taken in 64 bits (`to_long`). -/
def donate_step (end_donate : Int) (state : Donate) (new_request_p : Int) : Donate :=
  if 0 < state.my_total_donate then
    if 0 < new_request_p then
      if state.previous_donate < to_long (state.previous_receive + new_request_p) then
        { previous_donate :=
            to_long (state.previous_donate +
              to_long (min (to_long (state.previous_receive + new_request_p)) end_donate
                - state.previous_donate)),
          my_total_donate :=
            to_long (state.my_total_donate -
              to_long (min (to_long (state.previous_receive + new_request_p)) end_donate
                - state.previous_donate)),
          previous_receive := to_long (state.previous_receive + new_request_p),
          my_donations := state.my_donations ++
            [to_long (min (to_long (state.previous_receive + new_request_p)) end_donate
              - state.previous_donate)] }
      else
        { state with
          previous_receive := to_long (state.previous_receive + new_request_p),
          my_donations := state.my_donations ++ [0] }
    else { state with my_donations := state.my_donations ++ [0] }
  else { state with my_donations := state.my_donations ++ [0] }

/-- The body of the donation loop computed in unbounded integers: `donate_step` without the
64-bit range of `long`, to which the closed form of the donations refers. -/
def donate_step_exact (end_donate : Int) (state : Donate) (new_request_p : Int) : Donate :=
  if 0 < state.my_total_donate then
    if 0 < new_request_p then
      if state.previous_donate < state.previous_receive + new_request_p then
        { previous_donate := min (state.previous_receive + new_request_p) end_donate,
          my_total_donate :=
            state.my_total_donate -
              (min (state.previous_receive + new_request_p) end_donate - state.previous_donate),
          previous_receive := state.previous_receive + new_request_p,
          my_donations := state.my_donations ++
            [min (state.previous_receive + new_request_p) end_donate - state.previous_donate] }
      else
        { state with
          previous_receive := state.previous_receive + new_request_p,
          my_donations := state.my_donations ++ [0] }
    else { state with my_donations := state.my_donations ++ [0] }
  else { state with my_donations := state.my_donations ++ [0] }

/-- Donations of the rank `m_comm_rank` for the span `i` in
`generate_new_keys_global_planning`: the entries `my_donations[ p * m_span_count + i ]`
for `p = 0 .. m_comm_size - 1`.  All the variables are `long` and every operation is taken
in 64 bits: `- new_request[i]` of the smallest `long` is that value again, so that the
guard `0 < my_total_donate` fails and nothing is donated. -/
def span_donations (m_comm_size m_comm_rank : Nat) (new_request : Nat → List Int) (i : Nat) :
    List Int :=
  if new_request_global new_request m_comm_rank i < 0 then
    let my_total_donate := to_long (- new_request_global new_request m_comm_rank i)
    let previous_donate :=
      (List.range m_comm_rank).foldl
        (fun previous_donate p =>
          if new_request_global new_request p i < 0 then
            to_long (previous_donate - new_request_global new_request p i)
          else previous_donate) 0
    ((List.range m_comm_size).foldl
      (fun state p =>
        donate_step (to_long (previous_donate + my_total_donate)) state
          (new_request_global new_request p i))
      { previous_donate := previous_donate, my_total_donate := my_total_donate,
        previous_receive := 0, my_donations := [] }).my_donations
  else List.replicate m_comm_size 0

/-- The donations computed in unbounded integers: `span_donations` without the 64-bit range
of `long`.  The two agree when the requests of the receivers and the surpluses of the donors
each sum to less than `2 ^ 63`. -/
def span_donations_exact (m_comm_size m_comm_rank : Nat) (new_request : Nat → List Int)
    (i : Nat) : List Int :=
  if new_request_global new_request m_comm_rank i < 0 then
    let my_total_donate := - new_request_global new_request m_comm_rank i
    let previous_donate :=
      ((List.range m_comm_rank).map
        (fun p =>
          if new_request_global new_request p i < 0 then - new_request_global new_request p i
          else 0)).sum
    ((List.range m_comm_size).foldl
      (fun state p =>
        donate_step_exact (previous_donate + my_total_donate) state
          (new_request_global new_request p i))
      { previous_donate := previous_donate, my_total_donate := my_total_donate,
        previous_receive := 0, my_donations := [] }).my_donations
  else List.replicate m_comm_size 0

/-- Method `DistributedIndex::generate_new_keys_global_planning` on the rank `m_comm_rank`:
the entry `my_donations[ p * m_span_count + i ]`, as a number of keys: the `long` entry
converted to `size_t` in `const size_t n_to_p = my_donations[ p * m_span_count + i ]`. -/
def generate_new_keys_global_planning (m_comm_size m_comm_rank : Nat)
    (new_request : Nat → List Int) (i p : Nat) : Nat :=
  (((span_donations m_comm_size m_comm_rank new_request i).getD p 0) % 2 ^ 64).toNat

/-- Walk over `contrib_keys` in `generate_new_keys`, for the pairs (span `i`, rank `p`) of
the list in order: the rank `p` is given the next `n_to_p` keys from the position `n` on.
The result lists, for every pair, the rank and its keys.  The keys are those of the source
when the walk stays inside `contrib_keys` (`donation_walk_in_range`); otherwise the source
reads `contrib_keys[n]` past the end of the vector. -/
def donation_walk (my_donations : Nat → Nat → Nat) (contrib_keys : List Nat) :
    List (Nat × Nat) → Nat → List (Nat × List Nat)
  | [], _ => []
  | ip :: rest, n =>
    (ip.2, (contrib_keys.drop n).take (my_donations ip.1 ip.2))
      :: donation_walk my_donations contrib_keys rest (n + my_donations ip.1 ip.2)

/-- Order of the loops `for i` over the spans, `for p` over the ranks of `generate_new_keys`. -/
def donation_order (m_span_count m_comm_size : Nat) : List (Nat × Nat) :=
  (List.range m_span_count).flatMap (fun i => (List.range m_comm_size).map (fun p => (i, p)))

/-- Whether the walk over `contrib_keys` stays inside the vector: the running index `n`
ends at the sum of all the `n_to_p`, and `contrib_keys[n]` is read at every smaller
index. -/
def donation_walk_in_range (my_donations : Nat → Nat → Nat) (contrib_keys : List Nat)
    (order : List (Nat × Nat)) : Bool :=
  decide ((order.map (fun ip => my_donations ip.1 ip.2)).sum ≤ contrib_keys.length)

/-- Number of keys of the range `[ new_keys.begin() + n , new_keys.begin() + n +
requests[i] )` of the last loop of `generate_new_keys`.  The iterators are addresses of keys
of 8 bytes and an address has 64 bits, so the end of the range is `requests[i] % 2 ^ 61`
keys behind its start: a request of `2 ^ 61` or of `2 ^ 63` keys gives the empty range. -/
def slice_count (request : Nat) : Nat :=
  request % 2 ^ 61

/-- Last loop of `generate_new_keys`: `requested_keys[i]` is given the keys of the range
`[ new_keys.begin() + n , new_keys.begin() + n + requests[i] )` of the sorted `new_keys`,
`counts` being the numbers of keys of the ranges (`slice_count`).  The keys are those of the
source when the ranges lie inside `new_keys` (`requested_slices_in_range`). -/
def requested_slices : List Nat → List Nat → List (List Nat)
  | [], _ => []
  | count :: rest, new_keys => new_keys.take count :: requested_slices rest (new_keys.drop count)

/-- Whether the ranges of the last loop of `generate_new_keys` lie inside `new_keys`: the
ranges follow one another, and the last one must not end behind `new_keys.end()`.  The code
has no such test; a range that leaves `new_keys` is copied from outside the vector. -/
def requested_slices_in_range (counts new_keys : List Nat) : Bool :=
  decide (counts.sum ≤ new_keys.length)

/-- What a call of `generate_new_keys` leaves on one rank: whether it threw, the content of
`m_key_usage` afterwards, and the output `requested_keys`. -/
structure GenerateResult where
  /-- The call ended with `throw std::runtime_error`. -/
  threw : Bool
  /-- Content of `m_key_usage` when the call ends. -/
  m_key_usage : List KeyProc
  /-- Output `requested_keys`, one list of keys per span. -/
  requested_keys : List (List Nat)
deriving DecidableEq

/-- Local planning of the rank `p` inside the collective `generate_new_keys`, from the
global counts. -/
def rank_planning (m_comm_size : Nat) (m_key_span : List KeySpan)
    (m_chunk_first : Nat → List Nat) (m_key_usage : Nat → List KeyProc)
    (requests : Nat → List Nat) (p : Nat) : Option Planning :=
  generate_new_keys_local_planning m_comm_size m_key_span (m_chunk_first p) (m_key_usage p)
    (generate_new_keys_global_counts m_comm_size m_key_span m_key_usage
      requests).existing_global_sum
    (generate_new_keys_global_counts m_comm_size m_key_span m_key_usage
      requests).requests_global_sum
    (requests p)

/-- Keys that the rank `p` donates, with their receivers: the walk over its `contrib_keys`
along its `my_donations`. -/
def rank_donations (m_comm_size : Nat) (m_key_span : List KeySpan)
    (planning : Nat → Planning) (p : Nat) : List (Nat × List Nat) :=
  donation_walk
    (generate_new_keys_global_planning m_comm_size p (fun q => (planning q).new_request))
    (planning p).contrib_keys (donation_order m_key_span.length m_comm_size) 0

/-- Whether the walk of the rank `p` over its `contrib_keys` stays inside the vector. -/
def rank_donations_in_range (m_comm_size : Nat) (m_key_span : List KeySpan)
    (planning : Nat → Planning) (p : Nat) : Bool :=
  donation_walk_in_range
    (generate_new_keys_global_planning m_comm_size p (fun q => (planning q).new_request))
    (planning p).contrib_keys (donation_order m_key_span.length m_comm_size)

/-- Method `DistributedIndex::generate_new_keys` as a collective over the ranks
`0 .. m_comm_size - 1`, seen from the rank `r`: rank `p` holds `m_key_usage p` and
`m_chunk_first p` and passes `requests p`.  `none` means that the call does not return
normally with a result that the index determines: a loop of the local planning of some rank
does not end, or some rank reads past the end of its `contrib_keys`, or the rank `r` copies
keys from behind the end of its `new_keys`.  When
the global counts throw, `m_key_usage` is not touched and nothing is assigned to
`requested_keys`.  The read of the counting loop at the end of `m_key_usage` is taken to
yield a key that differs from the last key of the vector; `generate_new_keys_stored` takes
the key read there as an argument. -/
def generate_new_keys (m_comm_size : Nat) (m_key_span : List KeySpan)
    (m_chunk_first : Nat → List Nat) (m_key_usage : Nat → List KeyProc)
    (requests : Nat → List Nat) (r : Nat) : Option GenerateResult :=
  if (generate_new_keys_global_counts m_comm_size m_key_span m_key_usage requests).threw then
    some { threw := true, m_key_usage := m_key_usage r, requested_keys := [] }
  else if (List.range m_comm_size).all
      (fun p => (rank_planning m_comm_size m_key_span m_chunk_first m_key_usage
        requests p).isSome) then
    let planning := fun p =>
      (rank_planning m_comm_size m_key_span m_chunk_first m_key_usage requests p).getD
        { j := [], new_request := [], requested_keys := [], contrib_keys := [] }
    let received := (List.range m_comm_size).flatMap
      (recv_buffer
        (fun p dest =>
          (rank_donations m_comm_size m_key_span planning p).flatMap
            (fun donation => if donation.1 = dest then donation.2 else [])) r)
    let new_keys := ((planning r).requested_keys ++ received).insertionSort (· ≤ ·)
    if (List.range m_comm_size).all (rank_donations_in_range m_comm_size m_key_span planning)
        && requested_slices_in_range
          ((List.range m_key_span.length).map (fun i => slice_count ((requests r).getD i 0)))
          new_keys then
      some
        { threw := false,
          m_key_usage :=
            sort (m_key_usage r
              ++ (planning r).requested_keys.map (fun key => ((key, (r : Int)) : KeyProc))
              ++ (rank_donations m_comm_size m_key_span planning r).flatMap
                (fun donation =>
                  donation.2.map (fun key => ((key, (donation.1 : Int)) : KeyProc)))),
          requested_keys :=
            requested_slices
              ((List.range m_key_span.length).map (fun i => slice_count ((requests r).getD i 0)))
              new_keys }
    else none
  else none

/-! ### Vocabulary of the statements -/

/-- Number of keys of a span, `last - first + 1`. -/
def span_capacity (span : KeySpan) : Nat :=
  span.2 - span.1 + 1

/-- Number of distinct keys of `key_usage` that lie inside the span. -/
def keys_in_span (span : KeySpan) (key_usage : List KeyProc) : Nat :=
  ((key_usage.map Prod.fst).toFinset.filter (fun k => span.1 ≤ k ∧ k ≤ span.2)).card

/-- Global number of keys in use in a span: the sum over the ranks of the number of
distinct keys that each rank holds inside the span. -/
def existing_in_span (m_comm_size : Nat) (m_key_usage : Nat → List KeyProc) (span : KeySpan) :
    Nat :=
  ((List.range m_comm_size).map (fun p => keys_in_span span (m_key_usage p))).sum

/-- Sum over the ranks of the number of keys requested from the span `i`. -/
def requested_in_span (m_comm_size : Nat) (requests : Nat → List Nat) (i : Nat) : Nat :=
  ((List.range m_comm_size).map (fun p => (requests p).getD i 0)).sum

/-- Lists of a collective call in which the rank `c` passes `keys` and every other rank
passes the empty list. -/
def only_rank (c : Nat) (keys : List Nat) : Nat → List Nat :=
  fun p => if p = c then keys else []

/-- Entries of `key_usage` that `query_pack` packs for one request of the key `key`: skip
the entries with a smaller key, then take the run of entries with that key. -/
def key_run (key_usage : List KeyProc) (key : Nat) : List KeyProc :=
  (key_usage.dropWhile (fun e => decide (e.1 < key))).takeWhile
    (fun j => decide (j.1 = key))

/-- Lists of a collective call in which every rank passes the empty list. -/
def no_keys : Nat → List Nat :=
  fun _ => []

/-- Keys that the rank `rank` packs for the destination `p` in `update_keys`. -/
def routed (n : Nat) (rank : Int) (p : Nat) (i : Nat) : Bool :=
  decide (to_which_proc n i ≠ rank) && decide (to_which_proc n i = (p : Int))

/-- The pair `kp` is `(k, p)` for a rank `p` among `0 .. n - 1` and a key `k` of the list
`keys p` that the rank `r` owns. -/
def requested_at (n : Nat) (keys : Nat → List Nat) (r : Nat) (kp : KeyProc) : Prop :=
  ∃ p, p < n ∧ kp.2 = (p : Int) ∧ kp.1 ∈ keys p ∧ to_which_proc n kp.1 = (r : Int)

/-- Pairs that the rank `r` marks (for the remove lists) or appends (for the add lists)
in `update_keys`, in the order of the code: first those of its own list, then those
unpacked from the ranks `0 .. n - 1`. -/
def pairs_at (n : Nat) (keys : Nat → List Nat) (r : Nat) : List KeyProc :=
  ((keys r).filter (fun i => decide (to_which_proc n i = (r : Int)))).map
      (fun i => ((i, to_which_proc n i) : KeyProc))
    ++ (List.range n).flatMap
      (fun p => ((keys p).filter (routed n (p : Int) r)).map
        (fun key => ((key, (p : Int)) : KeyProc)))

/-- Rank to which local planning attributes the key of a span: the chunks of
`DISTRIBUTED_INDEX_CHUNK_SIZE` keys are counted from the first key of the span, and the
chunk of the first key goes to the rank that owns this key. -/
def chunk_owner (m_comm_size : Nat) (span : KeySpan) (key : Nat) : Nat :=
  ((span.1 >>> DISTRIBUTED_INDEX_CHUNK_BITS)
    + (key - span.1) / DISTRIBUTED_INDEX_CHUNK_SIZE) % m_comm_size

/-- Keys from the first key of the span up to `key_global_max` that local planning
attributes to the rank `p` and that are not keys of `key_usage`, in increasing order. -/
def candidates (m_comm_size : Nat) (span : KeySpan) (key_global_max : Nat)
    (key_usage : List KeyProc) (p : Nat) : List Nat :=
  (List.range' span.1 (key_global_max + 1 - span.1)).filter
    (fun k => decide (chunk_owner m_comm_size span k = p)
      && !decide (k ∈ key_usage.map Prod.fst))

/-- Value `key_global_max` of local planning for the span `i`:
`key_span_first + final_key_count - 1` in `KeyType`. -/
def key_global_max (m_key_span : List KeySpan) (existing_global_sum requests_global_sum : List Nat)
    (i : Nat) : Nat :=
  ((m_key_span.getD i (0, 0)).1
    + (existing_global_sum.getD i 0 + requests_global_sum.getD i 0) % 2 ^ 64 + 2 ^ 64 - 1) % 2 ^ 64

/-- Keys that local planning keeps of the keys found in a span: the last
`min request this_contrib` of them. -/
def kept_keys (request : Nat) (found : List Nat) : List Nat :=
  found.drop (found.length - min request found.length)

/-- Keys found in a span that local planning leaves in `contrib_keys`. -/
def surplus_keys (request : Nat) (found : List Nat) : List Nat :=
  found.take (found.length - min request found.length)

/-- Keys that the local planning of the rank `p` finds in the span `i` inside the
collective `generate_new_keys`: the candidates up to the `key_global_max` of the global
counts. -/
def rank_candidates (m_comm_size : Nat) (m_key_span : List KeySpan)
    (m_key_usage : Nat → List KeyProc) (requests : Nat → List Nat) (p i : Nat) : List Nat :=
  candidates m_comm_size (m_key_span.getD i (0, 0))
    (key_global_max m_key_span
      (generate_new_keys_global_counts m_comm_size m_key_span m_key_usage
        requests).existing_global_sum
      (generate_new_keys_global_counts m_comm_size m_key_span m_key_usage
        requests).requests_global_sum i)
    (m_key_usage p) p

/-- Plannings of all the ranks inside the collective `generate_new_keys`: what
`generate_new_keys_local_planning` leaves on the rank `p`. -/
def plannings (m_comm_size : Nat) (m_key_span : List KeySpan)
    (m_chunk_first : Nat → List Nat) (m_key_usage : Nat → List KeyProc)
    (requests : Nat → List Nat) (p : Nat) : Planning :=
  (rank_planning m_comm_size m_key_span m_chunk_first m_key_usage requests p).getD
    { j := [], new_request := [], requested_keys := [], contrib_keys := [] }

/-- Vector `new_keys` of `generate_new_keys` on the rank `r` after `std::sort`: the kept
keys and the keys unpacked from the ranks `0 .. m_comm_size - 1`. -/
def new_keys (m_comm_size : Nat) (m_key_span : List KeySpan)
    (m_chunk_first : Nat → List Nat) (m_key_usage : Nat → List KeyProc)
    (requests : Nat → List Nat) (r : Nat) : List Nat :=
  ((plannings m_comm_size m_key_span m_chunk_first m_key_usage requests r).requested_keys
    ++ (List.range m_comm_size).flatMap
      (fun p =>
        (rank_donations m_comm_size m_key_span
          (plannings m_comm_size m_key_span m_chunk_first m_key_usage requests) p).flatMap
          (fun donation => if donation.1 = r then donation.2 else []))).insertionSort (· ≤ ·)

/-- Requests of the receivers among the ranks `0 .. m - 1`, accumulated. -/
def receive_before (x : Nat → Int) (m : Nat) : Int :=
  ((List.range m).map (fun q => max (x q) 0)).sum

/-- Donations of the donors among the ranks `0 .. m - 1`, accumulated. -/
def donate_before (x : Nat → Int) (m : Nat) : Int :=
  ((List.range m).map (fun q => max (- x q) 0)).sum

/-- Donation of the rank `d` to the rank `p` for a span, as a number of keys: the overlap
of the interval of the donations of `d` with the interval of the requests of `p`. -/
def donation (x : Nat → Int) (d p : Nat) : Nat :=
  (max (donate_before x d) (min (receive_before x (p + 1)) (donate_before x (d + 1)))
    - max (donate_before x d) (min (receive_before x p) (donate_before x (d + 1)))).toNat

/-! ### The constructor -/

/-- Validity loop of the constructor over `partition_bounds`, from the iterator `i` on:
`if ( i->second < i->first || ( i != partition_bounds.begin() && i->first <=
(i-1)->second ) ) { info[1] = 1 ; }`.  The first argument is the span before `i`, `none` at
`partition_bounds.begin()`; the last one is `info[1]` so far. -/
def check_spans : Option KeySpan → List KeySpan → Nat → Nat
  | _, [], info1 => info1
  | previous, i :: rest, info1 =>
    check_spans (some i) rest
      (if decide (i.2 < i.1) ||
          (match previous with
            | none => false
            | some j => decide (i.1 ≤ j.2)) then 1
        else info1)

/-- Modelled from the spec: `MPI_Bcast( buffer , count , type , root , comm )`, which is
not part of the sources: on return every rank holds in `buffer` what the rank `root` had in
it.  Here `buffer p` is the content on the rank `p` before the call. -/
def MPI_Bcast {α : Type} (buffer : Nat → α) (root : Nat) : α :=
  buffer root

/-- What the constructor leaves on one rank: whether it threw, and the members it set. -/
structure Constructed where
  /-- The constructor ended with `throw std::runtime_error`. -/
  threw : Bool
  /-- Member `m_span_count`. -/
  m_span_count : Nat
  /-- Member `m_key_span`. -/
  m_key_span : List KeySpan
  /-- Member `m_chunk_first`. -/
  m_chunk_first : List Nat
deriving DecidableEq

/-- Constructor `DistributedIndex::DistributedIndex( comm , partition_bounds )`, in the
build with `STK_HAS_MPI`, as a collective over the ranks `0 .. m_comm_size - 1`, seen from
the rank `r`: rank `p` passes `partition_bounds p`.  `info[0]` is the `unsigned` size of the
list and `info[1]` the result of the validity loop; both are broadcast from the rank 0, and
so are the first `info[0]` spans, which the other ranks receive in a vector of that size.
`none` means that a search loop for `m_chunk_first` does not end.  After a throw no object
exists; the members of the result are then what the constructor had set so far. -/
def ctor (m_comm_size : Nat) (partition_bounds : Nat → List KeySpan) (r : Nat) :
    Option Constructed :=
  let info := MPI_Bcast
    (fun p => ((partition_bounds p).length % 2 ^ 32, check_spans none (partition_bounds p) 0)) 0
  let m_key_span :=
    if 0 < info.1 then
      if r = 0 then partition_bounds r
      else MPI_Bcast (fun p => (partition_bounds p).take info.1) 0
    else []
  if info.2 ≠ 0 then
    some { threw := true, m_span_count := 0, m_key_span := m_key_span, m_chunk_first := [] }
  else
    let m_key_span := if info.1 = 0 then m_key_span ++ [(0, 2 ^ 64 - 1)] else m_key_span
    let m_span_count := if info.1 = 0 then 1 else info.1
    (chunk_first m_comm_size (r : Int) (m_key_span.take m_span_count)).map
      (fun m_chunk_first =>
        { threw := false, m_span_count := m_span_count, m_key_span := m_key_span,
          m_chunk_first := m_chunk_first })

/-! ### The density scenario -/

/-- Requests of the density scenario: one key from the span 0 and none from any other
span, `[1, 0, ..., 0]`. -/
def density_requests (m_span_count : Nat) : List Nat :=
  1 :: List.replicate (m_span_count - 1) 0

/-- One collective call of `generate_new_keys` on the ranks `0 .. m_comm_size - 1`: the
content of `m_key_usage` of every rank after the call, as a list over the ranks, and the
keys returned to the ranks, rank after rank.  `none` when the call throws or does not return normally on some rank. -/
def generate_on_all_ranks (m_comm_size : Nat) (m_key_span : List KeySpan)
    (m_chunk_first : Nat → List Nat) (m_key_usage : Nat → List KeyProc)
    (requests : Nat → List Nat) : Option (List (List KeyProc) × List Nat) :=
  if (List.range m_comm_size).all
      (fun p =>
        ((generate_new_keys m_comm_size m_key_span m_chunk_first m_key_usage requests p).map
          (fun res => !res.threw)).getD false) then
    some
      ((List.range m_comm_size).map
        (fun p =>
          ((generate_new_keys m_comm_size m_key_span m_chunk_first m_key_usage requests p).map
            (fun res => res.m_key_usage)).getD (m_key_usage p)),
       (List.range m_comm_size).flatMap
        (fun p =>
          ((generate_new_keys m_comm_size m_key_span m_chunk_first m_key_usage requests p).map
            (fun res => res.requested_keys.flatten)).getD []))
  else none

/-- The density scenario: starting from the empty index, `calls` successive collective
calls of `generate_new_keys` in which every rank passes `density_requests`; the content of
`m_key_usage` of every rank at the end, as a list over the ranks, and all the keys returned
so far.  `none` when one
of the calls throws or does not return normally on some rank. -/
def density_run (m_comm_size : Nat) (m_key_span : List KeySpan)
    (m_chunk_first : Nat → List Nat) : Nat → Option (List (List KeyProc) × List Nat)
  | 0 => some (List.replicate m_comm_size [], [])
  | calls + 1 =>
    match density_run m_comm_size m_key_span m_chunk_first calls with
    | none => none
    | some state =>
      match generate_on_all_ranks m_comm_size m_key_span m_chunk_first
          (fun p => state.1.getD p []) (fun _ => density_requests m_key_span.length) with
      | none => none
      | some next => some (next.1, state.2 ++ next.2)

/-! ### Reads past the end of a vector, and the entries of one call -/

/-- Vectors `count_remove` and `count_add` of `update_keys` when its sizing loop starts:
those of the counting loops, emptied by `count_remove.clear(); count_add.clear();` when
`0 < local_bad_input`. -/
def counts_at_sizing (m_comm_size : Nat) (m_comm_rank : Int) (m_key_span : List KeySpan)
    (add_new_keys remove_existing_keys : List Nat) : List Nat × List Nat :=
  if 0 < local_bad_input m_key_span add_new_keys then ([], [])
  else (count_keys m_comm_size m_comm_rank remove_existing_keys,
    count_keys m_comm_size m_comm_rank add_new_keys)

/-- Whether the sizing loop of `update_keys`,
`for ( int p = 0 ; p < m_comm_size ; ++p ) { if ( count_remove[p] || count_add[p] ) { ... } }`,
reads the two vectors only below their sizes.  For every `p` the loop reads
`count_remove[p]`, and it reads `count_add[p]` in the condition when `count_remove[p]` is
zero and in `buf.skip<KeyType>( count_add[p] )` otherwise. -/
def sizing_in_range (m_comm_size : Nat) (count_remove count_add : List Nat) : Bool :=
  (List.range m_comm_size).all
    (fun p => decide (p < count_remove.length) && decide (p < count_add.length))

/-- Whether the counting loop of `generate_new_keys_global_counts` for one span reads
`j->first` at `m_key_usage.end()`, with the arguments of `count_used`.  The loop
`while ( key == j->first ) { ++j ; }` does not test for the end, so the read happens when
the run of entries being skipped ends the vector; the guard of the enclosing `while`
tests `j != m_key_usage.end()` first. -/
def count_used_reads_end (key_span_last : Nat) : Option Nat → List KeyProc → Bool
  | skipping, [] => skipping.isSome
  | skipping, j :: rest =>
    if skipping = some j.1 then count_used_reads_end key_span_last skipping rest
    else if j.1 ≤ key_span_last then count_used_reads_end key_span_last (some j.1) rest
    else false

/-- Whether the loop over the spans of `generate_new_keys_global_counts` reads `j->first`
at `m_key_usage.end()` in the counting of some span, with the arguments of
`local_used`. -/
def local_used_reads_end : List KeySpan → List KeyProc → Bool
  | [], _ => false
  | span :: rest, j =>
    count_used_reads_end span.2 none j
      || local_used_reads_end rest (count_used span.2 none j).2

/-- Counting loop of `generate_new_keys_global_counts` for one span with the read of the
inner loop at `m_key_usage.end()` made explicit: the arguments of `count_used`, and
`behind`, the key that the read of `j->first` at the end position yields (what the storage
of the vector holds behind its last element).  When that key differs from `key` the inner
loop stops at the end, as in `count_used`.  When it equals `key` the inner loop increments
`j` past the end; from there on the tests `j != m_key_usage.end()` hold and both loops go
on outside the vector, counting the keys that they read there: the count is not determined
by the vector, `none`. -/
def count_used_stored (key_span_last behind : Nat) :
    Option Nat → List KeyProc → Option (Nat × List KeyProc)
  | skipping, [] => if skipping = some behind then none else some (0, [])
  | skipping, j :: rest =>
    if skipping = some j.1 then count_used_stored key_span_last behind skipping rest
    else if j.1 ≤ key_span_last then
      (count_used_stored key_span_last behind (some j.1) rest).map
        (fun counted => (counted.1 + 1, counted.2))
    else some (0, j :: rest)

/-- Loop over the spans of `generate_new_keys_global_counts` with the read at
`m_key_usage.end()` made explicit, with the arguments of `local_used` and the key `behind`
of `count_used_stored`: the entries `local_counts[ i ]` of the used keys, or `none` when
the iterator leaves the vector. -/
def local_used_stored (behind : Nat) : List KeySpan → List KeyProc → Option (List Nat)
  | [], _ => some []
  | span :: rest, j =>
    (count_used_stored span.2 behind none j).bind
      (fun counted => (local_used_stored behind rest counted.2).map (counted.1 :: ·))

/-- Method `DistributedIndex::generate_new_keys` as a collective, with the read of the
counting loop at `m_key_usage.end()` made explicit: `behind p` is the key that the storage
of `m_key_usage` of the rank `p` holds at the end position.  When the counting loop of
every rank stays inside its vector, the counts are those of `local_used` and the call is
`generate_new_keys`.  When the iterator of some rank leaves its vector, the loops of that
rank go on reading the memory behind the vector, and what the call counts, and hence
returns, is not determined by the state of the index: `none`. -/
def generate_new_keys_stored (m_comm_size : Nat) (m_key_span : List KeySpan)
    (m_chunk_first : Nat → List Nat) (m_key_usage : Nat → List KeyProc) (behind : Nat → Nat)
    (requests : Nat → List Nat) (r : Nat) : Option GenerateResult :=
  if (List.range m_comm_size).all
      (fun p => (local_used_stored (behind p) m_key_span (m_key_usage p)).isSome) then
    generate_new_keys m_comm_size m_key_span m_chunk_first m_key_usage requests r
  else none

/-- What `RemoveKeyProc::clean` leaves in the storage of `key_usage` from the new end on:
`std::remove_if` assigns the kept elements to the front of the vector and does not write to
the positions behind them, and `erase` of elements without a destructor only moves the end,
so the storage keeps the elements that the vector had at these positions. -/
def clean_leaves (key_usage : List KeyProc) : List KeyProc :=
  key_usage.drop (clean key_usage).length

/-- Number of keys that `new_request` says the rank still needs, over all the entries. -/
def still_needed (new_request : List Int) : Nat :=
  (new_request.map (fun x => (max x 0).toNat)).sum

/-- Entries that the rank `r` appends to `m_key_usage` in `generate_new_keys` before the
final `std::sort`: `KeyProc( *ik , m_comm_rank )` for every kept key of `new_keys`, then
`KeyProc( contrib_keys[n] , p )` for every donated key, along the walk over
`contrib_keys`. -/
def appended_entries (m_comm_size : Nat) (m_key_span : List KeySpan)
    (planning : Nat → Planning) (r : Nat) : List KeyProc :=
  (planning r).requested_keys.map (fun key => ((key, (r : Int)) : KeyProc))
    ++ (rank_donations m_comm_size m_key_span planning r).flatMap
      (fun donation => donation.2.map (fun key => ((key, (donation.1 : Int)) : KeyProc)))

theorem keyProcLess_iff (a b : KeyProc) :
    KeyProcLess a b ↔ a.1 < b.1 ∨ (a.1 = b.1 ∧ a.2 < b.2) := by
  unfold KeyProcLess
  split <;> omega

theorem keyProcNotGreater_iff (a b : KeyProc) :
    KeyProcNotGreater a b ↔ a.1 < b.1 ∨ (a.1 = b.1 ∧ a.2 ≤ b.2) := by
  unfold KeyProcNotGreater
  rw [keyProcLess_iff]
  omega

theorem keyProcLess_isTrans : IsTrans KeyProc KeyProcLess :=
  ⟨fun a b c hab hbc => by
    rw [keyProcLess_iff] at *
    omega⟩

theorem keyProcLess_isIrrefl : IsIrrefl KeyProc KeyProcLess :=
  ⟨fun a h => by
    rw [keyProcLess_iff] at h
    omega⟩

theorem keyProcLess_isAntisymm : IsAntisymm KeyProc KeyProcLess :=
  ⟨fun a b hab hba => by
    rw [keyProcLess_iff] at *
    omega⟩

theorem keyProcNotGreater_isTrans : IsTrans KeyProc KeyProcNotGreater :=
  ⟨fun a b c hab hbc => by
    rw [keyProcNotGreater_iff] at *
    omega⟩

theorem keyProcNotGreater_isTotal : IsTotal KeyProc KeyProcNotGreater :=
  ⟨fun a b => by
    rw [keyProcNotGreater_iff, keyProcNotGreater_iff]
    omega⟩

theorem keyProcLess_of_notGreater_of_ne {a b : KeyProc} (h : KeyProcNotGreater a b)
    (hne : a ≠ b) : KeyProcLess a b := by
  rw [keyProcNotGreater_iff] at h
  rw [keyProcLess_iff]
  have hne2 : ¬ (a.1 = b.1 ∧ a.2 = b.2) := fun h2 => hne (Prod.ext h2.1 h2.2)
  omega

theorem keyProcNotGreater_of_less {a b : KeyProc} (h : KeyProcLess a b) :
    KeyProcNotGreater a b := by
  rw [keyProcLess_iff] at h
  rw [keyProcNotGreater_iff]
  omega

theorem sort_sorted (l : List KeyProc) : (sort l).Pairwise KeyProcNotGreater := by
  haveI := keyProcNotGreater_isTrans
  haveI := keyProcNotGreater_isTotal
  exact List.sorted_insertionSort KeyProcNotGreater l

theorem mem_sort {l : List KeyProc} {x : KeyProc} : x ∈ sort l ↔ x ∈ l :=
  List.mem_insertionSort KeyProcNotGreater

theorem mem_cons_uniqueAux (x prev : KeyProc) (t : List KeyProc) :
    x ∈ prev :: uniqueAux prev t ↔ x ∈ prev :: t := by
  induction t generalizing prev with
  | nil => simp [uniqueAux]
  | cons b t ih =>
    unfold uniqueAux
    by_cases hb : prev = b
    · subst hb
      rw [if_pos rfl, ih]
      simp
    · rw [if_neg hb]
      have := ih b
      simp only [List.mem_cons] at this ⊢
      rw [this]

theorem mem_unique {l : List KeyProc} {x : KeyProc} : x ∈ unique l ↔ x ∈ l := by
  cases l with
  | nil => simp [unique]
  | cons a t => exact mem_cons_uniqueAux x a t

theorem uniqueAux_strict (prev : KeyProc) (t : List KeyProc)
    (hprev : ∀ b ∈ t, KeyProcNotGreater prev b) (ht : t.Pairwise KeyProcNotGreater) :
    (prev :: uniqueAux prev t).Pairwise KeyProcLess := by
  induction t generalizing prev with
  | nil => simp [uniqueAux]
  | cons b t ih =>
    unfold uniqueAux
    rw [List.pairwise_cons] at ht
    by_cases hb : prev = b
    · subst hb
      rw [if_pos rfl]
      exact ih prev (fun c hc => hprev c (List.mem_cons_of_mem _ hc)) ht.2
    · rw [if_neg hb]
      have hlt : KeyProcLess prev b :=
        keyProcLess_of_notGreater_of_ne (hprev b (List.mem_cons_self _ _)) hb
      have hrec := ih b ht.1 ht.2
      rw [List.pairwise_cons]
      refine ⟨?_, hrec⟩
      intro c hc
      rcases List.mem_cons.1 hc with rfl | hc
      · exact hlt
      · exact keyProcLess_isTrans.trans _ _ _ hlt ((List.pairwise_cons.1 hrec).1 c hc)

theorem unique_strict {l : List KeyProc} (h : l.Pairwise KeyProcNotGreater) :
    (unique l).Pairwise KeyProcLess := by
  cases l with
  | nil => simp [unique]
  | cons a t =>
    rw [List.pairwise_cons] at h
    exact uniqueAux_strict a t h.1 h.2

theorem sort_unique_strict (l : List KeyProc) : (sort_unique l).Pairwise KeyProcLess :=
  unique_strict (sort_sorted l)

theorem mem_sort_unique {l : List KeyProc} {x : KeyProc} : x ∈ sort_unique l ↔ x ∈ l := by
  unfold sort_unique
  rw [mem_unique, mem_sort]

theorem strict_nodup {l : List KeyProc} (h : l.Pairwise KeyProcLess) : l.Nodup := by
  haveI := keyProcLess_isIrrefl
  exact List.Sorted.nodup h

/-- Two strictly increasing lists with the same elements are the same list. -/
theorem strict_ext {l₁ l₂ : List KeyProc} (h₁ : l₁.Pairwise KeyProcLess)
    (h₂ : l₂.Pairwise KeyProcLess) (h : ∀ x, x ∈ l₁ ↔ x ∈ l₂) : l₁ = l₂ := by
  haveI := keyProcLess_isAntisymm
  exact List.eq_of_perm_of_sorted
    ((List.perm_ext_iff_of_nodup (strict_nodup h₁) (strict_nodup h₂)).2 h) h₁ h₂

theorem strict_key_sorted {l : List KeyProc} (h : l.Pairwise KeyProcLess) :
    l.Pairwise (fun a b => a.1 ≤ b.1) := by
  apply h.imp
  intro a b hab
  rw [keyProcLess_iff] at hab
  omega

theorem strict_map_fst_sorted {l : List KeyProc} (h : l.Pairwise KeyProcLess) :
    (l.map Prod.fst).Pairwise (· ≤ ·) :=
  List.pairwise_map.2 (strict_key_sorted h)

theorem sort_unique_of_strict {l : List KeyProc} (h : l.Pairwise KeyProcLess) :
    sort_unique l = l :=
  strict_ext (sort_unique_strict l) h (fun _ => mem_sort_unique)

theorem sort_of_strict {l : List KeyProc} (h : l.Pairwise KeyProcLess) : sort l = l :=
  List.Sorted.insertionSort_eq (h.imp keyProcNotGreater_of_less)

/-! ### Ownership, input check and message layout of `update_keys` -/

theorem to_which_proc_eq_iff (n k p : Nat) :
    to_which_proc n k = (p : Int) ↔ (k >>> DISTRIBUTED_INDEX_CHUNK_BITS) % n = p := by
  unfold to_which_proc
  exact Int.ofNat_inj

theorem to_which_proc_nonneg (n k : Nat) : 0 ≤ to_which_proc n k := by
  unfold to_which_proc
  exact Int.ofNat_nonneg _

theorem to_which_proc_lt (n k : Nat) (hn : 1 ≤ n) : to_which_proc n k < (n : Int) := by
  unfold to_which_proc
  exact Int.ofNat_lt.2 (Nat.mod_lt _ hn)

theorem in_some_span_iff (m_key_span : List KeySpan) (key : Nat) :
    in_some_span m_key_span key = true ↔ ∃ j ∈ m_key_span, j.1 ≤ key ∧ key ≤ j.2 := by
  simp [in_some_span, List.any_eq_true]

theorem local_bad_input_foldl (m_key_span : List KeySpan) (keys : List Nat) (bad : Nat) :
    0 < keys.foldl (fun bad i => if in_some_span m_key_span i then bad else bad + 1) bad ↔
      0 < bad ∨ ∃ k ∈ keys, in_some_span m_key_span k = false := by
  induction keys generalizing bad with
  | nil => simp
  | cons k t ih =>
    rw [List.foldl_cons, ih]
    by_cases hk : in_some_span m_key_span k = true
    · simp [hk]
    · simp only [Bool.not_eq_true] at hk
      simp [hk]

theorem local_bad_input_pos (m_key_span : List KeySpan) (keys : List Nat) :
    0 < local_bad_input m_key_span keys ↔ ∃ k ∈ keys, in_some_span m_key_span k = false := by
  unfold local_bad_input
  rw [local_bad_input_foldl]
  simp

theorem allocate_buffers_iff (n : Nat) (error_flag : Nat → Bool) :
    allocate_buffers n error_flag = true ↔ ∃ p, p < n ∧ error_flag p = true := by
  simp [allocate_buffers, List.any_eq_true, List.mem_range]

/-- The OR computed in `update_keys` is set exactly when some rank has an add key that
lies in no span. -/
theorem global_bad_input_iff (n : Nat) (m_key_span : List KeySpan) (add : Nat → List Nat) :
    allocate_buffers n (fun p => decide (0 < local_bad_input m_key_span (add p))) = true ↔
      ∃ p, p < n ∧ ∃ k ∈ add p, ∀ j ∈ m_key_span, ¬ (j.1 ≤ k ∧ k ≤ j.2) := by
  rw [allocate_buffers_iff]
  constructor
  · rintro ⟨p, hp, h⟩
    rw [decide_eq_true_eq, local_bad_input_pos] at h
    obtain ⟨k, hk, hbad⟩ := h
    refine ⟨p, hp, k, hk, fun j hj hin => ?_⟩
    have : in_some_span m_key_span k = true := (in_some_span_iff _ _).2 ⟨j, hj, hin⟩
    rw [hbad] at this
    exact Bool.noConfusion this
  · rintro ⟨p, hp, k, hk, hbad⟩
    refine ⟨p, hp, ?_⟩
    rw [decide_eq_true_eq, local_bad_input_pos]
    refine ⟨k, hk, ?_⟩
    rw [← Bool.not_eq_true, in_some_span_iff]
    rintro ⟨j, hj, hin⟩
    exact hbad j hj hin

theorem count_keys_foldl (n : Nat) (rank : Int) (keys : List Nat) (count : List Nat)
    (p : Nat) (hp : p < count.length) :
    (keys.foldl
      (fun count i =>
        let q := to_which_proc n i
        if q ≠ rank then count.set q.toNat (count.getD q.toNat 0 + 1) else count)
      count).getD p 0 = count.getD p 0 + (keys.filter (routed n rank p)).length := by
  induction keys generalizing count with
  | nil => simp
  | cons k t ih =>
    rw [List.foldl_cons]
    by_cases hq : to_which_proc n k ≠ rank
    · simp only [hq, ne_eq, not_false_eq_true, if_true]
      rw [ih _ (by rw [List.length_set]; exact hp)]
      by_cases hkp : to_which_proc n k = (p : Int)
      · have hidx : (to_which_proc n k).toNat = p := by rw [hkp]; exact Int.toNat_ofNat p
        have hr : routed n rank p k = true := by
          simp only [routed, Bool.and_eq_true, decide_eq_true_eq]
          exact ⟨hq, hkp⟩
        rw [List.filter_cons_of_pos hr, hidx]
        simp only [List.getD_eq_getElem?_getD, List.getElem?_set, if_true, hp,
          List.length_cons, Option.getD_some]
        omega
      · have hidx : (to_which_proc n k).toNat ≠ p := by
          intro h
          apply hkp
          rw [← h, Int.toNat_of_nonneg (to_which_proc_nonneg n k)]
        have hr : ¬ routed n rank p k = true := by simp [routed, hkp]
        rw [List.filter_cons_of_neg hr]
        simp only [List.getD_eq_getElem?_getD, List.getElem?_set, hidx, if_false]
    · have hq2 : to_which_proc n k = rank := not_not.1 hq
      have hr : ¬ routed n rank p k = true := by simp [routed, hq2]
      simp only [hq2, ne_eq, not_true_eq_false, if_false]
      rw [List.filter_cons_of_neg hr]
      have := ih count hp
      simp only [hq2] at this
      exact this

theorem count_keys_getD (n : Nat) (rank : Int) (keys : List Nat) (p : Nat) (hp : p < n) :
    (count_keys n rank keys).getD p 0 = (keys.filter (routed n rank p)).length := by
  unfold count_keys
  rw [count_keys_foldl n rank keys _ p (by rw [List.length_replicate]; exact hp)]
  simp [List.getElem?_replicate, hp]

theorem update_keys_pack_eq (n : Nat) (rank : Int) (add remove : List Nat) (p : Nat)
    (hp : p < n) :
    update_keys_pack n rank add remove p =
      (if (remove.filter (routed n rank p)).length ≠ 0 ∨
          (add.filter (routed n rank p)).length ≠ 0
        then [(remove.filter (routed n rank p)).length] else [])
      ++ remove.filter (routed n rank p) ++ add.filter (routed n rank p) := by
  unfold update_keys_pack
  simp only [count_keys_getD n rank _ p hp]
  rfl

theorem unpack_remove_pack (n : Nat) (rank : Int) (add remove : List Nat) (p : Nat)
    (hp : p < n) :
    unpack_remove (update_keys_pack n rank add remove p) = remove.filter (routed n rank p) := by
  rw [update_keys_pack_eq n rank add remove p hp]
  by_cases h : (remove.filter (routed n rank p)).length ≠ 0 ∨
      (add.filter (routed n rank p)).length ≠ 0
  · rw [if_pos h]
    simp [unpack_remove]
  · rw [if_neg h]
    have h1 : remove.filter (routed n rank p) = [] := by
      apply List.eq_nil_of_length_eq_zero
      by_contra hc
      exact h (Or.inl hc)
    have h2 : add.filter (routed n rank p) = [] := by
      apply List.eq_nil_of_length_eq_zero
      by_contra hc
      exact h (Or.inr hc)
    rw [h1, h2]
    rfl

theorem unpack_add_pack (n : Nat) (rank : Int) (add remove : List Nat) (p : Nat)
    (hp : p < n) :
    unpack_add (update_keys_pack n rank add remove p) = add.filter (routed n rank p) := by
  rw [update_keys_pack_eq n rank add remove p hp]
  by_cases h : (remove.filter (routed n rank p)).length ≠ 0 ∨
      (add.filter (routed n rank p)).length ≠ 0
  · rw [if_pos h]
    simp [unpack_add]
  · rw [if_neg h]
    have h1 : remove.filter (routed n rank p) = [] := by
      apply List.eq_nil_of_length_eq_zero
      by_contra hc
      exact h (Or.inl hc)
    have h2 : add.filter (routed n rank p) = [] := by
      apply List.eq_nil_of_length_eq_zero
      by_contra hc
      exact h (Or.inr hc)
    rw [h1, h2]
    rfl

/-! ### Tombstone erase: `mark` and `clean` -/

theorem getElem?_lt_iff_takeWhile (l : List KeyProc) (key : Nat)
    (hs : (l.map Prod.fst).Pairwise (· ≤ ·)) (i : Nat) (e : KeyProc) (he : l[i]? = some e) :
    e.1 < key ↔ i < (l.takeWhile (fun j => decide (j.1 < key))).length := by
  induction l generalizing i with
  | nil => simp at he
  | cons a t ih =>
    rw [List.map_cons, List.pairwise_cons] at hs
    by_cases ha : a.1 < key
    · rw [List.takeWhile_cons_of_pos (by simpa using ha), List.length_cons]
      cases i with
      | zero =>
        simp only [List.getElem?_cons_zero, Option.some.injEq] at he
        subst he
        simp [ha]
      | succ j =>
        rw [List.getElem?_cons_succ] at he
        rw [ih hs.2 j he]
        omega
    · rw [List.takeWhile_cons_of_neg (by simpa using ha), List.length_nil]
      have hge : key ≤ e.1 := by
        cases i with
        | zero =>
          simp only [List.getElem?_cons_zero, Option.some.injEq] at he
          subst he
          omega
        | succ j =>
          rw [List.getElem?_cons_succ] at he
          have hmem : e.1 ∈ t.map Prod.fst :=
            List.mem_map_of_mem Prod.fst (List.getElem?_mem he)
          have := hs.1 e.1 hmem
          omega
      omega

theorem lower_bound_loop_eq (l : List KeyProc) (key : Nat)
    (hs : (l.map Prod.fst).Pairwise (· ≤ ·)) (fuel first len : Nat) (hfuel : len ≤ fuel)
    (hlow : first ≤ (l.takeWhile (fun j => decide (j.1 < key))).length)
    (hhigh : (l.takeWhile (fun j => decide (j.1 < key))).length ≤ first + len)
    (hlen : first + len ≤ l.length) :
    lower_bound_loop l key fuel first len =
      (l.takeWhile (fun j => decide (j.1 < key))).length := by
  induction fuel generalizing first len with
  | zero =>
    unfold lower_bound_loop
    omega
  | succ fuel ih =>
    unfold lower_bound_loop
    by_cases hzero : len = 0
    · rw [if_pos hzero]
      omega
    · rw [if_neg hzero]
      have hmid : first + len / 2 < l.length := by omega
      rw [List.getElem?_eq_getElem hmid]
      simp only []
      have hiff := getElem?_lt_iff_takeWhile l key hs (first + len / 2) l[first + len / 2]
        (List.getElem?_eq_getElem hmid)
      by_cases hcmp : l[first + len / 2].1 < key
      · rw [if_pos hcmp]
        have := hiff.1 hcmp
        exact ih (first + len / 2 + 1) (len - len / 2 - 1) (by omega) (by omega) (by omega)
          (by omega)
      · rw [if_neg hcmp]
        have := mt hiff.2 hcmp
        exact ih first (len / 2) (by omega) hlow (by omega) (by omega)

/-- On a `key_usage` sorted by key, `std::lower_bound` returns the first position whose
key is not less than `key`. -/
theorem lower_bound_eq (l : List KeyProc) (key : Nat)
    (hs : (l.map Prod.fst).Pairwise (· ≤ ·)) :
    lower_bound l key = (l.takeWhile (fun j => decide (j.1 < key))).length := by
  unfold lower_bound
  exact lower_bound_loop_eq l key hs l.length 0 l.length (Nat.le_refl _) (Nat.zero_le _)
    (by
      rw [Nat.zero_add]
      exact (List.takeWhile_sublist _).length_le)
    (by omega)

theorem take_takeWhile_length (l : List KeyProc) (key : Nat) :
    l.take (l.takeWhile (fun i => decide (i.1 < key))).length =
      l.takeWhile (fun i => decide (i.1 < key)) := by
  induction l with
  | nil => rfl
  | cons a t ih =>
    by_cases h : a.1 < key
    · simp [List.takeWhile_cons, h, ih]
    · simp [List.takeWhile_cons, h]

theorem drop_takeWhile_length (l : List KeyProc) (key : Nat) :
    l.drop (l.takeWhile (fun i => decide (i.1 < key))).length =
      l.dropWhile (fun i => decide (i.1 < key)) := by
  induction l with
  | nil => rfl
  | cons a t ih =>
    by_cases h : a.1 < key
    · simp [List.takeWhile_cons, List.dropWhile_cons, h, ih]
    · simp [List.takeWhile_cons, List.dropWhile_cons, h]

theorem map_fst_mark_scan (kp : KeyProc) (l : List KeyProc) :
    (mark_scan kp l).map Prod.fst = l.map Prod.fst := by
  induction l with
  | nil => rfl
  | cons i rest ih =>
    unfold mark_scan
    by_cases h : kp = i
    · simp [h]
    · simp [h, ih]

/-- A `mark` changes no key, so it keeps `key_usage` sorted by key. -/
theorem map_fst_mark (l : List KeyProc) (kp : KeyProc) :
    (mark l kp).map Prod.fst = l.map Prod.fst := by
  unfold mark
  simp only []
  rw [List.map_append, map_fst_mark_scan, ← List.map_append, List.take_append_drop]

theorem clean_append (l₁ l₂ : List KeyProc) : clean (l₁ ++ l₂) = clean l₁ ++ clean l₂ := by
  unfold clean
  exact List.filter_append _ _

theorem mem_clean {l : List KeyProc} {x : KeyProc} : x ∈ clean l ↔ x ∈ l ∧ 0 ≤ x.2 := by
  unfold clean
  simp [List.mem_filter]

theorem clean_of_nonneg {l : List KeyProc} (h : ∀ x ∈ l, 0 ≤ x.2) : clean l = l := by
  unfold clean
  rw [List.filter_eq_self]
  intro x hx
  simpa using h x hx

theorem clean_mark_scan (kp : KeyProc) (hkp : 0 ≤ kp.2) (l : List KeyProc) :
    clean (mark_scan kp l) = (clean l).erase kp := by
  induction l with
  | nil => rfl
  | cons i rest ih =>
    unfold mark_scan
    by_cases h : kp = i
    · subst h
      have h1 : clean ((kp.1, (-1 : Int)) :: rest) = clean rest := by
        unfold clean
        rw [List.filter_cons_of_neg]
        simp
      have h2 : clean (kp :: rest) = kp :: clean rest := by
        unfold clean
        rw [List.filter_cons_of_pos]
        simpa using hkp
      simp only [ne_eq, not_true_eq_false, if_false]
      rw [h1, h2, List.erase_cons_head]
    · simp only [ne_eq, h, not_false_eq_true, if_true]
      by_cases hi : 0 ≤ i.2
      · have h1 : ∀ t, clean (i :: t) = i :: clean t := by
          intro t
          unfold clean
          rw [List.filter_cons_of_pos]
          simpa using hi
        rw [h1, h1, ih, List.erase_cons_tail]
        simpa using fun hc => h hc.symm
      · have h1 : ∀ t, clean (i :: t) = clean t := by
          intro t
          unfold clean
          rw [List.filter_cons_of_neg]
          simpa using hi
        rw [h1, h1, ih]

/-- On a `key_usage` sorted by key, one `mark` followed by `clean` erases the first live
occurrence of the pair. -/
theorem clean_mark (l : List KeyProc) (kp : KeyProc) (hkp : 0 ≤ kp.2)
    (hs : (l.map Prod.fst).Pairwise (· ≤ ·)) :
    clean (mark l kp) = (clean l).erase kp := by
  unfold mark
  simp only []
  rw [clean_append, clean_mark_scan kp hkp, lower_bound_eq l kp.1 hs, take_takeWhile_length,
    drop_takeWhile_length]
  have hnot : kp ∉ clean (l.takeWhile (fun i => decide (i.1 < kp.1))) := by
    intro hc
    have := List.mem_takeWhile_imp (mem_clean.1 hc).1
    simp at this
  rw [← List.erase_append_right _ hnot, ← clean_append, List.takeWhile_append_dropWhile]

theorem clean_foldl_mark (marks : List KeyProc) (hm : ∀ kp ∈ marks, 0 ≤ kp.2)
    (l : List KeyProc) (hs : (l.map Prod.fst).Pairwise (· ≤ ·)) :
    clean (marks.foldl mark l) = (clean l).diff marks := by
  induction marks generalizing l with
  | nil => rfl
  | cons kp t ih =>
    rw [List.foldl_cons,
      ih (fun x hx => hm x (List.mem_cons_of_mem _ hx)) (mark l kp)
        (by rw [map_fst_mark]; exact hs),
      clean_mark l kp (hm kp (List.mem_cons_self _ _)) hs, List.diff_cons]

theorem foldl_foldl_mark (f : Nat → List KeyProc) (ps : List Nat) (l : List KeyProc) :
    ps.foldl (fun key_usage p => (f p).foldl mark key_usage) l
      = (ps.flatMap f).foldl mark l := by
  induction ps generalizing l with
  | nil => rfl
  | cons p t ih => rw [List.foldl_cons, ih, List.flatMap_cons, List.foldl_append]

/-! ### What `update_keys` leaves in `m_key_usage` -/

theorem flatMap_congr_mem {α β : Type} (l : List α) (f g : α → List β)
    (h : ∀ a ∈ l, f a = g a) : l.flatMap f = l.flatMap g :=
  List.flatMap_congr h

theorem update_keys_apply_eq (n r : Nat) (hr : r < n) (ku : List KeyProc)
    (add remove : Nat → List Nat) :
    update_keys_apply n r ku (add r) (remove r)
        (fun p => update_keys_pack n (p : Int) (add p) (remove p) r)
      = sort_unique (clean ((pairs_at n remove r).foldl mark ku) ++ pairs_at n add r) := by
  unfold update_keys_apply pairs_at
  simp only []
  rw [foldl_foldl_mark, ← List.foldl_append, List.append_assoc]
  rw [flatMap_congr_mem (List.range n)
      (fun p => (unpack_remove (update_keys_pack n (p : Int) (add p) (remove p) r)).map
        (fun key => ((key, (p : Int)) : KeyProc)))
      (fun p => ((remove p).filter (routed n (p : Int) r)).map
        (fun key => ((key, (p : Int)) : KeyProc)))
      (fun p _ => by
        simp only []
        rw [unpack_remove_pack n (p : Int) (add p) (remove p) r hr])]
  rw [flatMap_congr_mem (List.range n)
      (fun p => (unpack_add (update_keys_pack n (p : Int) (add p) (remove p) r)).map
        (fun key => ((key, (p : Int)) : KeyProc)))
      (fun p => ((add p).filter (routed n (p : Int) r)).map
        (fun key => ((key, (p : Int)) : KeyProc)))
      (fun p _ => by
        simp only []
        rw [unpack_add_pack n (p : Int) (add p) (remove p) r hr])]

theorem mem_pairs_at (n r : Nat) (hr : r < n) (keys : Nat → List Nat) (x : KeyProc) :
    x ∈ pairs_at n keys r ↔ requested_at n keys r x := by
  unfold pairs_at requested_at
  simp only [List.mem_append, List.mem_map, List.mem_filter, List.mem_flatMap,
    List.mem_range, decide_eq_true_eq, routed, Bool.and_eq_true]
  constructor
  · rintro (⟨i, ⟨hi, hown⟩, rfl⟩ | ⟨p, hp, key, ⟨hkey, -, hown⟩, rfl⟩)
    · exact ⟨r, hr, hown, hi, hown⟩
    · exact ⟨p, hp, rfl, hkey, hown⟩
  · rintro ⟨p, hp, hx2, hx1, hown⟩
    by_cases hpr : p = r
    · subst hpr
      left
      refine ⟨x.1, ⟨hx1, hown⟩, ?_⟩
      exact Prod.ext rfl (by rw [hx2]; exact hown)
    · right
      refine ⟨p, hp, x.1, ⟨hx1, ?_, hown⟩, Prod.ext rfl hx2.symm⟩
      rw [hown]
      intro hc
      exact hpr (Int.ofNat_inj.1 hc).symm

theorem pairs_at_nonneg (n r : Nat) (keys : Nat → List Nat) (x : KeyProc)
    (hx : x ∈ pairs_at n keys r) : 0 ≤ x.2 := by
  unfold pairs_at at hx
  simp only [List.mem_append, List.mem_map, List.mem_flatMap] at hx
  rcases hx with ⟨i, -, rfl⟩ | ⟨p, -, key, -, rfl⟩
  · exact to_which_proc_nonneg n i
  · exact Int.ofNat_nonneg p

/-- Content of `m_key_usage` after the apply part of `update_keys` on the rank `r`, for an
index content that is strictly increasing and without negative rank: what was there and
is not removed, and what is added. -/
theorem mem_update_keys_apply (n r : Nat) (hr : r < n) (ku : List KeyProc)
    (add remove : Nat → List Nat) (hstrict : ku.Pairwise KeyProcLess)
    (hnn : ∀ x ∈ ku, 0 ≤ x.2) (x : KeyProc) :
    x ∈ update_keys_apply n r ku (add r) (remove r)
        (fun p => update_keys_pack n (p : Int) (add p) (remove p) r)
      ↔ (x ∈ ku ∧ ¬ requested_at n remove r x) ∨ requested_at n add r x := by
  rw [update_keys_apply_eq n r hr, mem_sort_unique, List.mem_append,
    clean_foldl_mark _ (pairs_at_nonneg n r remove) ku (strict_map_fst_sorted hstrict),
    clean_of_nonneg hnn, (strict_nodup hstrict).diff_eq_filter, List.mem_filter, decide_eq_true_eq, mem_pairs_at n r hr,
    mem_pairs_at n r hr]

theorem update_keys_apply_strict (n r : Nat) (ku : List KeyProc) (add remove : List Nat)
    (recv : Nat → List Nat) :
    (update_keys_apply n r ku add remove recv).Pairwise KeyProcLess := by
  unfold update_keys_apply
  exact sort_unique_strict _

theorem update_keys_apply_nonneg (n r : Nat) (ku : List KeyProc) (add remove : List Nat)
    (recv : Nat → List Nat) (x : KeyProc)
    (hx : x ∈ update_keys_apply n r ku add remove recv) : 0 ≤ x.2 := by
  unfold update_keys_apply at hx
  simp only [mem_sort_unique, List.mem_append, List.mem_map, List.mem_flatMap] at hx
  rcases hx with (hx | ⟨i, -, rfl⟩) | ⟨p, -, key, -, rfl⟩
  · exact (mem_clean.1 hx).2
  · exact to_which_proc_nonneg n i
  · exact Int.ofNat_nonneg p

theorem update_keys_threw_false (n : Nat) (m_key_span : List KeySpan)
    (add remove : Nat → List Nat) (ku : Nat → List KeyProc) (r : Nat)
    (hadd : ∀ p, p < n → ∀ k ∈ add p, ∃ j ∈ m_key_span, j.1 ≤ k ∧ k ≤ j.2) :
    update_keys n m_key_span add remove ku r =
      { threw := false,
        m_key_usage :=
          update_keys_apply n r (ku r) (add r) (remove r)
            (fun p => update_keys_pack n (p : Int) (add p) (remove p) r) } := by
  unfold update_keys
  have hgood : ¬ allocate_buffers n
      (fun p => decide (0 < local_bad_input m_key_span (add p))) = true := by
    rw [global_bad_input_iff]
    rintro ⟨p, hp, k, hk, hbad⟩
    obtain ⟨j, hj, hin⟩ := hadd p hp k hk
    exact hbad j hj hin
  simp only [hgood, if_false]
  rfl

theorem update_keys_threw_eq_false (n : Nat) (m_key_span : List KeySpan)
    (add remove : Nat → List Nat) (ku : Nat → List KeyProc) (r : Nat)
    (h : (update_keys n m_key_span add remove ku r).threw = false) :
    (update_keys n m_key_span add remove ku r).m_key_usage =
      update_keys_apply n r (ku r) (add r) (remove r)
        (fun p => update_keys_pack n (p : Int) (add p) (remove p) r) := by
  unfold update_keys at h ⊢
  by_cases hbad : allocate_buffers n
      (fun p => decide (0 < local_bad_input m_key_span (add p))) = true
  · simp [hbad] at h
  · simp only [hbad]
    rfl

theorem requested_at_only_rank (n c : Nat) (hc : c < n) (keys : List Nat) (r : Nat)
    (x : KeyProc) :
    requested_at n (only_rank c keys) r x ↔
      x.2 = (c : Int) ∧ x.1 ∈ keys ∧ to_which_proc n x.1 = (r : Int) := by
  unfold requested_at only_rank
  constructor
  · rintro ⟨p, -, hx2, hx1, hown⟩
    by_cases hpc : p = c
    · subst hpc
      rw [if_pos rfl] at hx1
      exact ⟨hx2, hx1, hown⟩
    · rw [if_neg hpc] at hx1
      exact absurd hx1 (List.not_mem_nil _)
  · rintro ⟨hx2, hx1, hown⟩
    refine ⟨c, hc, hx2, ?_, hown⟩
    rw [if_pos rfl]
    exact hx1

theorem requested_at_no_keys (n r : Nat) (x : KeyProc) : ¬ requested_at n no_keys r x := by
  unfold requested_at no_keys
  rintro ⟨p, -, -, hx1, -⟩
  exact absurd hx1 (List.not_mem_nil _)

theorem in_span_only_rank (n c : Nat) (m_key_span : List KeySpan) (k : Nat)
    (hk : ∃ j ∈ m_key_span, j.1 ≤ k ∧ k ≤ j.2) :
    ∀ p, p < n → ∀ i ∈ only_rank c [k] p, ∃ j ∈ m_key_span, j.1 ≤ i ∧ i ≤ j.2 := by
  intro p _ i hi
  unfold only_rank at hi
  by_cases hpc : p = c
  · rw [if_pos hpc, List.mem_singleton] at hi
    rw [hi]
    exact hk
  · rw [if_neg hpc] at hi
    exact absurd hi (List.not_mem_nil _)

theorem in_span_no_keys (n : Nat) (m_key_span : List KeySpan) :
    ∀ p, p < n → ∀ i ∈ no_keys p, ∃ j ∈ m_key_span, j.1 ≤ i ∧ i ≤ j.2 := by
  intro p _ i hi
  exact absurd hi (List.not_mem_nil _)

/-! ### `query_pack` and the collective queries -/

theorem key_run_dropWhile (l : List KeyProc) (k : Nat) :
    key_run (l.dropWhile (fun e => decide (e.1 < k))) k = key_run l k := by
  unfold key_run
  rw [List.dropWhile_idempotent]

/-- Requests for one key: every destination of the request list is sent the run of that
key. -/
theorem query_pack_same_key (k : Nat) (ps : List Nat) (ku : List KeyProc) :
    query_pack ku (ps.map (fun (p : Nat) => ((k, (p : Int)) : KeyProc))) =
      ps.flatMap
        (fun (p : Nat) => (key_run ku k).map (fun j => (((p : Int), j) : Int × KeyProc))) := by
  induction ps generalizing ku with
  | nil => cases ku <;> rfl
  | cons p t ih =>
    cases ku with
    | nil =>
      rw [List.map_cons]
      unfold query_pack
      have hrun : key_run [] k = [] := rfl
      rw [hrun]
      simp
    | cons i usage =>
      rw [List.map_cons, List.flatMap_cons]
      unfold query_pack
      simp only []
      rw [ih, key_run_dropWhile]
      rfl

theorem filterMap_map_dest (p r : Nat) (run : List KeyProc) :
    (run.map (fun j => (((p : Int), j) : Int × KeyProc))).filterMap
        (fun m => if m.1 = (r : Int) then some m.2 else none) =
      if p = r then run else [] := by
  induction run with
  | nil => simp
  | cons a t ih =>
    rw [List.map_cons, List.filterMap_cons, ih]
    by_cases hpr : p = r
    · subst hpr
      simp
    · have hne : ¬ ((p : Int) = (r : Int)) := fun h => hpr (Int.ofNat_inj.1 h)
      simp [hpr, hne]

theorem filterMap_dest (ps : List Nat) (run : List KeyProc) (r : Nat) :
    (ps.flatMap
        (fun (p : Nat) => run.map (fun j => (((p : Int), j) : Int × KeyProc)))).filterMap
        (fun m => if m.1 = (r : Int) then some m.2 else none) =
      ps.flatMap (fun p => if p = r then run else []) := by
  induction ps with
  | nil => rfl
  | cons p t ih =>
    rw [List.flatMap_cons, List.flatMap_cons, List.filterMap_append, ih, filterMap_map_dest]

theorem flatMap_range_ite {β : Type} (n o : Nat) (ho : o < n) (run : List β) :
    (List.range n).flatMap (fun p => if p = o then run else []) = run := by
  induction n with
  | zero => exact absurd ho (Nat.not_lt_zero _)
  | succ m ih =>
    rw [List.range_succ, List.flatMap_append, List.flatMap_singleton]
    by_cases hom : o = m
    · subst hom
      rw [if_pos rfl]
      have hnil : (List.range o).flatMap (fun p => if p = o then run else []) = [] := by
        rw [List.flatMap_eq_nil_iff]
        intro p hp
        rw [if_neg (Nat.ne_of_lt (List.mem_range.1 hp))]
      rw [hnil, List.nil_append]
    · rw [if_neg (fun h => hom h.symm), List.append_nil]
      exact ih (by omega)

theorem takeWhile_eq_filter_of_ge (k : Nat) (t : List KeyProc)
    (hs : t.Pairwise (fun a b => a.1 ≤ b.1)) (hge : ∀ x ∈ t, k ≤ x.1) :
    t.takeWhile (fun j => decide (j.1 = k)) = t.filter (fun j => decide (j.1 = k)) := by
  induction t with
  | nil => rfl
  | cons a t ih =>
    rw [List.pairwise_cons] at hs
    by_cases ha : a.1 = k
    · rw [List.takeWhile_cons_of_pos (by simpa using ha),
        List.filter_cons_of_pos (by simpa using ha),
        ih hs.2 (fun x hx => hge x (List.mem_cons_of_mem _ hx))]
    · rw [List.takeWhile_cons_of_neg (by simpa using ha),
        List.filter_cons_of_neg (by simpa using ha)]
      symm
      rw [List.filter_eq_nil_iff]
      intro x hx
      have h1 := hs.1 x hx
      have h2 := hge a (List.mem_cons_self _ _)
      simp only [decide_eq_true_eq]
      omega

theorem key_run_eq_filter (k : Nat) (l : List KeyProc)
    (hs : l.Pairwise (fun a b => a.1 ≤ b.1)) :
    key_run l k = l.filter (fun j => decide (j.1 = k)) := by
  induction l with
  | nil => rfl
  | cons a t ih =>
    by_cases ha : a.1 < k
    · have hne : ¬ a.1 = k := by omega
      unfold key_run
      rw [List.dropWhile_cons_of_pos (by simpa using ha),
        List.filter_cons_of_neg (by simpa using hne)]
      exact ih (List.pairwise_cons.1 hs).2
    · unfold key_run
      rw [List.dropWhile_cons_of_neg (by simpa using ha)]
      apply takeWhile_eq_filter_of_ge k _ hs
      intro x hx
      rcases List.mem_cons.1 hx with rfl | hx
      · omega
      · have := (List.pairwise_cons.1 hs).1 x hx
        omega

theorem same_key_strict (k : Nat) (ps : List Nat) (hps : ps.Pairwise (· < ·)) :
    (ps.map (fun (p : Nat) => ((k, (p : Int)) : KeyProc))).Pairwise KeyProcLess := by
  rw [List.pairwise_map]
  apply hps.imp
  intro a b hab
  rw [keyProcLess_iff]
  right
  exact ⟨rfl, Int.ofNat_lt.2 hab⟩

theorem query_pack_nil (ku : List KeyProc) : query_pack ku [] = [] := by
  cases ku <;> rfl

theorem query_keys_request_single (n k q : Nat) :
    query_keys_request n (fun _ => [k]) q =
      if to_which_proc n k = (q : Int)
        then (List.range n).map (fun (p : Nat) => ((k, (p : Int)) : KeyProc)) else [] := by
  unfold query_keys_request recv_buffer query_keys_send
  by_cases h : to_which_proc n k = (q : Int)
  · rw [if_pos h, List.map_eq_flatMap]
    have hf : (List.range n).flatMap
        (fun p => ([k].filter (fun i => decide (to_which_proc n i = (q : Int)))).map
          (fun i => ((i, (p : Int)) : KeyProc))) =
        (List.range n).flatMap (fun (p : Nat) => [((k, (p : Int)) : KeyProc)]) := by
      apply List.flatMap_congr
      intro p _
      simp [h]
    rw [hf, ← List.map_eq_flatMap]
    exact sort_unique_of_strict (same_key_strict k _ (List.pairwise_lt_range n))
  · rw [if_neg h]
    have hf : (List.range n).flatMap
        (fun p => ([k].filter (fun i => decide (to_which_proc n i = (q : Int)))).map
          (fun i => ((i, (p : Int)) : KeyProc))) = [] := by
      rw [List.flatMap_eq_nil_iff]
      intro p _
      simp [h]
    rw [hf]
    rfl

/-- When every rank queries the single key `k`, every rank receives the run of `k` held by
the owner of `k`. -/
theorem query_keys_single (n : Nat) (usage : Nat → List KeyProc) (k r : Nat) (hr : r < n) :
    query_keys n usage (fun _ => [k]) r =
      sort (key_run (usage ((k >>> DISTRIBUTED_INDEX_CHUNK_BITS) % n)) k) := by
  unfold query_keys query_request
  congr 1
  have hn : 0 < n := by omega
  have hrecv : ∀ p ∈ List.range n,
      recv_buffer
          (fun p dest => query_send (usage p) (query_keys_request n (fun _ => [k]) p) dest)
          r p =
        if p = (k >>> DISTRIBUTED_INDEX_CHUNK_BITS) % n
          then key_run (usage ((k >>> DISTRIBUTED_INDEX_CHUNK_BITS) % n)) k else [] := by
    intro p _
    unfold recv_buffer
    simp only []
    rw [query_keys_request_single]
    by_cases hpo : p = (k >>> DISTRIBUTED_INDEX_CHUNK_BITS) % n
    · rw [if_pos ((to_which_proc_eq_iff n k p).2 hpo.symm), if_pos hpo]
      unfold query_send
      rw [query_pack_same_key, filterMap_dest, flatMap_range_ite n r hr, hpo]
    · rw [if_neg (fun h => hpo ((to_which_proc_eq_iff n k p).1 h).symm), if_neg hpo]
      unfold query_send
      rw [query_pack_nil]
      rfl
  rw [List.flatMap_congr hrecv, flatMap_range_ite n _ (Nat.mod_lt _ hn)]

theorem update_keys_first_add (n : Nat) (m_key_span : List KeySpan) (hn : 2 ≤ n)
    (hk : ∃ j ∈ m_key_span, j.1 ≤ 4096 ∧ 4096 ≤ j.2) (p : Nat) (hp : p < n) :
    update_keys n m_key_span (only_rank 0 [4096]) no_keys (fun _ => []) p =
      { threw := false, m_key_usage := if p = 1 then [(4096, 0)] else [] } := by
  rw [update_keys_threw_false _ _ _ _ _ _ (in_span_only_rank n 0 m_key_span 4096 hk)]
  congr 1
  have hright : (if p = 1 then [((4096, 0) : KeyProc)] else []).Pairwise KeyProcLess := by
    by_cases hp1 : p = 1
    · rw [if_pos hp1]
      exact List.pairwise_singleton _ _
    · rw [if_neg hp1]
      exact List.Pairwise.nil
  apply strict_ext (update_keys_apply_strict _ _ _ _ _ _) hright
  intro x
  rw [mem_update_keys_apply n p hp [] _ _ List.Pairwise.nil
      (fun _ h => absurd h (List.not_mem_nil _)),
    requested_at_only_rank n 0 (by omega)]
  have hown : to_which_proc n 4096 = (p : Int) ↔ p = 1 := by
    rw [to_which_proc_eq_iff]
    have h1 : (4096 >>> DISTRIBUTED_INDEX_CHUNK_BITS) = 1 := by decide
    rw [h1, Nat.mod_eq_of_lt (by omega)]
    exact eq_comm
  constructor
  · rintro (⟨hx, -⟩ | ⟨hx2, hx1, hx3⟩)
    · exact absurd hx (List.not_mem_nil _)
    · rw [List.mem_singleton] at hx1
      rw [hx1] at hx3
      rw [if_pos (hown.1 hx3), List.mem_singleton]
      exact Prod.ext hx1 hx2
  · intro hx
    by_cases hp1 : p = 1
    · rw [if_pos hp1, List.mem_singleton] at hx
      right
      rw [hx]
      exact ⟨rfl, List.mem_singleton.2 rfl, hown.2 hp1⟩
    · rw [if_neg hp1] at hx
      exact absurd hx (List.not_mem_nil _)

/-! ## The statements of the specification -/

/-- C1: for every key and every `m_comm_size >= 1`, `to_which_proc` is
`(key >> 12) mod m_comm_size` (the shift being the division by 4096), lies in
`[0, m_comm_size)`, and exactly one rank equals it. -/
theorem to_which_proc_ownership (m_comm_size key : Nat) (hsize : 1 ≤ m_comm_size) :
    to_which_proc m_comm_size key = (((key / 4096) % m_comm_size : Nat) : Int) ∧
      0 ≤ to_which_proc m_comm_size key ∧
      to_which_proc m_comm_size key < (m_comm_size : Int) ∧
      ∃! r : Nat, r < m_comm_size ∧ to_which_proc m_comm_size key = (r : Int) := by
  have hshift : key >>> DISTRIBUTED_INDEX_CHUNK_BITS = key / 4096 := by
    unfold DISTRIBUTED_INDEX_CHUNK_BITS
    rw [Nat.shiftRight_eq_div_pow]
  refine ⟨?_, to_which_proc_nonneg _ _, to_which_proc_lt _ _ hsize, ?_⟩
  · unfold to_which_proc
    rw [hshift]
  · refine ⟨(key >>> DISTRIBUTED_INDEX_CHUNK_BITS) % m_comm_size,
      ⟨Nat.mod_lt _ hsize, rfl⟩, ?_⟩
    rintro r ⟨-, hr⟩
    exact ((to_which_proc_eq_iff _ _ _).1 hr).symm

/-- Instance of C1 with four ranks and the key 8197 of chunk 2. -/
theorem to_which_proc_ownership_witness :
    1 ≤ 4 ∧ (to_which_proc 4 8197 = (((8197 / 4096) % 4 : Nat) : Int) ∧
      0 ≤ to_which_proc 4 8197 ∧ to_which_proc 4 8197 < ((4 : Nat) : Int) ∧
      ∃! r : Nat, r < 4 ∧ to_which_proc 4 8197 = (r : Int)) :=
  ⟨by decide, to_which_proc_ownership 4 8197 (by decide)⟩

/-- C2: when every add key lies inside a span, `update_keys` does not throw and leaves on
the rank `r`, whose `m_key_usage` was strictly increasing (sorted, no repeated pair) with
non-negative ranks, the strictly increasing list of exactly the pairs that were there and
are not `(k, p)` for a key `k` of the remove list of a rank `p` owned by `r`, together
with the pairs `(k, p)` for the keys `k` of the add list of a rank `p` owned by `r`. -/
theorem update_keys_content (m_comm_size : Nat) (m_key_span : List KeySpan)
    (add_new_keys remove_existing_keys : Nat → List Nat)
    (m_key_usage : Nat → List KeyProc) (r : Nat) (hr : r < m_comm_size)
    (hsorted : (m_key_usage r).Pairwise KeyProcLess)
    (hrank : ∀ kp ∈ m_key_usage r, 0 ≤ kp.2)
    (hadd : ∀ p, p < m_comm_size → ∀ k ∈ add_new_keys p,
      ∃ j ∈ m_key_span, j.1 ≤ k ∧ k ≤ j.2) :
    (update_keys m_comm_size m_key_span add_new_keys remove_existing_keys
        m_key_usage r).threw = false ∧
      (update_keys m_comm_size m_key_span add_new_keys remove_existing_keys
        m_key_usage r).m_key_usage.Pairwise KeyProcLess ∧
      ∀ kp : KeyProc,
        kp ∈ (update_keys m_comm_size m_key_span add_new_keys remove_existing_keys
            m_key_usage r).m_key_usage ↔
          (kp ∈ m_key_usage r ∧
              ¬ requested_at m_comm_size remove_existing_keys r kp) ∨
            requested_at m_comm_size add_new_keys r kp := by
  rw [update_keys_threw_false _ _ _ _ _ _ hadd]
  exact ⟨rfl, update_keys_apply_strict _ _ _ _ _ _,
    mem_update_keys_apply _ _ hr _ _ _ hsorted hrank⟩

/-- Instance of C2: two ranks, span `[(0, 10000)]`; rank 0 adds 4096 twice, 5 and 4097,
rank 1 adds 4100 and removes 3 and 4098; rank 1 starts with `(4098, 1)` and `(4099, 0)` and
ends with `[(4096, 0), (4097, 0), (4099, 0), (4100, 1)]`. -/
theorem update_keys_content_witness :
    ((update_keys 2 [(0, 10000)] (fun p => if p = 0 then [4096, 5, 4096, 4097] else [4100])
        (only_rank 1 [3, 4098]) (fun p => if p = 0 then [(3, 1), (7, 0)]
          else [(4098, 1), (4099, 0)]) 1).threw = false ∧
      (update_keys 2 [(0, 10000)] (fun p => if p = 0 then [4096, 5, 4096, 4097] else [4100])
        (only_rank 1 [3, 4098]) (fun p => if p = 0 then [(3, 1), (7, 0)]
          else [(4098, 1), (4099, 0)]) 1).m_key_usage.Pairwise KeyProcLess ∧
      ∀ kp : KeyProc,
        kp ∈ (update_keys 2 [(0, 10000)]
            (fun p => if p = 0 then [4096, 5, 4096, 4097] else [4100])
            (only_rank 1 [3, 4098]) (fun p => if p = 0 then [(3, 1), (7, 0)]
              else [(4098, 1), (4099, 0)]) 1).m_key_usage ↔
          (kp ∈ ([(4098, 1), (4099, 0)] : List KeyProc) ∧
              ¬ requested_at 2 (only_rank 1 [3, 4098]) 1 kp) ∨
            requested_at 2 (fun p => if p = 0 then [4096, 5, 4096, 4097] else [4100]) 1 kp) ∧
      (update_keys 2 [(0, 10000)] (fun p => if p = 0 then [4096, 5, 4096, 4097] else [4100])
        (only_rank 1 [3, 4098]) (fun p => if p = 0 then [(3, 1), (7, 0)]
          else [(4098, 1), (4099, 0)]) 1).m_key_usage =
        [(4096, 0), (4097, 0), (4099, 0), (4100, 1)] :=
  ⟨update_keys_content 2 [(0, 10000)]
    (fun p => if p = 0 then [4096, 5, 4096, 4097] else [4100]) (only_rank 1 [3, 4098])
    (fun p => if p = 0 then [(3, 1), (7, 0)] else [(4098, 1), (4099, 0)]) 1
    (by decide) (by decide) (by decide) (by decide), by decide⟩

/-- C3: `update_keys` throws exactly when, on some rank, a key of `add_new_keys` lies in
no span; the remove lists play no part. -/
theorem update_keys_throws_iff (m_comm_size : Nat) (m_key_span : List KeySpan)
    (add_new_keys remove_existing_keys : Nat → List Nat)
    (m_key_usage : Nat → List KeyProc) (r : Nat) :
    (update_keys m_comm_size m_key_span add_new_keys remove_existing_keys
        m_key_usage r).threw = true ↔
      ∃ p, p < m_comm_size ∧ ∃ k ∈ add_new_keys p,
        ∀ j ∈ m_key_span, ¬ (j.1 ≤ k ∧ k ≤ j.2) := by
  rw [← global_bad_input_iff]
  unfold update_keys
  by_cases hbad : allocate_buffers m_comm_size
      (fun p => decide (0 < local_bad_input m_key_span (add_new_keys p))) = true
  · simp [hbad]
  · simp [hbad]

/-- C4: when `update_keys` throws, `m_key_usage` of every rank is what it was before the
call. -/
theorem update_keys_throw_unchanged (m_comm_size : Nat) (m_key_span : List KeySpan)
    (add_new_keys remove_existing_keys : Nat → List Nat)
    (m_key_usage : Nat → List KeyProc) (r : Nat)
    (hthrow : (update_keys m_comm_size m_key_span add_new_keys remove_existing_keys
        m_key_usage r).threw = true) :
    (update_keys m_comm_size m_key_span add_new_keys remove_existing_keys
        m_key_usage r).m_key_usage = m_key_usage r := by
  unfold update_keys at hthrow ⊢
  by_cases hbad : allocate_buffers m_comm_size
      (fun p => decide (0 < local_bad_input m_key_span (add_new_keys p))) = true
  · simp [hbad]
  · simp [hbad] at hthrow

/-- Instance of C4: two ranks, spans `[(100, 200)]`, empty index, rank 0 adds the key 50.
Rank 1, whose own lists are empty, throws too and its `m_key_usage` stays empty. -/
theorem update_keys_throw_unchanged_witness :
    (update_keys 2 [(100, 200)] (fun p => if p = 0 then [50] else []) (fun _ => [])
        (fun _ => []) 1).threw = true ∧
      (update_keys 2 [(100, 200)] (fun p => if p = 0 then [50] else []) (fun _ => [])
        (fun _ => []) 1).m_key_usage = [] :=
  ⟨by decide,
    update_keys_throw_unchanged 2 [(100, 200)] (fun p => if p = 0 then [50] else [])
      (fun _ => []) (fun _ => []) 1 (by decide)⟩

/-- C5: `update_keys` is idempotent.  With every add key inside a span and a strictly
increasing `m_key_usage` with non-negative ranks on the rank `r`, a second call with the
same lists (adds and removes may overlap) does not throw and leaves on `r` the
`m_key_usage` that the first call left. -/
theorem update_keys_idempotent (m_comm_size : Nat) (m_key_span : List KeySpan)
    (add_new_keys remove_existing_keys : Nat → List Nat)
    (m_key_usage : Nat → List KeyProc) (r : Nat) (hr : r < m_comm_size)
    (hsorted : (m_key_usage r).Pairwise KeyProcLess)
    (hrank : ∀ kp ∈ m_key_usage r, 0 ≤ kp.2)
    (hadd : ∀ p, p < m_comm_size → ∀ k ∈ add_new_keys p,
      ∃ j ∈ m_key_span, j.1 ≤ k ∧ k ≤ j.2) :
    update_keys m_comm_size m_key_span add_new_keys remove_existing_keys
        (fun p => (update_keys m_comm_size m_key_span add_new_keys remove_existing_keys
          m_key_usage p).m_key_usage) r =
      { threw := false,
        m_key_usage := (update_keys m_comm_size m_key_span add_new_keys
          remove_existing_keys m_key_usage r).m_key_usage } := by
  rw [update_keys_threw_false _ _ _ _ _ _ hadd]
  simp only [update_keys_threw_false _ _ _ _ m_key_usage _ hadd]
  congr 1
  apply strict_ext (update_keys_apply_strict _ _ _ _ _ _) (update_keys_apply_strict _ _ _ _ _ _)
  intro x
  rw [mem_update_keys_apply _ _ hr _ _ _
      (update_keys_apply_strict _ _ _ _ _ _)
      (update_keys_apply_nonneg _ _ _ _ _ _),
    mem_update_keys_apply _ _ hr _ _ _ hsorted hrank]
  tauto

/-- Instance of C5: one rank, span `[(0, 10)]`, empty index; a second `update_keys([5], [])`
leaves what the first one left, `[(5, 0)]`. -/
theorem update_keys_idempotent_witness :
    update_keys 1 [(0, 10)] (only_rank 0 [5]) no_keys
        (fun p => (update_keys 1 [(0, 10)] (only_rank 0 [5]) no_keys
          (fun _ => []) p).m_key_usage) 0 =
      { threw := false,
        m_key_usage := (update_keys 1 [(0, 10)] (only_rank 0 [5]) no_keys
          (fun _ => []) 0).m_key_usage } ∧
      (update_keys 1 [(0, 10)] (only_rank 0 [5]) no_keys (fun _ => []) 0).m_key_usage
        = [(5, 0)] :=
  ⟨update_keys_idempotent 1 [(0, 10)] (only_rank 0 [5]) no_keys (fun _ => []) 0
    (by decide) (by decide) (by decide) (by decide), by decide⟩

/-- C6 fails as stated: two ranks, span `[(0, 10)]`, the key 5 owned by rank 0, and rank 0
holds `(5, 0)` already.  Rank 0 calls `update_keys([5], [])`, then `update_keys([], [5])`:
neither call throws, and rank 0 ends with an empty `m_key_usage`, which is not the
`[(5, 0)]` it held before the first call. -/
theorem update_keys_round_trip_counterexample :
    (update_keys 2 [(0, 10)] (only_rank 0 [5]) no_keys
        (fun p => if p = 0 then [(5, 0)] else []) 0).threw = false ∧
      (update_keys 2 [(0, 10)] no_keys (only_rank 0 [5])
        (fun p => (update_keys 2 [(0, 10)] (only_rank 0 [5]) no_keys
          (fun p => if p = 0 then [(5, 0)] else []) p).m_key_usage) 0).threw = false ∧
      (update_keys 2 [(0, 10)] no_keys (only_rank 0 [5])
        (fun p => (update_keys 2 [(0, 10)] (only_rank 0 [5]) no_keys
          (fun p => if p = 0 then [(5, 0)] else []) p).m_key_usage) 0).m_key_usage = [] ∧
      (update_keys 2 [(0, 10)] no_keys (only_rank 0 [5])
        (fun p => (update_keys 2 [(0, 10)] (only_rank 0 [5]) no_keys
          (fun p => if p = 0 then [(5, 0)] else []) p).m_key_usage) 0).m_key_usage ≠
        (fun p => if p = 0 then [(5, 0)] else [] : Nat → List KeyProc) 0 := by
  decide

/-- C6, amended: for an in-span key `k` and a calling rank `c` such that the pair `(k, c)`
is not in the `m_key_usage` of the owner of `k`, `update_keys([k], [])` by `c` followed by
`update_keys([], [k])` by `c` (the other ranks pass empty lists) throws in neither call and
leaves on every rank `r`, whose `m_key_usage` was strictly increasing with non-negative
ranks, the `m_key_usage` it had before the first call. -/
theorem update_keys_round_trip (m_comm_size : Nat) (m_key_span : List KeySpan)
    (m_key_usage : Nat → List KeyProc) (c k r : Nat) (hc : c < m_comm_size)
    (hr : r < m_comm_size) (hk : ∃ j ∈ m_key_span, j.1 ≤ k ∧ k ≤ j.2)
    (hsorted : (m_key_usage r).Pairwise KeyProcLess)
    (hrank : ∀ kp ∈ m_key_usage r, 0 ≤ kp.2)
    (hfresh : ∀ o : Nat, to_which_proc m_comm_size k = (o : Int) →
      ((k, (c : Int)) : KeyProc) ∉ m_key_usage o) :
    (update_keys m_comm_size m_key_span (only_rank c [k]) no_keys m_key_usage r).threw
        = false ∧
      update_keys m_comm_size m_key_span no_keys (only_rank c [k])
        (fun p => (update_keys m_comm_size m_key_span (only_rank c [k]) no_keys
          m_key_usage p).m_key_usage) r =
        { threw := false, m_key_usage := m_key_usage r } := by
  have hadd := in_span_only_rank m_comm_size c m_key_span k hk
  have hnone := in_span_no_keys m_comm_size m_key_span
  rw [update_keys_threw_false _ _ _ _ _ _ hnone]
  simp only [update_keys_threw_false _ _ _ _ m_key_usage _ hadd]
  refine ⟨trivial, ?_⟩
  congr 1
  apply strict_ext (update_keys_apply_strict _ _ _ _ _ _) hsorted
  intro x
  rw [mem_update_keys_apply _ _ hr _ _ _
      (update_keys_apply_strict _ _ _ _ _ _)
      (update_keys_apply_nonneg _ _ _ _ _ _),
    mem_update_keys_apply _ _ hr _ _ _ hsorted hrank,
    requested_at_only_rank _ _ hc]
  have h1 := requested_at_no_keys m_comm_size r x
  have h2 : x ∈ m_key_usage r →
      ¬ (x.2 = (c : Int) ∧ x.1 ∈ [k] ∧ to_which_proc m_comm_size x.1 = (r : Int)) := by
    rintro hx ⟨hx2, hx1, hown⟩
    rw [List.mem_singleton] at hx1
    rw [hx1] at hown
    apply hfresh r hown
    have hxe : x = ((k, (c : Int)) : KeyProc) := Prod.ext hx1 hx2
    rw [← hxe]
    exact hx
  tauto

/-- Instance of amended C6: two ranks, span `[(0, 10000)]`, rank 1 holds `(4097, 1)` and
rank 0 adds and then removes the key 4096 owned by rank 1. -/
theorem update_keys_round_trip_witness :
    (update_keys 2 [(0, 10000)] (only_rank 0 [4096]) no_keys
        (fun p => if p = 1 then [(4097, 1)] else []) 1).threw = false ∧
      update_keys 2 [(0, 10000)] no_keys (only_rank 0 [4096])
        (fun p => (update_keys 2 [(0, 10000)] (only_rank 0 [4096]) no_keys
          (fun p => if p = 1 then [(4097, 1)] else []) p).m_key_usage) 1 =
        { threw := false,
          m_key_usage := (fun p => if p = 1 then [(4097, 1)] else [] : Nat → List KeyProc) 1 } :=
  update_keys_round_trip 2 [(0, 10000)] (fun p => if p = 1 then [(4097, 1)] else []) 0 4096 1
    (by decide) (by decide) (by decide) (by decide) (by decide)
    (by
      intro o ho
      have ho1 : o = 1 := by
        have h := (to_which_proc_eq_iff 2 4096 o).1 ho
        rw [← h]
        decide
      subst ho1
      decide)

/-- C7: when the pair `(k, c)` is not in the `m_key_usage` of the owner of `k`,
`update_keys([], [k])` by the rank `c` (the other ranks pass empty lists) does not throw
and leaves on every rank `r`, whose `m_key_usage` was strictly increasing with
non-negative ranks, the same `m_key_usage`, whatever other pairs `(k, q)` it holds. -/
theorem update_keys_remove_absent (m_comm_size : Nat) (m_key_span : List KeySpan)
    (m_key_usage : Nat → List KeyProc) (c k r : Nat) (hc : c < m_comm_size)
    (hr : r < m_comm_size) (hsorted : (m_key_usage r).Pairwise KeyProcLess)
    (hrank : ∀ kp ∈ m_key_usage r, 0 ≤ kp.2)
    (habsent : ∀ o : Nat, to_which_proc m_comm_size k = (o : Int) →
      ((k, (c : Int)) : KeyProc) ∉ m_key_usage o) :
    update_keys m_comm_size m_key_span no_keys (only_rank c [k]) m_key_usage r =
      { threw := false, m_key_usage := m_key_usage r } := by
  rw [update_keys_threw_false _ _ _ _ _ _ (in_span_no_keys m_comm_size m_key_span)]
  congr 1
  apply strict_ext (update_keys_apply_strict _ _ _ _ _ _) hsorted
  intro x
  rw [mem_update_keys_apply _ _ hr _ _ _ hsorted hrank,
    requested_at_only_rank _ _ hc]
  have h1 := requested_at_no_keys m_comm_size r x
  have h2 : x ∈ m_key_usage r →
      ¬ (x.2 = (c : Int) ∧ x.1 ∈ [k] ∧ to_which_proc m_comm_size x.1 = (r : Int)) := by
    rintro hx ⟨hx2, hx1, hown⟩
    rw [List.mem_singleton] at hx1
    rw [hx1] at hown
    apply habsent r hown
    have hxe : x = ((k, (c : Int)) : KeyProc) := Prod.ext hx1 hx2
    rw [← hxe]
    exact hx
  tauto

/-- Instance of C7: two ranks, no span needed; rank 0 owns the key 999 and holds `(999, 1)`
but not `(999, 0)`; rank 0 calls `update_keys([], [999])`. -/
theorem update_keys_remove_absent_witness :
    update_keys 2 [] no_keys (only_rank 0 [999])
        (fun p => if p = 0 then [(999, 1)] else []) 0 =
      { threw := false,
        m_key_usage := (fun p => if p = 0 then [(999, 1)] else [] : Nat → List KeyProc) 0 } :=
  update_keys_remove_absent 2 [] (fun p => if p = 0 then [(999, 1)] else []) 0 999 0
    (by decide) (by decide) (by decide) (by decide)
    (by
      intro o ho
      have ho0 : o = 0 := by
        have h := (to_which_proc_eq_iff 2 999 o).1 ho
        rw [← h]
        decide
      subst ho0
      decide)

/-- C8: after every `update_keys` that does not throw, whatever the lists and whatever
`m_key_usage` held before, `m_key_usage` is strictly increasing for `KeyProcLess`, so it
has no repeated pair, and no entry has a negative rank (no tombstone is left). -/
theorem update_keys_sorted (m_comm_size : Nat) (m_key_span : List KeySpan)
    (add_new_keys remove_existing_keys : Nat → List Nat)
    (m_key_usage : Nat → List KeyProc) (r : Nat)
    (hok : (update_keys m_comm_size m_key_span add_new_keys remove_existing_keys
        m_key_usage r).threw = false) :
    (update_keys m_comm_size m_key_span add_new_keys remove_existing_keys
        m_key_usage r).m_key_usage.Pairwise KeyProcLess ∧
      (update_keys m_comm_size m_key_span add_new_keys remove_existing_keys
        m_key_usage r).m_key_usage.Nodup ∧
      ∀ kp ∈ (update_keys m_comm_size m_key_span add_new_keys remove_existing_keys
        m_key_usage r).m_key_usage, 0 ≤ kp.2 := by
  rw [update_keys_threw_eq_false _ _ _ _ _ _ hok]
  exact ⟨update_keys_apply_strict _ _ _ _ _ _,
    strict_nodup (update_keys_apply_strict _ _ _ _ _ _),
    update_keys_apply_nonneg _ _ _ _ _ _⟩

/-- Instance of C8: one rank, span `[(0, 10)]`, the rank holds `(5, 0)` and adds the keys
`7, 5, 7, 3`; it ends with `[(3, 0), (5, 0), (7, 0)]`. -/
theorem update_keys_sorted_witness :
    ((update_keys 1 [(0, 10)] (only_rank 0 [7, 5, 7, 3]) no_keys
        (fun _ => [(5, 0)]) 0).m_key_usage.Pairwise KeyProcLess ∧
      (update_keys 1 [(0, 10)] (only_rank 0 [7, 5, 7, 3]) no_keys
        (fun _ => [(5, 0)]) 0).m_key_usage.Nodup ∧
      ∀ kp ∈ (update_keys 1 [(0, 10)] (only_rank 0 [7, 5, 7, 3]) no_keys
        (fun _ => [(5, 0)]) 0).m_key_usage, 0 ≤ kp.2) ∧
      (update_keys 1 [(0, 10)] (only_rank 0 [7, 5, 7, 3]) no_keys
        (fun _ => [(5, 0)]) 0).m_key_usage = [(3, 0), (5, 0), (7, 0)] :=
  ⟨update_keys_sorted 1 [(0, 10)] (only_rank 0 [7, 5, 7, 3]) no_keys (fun _ => [(5, 0)]) 0
    (by decide), by decide⟩

/-- C9: query completeness.  The index holds no entry for the key `k`, its `m_key_usage` is
strictly increasing with non-negative ranks on every rank, and one `update_keys` is made
whose add keys all lie inside a span.  Then the call does not throw, and a following
`query(keys)` in which every rank passes `[k]` returns on every rank `r` exactly the
pairs `(k, p)`, in increasing order of `p`, for the ranks `p` whose add list held `k`. -/
theorem query_keys_complete (m_comm_size : Nat) (m_key_span : List KeySpan)
    (add_new_keys remove_existing_keys : Nat → List Nat)
    (m_key_usage : Nat → List KeyProc) (k r : Nat) (hr : r < m_comm_size)
    (hadd : ∀ p, p < m_comm_size → ∀ i ∈ add_new_keys p,
      ∃ j ∈ m_key_span, j.1 ≤ i ∧ i ≤ j.2)
    (hsorted : ∀ p, p < m_comm_size → (m_key_usage p).Pairwise KeyProcLess)
    (hrank : ∀ p, p < m_comm_size → ∀ kp ∈ m_key_usage p, 0 ≤ kp.2)
    (hnone : ∀ p, p < m_comm_size → ∀ kp ∈ m_key_usage p, kp.1 ≠ k) :
    (update_keys m_comm_size m_key_span add_new_keys remove_existing_keys
        m_key_usage r).threw = false ∧
      query_keys m_comm_size
        (fun p => (update_keys m_comm_size m_key_span add_new_keys remove_existing_keys
          m_key_usage p).m_key_usage) (fun _ => [k]) r =
        ((List.range m_comm_size).filter (fun p => decide (k ∈ add_new_keys p))).map
          (fun (p : Nat) => ((k, (p : Int)) : KeyProc)) := by
  have hn : 0 < m_comm_size := by omega
  have ho : (k >>> DISTRIBUTED_INDEX_CHUNK_BITS) % m_comm_size < m_comm_size :=
    Nat.mod_lt _ hn
  refine ⟨by rw [update_keys_threw_false _ _ _ _ _ _ hadd], ?_⟩
  rw [query_keys_single _ _ _ _ hr]
  simp only [update_keys_threw_false _ _ _ _ m_key_usage _ hadd]
  have hstrict := update_keys_apply_strict m_comm_size
    ((k >>> DISTRIBUTED_INDEX_CHUNK_BITS) % m_comm_size)
    (m_key_usage ((k >>> DISTRIBUTED_INDEX_CHUNK_BITS) % m_comm_size))
    (add_new_keys ((k >>> DISTRIBUTED_INDEX_CHUNK_BITS) % m_comm_size))
    (remove_existing_keys ((k >>> DISTRIBUTED_INDEX_CHUNK_BITS) % m_comm_size))
    (fun p => update_keys_pack m_comm_size (p : Int) (add_new_keys p)
      (remove_existing_keys p) ((k >>> DISTRIBUTED_INDEX_CHUNK_BITS) % m_comm_size))
  rw [key_run_eq_filter k _ (strict_key_sorted hstrict),
    sort_of_strict (hstrict.filter _)]
  apply strict_ext (hstrict.filter _)
    (same_key_strict k _ ((List.pairwise_lt_range m_comm_size).filter _))
  intro x
  rw [List.mem_filter, mem_update_keys_apply _ _ ho _ _ _ (hsorted _ ho) (hrank _ ho)]
  simp only [decide_eq_true_eq, List.mem_map, List.mem_filter, List.mem_range]
  constructor
  · rintro ⟨(⟨hx, -⟩ | ⟨p, hp, hx2, hx1, -⟩), hxk⟩
    · exact absurd hxk (hnone _ ho x hx)
    · rw [hxk] at hx1
      exact ⟨p, ⟨hp, hx1⟩, Prod.ext hxk.symm hx2.symm⟩
  · rintro ⟨p, ⟨hp, hkp⟩, rfl⟩
    exact ⟨Or.inr ⟨p, hp, rfl, hkp, (to_which_proc_eq_iff _ _ _).2 rfl⟩, rfl⟩

/-- Instance of C9: three ranks, span `[(0, 10)]`, empty index; the ranks 0 and 2 add the
key 7; `query([7])` on rank 1 returns `[(7, 0), (7, 2)]`. -/
theorem query_keys_complete_witness :
    (update_keys 3 [(0, 10)] (fun p => if p = 0 ∨ p = 2 then [7] else []) no_keys
        (fun _ => []) 1).threw = false ∧
      query_keys 3
        (fun p => (update_keys 3 [(0, 10)] (fun p => if p = 0 ∨ p = 2 then [7] else [])
          no_keys (fun _ => []) p).m_key_usage) (fun _ => [7]) 1 = [(7, 0), (7, 2)] :=
  query_keys_complete 3 [(0, 10)] (fun p => if p = 0 ∨ p = 2 then [7] else []) no_keys
    (fun _ => []) 7 1 (by decide) (by decide) (by decide) (by decide) (by decide)

/-- C10 fails as stated: two ranks, span `[(0, 10000)]`, empty index, rank 0 alone calls
`update_keys([4096], [])`.  The call does not throw, and the `query()` that follows
returns the empty list on rank 1, so `(4096, 0)` is not in it. -/
theorem query_void_every_rank_counterexample :
    (update_keys 2 [(0, 10000)] (only_rank 0 [4096]) no_keys (fun _ => []) 1).threw
        = false ∧
      query_void 2
        (fun p => (update_keys 2 [(0, 10000)] (only_rank 0 [4096]) no_keys
          (fun _ => []) p).m_key_usage) 1 = [] ∧
      ((4096, 0) : KeyProc) ∉ query_void 2
        (fun p => (update_keys 2 [(0, 10000)] (only_rank 0 [4096]) no_keys
          (fun _ => []) p).m_key_usage) 1 := by
  decide

/-- C10, amended: with `m_comm_size >= 2`, the key 4096 inside a span and an empty index,
after rank 0 alone calls `update_keys([4096], [])` the call has not thrown and the
argument-less `query()` returns `[(4096, 0)]` on rank 0 and the empty list on every other
rank. -/
theorem query_void_after_add (m_comm_size : Nat) (m_key_span : List KeySpan) (r : Nat)
    (hsize : 2 ≤ m_comm_size) (hr : r < m_comm_size)
    (hk : ∃ j ∈ m_key_span, j.1 ≤ 4096 ∧ 4096 ≤ j.2) :
    (update_keys m_comm_size m_key_span (only_rank 0 [4096]) no_keys
        (fun _ => []) r).threw = false ∧
      query_void m_comm_size
        (fun p => (update_keys m_comm_size m_key_span (only_rank 0 [4096]) no_keys
          (fun _ => []) p).m_key_usage) r =
        if r = 0 then [(4096, 0)] else [] := by
  refine ⟨by rw [update_keys_first_add _ _ hsize hk r hr], ?_⟩
  unfold query_void query_request
  have hrecv : ∀ p ∈ List.range m_comm_size,
      recv_buffer
          (fun p dest =>
            query_send
              (update_keys m_comm_size m_key_span (only_rank 0 [4096]) no_keys
                (fun _ => []) p).m_key_usage
              (update_keys m_comm_size m_key_span (only_rank 0 [4096]) no_keys
                (fun _ => []) p).m_key_usage dest)
          r p =
        if p = 1 then (if r = 0 then [((4096, 0) : KeyProc)] else []) else [] := by
    intro p hp
    unfold recv_buffer
    simp only []
    rw [update_keys_first_add _ _ hsize hk p (List.mem_range.1 hp)]
    by_cases hp1 : p = 1
    · simp only [hp1, if_true]
      have hpack : query_pack [((4096, 0) : KeyProc)] [((4096, 0) : KeyProc)] =
          [((0 : Int), ((4096, 0) : KeyProc))] := by decide
      unfold query_send
      rw [hpack]
      by_cases hr0 : r = 0
      · subst hr0
        rfl
      · have hne : ¬ ((0 : Int) = (r : Int)) := fun h => hr0 (Int.ofNat_inj.1 h).symm
        simp [hr0, hne]
    · simp only [hp1, if_false]
      rfl
  rw [List.flatMap_congr hrecv, flatMap_range_ite m_comm_size 1 (by omega)]
  by_cases hr0 : r = 0
  · rw [if_pos hr0]
    rfl
  · rw [if_neg hr0]
    rfl

/-- Instance of amended C10: three ranks, span `[(0, 10000)]`; `query()` on rank 2. -/
theorem query_void_after_add_witness :
    (update_keys 3 [(0, 10000)] (only_rank 0 [4096]) no_keys (fun _ => []) 2).threw
        = false ∧
      query_void 3
        (fun p => (update_keys 3 [(0, 10000)] (only_rank 0 [4096]) no_keys
          (fun _ => []) p).m_key_usage) 2 =
        if 2 = 0 then [(4096, 0)] else [] :=
  query_void_after_add 3 [(0, 10000)] 2 (by decide) (by decide) (by decide)

/-! ## `query_pack` on arbitrary request lists -/

theorem mem_dropWhile_of_not {l : List KeyProc} {key : Nat} {x : KeyProc} (hx : x ∈ l)
    (hnot : ¬ x.1 < key) : x ∈ l.dropWhile (fun e => decide (e.1 < key)) := by
  rw [← List.takeWhile_append_dropWhile (fun e => decide (e.1 < key)) l] at hx
  rcases List.mem_append.1 hx with h | h
  · have h2 := List.mem_takeWhile_imp h
    simp only [decide_eq_true_eq] at h2
    exact absurd h2 hnot
  · exact h

/-- Whatever the request list, every pair that `query_pack` packs is an entry of
`key_usage`, packed for an entry of the request list with the same key. -/
theorem query_pack_sound (request usage : List KeyProc) (m : Int × KeyProc)
    (hm : m ∈ query_pack usage request) :
    ∃ k ∈ request, m.1 = k.2 ∧ m.2.1 = k.1 ∧ m.2 ∈ usage := by
  induction request generalizing usage with
  | nil =>
    rw [query_pack_nil] at hm
    exact absurd hm (List.not_mem_nil _)
  | cons k rest ih =>
    cases usage with
    | nil =>
      unfold query_pack at hm
      exact absurd hm (List.not_mem_nil _)
    | cons i u =>
      unfold query_pack at hm
      simp only [] at hm
      rcases List.mem_append.1 hm with h | h
      · obtain ⟨j, hj, rfl⟩ := List.mem_map.1 h
        have hkey := List.mem_takeWhile_imp hj
        simp only [decide_eq_true_eq] at hkey
        exact ⟨k, List.mem_cons_self _ _, rfl, hkey,
          (List.dropWhile_sublist _).subset ((List.takeWhile_sublist _).subset hj)⟩
      · obtain ⟨k2, hk2, h1, h2, h3⟩ := ih _ h
        exact ⟨k2, List.mem_cons_of_mem _ hk2, h1, h2, (List.dropWhile_sublist _).subset h3⟩

/-- With `key_usage` and the request list both sorted by key, `query_pack` packs, for every
entry of the request list, every entry of `key_usage` with the same key. -/
theorem query_pack_complete (request usage : List KeyProc)
    (hu : (usage.map Prod.fst).Pairwise (· ≤ ·))
    (hr : (request.map Prod.fst).Pairwise (· ≤ ·)) (k x : KeyProc) (hk : k ∈ request)
    (hx : x ∈ usage) (hxk : x.1 = k.1) : (k.2, x) ∈ query_pack usage request := by
  induction request generalizing usage with
  | nil => exact absurd hk (List.not_mem_nil _)
  | cons k0 rest ih =>
    cases usage with
    | nil => exact absurd hx (List.not_mem_nil _)
    | cons i u =>
      unfold query_pack
      simp only []
      rw [List.map_cons, List.pairwise_cons] at hr
      apply List.mem_append.2
      rcases List.mem_cons.1 hk with rfl | hk
      · left
        apply List.mem_map.2
        refine ⟨x, ?_, rfl⟩
        have hrun := key_run_eq_filter k.1 (i :: u) (List.pairwise_map.1 hu)
        unfold key_run at hrun
        rw [hrun, List.mem_filter]
        exact ⟨hx, by simpa using hxk⟩
      · right
        have hle : k0.1 ≤ k.1 := hr.1 k.1 (List.mem_map_of_mem Prod.fst hk)
        apply ih _ _ hr.2 hk
        · exact mem_dropWhile_of_not hx (by omega)
        · exact hu.sublist ((List.dropWhile_sublist _).map Prod.fst)

theorem query_pack_nodup (request usage : List KeyProc) (hu : usage.Nodup)
    (hr : request.Nodup) : (query_pack usage request).Nodup := by
  induction request generalizing usage with
  | nil =>
    rw [query_pack_nil]
    exact List.nodup_nil
  | cons k rest ih =>
    cases usage with
    | nil =>
      unfold query_pack
      exact List.nodup_nil
    | cons i u =>
      unfold query_pack
      simp only []
      rw [List.nodup_cons] at hr
      have hadv : ((i :: u).dropWhile (fun e => decide (e.1 < k.1))).Nodup :=
        hu.sublist (List.dropWhile_sublist _)
      apply List.Nodup.append
      · apply List.Nodup.map
        · intro a b hab
          exact (Prod.mk.inj hab).2
        · exact hadv.sublist (List.takeWhile_sublist _)
      · exact ih _ hadv hr.2
      · intro m hm1 hm2
        obtain ⟨j, hj, rfl⟩ := List.mem_map.1 hm1
        have hkey := List.mem_takeWhile_imp hj
        simp only [decide_eq_true_eq] at hkey
        obtain ⟨k2, hk2, h1, h2, -⟩ := query_pack_sound _ _ _ hm2
        have hkk : k2 = k := by
          apply Prod.ext
          · rw [← h2]
            exact hkey
          · exact h1.symm
        rw [hkk] at hk2
        exact hr.1 hk2

theorem mem_query_send (usage request : List KeyProc) (t : Nat) (x : KeyProc) :
    x ∈ query_send usage request t ↔ (((t : Int), x) : Int × KeyProc) ∈ query_pack usage request := by
  unfold query_send
  rw [List.mem_filterMap]
  constructor
  · rintro ⟨m, hm, hx⟩
    by_cases hdest : m.1 = (t : Int)
    · rw [if_pos hdest, Option.some.injEq] at hx
      have hme : m = (((t : Int), x) : Int × KeyProc) := Prod.ext hdest hx
      rw [← hme]
      exact hm
    · rw [if_neg hdest] at hx
      exact Option.noConfusion hx
  · intro hm
    exact ⟨_, hm, by simp⟩

theorem query_send_nodup (usage request : List KeyProc) (t : Nat) (hu : usage.Nodup)
    (hr : request.Nodup) : (query_send usage request t).Nodup := by
  unfold query_send
  apply List.Nodup.filterMap _ (query_pack_nodup request usage hu hr)
  intro a b x ha hb
  by_cases hda : a.1 = (t : Int)
  · by_cases hdb : b.1 = (t : Int)
    · rw [Option.mem_def, if_pos hda, Option.some.injEq] at ha
      rw [Option.mem_def, if_pos hdb, Option.some.injEq] at hb
      exact Prod.ext (hda.trans hdb.symm) (ha.trans hb.symm)
    · rw [Option.mem_def, if_neg hdb] at hb
      exact Option.noConfusion hb
  · rw [Option.mem_def, if_neg hda] at ha
    exact Option.noConfusion ha

theorem mem_query_request (n : Nat) (usage request : Nat → List KeyProc) (t : Nat)
    (x : KeyProc) :
    x ∈ query_request n usage request t ↔
      ∃ p, p < n ∧ x ∈ query_send (usage p) (request p) t := by
  unfold query_request recv_buffer
  rw [mem_sort, List.mem_flatMap]
  simp only [List.mem_range]

theorem query_request_sorted (n : Nat) (usage request : Nat → List KeyProc) (t : Nat) :
    (query_request n usage request t).Pairwise KeyProcNotGreater := by
  unfold query_request
  exact sort_sorted _

theorem sort_nodup {l : List KeyProc} (h : l.Nodup) : (sort l).Nodup :=
  (List.perm_insertionSort KeyProcNotGreater l).nodup_iff.2 h

theorem strict_of_sorted_nodup {l : List KeyProc} (hs : l.Pairwise KeyProcNotGreater)
    (hn : l.Nodup) : l.Pairwise KeyProcLess := by
  have hboth := hs.and hn
  exact hboth.imp (fun h => keyProcLess_of_notGreater_of_ne h.1 h.2)

/-- The result of `query( request , ... )` has no repeated pair when no request list
repeats an entry, no rank holds a pair twice, and the ranks answer with disjoint pairs. -/
theorem query_request_nodup (n : Nat) (usage request : Nat → List KeyProc) (t : Nat)
    (hu : ∀ p, p < n → (usage p).Nodup) (hr : ∀ p, p < n → (request p).Nodup)
    (hdisj : ∀ p q, p < n → q < n → p ≠ q → ∀ x,
      x ∈ query_send (usage p) (request p) t → x ∉ query_send (usage q) (request q) t) :
    (query_request n usage request t).Nodup := by
  unfold query_request recv_buffer
  apply sort_nodup
  rw [List.nodup_flatMap]
  constructor
  · intro p hp
    exact query_send_nodup _ _ _ (hu p (List.mem_range.1 hp)) (hr p (List.mem_range.1 hp))
  · have hrange : (List.range n).Pairwise (fun a b => a < n ∧ b < n ∧ a ≠ b) := by
      apply List.Pairwise.and_mem.1 ((List.pairwise_lt_range n).imp (fun h => Nat.ne_of_lt h)) |>.imp
      rintro a b ⟨ha, hb, hab⟩
      exact ⟨List.mem_range.1 ha, List.mem_range.1 hb, hab⟩
    apply hrange.imp
    rintro a b ⟨ha, hb, hab⟩
    intro x hxa hxb
    exact hdisj a b ha hb hab x hxa hxb

theorem mem_query_keys_request (n : Nat) (keys : Nat → List Nat) (q : Nat) (x : KeyProc) :
    x ∈ query_keys_request n keys q ↔ requested_at n keys q x := by
  unfold query_keys_request recv_buffer query_keys_send requested_at
  rw [mem_sort_unique, List.mem_flatMap]
  simp only [List.mem_range, List.mem_map, List.mem_filter, decide_eq_true_eq]
  constructor
  · rintro ⟨p, hp, k, ⟨hk, hown⟩, rfl⟩
    exact ⟨p, hp, rfl, hk, hown⟩
  · rintro ⟨p, hp, hx2, hx1, hown⟩
    exact ⟨p, hp, x.1, ⟨hx1, hown⟩, Prod.ext rfl hx2.symm⟩

theorem query_keys_request_strict (n : Nat) (keys : Nat → List Nat) (q : Nat) :
    (query_keys_request n keys q).Pairwise KeyProcLess := by
  unfold query_keys_request
  exact sort_unique_strict _

/-- Every pair of the result of `query( keys , ... )` on the rank `t` has a key of `keys t`
and is held by the owner of that key, and every such pair is in the result. -/
theorem mem_query_keys (n : Nat) (usage : Nat → List KeyProc) (keys : Nat → List Nat)
    (t : Nat) (ht : t < n) (hu : ∀ p, p < n → (usage p).Pairwise KeyProcLess) (x : KeyProc) :
    x ∈ query_keys n usage keys t ↔
      x.1 ∈ keys t ∧ x ∈ usage ((x.1 >>> DISTRIBUTED_INDEX_CHUNK_BITS) % n) := by
  unfold query_keys
  rw [mem_query_request]
  constructor
  · rintro ⟨q, -, hx⟩
    rw [mem_query_send] at hx
    obtain ⟨k, hk, h1, h2, h3⟩ := query_pack_sound _ _ _ hx
    rw [mem_query_keys_request] at hk
    obtain ⟨p, -, hk2, hk1, hown⟩ := hk
    have htp : t = p := Int.ofNat_inj.1 (h1.trans hk2)
    have h2s : x.1 = k.1 := h2
    rw [← h2s] at hk1 hown
    rw [(to_which_proc_eq_iff n x.1 q).1 hown, htp]
    exact ⟨hk1, h3⟩
  · rintro ⟨hkey, hx⟩
    have hq : (x.1 >>> DISTRIBUTED_INDEX_CHUNK_BITS) % n < n := Nat.mod_lt _ (by omega)
    refine ⟨_, hq, ?_⟩
    rw [mem_query_send]
    have hmem : ((x.1, (t : Int)) : KeyProc) ∈
        query_keys_request n keys ((x.1 >>> DISTRIBUTED_INDEX_CHUNK_BITS) % n) := by
      rw [mem_query_keys_request]
      exact ⟨t, ht, rfl, hkey, (to_which_proc_eq_iff _ _ _).2 rfl⟩
    exact query_pack_complete _ _ (strict_map_fst_sorted (hu _ hq))
      (strict_map_fst_sorted (query_keys_request_strict n keys _)) (x.1, (t : Int)) x hmem hx rfl

theorem query_keys_request_congr (n : Nat) (keys₁ keys₂ : Nat → List Nat) (q : Nat)
    (h : ∀ p, p < n → ∀ k, k ∈ keys₁ p ↔ k ∈ keys₂ p) :
    query_keys_request n keys₁ q = query_keys_request n keys₂ q := by
  apply strict_ext (query_keys_request_strict _ _ _) (query_keys_request_strict _ _ _)
  intro x
  rw [mem_query_keys_request, mem_query_keys_request]
  unfold requested_at
  constructor
  · rintro ⟨p, hp, h1, h2, h3⟩
    exact ⟨p, hp, h1, (h p hp _).1 h2, h3⟩
  · rintro ⟨p, hp, h1, h2, h3⟩
    exact ⟨p, hp, h1, (h p hp _).2 h2, h3⟩

theorem query_request_congr (n : Nat) (usage request₁ request₂ : Nat → List KeyProc)
    (t : Nat) (h : ∀ p, p < n → request₁ p = request₂ p) :
    query_request n usage request₁ t = query_request n usage request₂ t := by
  unfold query_request recv_buffer
  congr 1
  apply List.flatMap_congr
  intro p hp
  simp only []
  rw [h p (List.mem_range.1 hp)]

/-! ## The statements of the specification, continued -/

/-- C11 fails as stated: one rank holds `[(1, 0), (5, 0)]` and is given the request list
`[(5, 0), (1, 0)]`, which is not sorted by key.  The result on rank 0 is `[(5, 0)]`: the
pair `(1, 0)` of the requested key 1 is missing. -/
theorem query_request_unsorted_counterexample :
    query_request 1 (fun _ => [(1, 0), (5, 0)]) (fun _ => [(5, 0), (1, 0)]) 0 = [(5, 0)] ∧
      ((1, 0) : KeyProc) ∈ ([(1, 0), (5, 0)] : List KeyProc) ∧
      ((1, 0) : KeyProc) ∈ ([(5, 0), (1, 0)] : List KeyProc) ∧
      ((1, 0) : KeyProc) ∉
        query_request 1 (fun _ => [(1, 0), (5, 0)]) (fun _ => [(5, 0), (1, 0)]) 0 := by
  decide

/-- C11, amended: for every rank `r` whose `key_usage` is sorted by key, every request list
of `r` that is sorted by key, and every entry `(k, t)` of it with `t` a valid rank, the
result of `query( request , ... )` on the rank `t` contains every pair `(k, r')` of the
`key_usage` of `r`. -/
theorem query_request_complete (m_comm_size : Nat) (m_key_usage request : Nat → List KeyProc)
    (r t k : Nat) (r' : Int) (hr : r < m_comm_size)
    (hsorted : ((m_key_usage r).map Prod.fst).Pairwise (· ≤ ·))
    (hrequest : ((request r).map Prod.fst).Pairwise (· ≤ ·))
    (hentry : ((k, (t : Int)) : KeyProc) ∈ request r)
    (hheld : ((k, r') : KeyProc) ∈ m_key_usage r) :
    ((k, r') : KeyProc) ∈ query_request m_comm_size m_key_usage request t := by
  rw [mem_query_request]
  refine ⟨r, hr, ?_⟩
  rw [mem_query_send]
  exact query_pack_complete _ _ hsorted hrequest (k, (t : Int)) (k, r') hentry hheld rfl

/-- Instance of amended C11: two ranks; rank 1 holds `[(4096, 0), (4096, 1), (4100, 1)]` and
is given the sorted request list `[(4096, 0), (4100, 0)]`; the result on rank 0 contains
`(4096, 1)`. -/
theorem query_request_complete_witness :
    ((4096, 1) : KeyProc) ∈
      query_request 2 (fun p => if p = 1 then [(4096, 0), (4096, 1), (4100, 1)] else [])
        (fun p => if p = 1 then [(4096, 0), (4100, 0)] else []) 0 :=
  query_request_complete 2 (fun p => if p = 1 then [(4096, 0), (4096, 1), (4100, 1)] else [])
    (fun p => if p = 1 then [(4096, 0), (4100, 0)] else []) 1 0 4096 1 (by decide) (by decide)
    (by decide) (by decide) (by decide)

/-- C12 fails as stated, in two ways.  One rank holds `[(7, 0)]` and is given the request
list `[(7, 0), (7, 0)]`: the result is `[(7, 0), (7, 0)]`.  Two ranks both hold
`[(7, 0)]` and both are given `[(7, 0)]`: the result on rank 0 is `[(7, 0), (7, 0)]`. -/
theorem query_request_duplicate_counterexample :
    (query_request 1 (fun _ => [(7, 0)]) (fun _ => [(7, 0), (7, 0)]) 0 = [(7, 0), (7, 0)] ∧
      ¬ (query_request 1 (fun _ => [(7, 0)]) (fun _ => [(7, 0), (7, 0)]) 0).Nodup) ∧
      (query_request 2 (fun _ => [(7, 0)]) (fun _ => [(7, 0)]) 0 = [(7, 0), (7, 0)] ∧
        ¬ (query_request 2 (fun _ => [(7, 0)]) (fun _ => [(7, 0)]) 0).Nodup) := by
  decide

/-- C12, amended: when the `key_usage` of every rank is strictly increasing (sorted, no
repeated pair), no pair is held by two ranks and no request list repeats an entry, the
result of `query( request , ... )` on every rank is sorted and has no repeated pair, that
is, strictly increasing. -/
theorem query_request_strict (m_comm_size : Nat) (m_key_usage request : Nat → List KeyProc)
    (t : Nat) (husage : ∀ p, p < m_comm_size → (m_key_usage p).Pairwise KeyProcLess)
    (hsingle : ∀ p, p < m_comm_size → ∀ q, q < m_comm_size → p ≠ q →
      ∀ x ∈ m_key_usage p, x ∉ m_key_usage q)
    (hrequest : ∀ p, p < m_comm_size → (request p).Nodup) :
    (query_request m_comm_size m_key_usage request t).Pairwise KeyProcNotGreater ∧
      (query_request m_comm_size m_key_usage request t).Nodup ∧
      (query_request m_comm_size m_key_usage request t).Pairwise KeyProcLess := by
  have hnodup : (query_request m_comm_size m_key_usage request t).Nodup := by
    apply query_request_nodup _ _ _ _ (fun p hp => strict_nodup (husage p hp)) hrequest
    intro p q hp hq hpq x hxp hxq
    rw [mem_query_send] at hxp hxq
    obtain ⟨-, -, -, -, h1⟩ := query_pack_sound _ _ _ hxp
    obtain ⟨-, -, -, -, h2⟩ := query_pack_sound _ _ _ hxq
    exact hsingle p hp q hq hpq x h1 h2
  exact ⟨query_request_sorted _ _ _ _, hnodup,
    strict_of_sorted_nodup (query_request_sorted _ _ _ _) hnodup⟩

/-- Instance of amended C12: two ranks; rank 0 holds `[(7, 0), (7, 1)]`, rank 1 holds
`[(4096, 1)]`; the request lists are `[(7, 1), (7, 0)]` and `[(4096, 1)]`; the result on
rank 1 is `[(7, 0), (7, 1), (4096, 1)]`. -/
theorem query_request_strict_witness :
    ((query_request 2 (fun p => if p = 0 then [(7, 0), (7, 1)] else [(4096, 1)])
        (fun p => if p = 0 then [(7, 1), (7, 0)] else [(4096, 1)]) 1).Pairwise
          KeyProcNotGreater ∧
      (query_request 2 (fun p => if p = 0 then [(7, 0), (7, 1)] else [(4096, 1)])
        (fun p => if p = 0 then [(7, 1), (7, 0)] else [(4096, 1)]) 1).Nodup ∧
      (query_request 2 (fun p => if p = 0 then [(7, 0), (7, 1)] else [(4096, 1)])
        (fun p => if p = 0 then [(7, 1), (7, 0)] else [(4096, 1)]) 1).Pairwise KeyProcLess) ∧
      query_request 2 (fun p => if p = 0 then [(7, 0), (7, 1)] else [(4096, 1)])
        (fun p => if p = 0 then [(7, 1), (7, 0)] else [(4096, 1)]) 1 =
        [(7, 0), (7, 1), (4096, 1)] :=
  ⟨query_request_strict 2 (fun p => if p = 0 then [(7, 0), (7, 1)] else [(4096, 1)])
    (fun p => if p = 0 then [(7, 1), (7, 0)] else [(4096, 1)]) 1 (by decide)
    (by
      intro p hp q hq hpq
      have hp2 : p = 0 ∨ p = 1 := by omega
      have hq2 : q = 0 ∨ q = 1 := by omega
      rcases hp2 with rfl | rfl <;> rcases hq2 with rfl | rfl
      · exact absurd rfl hpq
      · decide
      · decide
      · exact absurd rfl hpq)
    (by decide), by decide⟩

/-- C13: when the `key_usage` of every rank is strictly increasing, the result of
`query( keys , ... )` on every rank `t`, for key lists in any order and with repeated keys,
is strictly increasing (sorted, no repeated pair); it consists of exactly the pairs held
by the owner of a key of `keys t`, so a key without entry contributes nothing (the query
has no error path); and it is the result for the lists without their repetitions. -/
theorem query_keys_strict (m_comm_size : Nat) (m_key_usage : Nat → List KeyProc)
    (keys : Nat → List Nat) (t : Nat) (ht : t < m_comm_size)
    (husage : ∀ p, p < m_comm_size → (m_key_usage p).Pairwise KeyProcLess) :
    (query_keys m_comm_size m_key_usage keys t).Pairwise KeyProcLess ∧
      (query_keys m_comm_size m_key_usage keys t).Nodup ∧
      (∀ x : KeyProc, x ∈ query_keys m_comm_size m_key_usage keys t ↔
        x.1 ∈ keys t ∧
          x ∈ m_key_usage ((x.1 >>> DISTRIBUTED_INDEX_CHUNK_BITS) % m_comm_size)) ∧
      query_keys m_comm_size m_key_usage (fun p => (keys p).dedup) t =
        query_keys m_comm_size m_key_usage keys t := by
  have hnodup : (query_keys m_comm_size m_key_usage keys t).Nodup := by
    unfold query_keys
    apply query_request_nodup _ _ _ _ (fun p hp => strict_nodup (husage p hp))
      (fun p _ => strict_nodup (query_keys_request_strict _ _ _))
    intro p q _ _ hpq x hxp hxq
    rw [mem_query_send] at hxp hxq
    obtain ⟨k1, hk1, -, h1, -⟩ := query_pack_sound _ _ _ hxp
    obtain ⟨k2, hk2, -, h2, -⟩ := query_pack_sound _ _ _ hxq
    rw [mem_query_keys_request] at hk1 hk2
    obtain ⟨-, -, -, -, ho1⟩ := hk1
    obtain ⟨-, -, -, -, ho2⟩ := hk2
    have h1s : x.1 = k1.1 := h1
    have h2s : x.1 = k2.1 := h2
    rw [← h1s] at ho1
    rw [← h2s] at ho2
    exact hpq (Int.ofNat_inj.1 (ho1.symm.trans ho2))
  refine ⟨?_, hnodup, mem_query_keys _ _ _ _ ht husage, ?_⟩
  · apply strict_of_sorted_nodup _ hnodup
    unfold query_keys
    exact query_request_sorted _ _ _ _
  · unfold query_keys
    apply query_request_congr
    intro p _
    apply query_keys_request_congr
    intro q _ k
    exact List.mem_dedup

/-- Instance of C13: two ranks; rank 0 holds `[(7, 0), (7, 1)]`, rank 1 holds `[(4096, 1)]`;
rank 1 queries `[4096, 9, 7, 4096, 7]`, where 9 has no entry, and gets
`[(7, 0), (7, 1), (4096, 1)]`. -/
theorem query_keys_strict_witness :
    ((query_keys 2 (fun p => if p = 0 then [(7, 0), (7, 1)] else [(4096, 1)])
        (only_rank 1 [4096, 9, 7, 4096, 7]) 1).Pairwise KeyProcLess ∧
      (query_keys 2 (fun p => if p = 0 then [(7, 0), (7, 1)] else [(4096, 1)])
        (only_rank 1 [4096, 9, 7, 4096, 7]) 1).Nodup ∧
      (∀ x : KeyProc, x ∈ query_keys 2
          (fun p => if p = 0 then [(7, 0), (7, 1)] else [(4096, 1)])
          (only_rank 1 [4096, 9, 7, 4096, 7]) 1 ↔
        x.1 ∈ only_rank 1 [4096, 9, 7, 4096, 7] 1 ∧
          x ∈ (fun p => if p = 0 then [(7, 0), (7, 1)] else [(4096, 1)] : Nat → List KeyProc)
            ((x.1 >>> DISTRIBUTED_INDEX_CHUNK_BITS) % 2)) ∧
      query_keys 2 (fun p => if p = 0 then [(7, 0), (7, 1)] else [(4096, 1)])
          (fun p => (only_rank 1 [4096, 9, 7, 4096, 7] p).dedup) 1 =
        query_keys 2 (fun p => if p = 0 then [(7, 0), (7, 1)] else [(4096, 1)])
          (only_rank 1 [4096, 9, 7, 4096, 7]) 1) ∧
      query_keys 2 (fun p => if p = 0 then [(7, 0), (7, 1)] else [(4096, 1)])
        (only_rank 1 [4096, 9, 7, 4096, 7]) 1 = [(7, 0), (7, 1), (4096, 1)] :=
  ⟨query_keys_strict 2 (fun p => if p = 0 then [(7, 0), (7, 1)] else [(4096, 1)])
    (only_rank 1 [4096, 9, 7, 4096, 7]) 1 (by decide) (by decide), by decide⟩

/-! ## The global counts of `generate_new_keys` -/

theorem chunk_size_eq : DISTRIBUTED_INDEX_CHUNK_SIZE = 4096 := by decide

/-- The counting loop on a `key_usage` sorted by key: the count is the number of distinct
keys up to `key_span_last` other than the one being skipped, and the iterator is left at
the first entry with a larger key. -/
theorem count_used_eq (last : Nat) (l : List KeyProc) (hs : (l.map Prod.fst).Pairwise (· ≤ ·))
    (cur : Option Nat) (hcur : ∀ c, cur = some c → c ≤ last ∧ ∀ e ∈ l, c ≤ e.1) :
    (count_used last cur l).1 =
        ((l.map Prod.fst).toFinset.filter (fun k => k ≤ last ∧ some k ≠ cur)).card ∧
      (count_used last cur l).2 = l.filter (fun e => decide (last < e.1)) := by
  induction l generalizing cur with
  | nil =>
    unfold count_used
    simp
  | cons e t ih =>
    rw [List.map_cons, List.pairwise_cons] at hs
    have hle : ∀ x ∈ t, e.1 ≤ x.1 := fun x hx => hs.1 x.1 (List.mem_map_of_mem Prod.fst hx)
    unfold count_used
    by_cases h1 : cur = some e.1
    · rw [if_pos h1]
      obtain ⟨hc1, hc2⟩ := hcur e.1 h1
      have ih2 := ih hs.2 cur (fun c hc => ⟨(hcur c hc).1,
        fun x hx => (hcur c hc).2 x (List.mem_cons_of_mem _ hx)⟩)
      refine ⟨?_, ?_⟩
      · rw [ih2.1, List.map_cons, List.toFinset_cons, Finset.filter_insert,
          if_neg (fun h => h.2 h1.symm)]
      · rw [ih2.2, List.filter_cons_of_neg (by simpa using hc1)]
    · rw [if_neg h1]
      by_cases h2 : e.1 ≤ last
      · rw [if_pos h2]
        have ih2 := ih hs.2 (some e.1) (fun c hc => by
          have hce : c = e.1 := (Option.some.inj hc).symm
          rw [hce]
          exact ⟨h2, hle⟩)
        refine ⟨?_, ?_⟩
        · simp only []
          have hset : insert e.1 ((t.map Prod.fst).toFinset.filter
                (fun k => k ≤ last ∧ some k ≠ cur)) =
              insert e.1 ((t.map Prod.fst).toFinset.filter
                (fun k => k ≤ last ∧ some k ≠ some e.1)) := by
            ext k
            simp only [Finset.mem_insert, Finset.mem_filter, List.mem_toFinset]
            constructor
            · rintro (hk | ⟨hk, hkl, -⟩)
              · exact Or.inl hk
              · by_cases hke : k = e.1
                · exact Or.inl hke
                · exact Or.inr ⟨hk, hkl, fun h => hke (Option.some.inj h)⟩
            · rintro (hk | ⟨hk, hkl, hne⟩)
              · exact Or.inl hk
              · refine Or.inr ⟨hk, hkl, fun hc => ?_⟩
                obtain ⟨x, hx, rfl⟩ := List.mem_map.1 hk
                have h3 := (hcur x.1 hc.symm).2 e (List.mem_cons_self _ _)
                have h4 := hle x hx
                apply hne
                rw [Nat.le_antisymm h3 h4]
          rw [ih2.1, List.map_cons, List.toFinset_cons, Finset.filter_insert,
            if_pos ⟨h2, fun h => h1 h.symm⟩, hset, Finset.card_insert_of_not_mem]
          simp
        · simp only []
          rw [ih2.2, List.filter_cons_of_neg (by simpa using h2)]
      · rw [if_neg h2]
        refine ⟨?_, ?_⟩
        · symm
          rw [Finset.card_eq_zero, Finset.filter_eq_empty_iff]
          intro k hk
          rw [List.mem_toFinset] at hk
          obtain ⟨x, hx, rfl⟩ := List.mem_map.1 hk
          rintro ⟨hkl, -⟩
          rcases List.mem_cons.1 hx with rfl | hx
          · exact h2 hkl
          · have := hle x hx
            omega
        · symm
          rw [List.filter_eq_self]
          intro x hx
          rcases List.mem_cons.1 hx with rfl | hx
          · simpa using h2
          · have := hle x hx
            simp only [decide_eq_true_eq]
            omega

theorem local_used_length (spans : List KeySpan) (l : List KeyProc) :
    (local_used spans l).length = spans.length := by
  induction spans generalizing l with
  | nil => rfl
  | cons s rest ih =>
    unfold local_used
    rw [List.length_cons, List.length_cons, ih]

/-- With increasing spans, a `key_usage` sorted by key and every key inside a span, the
per-span counts of the counting loop are the numbers of distinct keys inside the spans. -/
theorem local_used_eq (spans : List KeySpan) (l : List KeyProc)
    (hspans : spans.Pairwise (fun a b => a.2 < b.1)) (hvalid : ∀ s ∈ spans, s.1 ≤ s.2)
    (hs : (l.map Prod.fst).Pairwise (· ≤ ·))
    (hin : ∀ e ∈ l, ∃ s ∈ spans, s.1 ≤ e.1 ∧ e.1 ≤ s.2) :
    local_used spans l = spans.map (fun s => keys_in_span s l) := by
  induction spans generalizing l with
  | nil => rfl
  | cons s rest ih =>
    unfold local_used
    rw [List.pairwise_cons] at hspans
    have hcount := count_used_eq s.2 l hs none (fun c hc => Option.noConfusion hc)
    have hfirst : ∀ e ∈ l, s.1 ≤ e.1 := by
      intro e he
      obtain ⟨s2, hs2, h1, h2⟩ := hin e he
      rcases List.mem_cons.1 hs2 with rfl | hs2
      · exact h1
      · have h3 := hspans.1 s2 hs2
        have h4 := hvalid s (List.mem_cons_self _ _)
        omega
    rw [List.map_cons, hcount.1, hcount.2]
    congr 1
    · unfold keys_in_span
      apply congrArg
      apply Finset.filter_congr
      intro k hk
      rw [List.mem_toFinset] at hk
      obtain ⟨x, hx, rfl⟩ := List.mem_map.1 hk
      have := hfirst x hx
      constructor
      · rintro ⟨h1, -⟩
        exact ⟨this, h1⟩
      · rintro ⟨-, h1⟩
        exact ⟨h1, fun h => Option.noConfusion h⟩
    · rw [ih _ hspans.2 (fun s2 hs2 => hvalid s2 (List.mem_cons_of_mem _ hs2))
        (hs.sublist ((List.filter_sublist _).map Prod.fst))]
      · apply List.map_congr_left
        intro s2 hs2
        unfold keys_in_span
        apply congrArg
        ext k
        simp only [Finset.mem_filter, List.mem_toFinset, List.mem_map, List.mem_filter,
          decide_eq_true_eq]
        constructor
        · rintro ⟨⟨x, ⟨hx, -⟩, rfl⟩, h1⟩
          exact ⟨⟨x, hx, rfl⟩, h1⟩
        · rintro ⟨⟨x, hx, rfl⟩, h1⟩
          have h3 := hspans.1 s2 hs2
          exact ⟨⟨x, ⟨hx, by omega⟩, rfl⟩, h1⟩
      · intro e he
        rw [List.mem_filter, decide_eq_true_eq] at he
        obtain ⟨s2, hs2, h1, h2⟩ := hin e he.1
        rcases List.mem_cons.1 hs2 with rfl | hs2
        · omega
        · exact ⟨s2, hs2, h1, h2⟩

theorem local_counts_used (spans : List KeySpan) (l : List KeyProc) (requests : List Nat)
    (i : Nat) (hi : i < spans.length) :
    (local_counts spans l requests).getD i 0 = (local_used spans l).getD i 0 := by
  unfold local_counts
  rw [List.append_assoc, List.getD_append _ _ _ _ (by rw [local_used_length]; exact hi)]

theorem local_counts_requested (spans : List KeySpan) (l : List KeyProc) (requests : List Nat)
    (i : Nat) (hi : i < spans.length) :
    (local_counts spans l requests).getD (i + spans.length) 0 = requests.getD i 0 := by
  unfold local_counts
  rw [List.append_assoc, List.getD_append_right _ _ _ _ (by rw [local_used_length]; omega),
    local_used_length, List.getD_append _ _ _ _ (by rw [List.length_map, List.length_range]; omega)]
  have hidx : i + spans.length - spans.length = i := by omega
  rw [hidx, List.getD_eq_getElem?_getD, List.getElem?_map, List.getElem?_range hi]
  simp only [Option.map_some', Option.getD_some]
  by_cases hlen : i < requests.length
  · rw [if_pos hlen]
  · rw [if_neg hlen, List.getD_eq_getElem?_getD, List.getElem?_eq_none (by omega)]
    rfl

theorem local_counts_flag (spans : List KeySpan) (l : List KeyProc) (requests : List Nat) :
    (local_counts spans l requests).getD (2 * spans.length) 0 =
      if spans.length ≠ requests.length then 1 else 0 := by
  unfold local_counts
  rw [List.getD_append_right _ _ _ _ (by
    rw [List.length_append, local_used_length, List.length_map, List.length_range]; omega)]
  rw [List.length_append, local_used_length, List.length_map, List.length_range]
  have hidx : 2 * spans.length - (spans.length + spans.length) = 0 := by omega
  rw [hidx]
  rfl

theorem sum_map_le_length (l : List Nat) (f : Nat → Nat) (h : ∀ p ∈ l, f p ≤ 1) :
    (l.map f).sum ≤ l.length := by
  induction l with
  | nil => simp
  | cons a t ih =>
    rw [List.map_cons, List.sum_cons, List.length_cons]
    have h1 := h a (List.mem_cons_self _ _)
    have h2 := ih (fun p hp => h p (List.mem_cons_of_mem _ hp))
    omega

theorem sum_map_pos_iff (l : List Nat) (f : Nat → Nat) :
    (l.map f).sum ≠ 0 ↔ ∃ p ∈ l, f p ≠ 0 := by
  induction l with
  | nil => simp
  | cons a t ih =>
    rw [List.map_cons, List.sum_cons]
    constructor
    · intro h
      by_cases ha : f a = 0
      · have h2 : (t.map f).sum ≠ 0 := by omega
        obtain ⟨p, hp, hfp⟩ := ih.1 h2
        exact ⟨p, List.mem_cons_of_mem _ hp, hfp⟩
      · exact ⟨a, List.mem_cons_self _ _, ha⟩
    · rintro ⟨p, hp, hfp⟩
      rcases List.mem_cons.1 hp with rfl | hp
      · omega
      · have := ih.2 ⟨p, hp, hfp⟩
        omega

theorem all_reduce_flag (n : Nat) (hn : n < 2 ^ 64) (spans : List KeySpan)
    (usage : Nat → List KeyProc) (requests : Nat → List Nat) :
    all_reduce_sum n (fun p => local_counts spans (usage p) (requests p)) (2 * spans.length)
        ≠ 0 ↔ ∃ p, p < n ∧ (requests p).length ≠ spans.length := by
  unfold all_reduce_sum
  simp only [local_counts_flag]
  have hle := sum_map_le_length (List.range n)
    (fun p => if spans.length ≠ (requests p).length then 1 else 0)
    (fun p _ => by
      simp only []
      split <;> omega)
  rw [List.length_range] at hle
  rw [Nat.mod_eq_of_lt (by omega), sum_map_pos_iff]
  constructor
  · rintro ⟨p, hp, hf⟩
    refine ⟨p, List.mem_range.1 hp, fun h => hf ?_⟩
    rw [if_neg (fun hne => hne h.symm)]
  · rintro ⟨p, hp, hf⟩
    refine ⟨p, List.mem_range.2 hp, ?_⟩
    rw [if_pos (fun h => hf h.symm)]
    exact Nat.one_ne_zero

theorem all_reduce_used (n : Nat) (spans : List KeySpan) (usage : Nat → List KeyProc)
    (requests : Nat → List Nat) (hspans : spans.Pairwise (fun a b => a.2 < b.1))
    (hvalid : ∀ s ∈ spans, s.1 ≤ s.2)
    (hsorted : ∀ p, p < n → ((usage p).map Prod.fst).Pairwise (· ≤ ·))
    (hin : ∀ p, p < n → ∀ e ∈ usage p, ∃ s ∈ spans, s.1 ≤ e.1 ∧ e.1 ≤ s.2)
    (i : Nat) (hi : i < spans.length) :
    all_reduce_sum n (fun p => local_counts spans (usage p) (requests p)) i =
      existing_in_span n usage (spans.getD i (0, 0)) % 2 ^ 64 := by
  unfold all_reduce_sum existing_in_span
  congr 2
  apply List.map_congr_left
  intro p hp
  have hp2 := List.mem_range.1 hp
  simp only []
  rw [local_counts_used _ _ _ _ hi, local_used_eq spans (usage p) hspans hvalid (hsorted p hp2)
    (hin p hp2), List.getD_eq_getElem?_getD, List.getD_eq_getElem?_getD, List.getElem?_map,
    List.getElem?_eq_getElem hi]
  rfl

theorem all_reduce_requested (n : Nat) (spans : List KeySpan) (usage : Nat → List KeyProc)
    (requests : Nat → List Nat) (i : Nat) (hi : i < spans.length) :
    all_reduce_sum n (fun p => local_counts spans (usage p) (requests p)) (i + spans.length) =
      requested_in_span n requests i % 2 ^ 64 := by
  unfold all_reduce_sum requested_in_span
  congr 2
  apply List.map_congr_left
  intro p _
  simp only []
  rw [local_counts_requested _ _ _ _ hi]

/-- When the counters do not wrap around, `generate_new_keys_global_counts` throws exactly
for a request vector of the wrong size or a span whose free keys are fewer than the
requested ones. -/
theorem global_counts_threw_iff (n : Nat) (spans : List KeySpan) (usage : Nat → List KeyProc)
    (requests : Nat → List Nat) (hn : n < 2 ^ 64)
    (hspans : spans.Pairwise (fun a b => a.2 < b.1))
    (hvalid : ∀ s ∈ spans, s.1 ≤ s.2 ∧ s.2 < 2 ^ 64 ∧ span_capacity s < 2 ^ 64)
    (hsorted : ∀ p, p < n → ((usage p).map Prod.fst).Pairwise (· ≤ ·))
    (hin : ∀ p, p < n → ∀ e ∈ usage p, ∃ s ∈ spans, s.1 ≤ e.1 ∧ e.1 ≤ s.2)
    (hexist : ∀ s ∈ spans, existing_in_span n usage s ≤ span_capacity s)
    (hreq : ∀ i, i < spans.length → requested_in_span n requests i < 2 ^ 64) :
    (generate_new_keys_global_counts n spans usage requests).threw = true ↔
      (∃ p, p < n ∧ (requests p).length ≠ spans.length) ∨
        ∃ i, i < spans.length ∧
          span_capacity (spans.getD i (0, 0)) - existing_in_span n usage (spans.getD i (0, 0))
            < requested_in_span n requests i := by
  unfold generate_new_keys_global_counts
  simp only [Bool.or_eq_true, decide_eq_true_eq, List.any_eq_true, List.mem_range]
  rw [all_reduce_flag n hn]
  apply or_congr Iff.rfl
  apply exists_congr
  intro i
  apply and_congr_right
  intro hi
  have hmem : spans.getD i (0, 0) ∈ spans := by
    rw [List.getD_eq_getElem?_getD, List.getElem?_eq_getElem hi]
    exact List.getElem_mem hi
  rw [all_reduce_used n spans usage requests hspans (fun s hs => (hvalid s hs).1) hsorted hin i hi,
    all_reduce_requested n spans usage requests i hi]
  have h1 := hvalid _ hmem
  have h2 := hexist _ hmem
  have h3 := hreq i hi
  unfold span_available
  unfold span_capacity at h1 h2 ⊢
  rw [Nat.mod_eq_of_lt (by omega : existing_in_span n usage (spans.getD i (0, 0)) < 2 ^ 64),
    Nat.mod_eq_of_lt h3]
  omega

theorem generate_new_keys_threw_iff (n : Nat) (spans : List KeySpan)
    (cf : Nat → List Nat) (usage : Nat → List KeyProc) (requests : Nat → List Nat) (r : Nat) :
    (∃ res, generate_new_keys n spans cf usage requests r = some res ∧ res.threw = true) ↔
      (generate_new_keys_global_counts n spans usage requests).threw = true := by
  unfold generate_new_keys
  by_cases hthrow : (generate_new_keys_global_counts n spans usage requests).threw = true
  · rw [if_pos hthrow]
    exact ⟨fun _ => hthrow, fun _ => ⟨_, rfl, rfl⟩⟩
  · rw [if_neg hthrow]
    constructor
    · rintro ⟨res, hres, hthrew⟩
      split at hres
      · dsimp only at hres
        split at hres
        · simp only [Option.some.injEq] at hres
          rw [← hres] at hthrew
          exact Bool.noConfusion hthrew
        · exact Option.noConfusion hres
      · exact Option.noConfusion hres
    · intro h
      exact absurd h hthrow

theorem generate_new_keys_of_threw (n : Nat) (spans : List KeySpan)
    (cf : Nat → List Nat) (usage : Nat → List KeyProc) (requests : Nat → List Nat) (r : Nat)
    (h : (generate_new_keys_global_counts n spans usage requests).threw = true) :
    generate_new_keys n spans cf usage requests r =
      some { threw := true, m_key_usage := usage r, requested_keys := [] } := by
  unfold generate_new_keys
  rw [if_pos h]

theorem sum_card_eq_card_biUnion (m : Nat) (A : Nat → Finset Nat)
    (hdisj : ∀ p, p < m → ∀ q, q < m → p ≠ q → Disjoint (A p) (A q)) :
    ((List.range m).map (fun p => (A p).card)).sum = ((Finset.range m).biUnion A).card := by
  induction m with
  | zero => rfl
  | succ m ih =>
    rw [List.range_succ, List.map_append, List.sum_append, Finset.range_succ,
      Finset.biUnion_insert, Finset.card_union_of_disjoint,
      ih (fun p hp q hq hpq => hdisj p (by omega) q (by omega) hpq)]
    · simp only [List.map_cons, List.map_nil, List.sum_cons, List.sum_nil]
      omega
    · rw [Finset.disjoint_left]
      intro k hk hk2
      obtain ⟨q, hq, hkq⟩ := Finset.mem_biUnion.1 hk2
      have hq2 := Finset.mem_range.1 hq
      exact (Finset.disjoint_left.1 (hdisj m (by omega) q (by omega) (by omega))) hk hkq

/-- When no key is held by two ranks, the global number of keys in use in a span is at
most the number of keys of the span. -/
theorem existing_le_capacity (n : Nat) (usage : Nat → List KeyProc) (s : KeySpan)
    (hdisj : ∀ p, p < n → ∀ q, q < n → p ≠ q → ∀ x ∈ usage p, ∀ y ∈ usage q, x.1 ≠ y.1) :
    existing_in_span n usage s ≤ span_capacity s := by
  unfold existing_in_span keys_in_span
  rw [sum_card_eq_card_biUnion n
    (fun p => ((usage p).map Prod.fst).toFinset.filter (fun k => s.1 ≤ k ∧ k ≤ s.2))]
  · have hsub : (Finset.range n).biUnion
        (fun p => ((usage p).map Prod.fst).toFinset.filter (fun k => s.1 ≤ k ∧ k ≤ s.2)) ⊆
        Finset.Icc s.1 s.2 := by
      intro k hk
      obtain ⟨p, -, hkp⟩ := Finset.mem_biUnion.1 hk
      rw [Finset.mem_filter] at hkp
      exact Finset.mem_Icc.2 hkp.2
    have hcard := Finset.card_le_card hsub
    rw [Nat.card_Icc] at hcard
    unfold span_capacity
    omega
  · intro p hp q hq hpq
    rw [Finset.disjoint_left]
    intro k hk hk2
    rw [Finset.mem_filter, List.mem_toFinset] at hk hk2
    obtain ⟨x, hx, hxk⟩ := List.mem_map.1 hk.1
    obtain ⟨y, hy, hyk⟩ := List.mem_map.1 hk2.1
    exact hdisj p hp q hq hpq x hx y hy (hxk.trans hyk.symm)

/-! ## Local planning of `generate_new_keys`

On an index whose keys and chunks lie below `2 ^ 64`, local planning finds, per span, the
`candidates` of the rank. -/

theorem dropWhile_lt_eq_filter (l : List KeyProc) (b : Nat)
    (hs : (l.map Prod.fst).Pairwise (· ≤ ·)) :
    l.dropWhile (fun e => decide (e.1 < b)) = l.filter (fun e => decide (b ≤ e.1)) := by
  induction l with
  | nil => rfl
  | cons e t ih =>
    rw [List.map_cons, List.pairwise_cons] at hs
    by_cases h : e.1 < b
    · rw [List.dropWhile_cons_of_pos (by simpa using h),
        List.filter_cons_of_neg (by simpa using h)]
      exact ih hs.2
    · rw [List.dropWhile_cons_of_neg (by simpa using h)]
      symm
      rw [List.filter_eq_self]
      intro x hx
      rcases List.mem_cons.1 hx with rfl | hx
      · simpa using h
      · have := hs.1 x.1 (List.mem_map_of_mem Prod.fst hx)
        simp only [decide_eq_true_eq]
        omega

theorem dropWhile_eq_eq_filter (l : List KeyProc) (a : Nat)
    (hs : (l.map Prod.fst).Pairwise (· ≤ ·)) (hge : ∀ e ∈ l, a ≤ e.1) :
    l.dropWhile (fun e => decide (a = e.1)) = l.filter (fun e => decide (a < e.1)) := by
  induction l with
  | nil => rfl
  | cons e t ih =>
    rw [List.map_cons, List.pairwise_cons] at hs
    by_cases h : a = e.1
    · rw [List.dropWhile_cons_of_pos (by simpa using h),
        List.filter_cons_of_neg (by simp only [decide_eq_true_eq]; omega)]
      exact ih hs.2 (fun x hx => hge x (List.mem_cons_of_mem _ hx))
    · rw [List.dropWhile_cons_of_neg (by simpa using h)]
      symm
      rw [List.filter_eq_self]
      intro x hx
      have h1 := hge e (List.mem_cons_self _ _)
      rcases List.mem_cons.1 hx with rfl | hx
      · simp only [decide_eq_true_eq]; omega
      · have := hs.1 x.1 (List.mem_map_of_mem Prod.fst hx)
        simp only [decide_eq_true_eq]
        omega

/-- One step of the loop over the keys of a chunk, on a `j` sorted by key whose keys are
not below `key_iter`. -/
theorem plan_key_eq (a : Nat) (j : List KeyProc) (c : List Nat)
    (hs : (j.map Prod.fst).Pairwise (· ≤ ·)) (hge : ∀ e ∈ j, a ≤ e.1) :
    plan_key a (j, c) =
      (j.filter (fun e => decide (a < e.1)), if a ∈ j.map Prod.fst then c else c ++ [a]) := by
  unfold plan_key
  cases j with
  | nil => simp
  | cons e t =>
    simp only []
    have hs2 := hs
    rw [List.map_cons, List.pairwise_cons] at hs2
    by_cases h : a < e.1
    · rw [if_pos h]
      have hall : ∀ x ∈ e :: t, a < x.1 := by
        intro x hx
        rcases List.mem_cons.1 hx with rfl | hx
        · exact h
        · have := hs2.1 x.1 (List.mem_map_of_mem Prod.fst hx)
          omega
      have hnot : a ∉ (e :: t).map Prod.fst := by
        intro hmem
        obtain ⟨x, hx, hxa⟩ := List.mem_map.1 hmem
        have := hall x hx
        omega
      rw [if_neg hnot]
      congr 1
      symm
      rw [List.filter_eq_self]
      intro x hx
      simpa using hall x hx
    · rw [if_neg h]
      have h1 := hge e (List.mem_cons_self _ _)
      have hmem : a ∈ (e :: t).map Prod.fst := by
        rw [List.map_cons]
        have : a = e.1 := by omega
        rw [this]
        exact List.mem_cons_self _ _
      rw [if_pos hmem, dropWhile_eq_eq_filter _ a hs hge]

/-- The loop over the keys `a .. a + cnt - 1` of a chunk, started with `j` at the first
entry of the sorted `l` whose key is not below `a`: the free keys are appended, and `j` is
left at the first entry whose key is not below `a + cnt`. -/
theorem plan_key_foldl (l : List KeyProc) (hs : (l.map Prod.fst).Pairwise (· ≤ ·))
    (cnt : Nat) : ∀ (a : Nat) (c : List Nat),
    (List.range' a cnt).foldl (fun state key_iter => plan_key key_iter state)
        (l.filter (fun e => decide (a ≤ e.1)), c) =
      (l.filter (fun e => decide (a + cnt ≤ e.1)),
        c ++ (List.range' a cnt).filter (fun k => !decide (k ∈ l.map Prod.fst))) := by
  induction cnt with
  | zero =>
    intro a c
    simp
  | succ cnt ih =>
    intro a c
    have hsub : ((l.filter (fun e => decide (a ≤ e.1))).map Prod.fst).Pairwise (· ≤ ·) :=
      hs.sublist ((List.filter_sublist _).map Prod.fst)
    have hge : ∀ e ∈ l.filter (fun e => decide (a ≤ e.1)), a ≤ e.1 := by
      intro e he
      simpa using (List.mem_filter.1 he).2
    have hff : (l.filter (fun e => decide (a ≤ e.1))).filter (fun e => decide (a < e.1)) =
        l.filter (fun e => decide (a + 1 ≤ e.1)) := by
      rw [List.filter_filter]
      apply List.filter_congr
      intro x _
      by_cases hx : a < x.1
      · have h1 : a ≤ x.1 := by omega
        have h2 : a + 1 ≤ x.1 := by omega
        simp [hx, h1, h2]
      · have h2 : ¬ a + 1 ≤ x.1 := by omega
        simp [hx, h2]
    have hmem : a ∈ (l.filter (fun e => decide (a ≤ e.1))).map Prod.fst ↔
        a ∈ l.map Prod.fst := by
      simp only [List.mem_map, List.mem_filter, decide_eq_true_eq]
      constructor
      · rintro ⟨x, ⟨hx, -⟩, hxa⟩
        exact ⟨x, hx, hxa⟩
      · rintro ⟨x, hx, hxa⟩
        exact ⟨x, ⟨hx, by omega⟩, hxa⟩
    rw [List.range'_succ, List.foldl_cons, plan_key_eq a _ c hsub hge, hff, ih (a + 1)]
    have hadd : a + 1 + cnt = a + (cnt + 1) := by omega
    rw [hadd]
    congr 1
    by_cases hin : a ∈ l.map Prod.fst
    · rw [if_pos (hmem.2 hin), List.filter_cons_of_neg (by simpa using hin)]
    · rw [if_neg (fun h => hin (hmem.1 h)), List.filter_cons_of_pos (by simpa using hin),
        List.append_assoc]
      rfl

theorem filter_ge_filter_ge (l : List KeyProc) (a b : Nat) (hab : a ≤ b) :
    (l.filter (fun e => decide (a ≤ e.1))).filter (fun e => decide (b ≤ e.1)) =
      l.filter (fun e => decide (b ≤ e.1)) := by
  rw [List.filter_filter]
  apply List.filter_congr
  intro x _
  by_cases hx : b ≤ x.1
  · have h1 : a ≤ x.1 := by omega
    simp [hx, h1]
  · simp [hx]

/-- One chunk of local planning that lies below the largest key: `j` is moved to the first
entry whose key is not below `key_begin`, the free keys of the chunk are appended. -/
theorem plan_chunk_eq (l : List KeyProc) (hs : (l.map Prod.fst).Pairwise (· ≤ ·))
    (kb gmax B : Nat) (c : List Nat) (hB : B ≤ kb) (hkb : kb ≤ gmax)
    (hmax : gmax + 4096 < 2 ^ 64) :
    plan_chunk kb gmax (l.filter (fun e => decide (B ≤ e.1)), c) =
      some (l.filter (fun e => decide (min (kb + 4095) gmax + 1 ≤ e.1)),
        c ++ (List.range' kb (min (kb + 4095) gmax + 1 - kb)).filter
          (fun k => !decide (k ∈ l.map Prod.fst))) := by
  unfold plan_chunk
  have hkl : (kb + DISTRIBUTED_INDEX_CHUNK_SIZE - 1) % 2 ^ 64 = kb + 4095 := by
    rw [chunk_size_eq]
    exact Nat.mod_eq_of_lt (by omega)
  simp only [hkl]
  have hsB : ((l.filter (fun e => decide (B ≤ e.1))).map Prod.fst).Pairwise (· ≤ ·) :=
    hs.sublist ((List.filter_sublist _).map Prod.fst)
  rw [if_neg (by omega), lower_bound_eq _ _ hsB, drop_takeWhile_length,
    dropWhile_lt_eq_filter _ _ hsB, filter_ge_filter_ge _ _ _ hB, plan_key_foldl l hs]
  have hadd : kb + (min (kb + 4095) gmax + 1 - kb) = min (kb + 4095) gmax + 1 := by omega
  rw [hadd]

theorem chunk_residue (n kb k : Nat) (gmax : Nat) (hkb : kb ≤ gmax) :
    ((kb ≤ k ∧ k ≤ min (kb + 4095) gmax) ∨
      (kb + n * 4096 ≤ k ∧ k ≤ gmax ∧ (k - (kb + n * 4096)) / 4096 % n = 0)) ↔
      (kb ≤ k ∧ k ≤ gmax ∧ (k - kb) / 4096 % n = 0) := by
  constructor
  · rintro (⟨h1, h2⟩ | ⟨h1, h2, h3⟩)
    · have hq : (k - kb) / 4096 = 0 := by omega
      rw [hq]
      exact ⟨h1, by omega, Nat.zero_mod n⟩
    · have hle : kb ≤ k := le_trans (Nat.le_add_right _ _) h1
      refine ⟨hle, h2, ?_⟩
      have hd : k - kb = (k - (kb + n * 4096)) + n * 4096 := by omega
      rw [hd, Nat.add_mul_div_right _ _ (by decide : 0 < 4096), Nat.add_mod_right]
      exact h3
  · rintro ⟨h1, h2, h3⟩
    by_cases hq : (k - kb) / 4096 = 0
    · left
      have : k - kb < 4096 := by omega
      exact ⟨h1, by omega⟩
    · right
      have hge : n ≤ (k - kb) / 4096 :=
        Nat.le_of_dvd (Nat.pos_of_ne_zero hq) (Nat.dvd_of_mod_eq_zero h3)
      have hmul : (k - kb) / 4096 * 4096 ≤ k - kb := Nat.div_mul_le_self _ _
      have hmul2 : n * 4096 ≤ (k - kb) / 4096 * 4096 := Nat.mul_le_mul_right _ hge
      have hk : kb + n * 4096 ≤ k := by omega
      refine ⟨hk, h2, ?_⟩
      have hd : k - kb = (k - (kb + n * 4096)) + n * 4096 := by omega
      rw [hd, Nat.add_mul_div_right _ _ (by decide : 0 < 4096), Nat.add_mod_right] at h3
      exact h3

/-- The loop over the chunks of local planning, below the largest key: the keys appended
to `contrib_keys` are, in increasing order, the free keys up to `key_global_max` of the
chunks `key_begin + m * chunk_inc`. -/
theorem plan_chunks_eq (n : Nat) (hn : 1 ≤ n) (l : List KeyProc)
    (hs : (l.map Prod.fst).Pairwise (· ≤ ·)) (gmax : Nat)
    (hmax : gmax + (n + 1) * 4096 < 2 ^ 64) :
    ∀ (fuel kb B : Nat) (c : List Nat) (res : List KeyProc × List Nat), B ≤ kb →
      plan_chunks gmax (n * 4096) fuel kb (l.filter (fun e => decide (B ≤ e.1)), c) = some res →
      ∃ B2 added, B ≤ B2 ∧ B2 ≤ max B (gmax + 1) ∧
        res = (l.filter (fun e => decide (B2 ≤ e.1)), c ++ added) ∧
        added.Pairwise (· < ·) ∧
        ∀ k, k ∈ added ↔
          (kb ≤ k ∧ k ≤ gmax ∧ (k - kb) / 4096 % n = 0) ∧ k ∉ l.map Prod.fst := by
  intro fuel
  induction fuel with
  | zero =>
    intro kb B c res _ h
    unfold plan_chunks at h
    exact Option.noConfusion h
  | succ fuel ih =>
    intro kb B c res hB h
    unfold plan_chunks at h
    have h4096 : 4096 ≤ n * 4096 := Nat.le_mul_of_pos_left _ hn
    have hexp : (n + 1) * 4096 = n * 4096 + 4096 := by ring
    by_cases hkb : kb ≤ gmax
    · rw [if_pos hkb, plan_chunk_eq l hs kb gmax B c hB hkb (by omega), Option.some_bind,
        Nat.mod_eq_of_lt (by omega)] at h
      obtain ⟨B2, added, h1, h2, h3, h4, h5⟩ := ih (kb + n * 4096) _ _ res (by omega) h
      refine ⟨B2, (List.range' kb (min (kb + 4095) gmax + 1 - kb)).filter
          (fun k => !decide (k ∈ l.map Prod.fst)) ++ added, by omega, by omega, ?_, ?_, ?_⟩
      · rw [h3, List.append_assoc]
      · rw [List.pairwise_append]
        refine ⟨(List.pairwise_lt_range' kb _).sublist (List.filter_sublist _), h4, ?_⟩
        intro a ha b hb
        have ha2 := (List.mem_range'_1.1 (List.mem_filter.1 ha).1)
        have hb2 := ((h5 b).1 hb).1.1
        omega
      · intro k
        rw [List.mem_append, h5 k, List.mem_filter, List.mem_range'_1,
          ← chunk_residue n kb k gmax hkb]
        simp only [Bool.not_eq_true', decide_eq_false_iff_not]
        constructor
        · rintro (⟨⟨h6, h7⟩, h8⟩ | ⟨h6, h8⟩)
          · exact ⟨Or.inl ⟨h6, by omega⟩, h8⟩
          · exact ⟨Or.inr h6, h8⟩
        · rintro ⟨(⟨h6, h7⟩ | h6), h8⟩
          · exact Or.inl ⟨⟨h6, by omega⟩, h8⟩
          · exact Or.inr ⟨h6, h8⟩
    · rw [if_neg hkb, Option.some.injEq] at h
      refine ⟨B, [], Nat.le_refl _, Nat.le_max_left _ _, ?_, List.Pairwise.nil, ?_⟩
      · rw [← h, List.append_nil]
      · intro k
        constructor
        · intro hk
          exact absurd hk (List.not_mem_nil _)
        · rintro ⟨⟨h6, h7, -⟩, -⟩
          omega

theorem eq_of_pairwise_lt (a b : List Nat) (ha : a.Pairwise (· < ·)) (hb : b.Pairwise (· < ·))
    (hmem : ∀ k, k ∈ a ↔ k ∈ b) : a = b :=
  List.eq_of_perm_of_sorted
    ((List.perm_ext_iff_of_nodup (ha.imp (fun h => Nat.ne_of_lt h))
      (hb.imp (fun h => Nat.ne_of_lt h))).2 hmem) ha hb

theorem shift_chunk (first c : Nat) :
    (first + c * 4096) >>> DISTRIBUTED_INDEX_CHUNK_BITS =
      (first >>> DISTRIBUTED_INDEX_CHUNK_BITS) + c := by
  have hb : DISTRIBUTED_INDEX_CHUNK_BITS = 12 := by decide
  rw [hb, Nat.shiftRight_eq_div_pow, Nat.shiftRight_eq_div_pow]
  exact Nat.add_mul_div_right _ _ (by decide)

/-- The search loop of the constructor, for a span whose first `m_comm_size` chunks lie
below `2 ^ 64`: it ends at the chunk of the rank, one of the first `m_comm_size` chunks. -/
theorem chunk_first_loop_spec (n p first : Nat) (hp : p < n)
    (hfirst : first + n * 4096 < 2 ^ 64) :
    ∀ (fuel c0 c : Nat),
      c0 ≤ (p + n - (first >>> DISTRIBUTED_INDEX_CHUNK_BITS) % n) % n →
      chunk_first_loop n (p : Int) first fuel c0 = some c →
      c < n ∧ ((first >>> DISTRIBUTED_INDEX_CHUNK_BITS) + c) % n = p := by
  have hn : 0 < n := by omega
  have hstar : ((first >>> DISTRIBUTED_INDEX_CHUNK_BITS)
      + (p + n - (first >>> DISTRIBUTED_INDEX_CHUNK_BITS) % n) % n) % n = p := by
    have hr := Nat.mod_lt (first >>> DISTRIBUTED_INDEX_CHUNK_BITS) hn
    have hdiv := Nat.mod_add_div (first >>> DISTRIBUTED_INDEX_CHUNK_BITS) n
    have hsum : (first >>> DISTRIBUTED_INDEX_CHUNK_BITS)
        + (p + n - (first >>> DISTRIBUTED_INDEX_CHUNK_BITS) % n) =
        p + n * ((first >>> DISTRIBUTED_INDEX_CHUNK_BITS) / n + 1) := by
      rw [Nat.mul_add, Nat.mul_one]
      omega
    rw [Nat.add_mod_mod, hsum, Nat.add_mul_mod_self_left]
    exact Nat.mod_eq_of_lt hp
  have hlt := Nat.mod_lt (p + n - (first >>> DISTRIBUTED_INDEX_CHUNK_BITS) % n) hn
  intro fuel
  induction fuel with
  | zero =>
    intro c0 c _ h
    unfold chunk_first_loop at h
    exact Option.noConfusion h
  | succ fuel ih =>
    intro c0 c hc0 h
    unfold chunk_first_loop at h
    have hmul : c0 * 4096 < n * 4096 := by omega
    rw [chunk_size_eq, Nat.mod_eq_of_lt (by omega)] at h
    by_cases hown : to_which_proc n (first + c0 * 4096) = (p : Int)
    · rw [if_neg (fun hne => hne hown.symm), Option.some.injEq] at h
      rw [to_which_proc_eq_iff, shift_chunk] at hown
      rw [← h]
      exact ⟨by omega, hown⟩
    · rw [if_pos (fun heq => hown heq.symm)] at h
      refine ih (c0 + 1) c ?_ h
      have hne : c0 ≠ (p + n - (first >>> DISTRIBUTED_INDEX_CHUNK_BITS) % n) % n := by
        intro heq
        apply hown
        rw [to_which_proc_eq_iff, shift_chunk, heq]
        exact hstar
      omega

theorem chunk_first_spec (n p : Nat) (hp : p < n) :
    ∀ (spans : List KeySpan) (cf : List Nat),
      (∀ s ∈ spans, s.1 + n * 4096 < 2 ^ 64) →
      chunk_first n (p : Int) spans = some cf →
      ∀ i, i < spans.length →
        cf.getD i 0 < n ∧
          (((spans.getD i (0, 0)).1 >>> DISTRIBUTED_INDEX_CHUNK_BITS) + cf.getD i 0) % n = p := by
  intro spans
  induction spans with
  | nil =>
    intro cf _ _ i hi
    exact absurd hi (Nat.not_lt_zero _)
  | cons s rest ih =>
    intro cf hfirst h i hi
    unfold chunk_first at h
    obtain ⟨c, hc, h2⟩ := Option.bind_eq_some.1 h
    obtain ⟨cf2, hcf2, h3⟩ := Option.map_eq_some'.1 h2
    rw [← h3]
    cases i with
    | zero =>
      exact chunk_first_loop_spec n p s.1 hp (hfirst s (List.mem_cons_self _ _)) _ 0 c
        (Nat.zero_le _) hc
    | succ i =>
      exact ih cf2 (fun s2 hs2 => hfirst s2 (List.mem_cons_of_mem _ hs2)) hcf2 i
        (Nat.lt_of_succ_lt_succ hi)

/-- Keys of the chunks `key_begin + m * chunk_inc` of a rank, in the terms of
`chunk_owner`. -/
theorem chunk_owner_iff (n p : Nat) (hp : p < n) (span : KeySpan) (c k : Nat) (hc : c < n)
    (hown : ((span.1 >>> DISTRIBUTED_INDEX_CHUNK_BITS) + c) % n = p) :
    (span.1 + c * 4096 ≤ k ∧ (k - (span.1 + c * 4096)) / 4096 % n = 0) ↔
      (span.1 ≤ k ∧ chunk_owner n span k = p) := by
  unfold chunk_owner
  rw [chunk_size_eq]
  constructor
  · rintro ⟨h1, h2⟩
    have hle : span.1 ≤ k := le_trans (Nat.le_add_right _ _) h1
    refine ⟨hle, ?_⟩
    have hd : k - span.1 = (k - (span.1 + c * 4096)) + c * 4096 := by omega
    rw [hd, Nat.add_mul_div_right _ _ (by decide : 0 < 4096)]
    have hre : (span.1 >>> DISTRIBUTED_INDEX_CHUNK_BITS)
        + ((k - (span.1 + c * 4096)) / 4096 + c) =
        ((span.1 >>> DISTRIBUTED_INDEX_CHUNK_BITS) + c) + (k - (span.1 + c * 4096)) / 4096 := by
      omega
    rw [hre, Nat.add_mod, h2, hown, Nat.add_zero, Nat.mod_eq_of_lt hp]
  · rintro ⟨h1, h2⟩
    have hmodeq : (k - span.1) / 4096 % n = c % n := by
      have h3 : ((span.1 >>> DISTRIBUTED_INDEX_CHUNK_BITS) + (k - span.1) / 4096) % n =
          ((span.1 >>> DISTRIBUTED_INDEX_CHUNK_BITS) + c) % n := by rw [h2, hown]
      exact Nat.ModEq.add_left_cancel' _ h3
    have hcle : c ≤ (k - span.1) / 4096 := by
      rw [Nat.mod_eq_of_lt hc] at hmodeq
      rw [← hmodeq]
      exact Nat.mod_le _ _
    have hmul : (k - span.1) / 4096 * 4096 ≤ k - span.1 := Nat.div_mul_le_self _ _
    have hmul2 : c * 4096 ≤ (k - span.1) / 4096 * 4096 := Nat.mul_le_mul_right _ hcle
    have hk : span.1 + c * 4096 ≤ k := by omega
    refine ⟨hk, ?_⟩
    have hd : k - span.1 = (k - (span.1 + c * 4096)) + c * 4096 := by omega
    rw [hd, Nat.add_mul_div_right _ _ (by decide : 0 < 4096)] at hmodeq
    have := Nat.sub_mod_eq_zero_of_mod_eq hmodeq
    rwa [Nat.add_sub_cancel] at this

theorem candidates_pairwise (n : Nat) (span : KeySpan) (gmax : Nat) (l : List KeyProc)
    (p : Nat) : (candidates n span gmax l p).Pairwise (· < ·) :=
  (List.pairwise_lt_range' _ _).sublist (List.filter_sublist _)

theorem mem_candidates (n : Nat) (span : KeySpan) (gmax : Nat) (l : List KeyProc)
    (p k : Nat) :
    k ∈ candidates n span gmax l p ↔
      (span.1 ≤ k ∧ k ≤ gmax ∧ chunk_owner n span k = p) ∧ k ∉ l.map Prod.fst := by
  unfold candidates
  rw [List.mem_filter, List.mem_range'_1]
  simp only [Bool.and_eq_true, decide_eq_true_eq, Bool.not_eq_true', decide_eq_false_iff_not]
  constructor
  · rintro ⟨⟨h1, h2⟩, h3, h4⟩
    exact ⟨⟨h1, by omega, h3⟩, h4⟩
  · rintro ⟨⟨h1, h2, h3⟩, h4⟩
    exact ⟨⟨h1, by omega⟩, h3, h4⟩

/-- With fewer than `2 ^ 19` ranks the product `m_comm_size * DISTRIBUTED_INDEX_CHUNK_SIZE`
fits an `int`. -/
theorem chunk_inc_eq (n : Nat) (hranks : n < 2 ^ 19) : chunk_inc n = n * 4096 := by
  unfold chunk_inc
  rw [chunk_size_eq]
  omega

/-- Span `i` of local planning, when the keys up to `key_global_max` and the chunks walked
lie below `2 ^ 64`: the keys found are the candidates of the rank, the last
`min requests[i] this_contrib` of them are kept. -/
theorem plan_span_eq (n p : Nat) (hp : p < n) (spans : List KeySpan) (cf E R req : List Nat)
    (l : List KeyProc) (hs : (l.map Prod.fst).Pairwise (· ≤ ·)) (i : Nat) (st res : Planning)
    (B gmax : Nat) (hj : st.j = l.filter (fun e => decide (B ≤ e.1)))
    (hg : ((spans.getD i (0, 0)).1 + (E.getD i 0 + R.getD i 0) % 2 ^ 64 + 2 ^ 64 - 1) % 2 ^ 64
      = gmax)
    (hmax : gmax + (n + 1) * 4096 < 2 ^ 64) (hranks : n < 2 ^ 19)
    (hfirst : (spans.getD i (0, 0)).1 ≤ gmax + 1)
    (hB : B ≤ (spans.getD i (0, 0)).1)
    (hcf : cf.getD i 0 < n ∧
      (((spans.getD i (0, 0)).1 >>> DISTRIBUTED_INDEX_CHUNK_BITS) + cf.getD i 0) % n = p)
    (h : plan_span n spans cf E R req i st = some res) :
    ∃ B2, B ≤ B2 ∧ B2 ≤ max B (gmax + 1) ∧
      res =
        { j := l.filter (fun e => decide (B2 ≤ e.1)),
          new_request := st.new_request ++
            [to_long ((req.getD i 0 : Int)
              - ((candidates n (spans.getD i (0, 0)) gmax l p).length : Int))],
          requested_keys := st.requested_keys ++
            (candidates n (spans.getD i (0, 0)) gmax l p).drop
              ((candidates n (spans.getD i (0, 0)) gmax l p).length
                - min (req.getD i 0) (candidates n (spans.getD i (0, 0)) gmax l p).length),
          contrib_keys := st.contrib_keys ++
            (candidates n (spans.getD i (0, 0)) gmax l p).take
              ((candidates n (spans.getD i (0, 0)) gmax l p).length
                - min (req.getD i 0) (candidates n (spans.getD i (0, 0)) gmax l p).length) } := by
  have hn : 1 ≤ n := by omega
  have hexp : (n + 1) * 4096 = n * 4096 + 4096 := by ring
  have hcmul : cf.getD i 0 * 4096 < n * 4096 := by omega
  unfold plan_span at h
  simp only [] at h
  rw [hg, chunk_size_eq, chunk_inc_eq n hranks,
    Nat.mod_eq_of_lt (by omega : (spans.getD i (0, 0)).1 + cf.getD i 0 * 4096 < 2 ^ 64), hj] at h
  obtain ⟨walked, hw, hres⟩ := Option.map_eq_some'.1 h
  obtain ⟨B2, added, h1, h2, h3, h4, h5⟩ :=
    plan_chunks_eq n hn l hs gmax hmax _ _ B _ walked (by omega) hw
  have hadded : added = candidates n (spans.getD i (0, 0)) gmax l p := by
    apply eq_of_pairwise_lt _ _ h4 (candidates_pairwise _ _ _ _ _)
    intro k
    rw [h5, mem_candidates]
    have hiff := chunk_owner_iff n p hp (spans.getD i (0, 0)) (cf.getD i 0) k hcf.1 hcf.2
    constructor
    · rintro ⟨⟨h6, h7, h8⟩, h9⟩
      have := hiff.1 ⟨h6, h8⟩
      exact ⟨⟨this.1, h7, this.2⟩, h9⟩
    · rintro ⟨⟨h6, h7, h8⟩, h9⟩
      have := hiff.2 ⟨h6, h8⟩
      exact ⟨⟨this.1, h7, this.2⟩, h9⟩
  rw [hadded] at h3
  refine ⟨B2, h1, h2, ?_⟩
  rw [← hres, h3]
  simp only [List.length_append, Nat.add_sub_cancel_left]
  have hidx : st.contrib_keys.length + (candidates n (spans.getD i (0, 0)) gmax l p).length
      - min (req.getD i 0) (candidates n (spans.getD i (0, 0)) gmax l p).length =
      st.contrib_keys.length + ((candidates n (spans.getD i (0, 0)) gmax l p).length
      - min (req.getD i 0) (candidates n (spans.getD i (0, 0)) gmax l p).length) := by
    omega
  rw [hidx, List.drop_append, List.take_append]

/-- When `key_global_max` is the largest key, the loop over the chunks does not end. -/
theorem plan_chunks_none (inc : Nat) :
    ∀ (fuel kb : Nat) (st : List KeyProc × List Nat), kb < 2 ^ 64 →
      plan_chunks (2 ^ 64 - 1) inc fuel kb st = none := by
  intro fuel
  induction fuel with
  | zero =>
    intro kb st _
    rfl
  | succ fuel ih =>
    intro kb st hkb
    unfold plan_chunks
    rw [if_pos (by omega)]
    cases hpc : plan_chunk kb (2 ^ 64 - 1) st with
    | none => rfl
    | some x =>
      rw [Option.some_bind]
      exact ih _ x (Nat.mod_lt _ (by decide))

theorem plan_span_none (n : Nat) (spans : List KeySpan) (cf E R req : List Nat) (i : Nat)
    (st : Planning) (hg : key_global_max spans E R i = 2 ^ 64 - 1) :
    plan_span n spans cf E R req i st = none := by
  unfold key_global_max at hg
  unfold plan_span
  simp only []
  rw [hg, plan_chunks_none _ _ _ _ (Nat.mod_lt _ (by decide))]
  rfl

theorem plan_spans_none (n : Nat) (spans : List KeySpan) (cf E R req : List Nat) (i : Nat)
    (hg : key_global_max spans E R i = 2 ^ 64 - 1) :
    ∀ (is : List Nat) (st : Planning), i ∈ is → plan_spans n spans cf E R req is st = none := by
  intro is
  induction is with
  | nil =>
    intro st hi
    exact absurd hi (List.not_mem_nil _)
  | cons i2 rest ih =>
    intro st hi
    unfold plan_spans
    cases hps : plan_span n spans cf E R req i2 st with
    | none => rfl
    | some x =>
      rw [Option.some_bind]
      rcases List.mem_cons.1 hi with rfl | hi
      · rw [plan_span_none n spans cf E R req i st hg] at hps
        exact Option.noConfusion hps
      · exact ih x hi

/-- The loop over the spans of local planning, for spans whose walked keys lie below
`2 ^ 64` and increase from span to span: per span, the candidates of the rank are found,
the last ones are kept and the others are left in `contrib_keys`. -/
theorem plan_spans_eq (n p : Nat) (hp : p < n) (spans : List KeySpan) (cf E R req : List Nat)
    (l : List KeyProc) (hs : (l.map Prod.fst).Pairwise (· ≤ ·))
    (hcf : ∀ i, i < spans.length → cf.getD i 0 < n ∧
      (((spans.getD i (0, 0)).1 >>> DISTRIBUTED_INDEX_CHUNK_BITS) + cf.getD i 0) % n = p) :
    ∀ (is : List Nat) (st res : Planning) (B : Nat),
      st.j = l.filter (fun e => decide (B ≤ e.1)) →
      (∀ i ∈ is, i < spans.length ∧ key_global_max spans E R i + (n + 1) * 4096 < 2 ^ 64 ∧
        (spans.getD i (0, 0)).1 ≤ key_global_max spans E R i + 1 ∧
        B ≤ (spans.getD i (0, 0)).1 ∧ n < 2 ^ 19) →
      is.Pairwise (fun i i2 => key_global_max spans E R i + 1 ≤ (spans.getD i2 (0, 0)).1) →
      plan_spans n spans cf E R req is st = some res →
      res.new_request = st.new_request ++ is.map (fun i => to_long ((req.getD i 0 : Int)
          - ((candidates n (spans.getD i (0, 0)) (key_global_max spans E R i) l p).length : Int))) ∧
        res.requested_keys = st.requested_keys ++ is.flatMap (fun i => kept_keys (req.getD i 0)
          (candidates n (spans.getD i (0, 0)) (key_global_max spans E R i) l p)) ∧
        res.contrib_keys = st.contrib_keys ++ is.flatMap (fun i => surplus_keys (req.getD i 0)
          (candidates n (spans.getD i (0, 0)) (key_global_max spans E R i) l p)) := by
  intro is
  induction is with
  | nil =>
    intro st res B _ _ _ h
    unfold plan_spans at h
    rw [Option.some.injEq] at h
    rw [← h]
    simp
  | cons i rest ih =>
    intro st res B hj hgood hchain h
    unfold plan_spans at h
    obtain ⟨st1, hst1, h2⟩ := Option.bind_eq_some.1 h
    obtain ⟨hi, hmax, hfirst, hB⟩ := hgood i (List.mem_cons_self _ _)
    obtain ⟨B2, hB1, hB2, hres1⟩ := plan_span_eq n p hp spans cf E R req l hs i st st1 B
      (key_global_max spans E R i) hj rfl hmax hB.2 hfirst hB.1 (hcf i hi) hst1
    rw [List.pairwise_cons] at hchain
    have hrest := ih st1 res B2 (by rw [hres1]) (fun i2 hi2 => by
      obtain ⟨h3, h4, h5, h6⟩ := hgood i2 (List.mem_cons_of_mem _ hi2)
      have h7 := hchain.1 i2 hi2
      exact ⟨h3, h4, h5, by omega⟩) hchain.2 h2
    rw [hrest.1, hrest.2.1, hrest.2.2, hres1]
    refine ⟨?_, ?_, ?_⟩
    · simp only [List.map_cons, List.append_assoc, List.singleton_append]
    · simp only [List.flatMap_cons, List.append_assoc]
      rfl
    · simp only [List.flatMap_cons, List.append_assoc]
      rfl

/-! ### The global counts seen by local planning -/

theorem getD_map_range (m : Nat) (f : Nat → Nat) (i : Nat) (hi : i < m) :
    ((List.range m).map f).getD i 0 = f i := by
  rw [List.getD_eq_getElem?_getD, List.getElem?_map, List.getElem?_range hi]
  rfl

theorem getD_mem (spans : List KeySpan) (i : Nat) (hi : i < spans.length) :
    spans.getD i (0, 0) ∈ spans := by
  rw [List.getD_eq_getElem?_getD, List.getElem?_eq_getElem hi]
  exact List.getElem_mem hi

theorem getD_lt_getD (spans : List KeySpan) (hspans : spans.Pairwise (fun a b => a.2 < b.1))
    (i j : Nat) (hij : i < j) (hj : j < spans.length) :
    (spans.getD i (0, 0)).2 < (spans.getD j (0, 0)).1 := by
  have hi : i < spans.length := by omega
  rw [List.getD_eq_getElem?_getD, List.getElem?_eq_getElem hi, List.getD_eq_getElem?_getD,
    List.getElem?_eq_getElem hj]
  exact List.pairwise_iff_getElem.1 hspans i j hi hj hij

/-- On a consistent index, a call that does not throw has counted, per span, the keys in
use, and the requested keys fit into the rest of the span. -/
theorem global_counts_good (n : Nat) (spans : List KeySpan) (usage : Nat → List KeyProc)
    (requests : Nat → List Nat) (hspans : spans.Pairwise (fun a b => a.2 < b.1))
    (hvalid : ∀ s ∈ spans, s.1 ≤ s.2 ∧ s.2 + 1 < 2 ^ 64)
    (hsorted : ∀ p, p < n → ((usage p).map Prod.fst).Pairwise (· ≤ ·))
    (hin : ∀ p, p < n → ∀ e ∈ usage p, ∃ s ∈ spans, s.1 ≤ e.1 ∧ e.1 ≤ s.2)
    (hexist : ∀ s ∈ spans, existing_in_span n usage s ≤ span_capacity s)
    (hthrew : (generate_new_keys_global_counts n spans usage requests).threw = false)
    (i : Nat) (hi : i < spans.length) :
    (generate_new_keys_global_counts n spans usage requests).existing_global_sum.getD i 0 =
        existing_in_span n usage (spans.getD i (0, 0)) ∧
      (generate_new_keys_global_counts n spans usage requests).requests_global_sum.getD i 0 =
        requested_in_span n requests i % 2 ^ 64 ∧
      existing_in_span n usage (spans.getD i (0, 0)) + requested_in_span n requests i % 2 ^ 64 ≤
        span_capacity (spans.getD i (0, 0)) := by
  have hmem := getD_mem spans i hi
  have h1 := hvalid _ hmem
  have h2 := hexist _ hmem
  unfold generate_new_keys_global_counts at hthrew ⊢
  simp only [Bool.or_eq_false_iff, List.any_eq_false, List.mem_range, decide_eq_true_eq] at hthrew
  have h3 := hthrew.2 i hi
  rw [all_reduce_used n spans usage requests hspans (fun s hs => (hvalid s hs).1) hsorted hin i hi,
    all_reduce_requested n spans usage requests i hi] at h3
  simp only []
  rw [getD_map_range _ _ _ hi, getD_map_range _ _ _ hi,
    all_reduce_used n spans usage requests hspans (fun s hs => (hvalid s hs).1) hsorted hin i hi,
    all_reduce_requested n spans usage requests i hi]
  unfold span_available at h3
  unfold span_capacity at h2 ⊢
  have h4 : existing_in_span n usage (spans.getD i (0, 0)) % 2 ^ 64 =
      existing_in_span n usage (spans.getD i (0, 0)) := Nat.mod_eq_of_lt (by omega)
  rw [h4] at h3 ⊢
  refine ⟨rfl, rfl, ?_⟩
  omega

/-- On a consistent index whose spans end below `2 ^ 64 - 1`, after a call that does not
throw, `key_global_max` is the largest key (and local planning does not end), or it is the
first key of the span plus the number of keys in use and requested, minus one. -/
theorem key_global_max_good (n : Nat) (spans : List KeySpan) (usage : Nat → List KeyProc)
    (requests : Nat → List Nat) (hspans : spans.Pairwise (fun a b => a.2 < b.1))
    (hvalid : ∀ s ∈ spans, s.1 ≤ s.2 ∧ s.2 + 1 < 2 ^ 64)
    (hsorted : ∀ p, p < n → ((usage p).map Prod.fst).Pairwise (· ≤ ·))
    (hin : ∀ p, p < n → ∀ e ∈ usage p, ∃ s ∈ spans, s.1 ≤ e.1 ∧ e.1 ≤ s.2)
    (hexist : ∀ s ∈ spans, existing_in_span n usage s ≤ span_capacity s)
    (hthrew : (generate_new_keys_global_counts n spans usage requests).threw = false)
    (i : Nat) (hi : i < spans.length) :
    key_global_max spans
        (generate_new_keys_global_counts n spans usage requests).existing_global_sum
        (generate_new_keys_global_counts n spans usage requests).requests_global_sum i
        = 2 ^ 64 - 1 ∨
      key_global_max spans
        (generate_new_keys_global_counts n spans usage requests).existing_global_sum
        (generate_new_keys_global_counts n spans usage requests).requests_global_sum i + 1 =
        (spans.getD i (0, 0)).1 + (existing_in_span n usage (spans.getD i (0, 0))
          + requested_in_span n requests i % 2 ^ 64) := by
  obtain ⟨h1, h2, h3⟩ := global_counts_good n spans usage requests hspans hvalid hsorted hin
    hexist hthrew i hi
  have h4 := hvalid _ (getD_mem spans i hi)
  unfold key_global_max
  rw [h1, h2]
  unfold span_capacity at h3
  omega

theorem valid_weaken (n : Nat) (spans : List KeySpan)
    (hvalid : ∀ s ∈ spans, s.1 ≤ s.2 ∧ s.2 + (n + 1) * 4096 < 2 ^ 64 ∧ n < 2 ^ 19) :
    ∀ s ∈ spans, s.1 ≤ s.2 ∧ s.2 + 1 < 2 ^ 64 := by
  intro s hs
  have h1 := hvalid s hs
  have h2 : 4096 ≤ (n + 1) * 4096 := Nat.le_mul_of_pos_left _ (Nat.succ_pos n)
  exact ⟨h1.1, by omega⟩

/-- When the local planning of some rank ends, `key_global_max` of every span is the first
key of the span plus the number of keys in use and requested, minus one. -/
theorem key_global_max_of_planning (n : Nat) (spans : List KeySpan) (cf : Nat → List Nat)
    (usage : Nat → List KeyProc) (requests : Nat → List Nat)
    (hspans : spans.Pairwise (fun a b => a.2 < b.1))
    (hvalid : ∀ s ∈ spans, s.1 ≤ s.2 ∧ s.2 + (n + 1) * 4096 < 2 ^ 64 ∧ n < 2 ^ 19)
    (hsorted : ∀ p, p < n → ((usage p).map Prod.fst).Pairwise (· ≤ ·))
    (hin : ∀ p, p < n → ∀ e ∈ usage p, ∃ s ∈ spans, s.1 ≤ e.1 ∧ e.1 ≤ s.2)
    (hexist : ∀ s ∈ spans, existing_in_span n usage s ≤ span_capacity s)
    (hthrew : (generate_new_keys_global_counts n spans usage requests).threw = false)
    (p : Nat) (P : Planning) (h : rank_planning n spans cf usage requests p = some P)
    (i : Nat) (hi : i < spans.length) :
    key_global_max spans
        (generate_new_keys_global_counts n spans usage requests).existing_global_sum
        (generate_new_keys_global_counts n spans usage requests).requests_global_sum i + 1 =
        (spans.getD i (0, 0)).1 + (existing_in_span n usage (spans.getD i (0, 0))
          + requested_in_span n requests i % 2 ^ 64) := by
  rcases key_global_max_good n spans usage requests hspans (valid_weaken n spans hvalid) hsorted
    hin hexist hthrew i hi with hbad | hgood
  · unfold rank_planning generate_new_keys_local_planning at h
    rw [plan_spans_none _ _ _ _ _ _ i hbad _ _ (List.mem_range.2 hi)] at h
    exact Option.noConfusion h
  · exact hgood

/-- What the local planning of the rank `p` leaves when it ends, on a consistent index whose
spans end `m_comm_size + 1` chunks below `2 ^ 64`: per span, the candidates of the rank are
split into the kept keys and the surplus. -/
theorem rank_planning_eq (n : Nat) (spans : List KeySpan) (cf : Nat → List Nat)
    (usage : Nat → List KeyProc) (requests : Nat → List Nat)
    (hspans : spans.Pairwise (fun a b => a.2 < b.1))
    (hvalid : ∀ s ∈ spans, s.1 ≤ s.2 ∧ s.2 + (n + 1) * 4096 < 2 ^ 64 ∧ n < 2 ^ 19)
    (hsorted : ∀ p, p < n → ((usage p).map Prod.fst).Pairwise (· ≤ ·))
    (hin : ∀ p, p < n → ∀ e ∈ usage p, ∃ s ∈ spans, s.1 ≤ e.1 ∧ e.1 ≤ s.2)
    (hexist : ∀ s ∈ spans, existing_in_span n usage s ≤ span_capacity s)
    (hthrew : (generate_new_keys_global_counts n spans usage requests).threw = false)
    (p : Nat) (hp : p < n) (hcf : chunk_first n (p : Int) spans = some (cf p))
    (P : Planning) (h : rank_planning n spans cf usage requests p = some P) :
    P.new_request = (List.range spans.length).map (fun i =>
        to_long (((requests p).getD i 0 : Int)
          - ((rank_candidates n spans usage requests p i).length : Int))) ∧
      P.requested_keys = (List.range spans.length).flatMap (fun i =>
        kept_keys ((requests p).getD i 0) (rank_candidates n spans usage requests p i)) ∧
      P.contrib_keys = (List.range spans.length).flatMap (fun i =>
        surplus_keys ((requests p).getD i 0) (rank_candidates n spans usage requests p i)) := by
  have hkgm := key_global_max_of_planning n spans cf usage requests hspans hvalid hsorted hin
    hexist hthrew p P h
  have hcap : ∀ i, i < spans.length →
      existing_in_span n usage (spans.getD i (0, 0)) + requested_in_span n requests i % 2 ^ 64 ≤
        span_capacity (spans.getD i (0, 0)) := fun i hi =>
    (global_counts_good n spans usage requests hspans (valid_weaken n spans hvalid) hsorted
      hin hexist hthrew i hi).2.2
  have hexp : (n + 1) * 4096 = n * 4096 + 4096 := by ring
  unfold rank_planning generate_new_keys_local_planning at h
  have hres := plan_spans_eq n p hp spans (cf p) _ _ (requests p) (usage p) (hsorted p hp)
    (chunk_first_spec n p hp spans (cf p) (fun s hs => by
      have := hvalid s hs
      omega) hcf)
    (List.range spans.length) _ P 0
    (List.filter_eq_self.2 (fun e _ => by simp)).symm
    (fun i hi => by
      have hi2 := List.mem_range.1 hi
      have h1 := hkgm i hi2
      have h2 := hcap i hi2
      have h3 := hvalid _ (getD_mem spans i hi2)
      unfold span_capacity at h2
      exact ⟨hi2, by omega, by omega, Nat.zero_le _, by omega⟩)
    ((List.pairwise_lt_range spans.length).imp_of_mem (fun {i j} hi hj hij => by
      have hi2 := List.mem_range.1 hi
      have hj2 := List.mem_range.1 hj
      have h1 := hkgm i hi2
      have h2 := hcap i hi2
      have h3 := hvalid _ (getD_mem spans i hi2)
      have h4 := getD_lt_getD spans hspans i j hij hj2
      unfold span_capacity at h2
      omega))
    h
  simp only [List.nil_append] at hres
  exact hres

/-! ### Counting keys over the ranks -/

theorem count_flatMap_sum {β : Type} (l : List β) (f : β → List Nat) (k : Nat) :
    (l.flatMap f).count k = (l.map (fun x => (f x).count k)).sum := by
  induction l with
  | nil => rfl
  | cons a t ih =>
    rw [List.flatMap_cons, List.count_append, ih, List.map_cons, List.sum_cons]

theorem sum_map_add_fun {β : Type} (l : List β) (f g : β → Nat) :
    (l.map (fun x => f x + g x)).sum = (l.map f).sum + (l.map g).sum := by
  induction l with
  | nil => rfl
  | cons a t ih =>
    simp only [List.map_cons, List.sum_cons, ih]
    omega

theorem sum_map_le_sum {β : Type} (l : List β) (f g : β → Nat) (h : ∀ x ∈ l, f x ≤ g x) :
    (l.map f).sum ≤ (l.map g).sum := by
  induction l with
  | nil => exact Nat.le_refl _
  | cons a t ih =>
    simp only [List.map_cons, List.sum_cons]
    have h1 := h a (List.mem_cons_self _ _)
    have h2 := ih (fun x hx => h x (List.mem_cons_of_mem _ hx))
    omega

theorem sum_map_congr {β : Type} (l : List β) (f g : β → Nat) (h : ∀ x ∈ l, f x = g x) :
    (l.map f).sum = (l.map g).sum := by
  rw [List.map_congr_left h]

theorem sum_map_comm {β γ : Type} (l1 : List β) (l2 : List γ) (f : β → γ → Nat) :
    (l1.map (fun p => (l2.map (fun d => f p d)).sum)).sum =
      (l2.map (fun d => (l1.map (fun p => f p d)).sum)).sum := by
  induction l1 with
  | nil =>
    simp
  | cons a t ih =>
    simp only [List.map_cons, List.sum_cons]
    rw [ih, sum_map_add_fun]

/-- Over the ranks `0 .. n - 1`, exactly one rank is the receiver `q`. -/
theorem sum_range_ite (n q c : Nat) (hq : q < n) :
    ((List.range n).map (fun r => if q = r then c else 0)).sum = c := by
  induction n with
  | zero => exact absurd hq (Nat.not_lt_zero _)
  | succ n ih =>
    rw [List.range_succ, List.map_append, List.sum_append]
    simp only [List.map_cons, List.map_nil, List.sum_cons, List.sum_nil, Nat.add_zero]
    by_cases hqn : q = n
    · rw [if_pos hqn]
      have hzero : ((List.range n).map (fun r => if q = r then c else 0)).sum = 0 := by
        rw [List.sum_eq_zero]
        intro x hx
        obtain ⟨r, hr, hrx⟩ := List.mem_map.1 hx
        have := List.mem_range.1 hr
        rw [← hrx, if_neg (by omega)]
      omega
    · rw [if_neg hqn, ih (by omega)]
      rfl

/-- Every donated key goes to exactly one receiver. -/
theorem sum_count_receivers (n k : Nat) (w : List (Nat × List Nat))
    (hw : ∀ x ∈ w, x.1 < n) :
    ((List.range n).map (fun r =>
      (w.flatMap (fun donation => if donation.1 = r then donation.2 else [])).count k)).sum =
      (w.flatMap (fun donation => donation.2)).count k := by
  induction w with
  | nil => simp
  | cons x t ih =>
    simp only [List.flatMap_cons, List.count_append]
    rw [sum_map_add_fun, ih (fun y hy => hw y (List.mem_cons_of_mem _ hy))]
    congr 1
    rw [← sum_range_ite n x.1 (x.2.count k) (hw x (List.mem_cons_self _ _))]
    apply sum_map_congr
    intro r _
    by_cases h : x.1 = r
    · rw [if_pos h, if_pos h]
    · rw [if_neg h, if_neg h]
      rfl

/-- The walk over `contrib_keys` hands out consecutive, disjoint parts of it. -/
theorem donation_walk_sublist (don : Nat → Nat → Nat) (contrib : List Nat) :
    ∀ (order : List (Nat × Nat)) (off : Nat),
      ((donation_walk don contrib order off).flatMap (fun donation => donation.2)).Sublist
        (contrib.drop off) := by
  intro order
  induction order with
  | nil =>
    intro off
    unfold donation_walk
    exact List.nil_sublist _
  | cons ip rest ih =>
    intro off
    unfold donation_walk
    rw [List.flatMap_cons]
    have h := ih (off + don ip.1 ip.2)
    rw [← List.drop_drop] at h
    have h2 := List.take_append_drop (don ip.1 ip.2) (contrib.drop off)
    have h3 := List.Sublist.append
      (List.Sublist.refl ((contrib.drop off).take (don ip.1 ip.2))) h
    rwa [h2] at h3

theorem donation_walk_receiver (don : Nat → Nat → Nat) (contrib : List Nat) :
    ∀ (order : List (Nat × Nat)) (off : Nat),
      ∀ x ∈ donation_walk don contrib order off, ∃ ip ∈ order, x.1 = ip.2 := by
  intro order
  induction order with
  | nil =>
    intro off x hx
    unfold donation_walk at hx
    exact absurd hx (List.not_mem_nil _)
  | cons ip rest ih =>
    intro off x hx
    unfold donation_walk at hx
    rcases List.mem_cons.1 hx with rfl | hx
    · exact ⟨ip, List.mem_cons_self _ _, rfl⟩
    · obtain ⟨ip2, h1, h2⟩ := ih _ x hx
      exact ⟨ip2, List.mem_cons_of_mem _ h1, h2⟩

theorem mem_donation_order (sc n : Nat) (ip : Nat × Nat) (h : ip ∈ donation_order sc n) :
    ip.1 < sc ∧ ip.2 < n := by
  unfold donation_order at h
  obtain ⟨i, hi, h2⟩ := List.mem_flatMap.1 h
  obtain ⟨p, hp, h3⟩ := List.mem_map.1 h2
  rw [← h3]
  exact ⟨List.mem_range.1 hi, List.mem_range.1 hp⟩

theorem requested_slices_flatten :
    ∀ (counts : List Nat) (new_keys : List Nat),
      (requested_slices counts new_keys).flatten = new_keys.take counts.sum := by
  intro counts
  induction counts with
  | nil =>
    intro new_keys
    unfold requested_slices
    simp
  | cons c rest ih =>
    intro new_keys
    unfold requested_slices
    rw [List.flatten_cons, ih, List.sum_cons, List.take_add]

theorem count_kept_surplus (request : Nat) (found : List Nat) (k : Nat) :
    (kept_keys request found).count k + (surplus_keys request found).count k =
      found.count k := by
  unfold kept_keys surplus_keys
  rw [Nat.add_comm, ← List.count_append, List.take_append_drop]

/-- A call of `generate_new_keys` that returns without a throw: the global counts did not
throw, the local planning of every rank ended, every rank stayed inside its
`contrib_keys`, the rank `r` stayed inside its `new_keys`, and `requested_keys` is cut from
the sorted `new_keys`. -/
theorem generate_new_keys_returned (n : Nat) (spans : List KeySpan) (cf : Nat → List Nat)
    (usage : Nat → List KeyProc) (requests : Nat → List Nat) (r : Nat) (res : GenerateResult)
    (h : generate_new_keys n spans cf usage requests r = some res) (hres : res.threw = false) :
    (generate_new_keys_global_counts n spans usage requests).threw = false ∧
      (∀ p, p < n → rank_planning n spans cf usage requests p =
        some (plannings n spans cf usage requests p)) ∧
      (∀ p, p < n →
        rank_donations_in_range n spans (plannings n spans cf usage requests) p = true) ∧
      ((List.range spans.length).map (fun i => slice_count ((requests r).getD i 0))).sum ≤
        (new_keys n spans cf usage requests r).length ∧
      res.requested_keys =
        requested_slices
          ((List.range spans.length).map (fun i => slice_count ((requests r).getD i 0)))
          (new_keys n spans cf usage requests r) := by
  unfold generate_new_keys at h
  by_cases hthrow : (generate_new_keys_global_counts n spans usage requests).threw = true
  · rw [if_pos hthrow, Option.some.injEq] at h
    rw [← h] at hres
    exact Bool.noConfusion hres
  · rw [if_neg hthrow] at h
    split at h
    · rename_i hall
      dsimp only at h
      split at h
      · rename_i hrange
        rw [Bool.and_eq_true] at hrange
        rw [Option.some.injEq] at h
        refine ⟨by simpa using hthrow, ?_, ?_, ?_, ?_⟩
        · intro p hp
          have hsome := List.all_eq_true.1 hall p (List.mem_range.2 hp)
          obtain ⟨P, hP⟩ := Option.isSome_iff_exists.1 hsome
          unfold plannings
          rw [hP]
          rfl
        · intro p hp
          exact List.all_eq_true.1 hrange.1 p (List.mem_range.2 hp)
        · have h2 := hrange.2
          unfold requested_slices_in_range at h2
          exact of_decide_eq_true h2
        · rw [← h]
          rfl
      · exact Option.noConfusion h
    · exact Option.noConfusion h

theorem slice_count_eq (request : Nat) (h : request < 2 ^ 61) : slice_count request = request :=
  Nat.mod_eq_of_lt h

/-- A call of `generate_new_keys` that returns without a throw on a rank whose requests are
below `2 ^ 61`: `requested_keys[i]` is cut from the sorted `new_keys` with `requests[i]`
keys. -/
theorem generate_new_keys_success (n : Nat) (spans : List KeySpan) (cf : Nat → List Nat)
    (usage : Nat → List KeyProc) (requests : Nat → List Nat) (r : Nat) (res : GenerateResult)
    (h : generate_new_keys n spans cf usage requests r = some res) (hres : res.threw = false)
    (hsmall : ∀ i, i < spans.length → (requests r).getD i 0 < 2 ^ 61) :
    (generate_new_keys_global_counts n spans usage requests).threw = false ∧
      (∀ p, p < n → rank_planning n spans cf usage requests p =
        some (plannings n spans cf usage requests p)) ∧
      (∀ p, p < n →
        rank_donations_in_range n spans (plannings n spans cf usage requests) p = true) ∧
      ((List.range spans.length).map ((requests r).getD · 0)).sum ≤
        (new_keys n spans cf usage requests r).length ∧
      res.requested_keys =
        requested_slices ((List.range spans.length).map ((requests r).getD · 0))
          (new_keys n spans cf usage requests r) := by
  have hcounts : (List.range spans.length).map (fun i => slice_count ((requests r).getD i 0)) =
      (List.range spans.length).map ((requests r).getD · 0) :=
    List.map_congr_left (fun i hi => slice_count_eq _ (hsmall i (List.mem_range.1 hi)))
  have h1 := generate_new_keys_returned n spans cf usage requests r res h hres
  rw [hcounts] at h1
  exact h1

/-- A key is a candidate of at most one rank in at most one span. -/
theorem rank_candidates_unique (n : Nat) (spans : List KeySpan) (usage : Nat → List KeyProc)
    (requests : Nat → List Nat) (hspans : spans.Pairwise (fun a b => a.2 < b.1))
    (hmax : ∀ i, i < spans.length →
      key_global_max spans
        (generate_new_keys_global_counts n spans usage requests).existing_global_sum
        (generate_new_keys_global_counts n spans usage requests).requests_global_sum i
        ≤ (spans.getD i (0, 0)).2)
    (p q i j k : Nat) (hi : i < spans.length) (hj : j < spans.length)
    (hp : k ∈ rank_candidates n spans usage requests p i)
    (hq : k ∈ rank_candidates n spans usage requests q j) : p = q ∧ i = j := by
  unfold rank_candidates at hp hq
  rw [mem_candidates] at hp hq
  obtain ⟨⟨h1, h2, h3⟩, -⟩ := hp
  obtain ⟨⟨h4, h5, h6⟩, -⟩ := hq
  have hij : i = j := by
    rcases Nat.lt_trichotomy i j with hlt | heq | hgt
    · have h7 := getD_lt_getD spans hspans i j hlt hj
      have h8 := hmax i hi
      omega
    · exact heq
    · have h7 := getD_lt_getD spans hspans j i hgt hi
      have h8 := hmax j hj
      omega
  subst hij
  exact ⟨h3.symm.trans h6, rfl⟩

/-- The candidates of all the ranks in all the spans contain every key at most once. -/
theorem count_rank_candidates_le (n : Nat) (spans : List KeySpan) (usage : Nat → List KeyProc)
    (requests : Nat → List Nat) (hspans : spans.Pairwise (fun a b => a.2 < b.1))
    (hmax : ∀ i, i < spans.length →
      key_global_max spans
        (generate_new_keys_global_counts n spans usage requests).existing_global_sum
        (generate_new_keys_global_counts n spans usage requests).requests_global_sum i
        ≤ (spans.getD i (0, 0)).2)
    (k : Nat) :
    ((List.range n).map (fun p => ((List.range spans.length).map
      (fun i => (rank_candidates n spans usage requests p i).count k)).sum)).sum ≤ 1 := by
  have hnodup : ((List.range n).flatMap (fun p => (List.range spans.length).flatMap
      (fun i => rank_candidates n spans usage requests p i))).Nodup := by
    rw [List.nodup_flatMap]
    constructor
    · intro p _
      rw [List.nodup_flatMap]
      constructor
      · intro i _
        exact (candidates_pairwise _ _ _ _ _).imp (fun h => Nat.ne_of_lt h)
      · apply (List.nodup_range _).pairwise_of_forall_ne
        intro i hi j hj hij
        show List.Disjoint _ _
        intro k hk1 hk2
        exact hij (rank_candidates_unique n spans usage requests hspans hmax p p i j k
          (List.mem_range.1 hi) (List.mem_range.1 hj) hk1 hk2).2
    · apply (List.nodup_range _).pairwise_of_forall_ne
      intro p _ q _ hpq
      show List.Disjoint _ _
      intro k hk1 hk2
      obtain ⟨i, hi, hki⟩ := List.mem_flatMap.1 hk1
      obtain ⟨j, hj, hkj⟩ := List.mem_flatMap.1 hk2
      exact hpq (rank_candidates_unique n spans usage requests hspans hmax p q i j k
        (List.mem_range.1 hi) (List.mem_range.1 hj) hki hkj).1
  have hcount := List.nodup_iff_count_le_one.1 hnodup k
  rw [count_flatMap_sum] at hcount
  simp only [count_flatMap_sum] at hcount
  exact hcount

/-- On a consistent index, `key_global_max` of a span lies inside the span or just before
it, once the local planning of some rank has ended. -/
theorem key_global_max_le (n : Nat) (spans : List KeySpan) (cf : Nat → List Nat)
    (usage : Nat → List KeyProc) (requests : Nat → List Nat)
    (hspans : spans.Pairwise (fun a b => a.2 < b.1))
    (hvalid : ∀ s ∈ spans, s.1 ≤ s.2 ∧ s.2 + (n + 1) * 4096 < 2 ^ 64 ∧ n < 2 ^ 19)
    (hsorted : ∀ p, p < n → ((usage p).map Prod.fst).Pairwise (· ≤ ·))
    (hin : ∀ p, p < n → ∀ e ∈ usage p, ∃ s ∈ spans, s.1 ≤ e.1 ∧ e.1 ≤ s.2)
    (hexist : ∀ s ∈ spans, existing_in_span n usage s ≤ span_capacity s)
    (hthrew : (generate_new_keys_global_counts n spans usage requests).threw = false)
    (p : Nat) (P : Planning) (h : rank_planning n spans cf usage requests p = some P)
    (i : Nat) (hi : i < spans.length) :
    key_global_max spans
        (generate_new_keys_global_counts n spans usage requests).existing_global_sum
        (generate_new_keys_global_counts n spans usage requests).requests_global_sum i
        ≤ (spans.getD i (0, 0)).2 := by
  have h1 := key_global_max_of_planning n spans cf usage requests hspans hvalid hsorted hin
    hexist hthrew p P h i hi
  have h2 := (global_counts_good n spans usage requests hspans (valid_weaken n spans hvalid)
    hsorted hin hexist hthrew i hi).2.2
  have h3 := hvalid _ (getD_mem spans i hi)
  unfold span_capacity at h2
  omega

/-- After the local planning of all the ranks, the vectors `new_keys` of all the ranks
together contain every key at most once. -/
theorem count_new_keys_le (n : Nat) (spans : List KeySpan) (cf : Nat → List Nat)
    (usage : Nat → List KeyProc) (requests : Nat → List Nat)
    (hspans : spans.Pairwise (fun a b => a.2 < b.1))
    (hvalid : ∀ s ∈ spans, s.1 ≤ s.2 ∧ s.2 + (n + 1) * 4096 < 2 ^ 64 ∧ n < 2 ^ 19)
    (hchunk : ∀ p, p < n → chunk_first n (p : Int) spans = some (cf p))
    (hsorted : ∀ p, p < n → ((usage p).map Prod.fst).Pairwise (· ≤ ·))
    (hin : ∀ p, p < n → ∀ e ∈ usage p, ∃ s ∈ spans, s.1 ≤ e.1 ∧ e.1 ≤ s.2)
    (hexist : ∀ s ∈ spans, existing_in_span n usage s ≤ span_capacity s)
    (hthrew : (generate_new_keys_global_counts n spans usage requests).threw = false)
    (hplan : ∀ p, p < n → rank_planning n spans cf usage requests p =
      some (plannings n spans cf usage requests p))
    (k : Nat) :
    ((List.range n).map (fun r => (new_keys n spans cf usage requests r).count k)).sum ≤ 1 := by
  by_cases hn : n = 0
  · subst hn
    simp
  have hmax := key_global_max_le n spans cf usage requests hspans hvalid hsorted hin hexist
    hthrew 0 _ (hplan 0 (by omega))
  have hP := fun p hp => rank_planning_eq n spans cf usage requests hspans hvalid hsorted hin
    hexist hthrew p hp (hchunk p hp) _ (hplan p hp)
  calc ((List.range n).map (fun r => (new_keys n spans cf usage requests r).count k)).sum
      = ((List.range n).map (fun r =>
          (plannings n spans cf usage requests r).requested_keys.count k
          + ((List.range n).map (fun d =>
              ((rank_donations n spans (plannings n spans cf usage requests) d).flatMap
                (fun donation => if donation.1 = r then donation.2 else [])).count k)).sum)).sum := by
        apply sum_map_congr
        intro r _
        unfold new_keys
        rw [(List.perm_insertionSort _ _).count_eq, List.count_append, count_flatMap_sum]
    _ = ((List.range n).map (fun r =>
          (plannings n spans cf usage requests r).requested_keys.count k)).sum
        + ((List.range n).map (fun d => ((List.range n).map (fun r =>
              ((rank_donations n spans (plannings n spans cf usage requests) d).flatMap
                (fun donation => if donation.1 = r then donation.2 else [])).count k)).sum)).sum := by
        rw [sum_map_add_fun, sum_map_comm]
    _ ≤ ((List.range n).map (fun r =>
          (plannings n spans cf usage requests r).requested_keys.count k)).sum
        + ((List.range n).map (fun d =>
          (plannings n spans cf usage requests d).contrib_keys.count k)).sum := by
        apply Nat.add_le_add_left
        apply sum_map_le_sum
        intro d _
        rw [sum_count_receivers n k _ (fun x hx => by
          unfold rank_donations at hx
          obtain ⟨ip, hip, hx2⟩ := donation_walk_receiver _ _ _ _ x hx
          rw [hx2]
          exact (mem_donation_order _ _ ip hip).2)]
        unfold rank_donations
        exact (donation_walk_sublist _ _ _ 0).count_le k
    _ = ((List.range n).map (fun p => ((List.range spans.length).map
          (fun i => (rank_candidates n spans usage requests p i).count k)).sum)).sum := by
        rw [← sum_map_add_fun]
        apply sum_map_congr
        intro p hp
        have h := hP p (List.mem_range.1 hp)
        rw [h.2.1, h.2.2, count_flatMap_sum, count_flatMap_sum, ← sum_map_add_fun]
        apply sum_map_congr
        intro i _
        exact count_kept_surplus _ _ _
    _ ≤ 1 := count_rank_candidates_le n spans usage requests hspans hmax k

/-! ### The donation plan of `generate_new_keys_global_planning` -/

theorem receive_before_succ (x : Nat → Int) (m : Nat) :
    receive_before x (m + 1) = receive_before x m + max (x m) 0 := by
  unfold receive_before
  rw [List.range_succ, List.map_append, List.sum_append]
  simp

theorem donate_before_succ (x : Nat → Int) (m : Nat) :
    donate_before x (m + 1) = donate_before x m + max (- x m) 0 := by
  unfold donate_before
  rw [List.range_succ, List.map_append, List.sum_append]
  simp

theorem receive_before_nonneg (x : Nat → Int) (m : Nat) : 0 ≤ receive_before x m := by
  induction m with
  | zero => exact Int.le_refl _
  | succ m ih =>
    rw [receive_before_succ]
    omega

theorem donate_before_nonneg (x : Nat → Int) (m : Nat) : 0 ≤ donate_before x m := by
  induction m with
  | zero => exact Int.le_refl _
  | succ m ih =>
    rw [donate_before_succ]
    omega

/-- The donation loop after the ranks `0 .. m - 1`: the donor `[pd0, ed)` has given to the
rank `p` the part of its interval that lies in the interval of the requests of `p`. -/
theorem donate_foldl (x : Nat → Int) (pd0 ed : Int) (hpd0 : 0 ≤ pd0) (hle : pd0 ≤ ed)
    (m : Nat) :
    ((List.range m).foldl (fun state p => donate_step_exact ed state (x p))
        { previous_donate := pd0, my_total_donate := ed - pd0, previous_receive := 0,
          my_donations := [] }).my_donations =
        (List.range m).map (fun p =>
          max pd0 (min (receive_before x (p + 1)) ed) - max pd0 (min (receive_before x p) ed)) ∧
      ((List.range m).foldl (fun state p => donate_step_exact ed state (x p))
        { previous_donate := pd0, my_total_donate := ed - pd0, previous_receive := 0,
          my_donations := [] }).previous_donate = max pd0 (min (receive_before x m) ed) ∧
      ((List.range m).foldl (fun state p => donate_step_exact ed state (x p))
        { previous_donate := pd0, my_total_donate := ed - pd0, previous_receive := 0,
          my_donations := [] }).my_total_donate = ed - max pd0 (min (receive_before x m) ed) ∧
      (0 < ((List.range m).foldl (fun state p => donate_step_exact ed state (x p))
        { previous_donate := pd0, my_total_donate := ed - pd0, previous_receive := 0,
          my_donations := [] }).my_total_donate →
        ((List.range m).foldl (fun state p => donate_step_exact ed state (x p))
          { previous_donate := pd0, my_total_donate := ed - pd0, previous_receive := 0,
            my_donations := [] }).previous_receive = receive_before x m) := by
  induction m with
  | zero =>
    have h0 : receive_before x 0 = 0 := rfl
    refine ⟨rfl, ?_, ?_, fun _ => rfl⟩
    · show pd0 = max pd0 (min (receive_before x 0) ed)
      rw [h0]
      omega
    · show ed - pd0 = ed - max pd0 (min (receive_before x 0) ed)
      rw [h0]
      omega
  | succ m ih =>
    rw [List.range_succ, List.foldl_append, List.map_append]
    simp only [List.foldl_cons, List.foldl_nil, List.map_cons, List.map_nil]
    obtain ⟨h1, h2, h3, h4⟩ := ih
    generalize ((List.range m).foldl (fun state p => donate_step_exact ed state (x p))
        { previous_donate := pd0, my_total_donate := ed - pd0, previous_receive := 0,
          my_donations := [] }) = st at h1 h2 h3 h4 ⊢
    have hr := receive_before_succ x m
    have hnn := receive_before_nonneg x m
    unfold donate_step_exact
    by_cases hmtd : 0 < st.my_total_donate
    · have h5 := h4 hmtd
      rw [if_pos hmtd]
      by_cases hx : 0 < x m
      · rw [if_pos hx]
        by_cases hpd : st.previous_donate < st.previous_receive + x m
        · rw [if_pos hpd]
          simp only []
          rw [h1, h2, h5, hr]
          refine ⟨?_, ?_, ?_, fun _ => ?_⟩
          · congr 2
            omega
          · omega
          · omega
          · omega
        · rw [if_neg hpd]
          simp only []
          rw [h1, h2, h3, h5, hr]
          refine ⟨?_, ?_, ?_, fun _ => ?_⟩
          · congr 2
            omega
          · omega
          · omega
          · omega
      · rw [if_neg hx]
        simp only []
        rw [h1, h2, h3, hr]
        refine ⟨?_, ?_, ?_, fun h6 => ?_⟩
        · congr 2
          omega
        · omega
        · omega
        · rw [h4 (by omega)]
          omega
    · rw [if_neg hmtd]
      simp only []
      rw [h1, h2, h3, hr]
      refine ⟨?_, ?_, ?_, fun h6 => ?_⟩
      · congr 2
        omega
      · omega
      · omega
      · omega

theorem span_donations_exact_eq (n d : Nat) (nr : Nat → List Int) (i : Nat) :
    span_donations_exact n d nr i = (List.range n).map (fun p =>
      max (donate_before (fun q => new_request_global nr q i) d)
          (min (receive_before (fun q => new_request_global nr q i) (p + 1))
            (donate_before (fun q => new_request_global nr q i) (d + 1)))
        - max (donate_before (fun q => new_request_global nr q i) d)
          (min (receive_before (fun q => new_request_global nr q i) p)
            (donate_before (fun q => new_request_global nr q i) (d + 1)))) := by
  have hpd : ((List.range d).map (fun p =>
      if new_request_global nr p i < 0 then - new_request_global nr p i else 0)).sum =
      donate_before (fun q => new_request_global nr q i) d := by
    unfold donate_before
    congr 1
    apply List.map_congr_left
    intro p _
    beta_reduce
    split <;> omega
  have hed := donate_before_succ (fun q => new_request_global nr q i) d
  beta_reduce at hed
  have hnn := donate_before_nonneg (fun q => new_request_global nr q i) d
  unfold span_donations_exact
  by_cases hx : new_request_global nr d i < 0
  · rw [if_pos hx]
    simp only [hpd]
    have hinit : - new_request_global nr d i =
        (donate_before (fun q => new_request_global nr q i) d + - new_request_global nr d i)
          - donate_before (fun q => new_request_global nr q i) d := by omega
    have hed2 : donate_before (fun q => new_request_global nr q i) (d + 1) =
        donate_before (fun q => new_request_global nr q i) d + - new_request_global nr d i := by
      rw [hed]
      omega
    rw [hed2]
    nth_rewrite 2 [hinit]
    exact (donate_foldl (fun q => new_request_global nr q i) _ _ hnn (by omega) n).1
  · rw [if_neg hx]
    have hed2 : donate_before (fun q => new_request_global nr q i) (d + 1) =
        donate_before (fun q => new_request_global nr q i) d := by
      rw [hed]
      omega
    rw [hed2]
    have hzero : ∀ p ∈ List.range n,
        max (donate_before (fun q => new_request_global nr q i) d)
          (min (receive_before (fun q => new_request_global nr q i) (p + 1))
            (donate_before (fun q => new_request_global nr q i) d))
        - max (donate_before (fun q => new_request_global nr q i) d)
          (min (receive_before (fun q => new_request_global nr q i) p)
            (donate_before (fun q => new_request_global nr q i) d)) = (0 : Int) := by
      intro p _
      omega
    rw [List.map_congr_left hzero, List.map_const', List.length_range]

theorem to_long_eq (d : Int) (h1 : - 2 ^ 63 ≤ d) (h2 : d < 2 ^ 63) : to_long d = d := by
  unfold to_long
  omega

theorem receive_before_mono (x : Nat → Int) (a b : Nat) (hab : a ≤ b) :
    receive_before x a ≤ receive_before x b := by
  induction b with
  | zero =>
    have : a = 0 := by omega
    rw [this]
  | succ b ih =>
    by_cases h : a = b + 1
    · rw [h]
    · have := ih (by omega)
      rw [receive_before_succ]
      omega

theorem donate_before_mono (x : Nat → Int) (a b : Nat) (hab : a ≤ b) :
    donate_before x a ≤ donate_before x b := by
  induction b with
  | zero =>
    have : a = 0 := by omega
    rw [this]
  | succ b ih =>
    by_cases h : a = b + 1
    · rw [h]
    · have := ih (by omega)
      rw [donate_before_succ]
      omega

/-- One step of the donation loop in `long` is the step in unbounded integers when the
values of the loop stay below `2 ^ 63`. -/
theorem donate_step_eq_exact (ed : Int) (st : Donate) (xm : Int) (hed : ed < 2 ^ 63)
    (hpd : 0 ≤ st.previous_donate)
    (hmt : st.my_total_donate = ed - st.previous_donate)
    (hpr : 0 < st.my_total_donate → 0 ≤ st.previous_receive ∧
      st.previous_receive + max xm 0 < 2 ^ 63) :
    donate_step ed st xm = donate_step_exact ed st xm := by
  unfold donate_step donate_step_exact
  by_cases hmtd : 0 < st.my_total_donate
  · obtain ⟨h1, h2⟩ := hpr hmtd
    rw [if_pos hmtd, if_pos hmtd]
    by_cases hx : 0 < xm
    · rw [if_pos hx, if_pos hx]
      have e1 : to_long (st.previous_receive + xm) = st.previous_receive + xm :=
        to_long_eq _ (by omega) (by omega)
      rw [e1]
      have e2 : to_long (min (st.previous_receive + xm) ed - st.previous_donate) =
          min (st.previous_receive + xm) ed - st.previous_donate :=
        to_long_eq _ (by omega) (by omega)
      rw [e2]
      have e3 : to_long (st.previous_donate
          + (min (st.previous_receive + xm) ed - st.previous_donate)) =
          min (st.previous_receive + xm) ed := by
        rw [to_long_eq _ (by omega) (by omega)]
        omega
      rw [e3]
      by_cases hlt : st.previous_donate < st.previous_receive + xm
      · rw [if_pos hlt, if_pos hlt]
        rw [to_long_eq _ (by omega) (by omega)]
      · rw [if_neg hlt, if_neg hlt]
    · rw [if_neg hx, if_neg hx]
  · rw [if_neg hmtd, if_neg hmtd]

/-- The donation loop in `long` is the loop in unbounded integers when the end of the
interval of the donor and the requests of the receivers stay below `2 ^ 63`. -/
theorem donate_foldl_eq_exact (x : Nat → Int) (pd0 ed : Int) (hpd0 : 0 ≤ pd0) (hle : pd0 ≤ ed)
    (hed : ed < 2 ^ 63) (m : Nat) (hrecv : receive_before x m < 2 ^ 63) :
    (List.range m).foldl (fun state p => donate_step ed state (x p))
        { previous_donate := pd0, my_total_donate := ed - pd0, previous_receive := 0,
          my_donations := [] } =
      (List.range m).foldl (fun state p => donate_step_exact ed state (x p))
        { previous_donate := pd0, my_total_donate := ed - pd0, previous_receive := 0,
          my_donations := [] } := by
  induction m with
  | zero => rfl
  | succ m ih =>
    have hmono := receive_before_mono x m (m + 1) (by omega)
    have hr := receive_before_succ x m
    have hnn := receive_before_nonneg x m
    rw [List.range_succ, List.foldl_append, List.foldl_append, ih (by omega)]
    simp only [List.foldl_cons, List.foldl_nil]
    obtain ⟨-, h2, h3, h4⟩ := donate_foldl x pd0 ed hpd0 hle m
    generalize ((List.range m).foldl (fun state p => donate_step_exact ed state (x p))
        { previous_donate := pd0, my_total_donate := ed - pd0, previous_receive := 0,
          my_donations := [] }) = st at h2 h3 h4 ⊢
    apply donate_step_eq_exact ed st (x m) hed (by omega) (by omega)
    intro hpos
    rw [h4 hpos]
    constructor <;> omega

/-- The donations of a rank computed in `long` are those computed in unbounded integers
when the requests of the receivers and the surpluses of the donors up to this rank each sum
to less than `2 ^ 63`. -/
theorem span_donations_eq_exact (n d : Nat) (nr : Nat → List Int) (i : Nat)
    (hrecv : receive_before (fun q => new_request_global nr q i) n < 2 ^ 63)
    (hdon : donate_before (fun q => new_request_global nr q i) (d + 1) < 2 ^ 63) :
    span_donations n d nr i = span_donations_exact n d nr i := by
  have hpd : ∀ m, m ≤ d → (List.range m).foldl
      (fun previous_donate p =>
        if new_request_global nr p i < 0 then
          to_long (previous_donate - new_request_global nr p i)
        else previous_donate) (0 : Int) =
      ((List.range m).map (fun p =>
        if new_request_global nr p i < 0 then - new_request_global nr p i else 0)).sum ∧
      ((List.range m).map (fun p =>
        if new_request_global nr p i < 0 then - new_request_global nr p i else 0)).sum =
      donate_before (fun q => new_request_global nr q i) m := by
    intro m
    induction m with
    | zero => exact fun _ => ⟨rfl, rfl⟩
    | succ m ih =>
      intro hm
      obtain ⟨h1, h2⟩ := ih (by omega)
      have h3 := donate_before_succ (fun q => new_request_global nr q i) m
      have h4 := donate_before_mono (fun q => new_request_global nr q i) (m + 1) (d + 1)
        (by omega)
      have h5 := donate_before_nonneg (fun q => new_request_global nr q i) m
      beta_reduce at h3
      rw [List.range_succ, List.foldl_append, List.map_append, List.sum_append, h1, h2]
      simp only [List.foldl_cons, List.foldl_nil, List.map_cons, List.map_nil, List.sum_cons,
        List.sum_nil]
      split
      · rw [to_long_eq _ (by omega) (by omega)]
        constructor <;> omega
      · constructor <;> omega
  obtain ⟨hpd1, hpd2⟩ := hpd d (Nat.le_refl d)
  have hed := donate_before_succ (fun q => new_request_global nr q i) d
  have hnn := donate_before_nonneg (fun q => new_request_global nr q i) d
  beta_reduce at hed
  unfold span_donations span_donations_exact
  by_cases hx : new_request_global nr d i < 0
  · rw [if_pos hx, if_pos hx]
    simp only []
    rw [hpd1, hpd2, to_long_eq (- new_request_global nr d i) (by omega) (by omega),
      to_long_eq _ (by omega) (by omega)]
    have hmt : - new_request_global nr d i =
        (donate_before (fun q => new_request_global nr q i) d + - new_request_global nr d i)
          - donate_before (fun q => new_request_global nr q i) d := by omega
    rw [hmt]
    have hfold := donate_foldl_eq_exact (fun q => new_request_global nr q i)
      (donate_before (fun q => new_request_global nr q i) d)
      (donate_before (fun q => new_request_global nr q i) d + - new_request_global nr d i)
      hnn (by omega) (by omega) n hrecv
    beta_reduce at hfold
    rw [← hmt]
    rw [← hmt] at hfold
    rw [hfold]
  · rw [if_neg hx, if_neg hx]

theorem toNat_emod (v : Int) (h0 : 0 ≤ v) (h1 : v < 2 ^ 64) :
    (v % 2 ^ 64).toNat = v.toNat := by
  rw [Int.emod_eq_of_lt h0 h1]

/-- The entry of `my_donations` as a number of keys, for a table of requests that stays in
the range of `long`: the closed form of the donation. -/
theorem global_planning_eq (n d : Nat) (nr : Nat → List Int) (i p : Nat) (hp : p < n)
    (hrecv : receive_before (fun q => new_request_global nr q i) n < 2 ^ 63)
    (hdon : donate_before (fun q => new_request_global nr q i) (d + 1) < 2 ^ 63) :
    generate_new_keys_global_planning n d nr i p =
      donation (fun q => new_request_global nr q i) d p := by
  have h1 := receive_before_mono (fun q => new_request_global nr q i) p (p + 1) (by omega)
  have h2 := receive_before_nonneg (fun q => new_request_global nr q i) p
  have h3 := donate_before_nonneg (fun q => new_request_global nr q i) d
  unfold generate_new_keys_global_planning donation
  rw [span_donations_eq_exact n d nr i hrecv hdon, span_donations_exact_eq,
    List.getD_eq_getElem?_getD, List.getElem?_map, List.getElem?_range hp]
  simp only [Option.map_some', Option.getD_some]
  apply toNat_emod <;> omega

/-- A donor gives at most what it has to donate. -/
theorem sum_donation_le (x : Nat → Int) (d m : Nat) :
    ((List.range m).map (fun p => donation x d p)).sum ≤ (max (- x d) 0).toNat := by
  have hkey : (((List.range m).map (fun p => donation x d p)).sum : Int) =
      max (donate_before x d) (min (receive_before x m) (donate_before x (d + 1)))
        - donate_before x d := by
    induction m with
    | zero =>
      have h0 : receive_before x 0 = 0 := rfl
      have h1 := donate_before_nonneg x d
      have h2 := donate_before_succ x d
      rw [h0]
      simp only [List.range_zero, List.map_nil, List.sum_nil, Nat.cast_zero]
      omega
    | succ m ih =>
      rw [List.range_succ, List.map_append, List.sum_append, Nat.cast_add, ih]
      simp only [List.map_cons, List.map_nil, List.sum_cons, List.sum_nil, Nat.add_zero]
      unfold donation
      have h1 := receive_before_mono x m (m + 1) (by omega)
      have h2 := donate_before_succ x d
      omega
  have h2 := donate_before_succ x d
  omega

/-- The donors `0 .. m - 1` together give to the rank `p` the part of its requests that
lies below their accumulated donations. -/
theorem sum_donation_eq (x : Nat → Int) (p m : Nat) :
    (((List.range m).map (fun d => donation x d p)).sum : Int) =
      min (receive_before x (p + 1)) (donate_before x m)
        - min (receive_before x p) (donate_before x m) := by
  induction m with
  | zero =>
    have h0 : donate_before x 0 = 0 := rfl
    have h1 := receive_before_nonneg x p
    have h2 := receive_before_nonneg x (p + 1)
    rw [h0]
    simp only [List.range_zero, List.map_nil, List.sum_nil, Nat.cast_zero]
    omega
  | succ m ih =>
    rw [List.range_succ, List.map_append, List.sum_append, Nat.cast_add, ih]
    simp only [List.map_cons, List.map_nil, List.sum_cons, List.sum_nil, Nat.add_zero]
    unfold donation
    have h1 := receive_before_mono x p (p + 1) (by omega)
    have h2 := donate_before_succ x m
    have h3 := donate_before_nonneg x m
    omega

theorem receive_sub_donate (x : Nat → Int) (m : Nat) :
    receive_before x m - donate_before x m = ((List.range m).map x).sum := by
  induction m with
  | zero => rfl
  | succ m ih =>
    rw [receive_before_succ, donate_before_succ, List.range_succ, List.map_append,
      List.sum_append, ← ih]
    simp only [List.map_cons, List.map_nil, List.sum_cons, List.sum_nil]
    omega

/-- When the requests do not exceed the donations in total, every receiver is given what
it still needs. -/
theorem sum_donation_of_le (x : Nat → Int) (n p : Nat) (hp : p < n)
    (hsum : ((List.range n).map x).sum ≤ 0) :
    ((List.range n).map (fun d => donation x d p)).sum = (max (x p) 0).toNat := by
  have h1 := sum_donation_eq x p n
  have h2 := receive_sub_donate x n
  have h3 := receive_before_mono x (p + 1) n (by omega)
  have h4 := receive_before_succ x p
  have h5 := receive_before_nonneg x p
  omega

/-! ### How many keys local planning finds, and how many a rank ends with -/

theorem length_filter_split (l : List Nat) (P Q : Nat → Bool) :
    (l.filter (fun k => P k && !Q k)).length + (l.filter (fun k => P k && Q k)).length =
      (l.filter P).length := by
  induction l with
  | nil => rfl
  | cons a t ih =>
    simp only [List.filter_cons]
    cases hP : P a <;> cases hQ : Q a <;> simp <;> omega

/-- Every key of a list belongs to exactly one of the ranks `0 .. n - 1`. -/
theorem sum_length_filter_owner (n : Nat) (g : Nat → Nat) (l : List Nat)
    (hg : ∀ k ∈ l, g k < n) :
    ((List.range n).map (fun p => (l.filter (fun k => decide (g k = p))).length)).sum =
      l.length := by
  induction l with
  | nil => simp
  | cons a t ih =>
    have h1 := ih (fun k hk => hg k (List.mem_cons_of_mem _ hk))
    have h2 := sum_range_ite n (g a) 1 (hg a (List.mem_cons_self _ _))
    rw [List.length_cons, ← h1, ← h2, ← sum_map_add_fun]
    apply sum_map_congr
    intro p _
    by_cases h : g a = p
    · rw [List.filter_cons_of_pos (by simpa using h), if_pos h, List.length_cons]
    · rw [List.filter_cons_of_neg (by simpa using h), if_neg h]
      rfl

/-- The keys of a range inside the span that are keys of `key_usage` are at most the
distinct keys of `key_usage` inside the span. -/
theorem length_filter_used_le (s : KeySpan) (l : List KeyProc) (m : Nat) (P : Nat → Bool)
    (hm : s.1 + m ≤ s.2 + 1) :
    ((List.range' s.1 m).filter (fun k => P k && decide (k ∈ l.map Prod.fst))).length ≤
      keys_in_span s l := by
  have hnodup : ((List.range' s.1 m).filter
      (fun k => P k && decide (k ∈ l.map Prod.fst))).Nodup :=
    ((List.pairwise_lt_range' s.1 m).imp (fun h => Nat.ne_of_lt h)).sublist
      (List.filter_sublist _)
  rw [← List.toFinset_card_of_nodup hnodup]
  unfold keys_in_span
  apply Finset.card_le_card
  intro k hk
  rw [List.mem_toFinset, List.mem_filter, List.mem_range'_1] at hk
  simp only [Bool.and_eq_true, decide_eq_true_eq] at hk
  rw [Finset.mem_filter, List.mem_toFinset]
  exact ⟨hk.2.2, hk.1.1, by omega⟩

/-- The candidates of all the ranks in a span, together with the keys in use in the span,
are at least the keys from the first key of the span up to `key_global_max`. -/
theorem sum_candidates_ge (n : Nat) (hn : 0 < n) (s : KeySpan) (gmax : Nat)
    (usage : Nat → List KeyProc) (hvalid : s.1 ≤ s.2) (hmax : gmax ≤ s.2) :
    gmax + 1 - s.1 ≤
      ((List.range n).map (fun p => (candidates n s gmax (usage p) p).length)).sum
        + existing_in_span n usage s := by
  have hown := sum_length_filter_owner n (chunk_owner n s) (List.range' s.1 (gmax + 1 - s.1))
    (fun k _ => Nat.mod_lt _ hn)
  rw [List.length_range'] at hown
  have hsplit : ∀ p ∈ List.range n,
      ((List.range' s.1 (gmax + 1 - s.1)).filter
        (fun k => decide (chunk_owner n s k = p))).length ≤
      (candidates n s gmax (usage p) p).length + keys_in_span s (usage p) := by
    intro p _
    have h1 := length_filter_split (List.range' s.1 (gmax + 1 - s.1))
      (fun k => decide (chunk_owner n s k = p)) (fun k => decide (k ∈ (usage p).map Prod.fst))
    have h2 := length_filter_used_le s (usage p) (gmax + 1 - s.1)
      (fun k => decide (chunk_owner n s k = p)) (by omega)
    beta_reduce at h1 h2
    unfold candidates
    omega
  have hle := sum_map_le_sum _ _ _ hsplit
  rw [hown, sum_map_add_fun] at hle
  unfold existing_in_span
  exact hle

theorem sum_map_flatMap {β γ : Type} (l : List β) (g : β → List γ) (f : γ → Nat) :
    ((l.flatMap g).map f).sum = (l.map (fun i => ((g i).map f).sum)).sum := by
  induction l with
  | nil => rfl
  | cons a t ih =>
    rw [List.flatMap_cons, List.map_append, List.sum_append, ih, List.map_cons, List.sum_cons]

theorem length_flatMap_sum {β : Type} (l : List β) (f : β → List Nat) :
    (l.flatMap f).length = (l.map (fun x => (f x).length)).sum := by
  induction l with
  | nil => rfl
  | cons a t ih =>
    rw [List.flatMap_cons, List.length_append, ih, List.map_cons, List.sum_cons]

/-- A walk that stays inside `contrib_keys` gives every receiver as many keys as
`my_donations` says. -/
theorem donation_walk_length (don : Nat → Nat → Nat) (contrib : List Nat) (r : Nat) :
    ∀ (order : List (Nat × Nat)) (off : Nat),
      off + (order.map (fun ip => don ip.1 ip.2)).sum ≤ contrib.length →
      ((donation_walk don contrib order off).flatMap
        (fun donation => if donation.1 = r then donation.2 else [])).length =
        (order.map (fun ip => if ip.2 = r then don ip.1 ip.2 else 0)).sum := by
  intro order
  induction order with
  | nil =>
    intro off _
    rfl
  | cons ip rest ih =>
    intro off hoff
    rw [List.map_cons, List.sum_cons] at hoff
    unfold donation_walk
    rw [List.flatMap_cons, List.length_append, ih (off + don ip.1 ip.2) (by omega),
      List.map_cons, List.sum_cons]
    congr 1
    simp only []
    by_cases h : ip.2 = r
    · rw [if_pos h, if_pos h, List.length_take, List.length_drop]
      omega
    · rw [if_neg h, if_neg h]
      rfl

theorem sum_donation_order (sc n : Nat) (f : Nat → Nat → Nat) :
    ((donation_order sc n).map (fun ip => f ip.1 ip.2)).sum =
      ((List.range sc).map (fun i => ((List.range n).map (fun p => f i p)).sum)).sum := by
  unfold donation_order
  rw [sum_map_flatMap]
  apply sum_map_congr
  intro i _
  rw [List.map_map]
  rfl

theorem sum_range_ite_right (n r : Nat) (f : Nat → Nat) (hr : r < n) :
    ((List.range n).map (fun p => if p = r then f p else 0)).sum = f r := by
  rw [← sum_range_ite n r (f r) hr]
  apply sum_map_congr
  intro p _
  by_cases h : p = r
  · rw [if_pos h, if_pos h.symm, h]
  · rw [if_neg h, if_neg (fun h2 => h h2.symm)]

/-- The last loop of `generate_new_keys` when `new_keys` holds at least the requested
number of keys: `requested_keys[i]` is given exactly `requests[i]` keys. -/
theorem requested_slices_lengths :
    ∀ (counts : List Nat) (keys : List Nat), counts.sum ≤ keys.length →
      (requested_slices counts keys).map List.length = counts := by
  intro counts
  induction counts with
  | nil =>
    intro keys _
    rfl
  | cons c rest ih =>
    intro keys h
    rw [List.sum_cons] at h
    unfold requested_slices
    rw [List.map_cons, ih _ (by rw [List.length_drop]; omega), List.length_take]
    congr 1
    omega

theorem requested_slices_sublist :
    ∀ (counts : List Nat) (keys : List Nat), ∀ x ∈ requested_slices counts keys,
      x.Sublist keys := by
  intro counts
  induction counts with
  | nil =>
    intro keys x hx
    unfold requested_slices at hx
    exact absurd hx (List.not_mem_nil _)
  | cons c rest ih =>
    intro keys x hx
    unfold requested_slices at hx
    rcases List.mem_cons.1 hx with rfl | hx
    · exact List.take_sublist _ _
    · exact (ih _ x hx).trans (List.drop_sublist _ _)

theorem requested_slices_length (counts keys : List Nat) :
    (requested_slices counts keys).length = counts.length := by
  induction counts generalizing keys with
  | nil => rfl
  | cons c rest ih =>
    unfold requested_slices
    rw [List.length_cons, List.length_cons, ih]

theorem sum_map_sub_cast (l : List Nat) (f g : Nat → Nat) :
    (l.map (fun q => ((f q : Nat) : Int) - ((g q : Nat) : Int))).sum =
      (((l.map f).sum : Nat) : Int) - (((l.map g).sum : Nat) : Int) := by
  induction l with
  | nil => rfl
  | cons a t ih =>
    simp only [List.map_cons, List.sum_cons, ih, Nat.cast_add]
    omega

theorem length_kept_keys (request : Nat) (found : List Nat) :
    (kept_keys request found).length = min request found.length := by
  unfold kept_keys
  rw [List.length_drop]
  omega

theorem length_surplus_keys (request : Nat) (found : List Nat) :
    (surplus_keys request found).length = found.length - min request found.length := by
  unfold surplus_keys
  rw [List.length_take]
  omega

theorem length_candidates_le (n : Nat) (s : KeySpan) (gmax : Nat) (l : List KeyProc)
    (p : Nat) : (candidates n s gmax l p).length ≤ gmax + 1 - s.1 := by
  unfold candidates
  have := List.length_filter_le
    (fun k => decide (chunk_owner n s k = p) && !decide (k ∈ l.map Prod.fst))
    (List.range' s.1 (gmax + 1 - s.1))
  rw [List.length_range'] at this
  exact this

theorem le_sum_range (n : Nat) (f : Nat → Nat) (p : Nat) (hp : p < n) :
    f p ≤ ((List.range n).map f).sum :=
  List.single_le_sum (fun _ _ => Nat.zero_le _) _
    (List.mem_map_of_mem f (List.mem_range.2 hp))

theorem getD_map_range_int (m : Nat) (f : Nat → Int) (i : Nat) (hi : i < m) :
    ((List.range m).map f).getD i 0 = f i := by
  rw [List.getD_eq_getElem?_getD, List.getElem?_map, List.getElem?_range hi]
  rfl

/-- On a consistent index whose spans have fewer than `2 ^ 61` keys, a call whose request
sums do not wrap around and whose global counts do not throw has requests below `2 ^ 61` on
every rank. -/
theorem requests_small (n : Nat) (spans : List KeySpan)
    (usage : Nat → List KeyProc) (requests : Nat → List Nat)
    (hspans : spans.Pairwise (fun a b => a.2 < b.1))
    (hvalid : ∀ s ∈ spans, s.1 ≤ s.2 ∧ s.2 + (n + 1) * 4096 < 2 ^ 64 ∧ n < 2 ^ 19)
    (hcap : ∀ s ∈ spans, span_capacity s < 2 ^ 61)
    (hsorted : ∀ p, p < n → ((usage p).map Prod.fst).Pairwise (· ≤ ·))
    (hin : ∀ p, p < n → ∀ e ∈ usage p, ∃ s ∈ spans, s.1 ≤ e.1 ∧ e.1 ≤ s.2)
    (hexist : ∀ s ∈ spans, existing_in_span n usage s ≤ span_capacity s)
    (hreq : ∀ i, i < spans.length → requested_in_span n requests i < 2 ^ 64)
    (hthrew : (generate_new_keys_global_counts n spans usage requests).threw = false)
    (r : Nat) (hr : r < n) (i : Nat) (hi : i < spans.length) :
    (requests r).getD i 0 < 2 ^ 61 := by
  have hgood := (global_counts_good n spans usage requests hspans (valid_weaken n spans hvalid)
    hsorted hin hexist hthrew i hi).2.2
  rw [Nat.mod_eq_of_lt (hreq i hi)] at hgood
  have hle := le_sum_range n (fun p => (requests p).getD i 0) r hr
  have hc := hcap _ (getD_mem spans i hi)
  unfold requested_in_span at hgood
  beta_reduce at hle
  omega

/-- The entry of `new_request` for a span, when the spans have fewer than `2 ^ 61` keys and
the requests do not wrap around: the requested keys minus the keys found, as a `long`. -/
theorem new_request_eq (n : Nat) (spans : List KeySpan) (cf : Nat → List Nat)
    (usage : Nat → List KeyProc) (requests : Nat → List Nat)
    (hspans : spans.Pairwise (fun a b => a.2 < b.1))
    (hvalid : ∀ s ∈ spans, s.1 ≤ s.2 ∧ s.2 + (n + 1) * 4096 < 2 ^ 64 ∧ n < 2 ^ 19)
    (hcap : ∀ s ∈ spans, span_capacity s < 2 ^ 61)
    (hchunk : ∀ p, p < n → chunk_first n (p : Int) spans = some (cf p))
    (hsorted : ∀ p, p < n → ((usage p).map Prod.fst).Pairwise (· ≤ ·))
    (hin : ∀ p, p < n → ∀ e ∈ usage p, ∃ s ∈ spans, s.1 ≤ e.1 ∧ e.1 ≤ s.2)
    (hexist : ∀ s ∈ spans, existing_in_span n usage s ≤ span_capacity s)
    (hreq : ∀ i, i < spans.length → requested_in_span n requests i < 2 ^ 64)
    (hthrew : (generate_new_keys_global_counts n spans usage requests).threw = false)
    (hplan : ∀ p, p < n → rank_planning n spans cf usage requests p =
      some (plannings n spans cf usage requests p))
    (q : Nat) (hq : q < n) (i : Nat) (hi : i < spans.length) :
    new_request_global (fun q => (plannings n spans cf usage requests q).new_request) q i =
      (((requests q).getD i 0 : Nat) : Int)
        - (((rank_candidates n spans usage requests q i).length : Nat) : Int) := by
  have hP := rank_planning_eq n spans cf usage requests hspans hvalid hsorted hin
    hexist hthrew q hq (hchunk q hq) _ (hplan q hq)
  have hkgm := key_global_max_of_planning n spans cf usage requests hspans hvalid hsorted hin
    hexist hthrew q _ (hplan q hq) i hi
  have hgood := (global_counts_good n spans usage requests hspans (valid_weaken n spans hvalid)
    hsorted hin hexist hthrew i hi).2.2
  have hc := hcap _ (getD_mem spans i hi)
  have hlen : (rank_candidates n spans usage requests q i).length ≤ _ :=
    length_candidates_le _ _ _ _ _
  have hle := le_sum_range n (fun p => (requests p).getD i 0) q hq
  have hr := hreq i hi
  rw [Nat.mod_eq_of_lt hr] at hkgm hgood
  unfold requested_in_span at hr hkgm hgood
  unfold new_request_global
  beta_reduce at hle ⊢
  rw [hP.1, getD_map_range_int _ _ _ hi]
  apply to_long_eq <;> omega

/-- In every span the candidates found by all the ranks are at least the requested keys:
the entries of `new_request` of all the ranks add up to at most zero. -/
theorem sum_new_request_le (n : Nat) (spans : List KeySpan) (cf : Nat → List Nat)
    (usage : Nat → List KeyProc) (requests : Nat → List Nat)
    (hspans : spans.Pairwise (fun a b => a.2 < b.1))
    (hvalid : ∀ s ∈ spans, s.1 ≤ s.2 ∧ s.2 + (n + 1) * 4096 < 2 ^ 64 ∧ n < 2 ^ 19)
    (hcap : ∀ s ∈ spans, span_capacity s < 2 ^ 61)
    (hchunk : ∀ p, p < n → chunk_first n (p : Int) spans = some (cf p))
    (hsorted : ∀ p, p < n → ((usage p).map Prod.fst).Pairwise (· ≤ ·))
    (hin : ∀ p, p < n → ∀ e ∈ usage p, ∃ s ∈ spans, s.1 ≤ e.1 ∧ e.1 ≤ s.2)
    (hexist : ∀ s ∈ spans, existing_in_span n usage s ≤ span_capacity s)
    (hreq : ∀ i, i < spans.length → requested_in_span n requests i < 2 ^ 64)
    (hthrew : (generate_new_keys_global_counts n spans usage requests).threw = false)
    (hplan : ∀ p, p < n → rank_planning n spans cf usage requests p =
      some (plannings n spans cf usage requests p))
    (i : Nat) (hi : i < spans.length) :
    ((List.range n).map (fun q =>
      new_request_global (fun q => (plannings n spans cf usage requests q).new_request)
        q i)).sum ≤ 0 := by
  by_cases hn : n = 0
  · subst hn
    exact Int.le_refl _
  have hkgm := key_global_max_of_planning n spans cf usage requests hspans hvalid hsorted hin
    hexist hthrew 0 _ (hplan 0 (by omega)) i hi
  have hmax := key_global_max_le n spans cf usage requests hspans hvalid hsorted hin hexist
    hthrew 0 _ (hplan 0 (by omega)) i hi
  have hge := sum_candidates_ge n (by omega) (spans.getD i (0, 0)) _ usage
    (hvalid _ (getD_mem spans i hi)).1 hmax
  rw [Nat.mod_eq_of_lt (hreq i hi)] at hkgm
  rw [List.map_congr_left (fun q hq => new_request_eq n spans cf usage requests hspans hvalid
    hcap hchunk hsorted hin hexist hreq hthrew hplan q (List.mem_range.1 hq) i hi),
    sum_map_sub_cast]
  unfold requested_in_span at hkgm
  unfold rank_candidates
  omega

/-- The candidates of all the ranks in a span are at most the keys from the first key of the
span up to `key_global_max`. -/
theorem sum_candidates_le_range (n : Nat) (hn : 0 < n) (s : KeySpan) (gmax : Nat)
    (usage : Nat → List KeyProc) :
    ((List.range n).map (fun p => (candidates n s gmax (usage p) p).length)).sum
      ≤ gmax + 1 - s.1 := by
  have hown := sum_length_filter_owner n (chunk_owner n s) (List.range' s.1 (gmax + 1 - s.1))
    (fun k _ => Nat.mod_lt _ hn)
  rw [List.length_range'] at hown
  rw [← hown]
  apply sum_map_le_sum
  intro p _
  have h1 := length_filter_split (List.range' s.1 (gmax + 1 - s.1))
    (fun k => decide (chunk_owner n s k = p)) (fun k => decide (k ∈ (usage p).map Prod.fst))
  beta_reduce at h1
  unfold candidates
  omega

theorem receive_before_le_sum (x : Nat → Int) (f : Nat → Nat) (m : Nat)
    (h : ∀ q, q < m → x q ≤ ((f q : Nat) : Int)) :
    receive_before x m ≤ ((((List.range m).map f).sum : Nat) : Int) := by
  induction m with
  | zero => simp [receive_before]
  | succ m ih =>
    have h1 := ih (fun q hq => h q (by omega))
    have h2 := h m (by omega)
    rw [receive_before_succ, List.range_succ, List.map_append, List.sum_append]
    simp only [List.map_cons, List.map_nil, List.sum_cons, List.sum_nil]
    omega

theorem donate_before_le_sum (x : Nat → Int) (f : Nat → Nat) (m : Nat)
    (h : ∀ q, q < m → - x q ≤ ((f q : Nat) : Int)) :
    donate_before x m ≤ ((((List.range m).map f).sum : Nat) : Int) := by
  induction m with
  | zero => simp [donate_before]
  | succ m ih =>
    have h1 := ih (fun q hq => h q (by omega))
    have h2 := h m (by omega)
    rw [donate_before_succ, List.range_succ, List.map_append, List.sum_append]
    simp only [List.map_cons, List.map_nil, List.sum_cons, List.sum_nil]
    omega

/-- On a consistent index whose spans have fewer than `2 ^ 61` keys, the entries of
`new_request` that the ranks gather for a span stay in the range of the sums of
`generate_new_keys_global_planning`: the requests of the receivers and the surpluses of the
donors each sum to less than `2 ^ 63`. -/
theorem planning_in_range (n : Nat) (spans : List KeySpan) (cf : Nat → List Nat)
    (usage : Nat → List KeyProc) (requests : Nat → List Nat)
    (hspans : spans.Pairwise (fun a b => a.2 < b.1))
    (hvalid : ∀ s ∈ spans, s.1 ≤ s.2 ∧ s.2 + (n + 1) * 4096 < 2 ^ 64 ∧ n < 2 ^ 19)
    (hcap : ∀ s ∈ spans, span_capacity s < 2 ^ 61)
    (hchunk : ∀ p, p < n → chunk_first n (p : Int) spans = some (cf p))
    (hsorted : ∀ p, p < n → ((usage p).map Prod.fst).Pairwise (· ≤ ·))
    (hin : ∀ p, p < n → ∀ e ∈ usage p, ∃ s ∈ spans, s.1 ≤ e.1 ∧ e.1 ≤ s.2)
    (hexist : ∀ s ∈ spans, existing_in_span n usage s ≤ span_capacity s)
    (hreq : ∀ i, i < spans.length → requested_in_span n requests i < 2 ^ 64)
    (hthrew : (generate_new_keys_global_counts n spans usage requests).threw = false)
    (hplan : ∀ p, p < n → rank_planning n spans cf usage requests p =
      some (plannings n spans cf usage requests p))
    (i : Nat) (hi : i < spans.length) :
    receive_before (fun q => new_request_global
        (fun q => (plannings n spans cf usage requests q).new_request) q i) n < 2 ^ 63 ∧
      ∀ d, d < n → donate_before (fun q => new_request_global
        (fun q => (plannings n spans cf usage requests q).new_request) q i) (d + 1) < 2 ^ 63 := by
  by_cases hn : n = 0
  · subst hn
    exact ⟨by simp [receive_before], fun d hd => absurd hd (Nat.not_lt_zero d)⟩
  have hx := fun q hq => new_request_eq n spans cf usage requests hspans hvalid hcap hchunk
    hsorted hin hexist hreq hthrew hplan q hq i hi
  have hkgm := key_global_max_of_planning n spans cf usage requests hspans hvalid hsorted hin
    hexist hthrew 0 _ (hplan 0 (by omega)) i hi
  have hgood := (global_counts_good n spans usage requests hspans (valid_weaken n spans hvalid)
    hsorted hin hexist hthrew i hi).2.2
  rw [Nat.mod_eq_of_lt (hreq i hi)] at hkgm hgood
  have hc := hcap _ (getD_mem spans i hi)
  have hfound := sum_candidates_le_range n (by omega) (spans.getD i (0, 0))
    (key_global_max spans
      (generate_new_keys_global_counts n spans usage requests).existing_global_sum
      (generate_new_keys_global_counts n spans usage requests).requests_global_sum i) usage
  have h1 := receive_before_le_sum (fun q => new_request_global
    (fun q => (plannings n spans cf usage requests q).new_request) q i)
    (fun q => (requests q).getD i 0) n (fun q hq => by
      beta_reduce
      rw [hx q hq]
      omega)
  have h2 := donate_before_le_sum (fun q => new_request_global
    (fun q => (plannings n spans cf usage requests q).new_request) q i)
    (fun q => (rank_candidates n spans usage requests q i).length) n (fun q hq => by
      beta_reduce
      rw [hx q hq]
      omega)
  unfold requested_in_span at hgood hkgm
  unfold rank_candidates at h2
  refine ⟨by omega, fun d hd => ?_⟩
  have h3 := donate_before_mono (fun q => new_request_global
    (fun q => (plannings n spans cf usage requests q).new_request) q i) (d + 1) n (by omega)
  omega

/-- On a consistent index whose arithmetic does not wrap around, after the local planning
of all the ranks, the rank `r` ends with as many new keys, kept and received, as it
requested. -/
theorem length_new_keys (n : Nat) (spans : List KeySpan) (cf : Nat → List Nat)
    (usage : Nat → List KeyProc) (requests : Nat → List Nat)
    (hspans : spans.Pairwise (fun a b => a.2 < b.1))
    (hvalid : ∀ s ∈ spans, s.1 ≤ s.2 ∧ s.2 + (n + 1) * 4096 < 2 ^ 64 ∧ n < 2 ^ 19)
    (hcap : ∀ s ∈ spans, span_capacity s < 2 ^ 61)
    (hchunk : ∀ p, p < n → chunk_first n (p : Int) spans = some (cf p))
    (hsorted : ∀ p, p < n → ((usage p).map Prod.fst).Pairwise (· ≤ ·))
    (hin : ∀ p, p < n → ∀ e ∈ usage p, ∃ s ∈ spans, s.1 ≤ e.1 ∧ e.1 ≤ s.2)
    (hexist : ∀ s ∈ spans, existing_in_span n usage s ≤ span_capacity s)
    (hreq : ∀ i, i < spans.length → requested_in_span n requests i < 2 ^ 64)
    (hthrew : (generate_new_keys_global_counts n spans usage requests).threw = false)
    (hplan : ∀ p, p < n → rank_planning n spans cf usage requests p =
      some (plannings n spans cf usage requests p))
    (r : Nat) (hr : r < n) :
    (new_keys n spans cf usage requests r).length =
      ((List.range spans.length).map (fun i => (requests r).getD i 0)).sum := by
  have hP := fun p hp => rank_planning_eq n spans cf usage requests hspans hvalid hsorted hin
    hexist hthrew p hp (hchunk p hp) _ (hplan p hp)
  have hx := new_request_eq n spans cf usage requests hspans hvalid hcap hchunk hsorted hin
    hexist hreq hthrew hplan
  have hsum := sum_new_request_le n spans cf usage requests hspans hvalid hcap hchunk hsorted
    hin hexist hreq hthrew hplan
  have hR := planning_in_range n spans cf usage requests hspans hvalid hcap hchunk hsorted hin
    hexist hreq hthrew hplan
  have hdon : ∀ d, d < n → ∀ i, i < spans.length → ∀ p, p < n →
      generate_new_keys_global_planning n d
        (fun q => (plannings n spans cf usage requests q).new_request) i p =
      donation (fun q => new_request_global
        (fun q => (plannings n spans cf usage requests q).new_request) q i) d p :=
    fun d hd i hi p hp => global_planning_eq n d _ i p hp (hR i hi).1 ((hR i hi).2 d hd)
  have hwalk : ∀ d, d < n →
      ((donation_order spans.length n).map (fun ip =>
        generate_new_keys_global_planning n d
          (fun q => (plannings n spans cf usage requests q).new_request) ip.1 ip.2)).sum ≤
      (plannings n spans cf usage requests d).contrib_keys.length := by
    intro d hd
    have hord := sum_donation_order spans.length n
      (generate_new_keys_global_planning n d
        (fun q => (plannings n spans cf usage requests q).new_request))
    rw [hord, (hP d hd).2.2, length_flatMap_sum]
    apply sum_map_le_sum
    intro i hi
    have hi2 := List.mem_range.1 hi
    rw [sum_map_congr _ _ _ (fun p hp => hdon d hd i hi2 p (List.mem_range.1 hp))]
    have h1 : ((List.range n).map (donation (fun q => new_request_global
          (fun q => (plannings n spans cf usage requests q).new_request) q i) d)).sum ≤
        (max (- new_request_global
          (fun q => (plannings n spans cf usage requests q).new_request) d i) 0).toNat :=
      sum_donation_le (fun q => new_request_global
        (fun q => (plannings n spans cf usage requests q).new_request) q i) d n
    rw [hx d hd i hi2] at h1
    rw [length_surplus_keys]
    omega
  have hrecv : ∀ d, d < n →
      ((rank_donations n spans (plannings n spans cf usage requests) d).flatMap
        (fun donation => if donation.1 = r then donation.2 else [])).length =
      ((List.range spans.length).map (fun i =>
        donation (fun q => new_request_global
          (fun q => (plannings n spans cf usage requests q).new_request) q i) d r)).sum := by
    intro d hd
    unfold rank_donations
    rw [donation_walk_length _ _ r _ 0 (by rw [Nat.zero_add]; exact hwalk d hd)]
    have hord := sum_donation_order spans.length n
      (fun i p => if p = r then generate_new_keys_global_planning n d
        (fun q => (plannings n spans cf usage requests q).new_request) i p else 0)
    beta_reduce at hord
    rw [hord]
    apply sum_map_congr
    intro i hi
    have hite := sum_range_ite_right n r (fun p => generate_new_keys_global_planning n d
        (fun q => (plannings n spans cf usage requests q).new_request) i p) hr
    beta_reduce at hite
    rw [hite, hdon d hd i (List.mem_range.1 hi) r hr]
  unfold new_keys
  rw [List.length_insertionSort, List.length_append, (hP r hr).2.1, length_flatMap_sum,
    length_flatMap_sum, sum_map_congr _ _ _ (fun d hd => hrecv d (List.mem_range.1 hd)),
    sum_map_comm, ← sum_map_add_fun]
  apply sum_map_congr
  intro i hi
  have hi2 := List.mem_range.1 hi
  have h1 := sum_donation_of_le (fun q => new_request_global
    (fun q => (plannings n spans cf usage requests q).new_request) q i) n r hr (hsum i hi2)
  beta_reduce at h1
  rw [h1, hx r hr i hi2, length_kept_keys]
  omega

theorem map_getD_range (l : List Nat) (m : Nat) (h : l.length = m) :
    (List.range m).map (l.getD · 0) = l := by
  apply List.ext_getElem
  · rw [List.length_map, List.length_range, h]
  · intro i h1 h2
    rw [List.getElem_map, List.getElem_range, List.getD_eq_getElem?_getD,
      List.getElem?_eq_getElem h2]
    rfl

/-- A call that does not throw was given request vectors of the size `m_span_count`. -/
theorem requests_length_of_not_threw (n : Nat) (hn : n < 2 ^ 64) (spans : List KeySpan)
    (usage : Nat → List KeyProc) (requests : Nat → List Nat)
    (hthrew : (generate_new_keys_global_counts n spans usage requests).threw = false)
    (p : Nat) (hp : p < n) : (requests p).length = spans.length := by
  unfold generate_new_keys_global_counts at hthrew
  simp only [Bool.or_eq_false_iff, decide_eq_false_iff_not] at hthrew
  by_contra hne
  exact hthrew.1 ((all_reduce_flag n hn spans usage requests).2 ⟨p, hp, hne⟩)

/-! ### When `generate_new_keys` returns -/

theorem plan_chunk_some (kb gmax : Nat) (st : List KeyProc × List Nat)
    (hmax : gmax < 2 ^ 64 - 1) : ∃ res, plan_chunk kb gmax st = some res := by
  unfold plan_chunk
  simp only []
  rw [if_neg (by omega)]
  exact ⟨_, rfl⟩

/-- The loop over the chunks ends when `key_global_max` and one more step lie below
`2 ^ 64`: every step moves `key_begin` up by at least one chunk. -/
theorem plan_chunks_some (gmax inc : Nat) (hinc : 4096 ≤ inc) (hmax : gmax + inc < 2 ^ 64) :
    ∀ (fuel kb : Nat) (st : List KeyProc × List Nat), gmax < kb + fuel * 4096 →
      ∃ res, plan_chunks gmax inc (fuel + 1) kb st = some res := by
  intro fuel
  induction fuel with
  | zero =>
    intro kb st h
    unfold plan_chunks
    rw [if_neg (by omega)]
    exact ⟨_, rfl⟩
  | succ fuel ih =>
    intro kb st h
    unfold plan_chunks
    by_cases hkb : kb ≤ gmax
    · rw [if_pos hkb]
      obtain ⟨st1, hst1⟩ := plan_chunk_some kb gmax st (by omega)
      rw [hst1, Option.some_bind, Nat.mod_eq_of_lt (by omega)]
      exact ih _ st1 (by omega)
    · rw [if_neg hkb]
      exact ⟨_, rfl⟩

theorem plan_span_some (n : Nat) (hn : 1 ≤ n) (spans : List KeySpan) (cf E R req : List Nat)
    (i : Nat) (st : Planning)
    (hmax : key_global_max spans E R i + (n + 1) * 4096 < 2 ^ 64) (hranks : n < 2 ^ 19) :
    ∃ res, plan_span n spans cf E R req i st = some res := by
  have hexp : (n + 1) * 4096 = n * 4096 + 4096 := by ring
  have h4096 : 4096 ≤ n * 4096 := Nat.le_mul_of_pos_left _ hn
  unfold key_global_max at hmax
  unfold plan_span
  simp only []
  rw [chunk_size_eq, chunk_inc_eq n hranks]
  obtain ⟨walked, hw⟩ := plan_chunks_some
    (((spans.getD i (0, 0)).1 + (E.getD i 0 + R.getD i 0) % 2 ^ 64 + 2 ^ 64 - 1) % 2 ^ 64)
    (n * 4096) h4096 (by omega) (2 ^ 52)
    ((((spans.getD i (0, 0)).1 + cf.getD i 0 * 4096) % 2 ^ 64)) (st.j, st.contrib_keys)
    (by omega)
  rw [hw]
  exact ⟨_, rfl⟩

theorem plan_spans_some (n : Nat) (hn : 1 ≤ n) (spans : List KeySpan) (cf E R req : List Nat) :
    ∀ (is : List Nat) (st : Planning),
      (∀ i ∈ is, key_global_max spans E R i + (n + 1) * 4096 < 2 ^ 64 ∧ n < 2 ^ 19) →
      ∃ res, plan_spans n spans cf E R req is st = some res := by
  intro is
  induction is with
  | nil =>
    intro st _
    exact ⟨st, rfl⟩
  | cons i rest ih =>
    intro st h
    unfold plan_spans
    obtain ⟨st1, hst1⟩ := plan_span_some n hn spans cf E R req i st
      (h i (List.mem_cons_self _ _)).1 (h i (List.mem_cons_self _ _)).2
    rw [hst1, Option.some_bind]
    exact ih st1 (fun i2 hi2 => h i2 (List.mem_cons_of_mem _ hi2))

/-- On a consistent index whose spans end `m_comm_size + 1` chunks below `2 ^ 64`, after
global counts that did not throw, the local planning of every rank ends, unless a span
that starts at the key `0` has no key in use and none requested. -/
theorem rank_planning_some (n : Nat) (hn : 1 ≤ n) (spans : List KeySpan) (cf : Nat → List Nat)
    (usage : Nat → List KeyProc) (requests : Nat → List Nat)
    (hspans : spans.Pairwise (fun a b => a.2 < b.1))
    (hvalid : ∀ s ∈ spans, s.1 ≤ s.2 ∧ s.2 + (n + 1) * 4096 < 2 ^ 64 ∧ n < 2 ^ 19)
    (hsorted : ∀ p, p < n → ((usage p).map Prod.fst).Pairwise (· ≤ ·))
    (hin : ∀ p, p < n → ∀ e ∈ usage p, ∃ s ∈ spans, s.1 ≤ e.1 ∧ e.1 ≤ s.2)
    (hexist : ∀ s ∈ spans, existing_in_span n usage s ≤ span_capacity s)
    (hpos : ∀ i, i < spans.length → 1 ≤ (spans.getD i (0, 0)).1 ∨
      1 ≤ existing_in_span n usage (spans.getD i (0, 0))
        + requested_in_span n requests i % 2 ^ 64)
    (hthrew : (generate_new_keys_global_counts n spans usage requests).threw = false)
    (p : Nat) : ∃ P, rank_planning n spans cf usage requests p = some P := by
  unfold rank_planning generate_new_keys_local_planning
  apply plan_spans_some n hn
  intro i hi
  have hi2 := List.mem_range.1 hi
  obtain ⟨h1, h2, h3⟩ := global_counts_good n spans usage requests hspans
    (valid_weaken n spans hvalid) hsorted hin hexist hthrew i hi2
  have h4 := hvalid _ (getD_mem spans i hi2)
  have h5 := hpos i hi2
  unfold key_global_max
  rw [h1, h2]
  unfold span_capacity at h3
  omega

/-- With request sums below `2 ^ 64`, no rank plans to donate more keys than it has left in
`contrib_keys`: the walk over `contrib_keys` stays inside the vector. -/
theorem rank_donations_in_range_of (n : Nat) (spans : List KeySpan) (cf : Nat → List Nat)
    (usage : Nat → List KeyProc) (requests : Nat → List Nat)
    (hspans : spans.Pairwise (fun a b => a.2 < b.1))
    (hvalid : ∀ s ∈ spans, s.1 ≤ s.2 ∧ s.2 + (n + 1) * 4096 < 2 ^ 64 ∧ n < 2 ^ 19)
    (hcap : ∀ s ∈ spans, span_capacity s < 2 ^ 61)
    (hchunk : ∀ p, p < n → chunk_first n (p : Int) spans = some (cf p))
    (hsorted : ∀ p, p < n → ((usage p).map Prod.fst).Pairwise (· ≤ ·))
    (hin : ∀ p, p < n → ∀ e ∈ usage p, ∃ s ∈ spans, s.1 ≤ e.1 ∧ e.1 ≤ s.2)
    (hexist : ∀ s ∈ spans, existing_in_span n usage s ≤ span_capacity s)
    (hreq : ∀ i, i < spans.length → requested_in_span n requests i < 2 ^ 64)
    (hthrew : (generate_new_keys_global_counts n spans usage requests).threw = false)
    (hplan : ∀ p, p < n → rank_planning n spans cf usage requests p =
      some (plannings n spans cf usage requests p))
    (d : Nat) (hd : d < n) :
    rank_donations_in_range n spans (plannings n spans cf usage requests) d = true := by
  have hP := rank_planning_eq n spans cf usage requests hspans hvalid hsorted hin
    hexist hthrew d hd (hchunk d hd) _ (hplan d hd)
  have hx := new_request_eq n spans cf usage requests hspans hvalid hcap hchunk hsorted hin
    hexist hreq hthrew hplan
  unfold rank_donations_in_range donation_walk_in_range
  apply decide_eq_true
  have hord := sum_donation_order spans.length n
    (generate_new_keys_global_planning n d
      (fun q => (plannings n spans cf usage requests q).new_request))
  rw [hord, hP.2.2, length_flatMap_sum]
  apply sum_map_le_sum
  intro i hi
  have hi2 := List.mem_range.1 hi
  have hR := planning_in_range n spans cf usage requests hspans hvalid hcap hchunk hsorted hin
    hexist hreq hthrew hplan i hi2
  rw [sum_map_congr _ _ _ (fun p hp => global_planning_eq n d _ i p (List.mem_range.1 hp)
    hR.1 (hR.2 d hd))]
  refine le_trans (sum_donation_le (fun q => new_request_global
    (fun q => (plannings n spans cf usage requests q).new_request) q i) d n) ?_
  beta_reduce
  rw [hx d hd i hi2, length_surplus_keys]
  omega

/-- On a consistent index whose arithmetic does not wrap around, with request sums below
`2 ^ 64`, a call of `generate_new_keys` whose global counts do not throw returns on every
rank, unless a span that starts at the key `0` has no key in use and none requested. -/
theorem generate_new_keys_returns (n : Nat) (spans : List KeySpan) (cf : Nat → List Nat)
    (usage : Nat → List KeyProc) (requests : Nat → List Nat)
    (hspans : spans.Pairwise (fun a b => a.2 < b.1))
    (hvalid : ∀ s ∈ spans, s.1 ≤ s.2 ∧ s.2 + (n + 1) * 4096 < 2 ^ 64 ∧ n < 2 ^ 19)
    (hcap : ∀ s ∈ spans, span_capacity s < 2 ^ 61)
    (hchunk : ∀ p, p < n → chunk_first n (p : Int) spans = some (cf p))
    (hsorted : ∀ p, p < n → ((usage p).map Prod.fst).Pairwise (· ≤ ·))
    (hin : ∀ p, p < n → ∀ e ∈ usage p, ∃ s ∈ spans, s.1 ≤ e.1 ∧ e.1 ≤ s.2)
    (hexist : ∀ s ∈ spans, existing_in_span n usage s ≤ span_capacity s)
    (hreq : ∀ i, i < spans.length → requested_in_span n requests i < 2 ^ 64)
    (hpos : ∀ i, i < spans.length → 1 ≤ (spans.getD i (0, 0)).1 ∨
      1 ≤ existing_in_span n usage (spans.getD i (0, 0)) + requested_in_span n requests i)
    (hthrew : (generate_new_keys_global_counts n spans usage requests).threw = false)
    (r : Nat) (hr : r < n) :
    ∃ res, generate_new_keys n spans cf usage requests r = some res ∧ res.threw = false := by
  have hsome := rank_planning_some n (by omega) spans cf usage requests hspans hvalid hsorted
    hin hexist (fun i hi => by
      rw [Nat.mod_eq_of_lt (hreq i hi)]
      exact hpos i hi) hthrew
  have hplan : ∀ p, p < n → rank_planning n spans cf usage requests p =
      some (plannings n spans cf usage requests p) := by
    intro p _
    obtain ⟨P, hP⟩ := hsome p
    unfold plannings
    rw [hP]
    rfl
  have hall : ((List.range n).all
      (fun p => (rank_planning n spans cf usage requests p).isSome)) = true :=
    List.all_eq_true.2 (fun p hp => by
      rw [hplan p (List.mem_range.1 hp)]
      rfl)
  have hlen := length_new_keys n spans cf usage requests hspans hvalid hcap hchunk hsorted hin
    hexist hreq hthrew hplan r hr
  have hcond : ((List.range n).all
      (rank_donations_in_range n spans (plannings n spans cf usage requests))
      && requested_slices_in_range
        ((List.range spans.length).map (fun i => slice_count ((requests r).getD i 0)))
        (new_keys n spans cf usage requests r)) = true := by
    rw [Bool.and_eq_true]
    constructor
    · exact List.all_eq_true.2 (fun d hd =>
        rank_donations_in_range_of n spans cf usage requests hspans hvalid hcap hchunk hsorted
          hin hexist hreq hthrew hplan d (List.mem_range.1 hd))
    · unfold requested_slices_in_range
      apply decide_eq_true
      rw [hlen]
      exact sum_map_le_sum _ _ _ (fun i _ => Nat.mod_le _ _)
  unfold generate_new_keys
  rw [if_neg (by rw [hthrew]; exact Bool.false_ne_true), if_pos hall]
  dsimp only
  split
  · exact ⟨_, rfl, rfl⟩
  · rename_i hc
    exact absurd hcond hc

/-! ## The statements of the specification: `generate_new_keys` -/

/-- C15, the code at the failing input: one rank, an index constructed with an empty span
list (so with the span of all keys), no key in use, `generate_new_keys([1])`.  The number
of keys of the span, `2 ^ 64`, wraps around to `0`, `span_available` is `0`, and the call
throws although the span has free keys. -/
theorem generate_new_keys_whole_range_throws :
    constructed_key_span [] = [(0, 2 ^ 64 - 1)] ∧
      span_available (0, 2 ^ 64 - 1) 0 = 0 ∧
      generate_new_keys 1 (constructed_key_span [])
        (fun p => (chunk_first 1 (p : Int) (constructed_key_span [])).getD [])
        (fun _ => []) (fun _ => [1]) 0 =
        some { threw := true, m_key_usage := [], requested_keys := [] } := by
  decide

/-- C16: whenever `generate_new_keys` throws on the rank `r`, it leaves `m_key_usage` of
`r` as it was before the call (and has assigned nothing to `requested_keys`). -/
theorem generate_new_keys_throw_unchanged (m_comm_size : Nat) (m_key_span : List KeySpan)
    (m_chunk_first : Nat → List Nat) (m_key_usage : Nat → List KeyProc)
    (requests : Nat → List Nat) (r : Nat) (res : GenerateResult)
    (hres : generate_new_keys m_comm_size m_key_span m_chunk_first m_key_usage requests r
      = some res)
    (hthrow : res.threw = true) :
    res.m_key_usage = m_key_usage r ∧
      res = { threw := true, m_key_usage := m_key_usage r, requested_keys := [] } := by
  have hcounts := (generate_new_keys_threw_iff m_comm_size m_key_span m_chunk_first m_key_usage
    requests r).1 ⟨res, hres, hthrow⟩
  rw [generate_new_keys_of_threw _ _ _ _ _ _ hcounts, Option.some.injEq] at hres
  rw [← hres]
  exact ⟨rfl, rfl⟩

/-- Instance of C16: four ranks, spans `[(0, 4)]`, rank 0 holds `(1, 0)`, every rank
requests `[2]`: the call throws on rank 0 and leaves `[(1, 0)]`. -/
theorem generate_new_keys_throw_unchanged_witness :
    generate_new_keys 4 [(0, 4)] (fun p => (chunk_first 4 (p : Int) [(0, 4)]).getD [])
        (fun p => if p = 0 then [(1, 0)] else []) (fun _ => [2]) 0 =
        some { threw := true, m_key_usage := [(1, 0)], requested_keys := [] } ∧
      (({ threw := true, m_key_usage := [(1, 0)], requested_keys := [] } :
          GenerateResult).m_key_usage =
          (fun p => if p = 0 then [(1, 0)] else [] : Nat → List KeyProc) 0 ∧
        ({ threw := true, m_key_usage := [(1, 0)], requested_keys := [] } : GenerateResult) =
          { threw := true,
            m_key_usage := (fun p => if p = 0 then [(1, 0)] else [] : Nat → List KeyProc) 0,
            requested_keys := [] }) :=
  ⟨by decide,
    generate_new_keys_throw_unchanged 4 [(0, 4)]
      (fun p => (chunk_first 4 (p : Int) [(0, 4)]).getD [])
      (fun p => if p = 0 then [(1, 0)] else []) (fun _ => [2]) 0
      { threw := true, m_key_usage := [(1, 0)], requested_keys := [] } (by decide)
      (by decide)⟩

/-- C18, the code at the failing input: two ranks, spans `[(0, 99), (100, 199)]`; rank 0 has
registered the key 50 with `update_keys([50], [])`; then rank 0 requests `[2, 0]` and rank 1
requests `[0, 1]`.  Rank 0 finds the free keys `0, 1, 2` in the first span, keeps `1, 2` and
is left with the surplus `0`, which nobody requests; in the second span it finds `100` for
rank 1.  The walk over `contrib_keys = [0, 100]` starts at position 0 for the second span
too, so rank 1 is sent the key `0`, and its `requested_keys[1]` is `[0]`, outside
`[100, 199]`. -/
theorem generate_new_keys_out_of_span :
    (∀ p, p < 2 →
      update_keys 2 [(0, 99), (100, 199)] (only_rank 0 [50]) no_keys (fun _ => []) p =
        { threw := false, m_key_usage := if p = 0 then [(50, 0)] else [] }) ∧
      rank_planning 2 [(0, 99), (100, 199)]
        (fun p => (chunk_first 2 (p : Int) [(0, 99), (100, 199)]).getD [])
        (fun p => (update_keys 2 [(0, 99), (100, 199)] (only_rank 0 [50]) no_keys
          (fun _ => []) p).m_key_usage)
        (fun p => if p = 0 then [2, 0] else [0, 1]) 0 =
        some { j := [], new_request := [-1, -1], requested_keys := [1, 2],
               contrib_keys := [0, 100] } ∧
      generate_new_keys 2 [(0, 99), (100, 199)]
        (fun p => (chunk_first 2 (p : Int) [(0, 99), (100, 199)]).getD [])
        (fun p => (update_keys 2 [(0, 99), (100, 199)] (only_rank 0 [50]) no_keys
          (fun _ => []) p).m_key_usage)
        (fun p => if p = 0 then [2, 0] else [0, 1]) 1 =
        some { threw := false, m_key_usage := [], requested_keys := [[], [0]] } ∧
      ¬ (100 ≤ 0 ∧ 0 ≤ 199) := by
  decide

/-- C19, the code at the failing input: two ranks, spans `[(4095, 100000)]`, whose first key
is not a multiple of 4096; rank 1 has registered the key 4096, which it owns, with
`update_keys([4096], [])`; then rank 0 requests `[2]` and rank 1 requests `[0]`.  Rank 0
walks the keys `4095 .. 4097` as its chunk, looks them up in its own `m_key_usage` only,
and is returned `[4096, 4097]`: the key 4096 is in use on rank 1. -/
theorem generate_new_keys_not_fresh :
    (∀ p, p < 2 →
      update_keys 2 [(4095, 100000)] (only_rank 1 [4096]) no_keys (fun _ => []) p =
        { threw := false, m_key_usage := if p = 1 then [(4096, 1)] else [] }) ∧
      to_which_proc 2 4096 = 1 ∧
      generate_new_keys 2 [(4095, 100000)]
        (fun p => (chunk_first 2 (p : Int) [(4095, 100000)]).getD [])
        (fun p => (update_keys 2 [(4095, 100000)] (only_rank 1 [4096]) no_keys
          (fun _ => []) p).m_key_usage)
        (fun p => if p = 0 then [2] else [0]) 0 =
        some { threw := false, m_key_usage := [(4096, 0), (4097, 0)],
               requested_keys := [[4096, 4097]] } ∧
      ((4096, 1) : KeyProc) ∈
        (update_keys 2 [(4095, 100000)] (only_rank 1 [4096]) no_keys
          (fun _ => []) 1).m_key_usage := by
  decide

/-! ## The constructor, the donations and the keys of one call -/

/-- Where the search loop of the constructor ends: at a `chunk_iter` whose key the rank
owns, with no such `chunk_iter` between the start and it. -/
theorem chunk_first_loop_least (n : Nat) (r : Int) (first : Nat) :
    ∀ (fuel c0 c : Nat), chunk_first_loop n r first fuel c0 = some c →
      c0 ≤ c ∧ to_which_proc n ((first + c * DISTRIBUTED_INDEX_CHUNK_SIZE) % 2 ^ 64) = r ∧
        ∀ c', c0 ≤ c' → c' < c →
          to_which_proc n ((first + c' * DISTRIBUTED_INDEX_CHUNK_SIZE) % 2 ^ 64) ≠ r := by
  intro fuel
  induction fuel with
  | zero =>
    intro c0 c h
    simp [chunk_first_loop] at h
  | succ fuel ih =>
    intro c0 c h
    unfold chunk_first_loop at h
    by_cases hne : r ≠ to_which_proc n ((first + c0 * DISTRIBUTED_INDEX_CHUNK_SIZE) % 2 ^ 64)
    · rw [if_pos hne] at h
      obtain ⟨h1, h2, h3⟩ := ih (c0 + 1) c h
      refine ⟨by omega, h2, fun c' hc' hlt => ?_⟩
      by_cases hc : c' = c0
      · subst hc
        exact fun heq => hne heq.symm
      · exact h3 c' (by omega) hlt
    · rw [if_neg hne] at h
      have hc : c0 = c := Option.some.inj h
      subst hc
      exact ⟨le_refl _, (not_not.1 hne).symm, fun c' h1 h2 => absurd h2 (by omega)⟩

/-- The search loop of the constructor ends when the rank owns the key of a `chunk_iter`
that the given number of iterations reaches. -/
theorem chunk_first_loop_ends (n : Nat) (r : Int) (first : Nat) :
    ∀ (fuel c0 cstar : Nat), c0 ≤ cstar → cstar < c0 + fuel →
      to_which_proc n ((first + cstar * DISTRIBUTED_INDEX_CHUNK_SIZE) % 2 ^ 64) = r →
      ∃ c, chunk_first_loop n r first fuel c0 = some c := by
  intro fuel
  induction fuel with
  | zero =>
    intro c0 cstar h1 h2
    omega
  | succ fuel ih =>
    intro c0 cstar h1 h2 h3
    unfold chunk_first_loop
    by_cases hne : r ≠ to_which_proc n ((first + c0 * DISTRIBUTED_INDEX_CHUNK_SIZE) % 2 ^ 64)
    · rw [if_pos hne]
      have hc : c0 ≠ cstar := by
        intro hc
        subst hc
        exact hne h3.symm
      exact ih (c0 + 1) cstar (by omega) (by omega) h3
    · rw [if_neg hne]
      exact ⟨c0, rfl⟩

/-- Among the first `2 ^ 52` values of `chunk_iter` there is one whose key, computed in
64 bits, every rank `r` below `m_comm_size` owns, when `m_comm_size` is at most `2 ^ 52`. -/
theorem chunk_owned_within (n r first : Nat) (hr : r < n) (hn : n ≤ 2 ^ 52) :
    ∃ cstar, cstar < 2 ^ 52 ∧
      to_which_proc n ((first + cstar * DISTRIBUTED_INDEX_CHUNK_SIZE) % 2 ^ 64) = (r : Int) := by
  refine ⟨(r + 2 ^ 52 - (first / 4096) % 2 ^ 52) % 2 ^ 52, Nat.mod_lt _ (by decide), ?_⟩
  have hs : DISTRIBUTED_INDEX_CHUNK_SIZE = 4096 := by decide
  have hb : DISTRIBUTED_INDEX_CHUNK_BITS = 12 := by decide
  unfold to_which_proc
  rw [hs, hb, Nat.shiftRight_eq_div_pow]
  have h : (first + (r + 2 ^ 52 - first / 4096 % 2 ^ 52) % 2 ^ 52 * 4096) % 2 ^ 64 / 2 ^ 12
      = r := by
    omega
  rw [h, Nat.mod_eq_of_lt hr]

/-- A rank that is not a donor for a span leaves all its `my_donations` of the span `0`. -/
theorem span_donations_exact_of_nonneg (n d : Nat) (nr : Nat → List Int) (i : Nat)
    (h : 0 ≤ new_request_global nr d i) :
    span_donations_exact n d nr i = List.replicate n 0 := by
  unfold span_donations_exact
  rw [if_neg (by omega)]

/-- The entries `my_donations` of a span are never negative. -/
theorem span_donations_exact_nonneg (n d : Nat) (nr : Nat → List Int) (i : Nat) :
    ∀ e ∈ span_donations_exact n d nr i, 0 ≤ e := by
  intro e he
  rw [span_donations_exact_eq, List.mem_map] at he
  obtain ⟨p, _, rfl⟩ := he
  have h := receive_before_mono (fun q => new_request_global nr q i) p (p + 1) (by omega)
  omega

theorem check_spans_pos (l : List KeySpan) :
    ∀ (previous : Option KeySpan) (info1 : Nat), info1 ≠ 0 →
      check_spans previous l info1 ≠ 0 := by
  induction l with
  | nil =>
    intro previous info1 h
    exact h
  | cons i rest ih =>
    intro previous info1 h
    unfold check_spans
    apply ih
    split
    · exact Nat.one_ne_zero
    · exact h

/-- The validity loop leaves `info[1]` at `0` exactly when every span has
`first ≤ second` and every span starts after the end of the span before it. -/
theorem check_spans_eq_zero (l : List KeySpan) :
    ∀ (j : KeySpan), check_spans (some j) l 0 = 0 ↔
      (∀ s ∈ l, s.1 ≤ s.2) ∧ List.Chain (fun a b => a.2 < b.1) j l := by
  induction l with
  | nil =>
    intro j
    simp [check_spans]
  | cons i rest ih =>
    intro j
    unfold check_spans
    by_cases hbad : i.2 < i.1 ∨ i.1 ≤ j.2
    · have hif : (decide (i.2 < i.1) ||
          (match some j with
            | none => false
            | some j => decide (i.1 ≤ j.2))) = true := by
        simpa using hbad
      rw [if_pos hif]
      constructor
      · intro h
        exact absurd h (check_spans_pos rest (some i) 1 Nat.one_ne_zero)
      · rintro ⟨h1, h2⟩
        have h3 := h1 i (List.mem_cons_self _ _)
        have h4 := (List.chain_cons.1 h2).1
        omega
    · have hif : ¬ (decide (i.2 < i.1) ||
          (match some j with
            | none => false
            | some j => decide (i.1 ≤ j.2))) = true := by
        simpa using hbad
      rw [if_neg hif, ih i]
      constructor
      · rintro ⟨h1, h2⟩
        refine ⟨fun s hs => ?_, List.chain_cons.2 ⟨by omega, h2⟩⟩
        rcases List.mem_cons.1 hs with rfl | hs
        · omega
        · exact h1 s hs
      · rintro ⟨h1, h2⟩
        exact ⟨fun s hs => h1 s (List.mem_cons_of_mem _ hs), (List.chain_cons.1 h2).2⟩

theorem check_spans_none_eq_zero (l : List KeySpan) :
    check_spans none l 0 = 0 ↔
      (∀ s ∈ l, s.1 ≤ s.2) ∧ List.Chain' (fun a b => a.2 < b.1) l := by
  cases l with
  | nil => simp [check_spans]
  | cons i rest =>
    unfold check_spans
    by_cases hbad : i.2 < i.1
    · have hif : (decide (i.2 < i.1) ||
          (match (none : Option KeySpan) with
            | none => false
            | some j => decide (i.1 ≤ j.2))) = true := by
        simpa using hbad
      rw [if_pos hif]
      constructor
      · intro h
        exact absurd h (check_spans_pos rest (some i) 1 Nat.one_ne_zero)
      · rintro ⟨h1, _⟩
        have h3 := h1 i (List.mem_cons_self _ _)
        omega
    · have hif : ¬ (decide (i.2 < i.1) ||
          (match (none : Option KeySpan) with
            | none => false
            | some j => decide (i.1 ≤ j.2))) = true := by
        simpa using hbad
      rw [if_neg hif, check_spans_eq_zero rest i]
      constructor
      · rintro ⟨h1, h2⟩
        refine ⟨fun s hs => ?_, h2⟩
        rcases List.mem_cons.1 hs with rfl | hs
        · omega
        · exact h1 s hs
      · rintro ⟨h1, h2⟩
        exact ⟨fun s hs => h1 s (List.mem_cons_of_mem _ hs), h2⟩

/-- Spans with `first ≤ second` of which each starts after the end of the one before it
are pairwise apart. -/
theorem pairwise_of_chain_spans (l : List KeySpan) (hvalid : ∀ s ∈ l, s.1 ≤ s.2)
    (hchain : List.Chain' (fun (a b : KeySpan) => a.2 < b.1) l) :
    l.Pairwise (fun a b => a.2 < b.1) := by
  induction l with
  | nil => exact List.Pairwise.nil
  | cons i rest ih =>
    have hrest := ih (fun s hs => hvalid s (List.mem_cons_of_mem _ hs))
      (List.Chain'.tail hchain)
    refine List.Pairwise.cons (fun s hs => ?_) hrest
    cases rest with
    | nil => exact absurd hs (List.not_mem_nil _)
    | cons k rest2 =>
      have h1 : i.2 < k.1 := (List.chain'_cons.1 hchain).1
      rcases List.mem_cons.1 hs with rfl | hs2
      · exact h1
      · have h2 := (List.pairwise_cons.1 hrest).1 s hs2
        have h3 := hvalid k (List.mem_cons_of_mem _ (List.mem_cons_self _ _))
        omega

/-- The validity loop sets `info[1]` exactly when some span has `second < first` or some
span other than the first starts at or before the end of the span before it. -/
theorem check_spans_ne_zero_iff (l : List KeySpan) :
    check_spans none l 0 ≠ 0 ↔
      (∃ s ∈ l, s.2 < s.1) ∨
        ∃ i, i + 1 < l.length ∧ (l.getD (i + 1) (0, 0)).1 ≤ (l.getD i (0, 0)).2 := by
  rw [Ne, check_spans_none_eq_zero, List.chain'_iff_get]
  constructor
  · intro h
    by_contra hcon
    rw [not_or] at hcon
    apply h
    refine ⟨fun s hs => ?_, fun i hi => ?_⟩
    · by_contra hlt
      exact hcon.1 ⟨s, hs, by omega⟩
    · by_contra hlt
      apply hcon.2
      refine ⟨i, by omega, ?_⟩
      rw [List.getD_eq_getElem?_getD, List.getD_eq_getElem?_getD,
        List.getElem?_eq_getElem (by omega : i + 1 < l.length),
        List.getElem?_eq_getElem (by omega : i < l.length)]
      simp only [Option.getD_some]
      simp only [List.get_eq_getElem] at hlt
      omega
  · rintro (⟨s, hs, hlt⟩ | ⟨i, hi, hle⟩) ⟨h1, h2⟩
    · have := h1 s hs
      omega
    · have h3 := h2 i (by omega)
      rw [List.getD_eq_getElem?_getD, List.getD_eq_getElem?_getD,
        List.getElem?_eq_getElem hi,
        List.getElem?_eq_getElem (by omega : i < l.length)] at hle
      simp only [Option.getD_some] at hle
      simp only [List.get_eq_getElem] at h3
      omega

/-- The search loops of the constructor end on every rank below `m_comm_size ≤ 2 ^ 52`. -/
theorem chunk_first_ends (m_comm_size r : Nat) (m_key_span : List KeySpan)
    (hr : r < m_comm_size) (hsize : m_comm_size ≤ 2 ^ 52) :
    ∃ m_chunk_first, chunk_first m_comm_size (r : Int) m_key_span = some m_chunk_first := by
  induction m_key_span with
  | nil => exact ⟨[], rfl⟩
  | cons span rest ih =>
    obtain ⟨cf, hcf⟩ := ih
    obtain ⟨cstar, hlt, hown⟩ := chunk_owned_within m_comm_size r span.1 hr hsize
    obtain ⟨c, hc⟩ := chunk_first_loop_ends m_comm_size (r : Int) span.1 (2 ^ 52) 0 cstar
      (Nat.zero_le _) (by omega) hown
    refine ⟨c :: cf, ?_⟩
    unfold chunk_first
    rw [hc, hcf]
    rfl

/-- What a donor has given to the ranks `0 .. m - 1`: the part of its interval of the
accumulated donations that lies below their accumulated requests. -/
theorem sum_donation_prefix (x : Nat → Int) (d m : Nat) :
    (((List.range m).map (fun p => donation x d p)).sum : Int) =
      max (donate_before x d) (min (receive_before x m) (donate_before x (d + 1)))
        - donate_before x d := by
  induction m with
  | zero =>
    have h0 : receive_before x 0 = 0 := rfl
    have h1 := donate_before_nonneg x d
    have h2 := donate_before_succ x d
    rw [h0]
    simp only [List.range_zero, List.map_nil, List.sum_nil, Nat.cast_zero]
    omega
  | succ m ih =>
    rw [List.range_succ, List.map_append, List.sum_append, Nat.cast_add, ih]
    simp only [List.map_cons, List.map_nil, List.sum_cons, List.sum_nil, Nat.add_zero]
    unfold donation
    have h1 := receive_before_mono x m (m + 1) (by omega)
    have h2 := donate_before_succ x d
    omega

/-- When the requests are not less than the donations in total, every donor gives all it
has to donate. -/
theorem sum_donation_exact (x : Nat → Int) (n d : Nat) (hd : d < n)
    (hsum : 0 ≤ ((List.range n).map x).sum) :
    ((List.range n).map (fun p => donation x d p)).sum = (max (- x d) 0).toNat := by
  have h1 := sum_donation_prefix x d n
  have h2 := receive_sub_donate x n
  have h3 := donate_before_mono x (d + 1) n (by omega)
  have h4 := donate_before_succ x d
  have h5 := donate_before_nonneg x d
  omega

/-- A walk that stays inside `contrib_keys` hands out as many keys as `my_donations`
says. -/
theorem donation_walk_total (don : Nat → Nat → Nat) (contrib : List Nat) :
    ∀ (order : List (Nat × Nat)) (off : Nat),
      off + (order.map (fun ip => don ip.1 ip.2)).sum ≤ contrib.length →
      ((donation_walk don contrib order off).flatMap (fun donation => donation.2)).length =
        (order.map (fun ip => don ip.1 ip.2)).sum := by
  intro order
  induction order with
  | nil =>
    intro off _
    rfl
  | cons ip rest ih =>
    intro off hoff
    rw [List.map_cons, List.sum_cons] at hoff
    unfold donation_walk
    rw [List.flatMap_cons, List.length_append, ih (off + don ip.1 ip.2) (by omega),
      List.map_cons, List.sum_cons]
    simp only [List.length_take, List.length_drop]
    omega

/-- A walk along donations that add up to the size of `contrib_keys` hands out all of
`contrib_keys`. -/
theorem donation_walk_all (don : Nat → Nat → Nat) (contrib : List Nat)
    (order : List (Nat × Nat))
    (h : (order.map (fun ip => don ip.1 ip.2)).sum = contrib.length) :
    (donation_walk don contrib order 0).flatMap (fun donation => donation.2) = contrib := by
  have hsub := donation_walk_sublist don contrib order 0
  rw [List.drop_zero] at hsub
  have hlen := donation_walk_total don contrib order 0 (by omega)
  exact hsub.eq_of_length (by omega)

/-- What a call of `generate_new_keys` that returns without a throw leaves in
`m_key_usage`: the sorted sequence of the entries before the call, the kept keys with the
rank itself and the donated keys with their receivers. -/
theorem generate_new_keys_usage (n : Nat) (spans : List KeySpan) (cf : Nat → List Nat)
    (usage : Nat → List KeyProc) (requests : Nat → List Nat) (r : Nat) (res : GenerateResult)
    (h : generate_new_keys n spans cf usage requests r = some res) (hres : res.threw = false) :
    res.m_key_usage =
      sort (usage r
        ++ (plannings n spans cf usage requests r).requested_keys.map (fun key => ((key, (r :
            Int)) : KeyProc))
        ++ (rank_donations n spans (plannings n spans cf usage requests) r).flatMap
          (fun donation => donation.2.map (fun key => ((key, (donation.1 : Int)) : KeyProc)))) := by
  unfold generate_new_keys at h
  by_cases hthrow : (generate_new_keys_global_counts n spans usage requests).threw = true
  · rw [if_pos hthrow, Option.some.injEq] at h
    rw [← h] at hres
    exact Bool.noConfusion hres
  · rw [if_neg hthrow] at h
    split at h
    · dsimp only at h
      split at h
      · rw [Option.some.injEq] at h
        rw [← h]
        rfl
      · exact Option.noConfusion h
    · exact Option.noConfusion h

/-- When the ranks find in every span at most what is requested from it, a rank donates in
every span all that it found and does not keep. -/
theorem sum_span_donations (n : Nat) (spans : List KeySpan) (cf : Nat → List Nat)
    (usage : Nat → List KeyProc) (requests : Nat → List Nat)
    (hspans : spans.Pairwise (fun a b => a.2 < b.1))
    (hvalid : ∀ s ∈ spans, s.1 ≤ s.2 ∧ s.2 + (n + 1) * 4096 < 2 ^ 64 ∧ n < 2 ^ 19)
    (hcap : ∀ s ∈ spans, span_capacity s < 2 ^ 61)
    (hchunk : ∀ p, p < n → chunk_first n (p : Int) spans = some (cf p))
    (hsorted : ∀ p, p < n → ((usage p).map Prod.fst).Pairwise (· ≤ ·))
    (hin : ∀ p, p < n → ∀ e ∈ usage p, ∃ s ∈ spans, s.1 ≤ e.1 ∧ e.1 ≤ s.2)
    (hexist : ∀ s ∈ spans, existing_in_span n usage s ≤ span_capacity s)
    (hreq : ∀ i, i < spans.length → requested_in_span n requests i < 2 ^ 64)
    (hthrew : (generate_new_keys_global_counts n spans usage requests).threw = false)
    (hplan : ∀ p, p < n → rank_planning n spans cf usage requests p =
      some (plannings n spans cf usage requests p))
    (hfound : ∀ i, i < spans.length →
      ((List.range n).map (fun p => (rank_candidates n spans usage requests p i).length)).sum
        ≤ requested_in_span n requests i)
    (d : Nat) (hd : d < n) (i : Nat) (hi : i < spans.length) :
    ((List.range n).map
      (fun p => generate_new_keys_global_planning n d (fun q => (plannings n spans cf usage
          requests q).new_request) i p)).sum =
      (surplus_keys ((requests d).getD i 0) (rank_candidates n spans usage requests d i)).length
          := by
  have hx := new_request_eq n spans cf usage requests hspans hvalid hcap hchunk hsorted hin
    hexist hreq hthrew hplan
  have hR := planning_in_range n spans cf usage requests hspans hvalid hcap hchunk hsorted hin
    hexist hreq hthrew hplan i hi
  rw [sum_map_congr _ _ _ (fun p hp => global_planning_eq n d _ i p (List.mem_range.1 hp)
    hR.1 (hR.2 d hd))]
  have hsum : 0 ≤ ((List.range n).map
      (fun q => new_request_global (fun q => (plannings n spans cf usage requests q).new_request)
          q i)).sum := by
    rw [List.map_congr_left (fun q hq => hx q (List.mem_range.1 hq) i hi), sum_map_sub_cast]
    have := hfound i hi
    unfold requested_in_span at this
    omega
  rw [sum_donation_exact (fun q => new_request_global (fun q => (plannings n spans cf usage
      requests q).new_request) q i) n d hd hsum]
  rw [hx d hd i hi, length_surplus_keys]
  omega

/-- When the ranks find in every span at most what is requested from it, the walk of a rank
hands out all of its `contrib_keys`. -/
theorem rank_donations_flatten (n : Nat) (spans : List KeySpan) (cf : Nat → List Nat)
    (usage : Nat → List KeyProc) (requests : Nat → List Nat)
    (hspans : spans.Pairwise (fun a b => a.2 < b.1))
    (hvalid : ∀ s ∈ spans, s.1 ≤ s.2 ∧ s.2 + (n + 1) * 4096 < 2 ^ 64 ∧ n < 2 ^ 19)
    (hcap : ∀ s ∈ spans, span_capacity s < 2 ^ 61)
    (hchunk : ∀ p, p < n → chunk_first n (p : Int) spans = some (cf p))
    (hsorted : ∀ p, p < n → ((usage p).map Prod.fst).Pairwise (· ≤ ·))
    (hin : ∀ p, p < n → ∀ e ∈ usage p, ∃ s ∈ spans, s.1 ≤ e.1 ∧ e.1 ≤ s.2)
    (hexist : ∀ s ∈ spans, existing_in_span n usage s ≤ span_capacity s)
    (hreq : ∀ i, i < spans.length → requested_in_span n requests i < 2 ^ 64)
    (hthrew : (generate_new_keys_global_counts n spans usage requests).threw = false)
    (hplan : ∀ p, p < n → rank_planning n spans cf usage requests p =
      some (plannings n spans cf usage requests p))
    (hfound : ∀ i, i < spans.length →
      ((List.range n).map (fun p => (rank_candidates n spans usage requests p i).length)).sum
        ≤ requested_in_span n requests i)
    (d : Nat) (hd : d < n) :
    (rank_donations n spans (plannings n spans cf usage requests) d).flatMap (fun donation =>
        donation.2) =
      (plannings n spans cf usage requests d).contrib_keys := by
  have hP := rank_planning_eq n spans cf usage requests hspans hvalid hsorted hin
    hexist hthrew d hd (hchunk d hd) _ (hplan d hd)
  unfold rank_donations
  apply donation_walk_all
  rw [sum_donation_order, hP.2.2, length_flatMap_sum]
  apply sum_map_congr
  intro i hi
  exact sum_span_donations n spans cf usage requests hspans hvalid hcap hchunk hsorted hin hexist
      hreq hthrew hplan hfound d hd i (List.mem_range.1 hi)

theorem mem_kept_or_surplus (request : Nat) (found : List Nat) (k : Nat) :
    k ∈ found ↔ k ∈ kept_keys request found ∨ k ∈ surplus_keys request found := by
  unfold kept_keys surplus_keys
  constructor
  · intro h
    rw [← List.take_append_drop (found.length - min request found.length) found,
      List.mem_append] at h
    exact h.symm
  · rintro (h | h)
    · exact List.mem_of_mem_drop h
    · exact List.mem_of_mem_take h

theorem keys_of_appended (r : Nat) (kept : List Nat) (walk : List (Nat × List Nat)) :
    (kept.map (fun key => ((key, (r : Int)) : KeyProc))
      ++ walk.flatMap
        (fun donation => donation.2.map (fun key => ((key, (donation.1 : Int)) : KeyProc)))).map
      Prod.fst = kept ++ walk.flatMap (fun donation => donation.2) := by
  rw [List.map_append, List.map_map]
  congr 1
  · exact List.map_id _
  · induction walk with
    | nil => rfl
    | cons x rest ih =>
      rw [List.flatMap_cons, List.flatMap_cons, List.map_append, ih, List.map_map]
      congr 1
      exact List.map_id _

/-- The keys that a rank finds are the keys that it keeps or leaves in `contrib_keys`. -/
theorem mem_kept_or_contrib (n : Nat) (spans : List KeySpan) (cf : Nat → List Nat)
    (usage : Nat → List KeyProc) (requests : Nat → List Nat)
    (hspans : spans.Pairwise (fun a b => a.2 < b.1))
    (hvalid : ∀ s ∈ spans, s.1 ≤ s.2 ∧ s.2 + (n + 1) * 4096 < 2 ^ 64 ∧ n < 2 ^ 19)
    (hchunk : ∀ p, p < n → chunk_first n (p : Int) spans = some (cf p))
    (hsorted : ∀ p, p < n → ((usage p).map Prod.fst).Pairwise (· ≤ ·))
    (hin : ∀ p, p < n → ∀ e ∈ usage p, ∃ s ∈ spans, s.1 ≤ e.1 ∧ e.1 ≤ s.2)
    (hexist : ∀ s ∈ spans, existing_in_span n usage s ≤ span_capacity s)
    (hthrew : (generate_new_keys_global_counts n spans usage requests).threw = false)
    (hplan : ∀ p, p < n → rank_planning n spans cf usage requests p =
      some (plannings n spans cf usage requests p))
    (d : Nat) (hd : d < n) (k : Nat) :
    (k ∈ (plannings n spans cf usage requests d).requested_keys ∨ k ∈ (plannings n spans cf usage
        requests d).contrib_keys) ↔
      ∃ i, i < spans.length ∧ k ∈ rank_candidates n spans usage requests d i := by
  have hP := rank_planning_eq n spans cf usage requests hspans hvalid hsorted hin
    hexist hthrew d hd (hchunk d hd) _ (hplan d hd)
  rw [hP.2.1, hP.2.2]
  simp only [List.mem_flatMap, List.mem_range]
  constructor
  · rintro (⟨i, hi, hk⟩ | ⟨i, hi, hk⟩)
    · exact ⟨i, hi, (mem_kept_or_surplus _ _ _).2 (Or.inl hk)⟩
    · exact ⟨i, hi, (mem_kept_or_surplus _ _ _).2 (Or.inr hk)⟩
  · rintro ⟨i, hi, hk⟩
    rcases (mem_kept_or_surplus ((requests d).getD i 0) _ _).1 hk with h | h
    · exact Or.inl ⟨i, hi, h⟩
    · exact Or.inr ⟨i, hi, h⟩

/-- When the ranks find in every span at most what is requested from it, the keys of
`m_key_usage` after a call that returns without a throw are the keys before the call and
all the keys that the rank has found. -/
theorem mem_keys_after (n : Nat) (spans : List KeySpan) (cf : Nat → List Nat)
    (usage : Nat → List KeyProc) (requests : Nat → List Nat)
    (hspans : spans.Pairwise (fun a b => a.2 < b.1))
    (hvalid : ∀ s ∈ spans, s.1 ≤ s.2 ∧ s.2 + (n + 1) * 4096 < 2 ^ 64 ∧ n < 2 ^ 19)
    (hcap : ∀ s ∈ spans, span_capacity s < 2 ^ 61)
    (hchunk : ∀ p, p < n → chunk_first n (p : Int) spans = some (cf p))
    (hsorted : ∀ p, p < n → ((usage p).map Prod.fst).Pairwise (· ≤ ·))
    (hin : ∀ p, p < n → ∀ e ∈ usage p, ∃ s ∈ spans, s.1 ≤ e.1 ∧ e.1 ≤ s.2)
    (hexist : ∀ s ∈ spans, existing_in_span n usage s ≤ span_capacity s)
    (hreq : ∀ i, i < spans.length → requested_in_span n requests i < 2 ^ 64)
    (hthrew : (generate_new_keys_global_counts n spans usage requests).threw = false)
    (hplan : ∀ p, p < n → rank_planning n spans cf usage requests p =
      some (plannings n spans cf usage requests p))
    (hfound : ∀ i, i < spans.length →
      ((List.range n).map (fun p => (rank_candidates n spans usage requests p i).length)).sum
        ≤ requested_in_span n requests i)
    (r : Nat) (hr : r < n) (res : GenerateResult)
    (h : generate_new_keys n spans cf usage requests r = some res) (hres : res.threw = false)
    (k : Nat) :
    k ∈ res.m_key_usage.map Prod.fst ↔
      k ∈ (usage r).map Prod.fst ∨ ∃ i, i < spans.length ∧ k ∈ rank_candidates n spans usage
          requests r i := by
  rw [generate_new_keys_usage n spans cf usage requests r res h hres]
  have hperm : ∀ l : List KeyProc, k ∈ (sort l).map Prod.fst ↔ k ∈ l.map Prod.fst := by
    intro l
    simp only [List.mem_map, mem_sort]
  rw [hperm, List.append_assoc, List.map_append, keys_of_appended, List.mem_append,
    List.mem_append, rank_donations_flatten n spans cf usage requests hspans hvalid hcap hchunk
        hsorted hin hexist hreq hthrew hplan hfound r hr,
    mem_kept_or_contrib n spans cf usage requests hspans hvalid hchunk hsorted hin hexist hthrew
        hplan r hr]

/-- When the ranks find in every span at most what is requested from it, the keys returned
to the ranks by a call that returns without a throw are all the keys that the ranks have
found. -/
theorem mem_returned (n : Nat) (spans : List KeySpan) (cf : Nat → List Nat)
    (usage : Nat → List KeyProc) (requests : Nat → List Nat)
    (hspans : spans.Pairwise (fun a b => a.2 < b.1))
    (hvalid : ∀ s ∈ spans, s.1 ≤ s.2 ∧ s.2 + (n + 1) * 4096 < 2 ^ 64 ∧ n < 2 ^ 19)
    (hcap : ∀ s ∈ spans, span_capacity s < 2 ^ 61)
    (hchunk : ∀ p, p < n → chunk_first n (p : Int) spans = some (cf p))
    (hsorted : ∀ p, p < n → ((usage p).map Prod.fst).Pairwise (· ≤ ·))
    (hin : ∀ p, p < n → ∀ e ∈ usage p, ∃ s ∈ spans, s.1 ≤ e.1 ∧ e.1 ≤ s.2)
    (hexist : ∀ s ∈ spans, existing_in_span n usage s ≤ span_capacity s)
    (hreq : ∀ i, i < spans.length → requested_in_span n requests i < 2 ^ 64)
    (hthrew : (generate_new_keys_global_counts n spans usage requests).threw = false)
    (hplan : ∀ p, p < n → rank_planning n spans cf usage requests p =
      some (plannings n spans cf usage requests p))
    (hfound : ∀ i, i < spans.length →
      ((List.range n).map (fun p => (rank_candidates n spans usage requests p i).length)).sum
        ≤ requested_in_span n requests i)
    (res : Nat → GenerateResult)
    (hres : ∀ p, p < n → generate_new_keys n spans cf usage requests p = some (res p) ∧
      (res p).threw = false)
    (k : Nat) :
    (∃ r, r < n ∧ k ∈ (res r).requested_keys.flatten) ↔
      ∃ d, d < n ∧ ∃ i, i < spans.length ∧ k ∈ rank_candidates n spans usage requests d i := by
  have hflat : ∀ r, r < n → (res r).requested_keys.flatten = new_keys n spans cf usage requests r
      := by
    intro r hr
    have h1 := generate_new_keys_success n spans cf usage requests r (res r) (hres r hr).1
      (hres r hr).2 (requests_small n spans usage requests hspans hvalid hcap hsorted hin hexist hreq
        hthrew r hr)
    rw [h1.2.2.2.2, requested_slices_flatten]
    exact List.take_of_length_le (by
      rw [length_new_keys n spans cf usage requests hspans hvalid hcap hchunk hsorted hin hexist
          hreq hthrew hplan r hr])
  have hnew : ∀ r, k ∈ new_keys n spans cf usage requests r ↔
      k ∈ (plannings n spans cf usage requests r).requested_keys ∨
        ∃ d, d < n ∧ ∃ x ∈ rank_donations n spans (plannings n spans cf usage requests) d, x.1 = r
            ∧ k ∈ x.2 := by
    intro r
    unfold new_keys
    rw [List.mem_insertionSort, List.mem_append]
    apply or_congr Iff.rfl
    simp only [List.mem_flatMap, List.mem_range]
    constructor
    · rintro ⟨d, hd, x, hx, hk⟩
      by_cases hxr : x.1 = r
      · rw [if_pos hxr] at hk
        exact ⟨d, hd, x, hx, hxr, hk⟩
      · rw [if_neg hxr] at hk
        exact absurd hk (List.not_mem_nil _)
    · rintro ⟨d, hd, x, hx, hxr, hk⟩
      exact ⟨d, hd, x, hx, by rw [if_pos hxr]; exact hk⟩
  constructor
  · rintro ⟨r, hr, hk⟩
    rw [hflat r hr, hnew] at hk
    rcases hk with hk | ⟨d, hd, x, hx, _, hk⟩
    · exact ⟨r, hr, (mem_kept_or_contrib n spans cf usage requests hspans hvalid hchunk hsorted
        hin hexist hthrew hplan r hr k).1 (Or.inl hk)⟩
    · refine ⟨d, hd, (mem_kept_or_contrib n spans cf usage requests hspans hvalid hchunk hsorted
        hin hexist hthrew hplan d hd k).1 (Or.inr ?_)⟩
      rw [← rank_donations_flatten n spans cf usage requests hspans hvalid hcap hchunk hsorted hin
          hexist hreq hthrew hplan hfound d hd]
      exact List.mem_flatMap.2 ⟨x, hx, hk⟩
  · rintro ⟨d, hd, hk⟩
    rcases (mem_kept_or_contrib n spans cf usage requests hspans hvalid hchunk hsorted hin hexist
        hthrew hplan d hd k).2 hk with hk | hk
    · exact ⟨d, hd, by rw [hflat d hd, hnew]; exact Or.inl hk⟩
    · rw [← rank_donations_flatten n spans cf usage requests hspans hvalid hcap hchunk hsorted hin
        hexist hreq hthrew hplan hfound d hd] at hk
      obtain ⟨x, hx, hkx⟩ := List.mem_flatMap.1 hk
      have hx2 := hx
      unfold rank_donations at hx2
      obtain ⟨ip, hip, hxr⟩ := donation_walk_receiver _ _ _ _ x hx2
      have hr := (mem_donation_order _ _ ip hip).2
      refine ⟨x.1, by omega, ?_⟩
      rw [hflat x.1 (by omega), hnew]
      exact Or.inr ⟨d, hd, x, hx, rfl, hkx⟩

theorem keys_in_span_eq_length (s : KeySpan) (l : List KeyProc) (L : List Nat)
    (hL : L.Nodup) (hmem : ∀ k, k ∈ L ↔ k ∈ l.map Prod.fst ∧ s.1 ≤ k ∧ k ≤ s.2) :
    keys_in_span s l = L.length := by
  rw [← List.toFinset_card_of_nodup hL]
  unfold keys_in_span
  congr 1
  ext k
  rw [Finset.mem_filter, List.mem_toFinset, List.mem_toFinset, hmem]

theorem sum_map_const_range (n c : Nat) : ((List.range n).map (fun _ => c)).sum = n * c := by
  rw [List.map_const', List.sum_replicate, List.length_range]
  rfl

theorem density_requests_length (sc : Nat) (hsc : 0 < sc) :
    (density_requests sc).length = sc := by
  unfold density_requests
  rw [List.length_cons, List.length_replicate]
  omega

theorem density_requests_getD (sc i : Nat) :
    (density_requests sc).getD i 0 = if i = 0 then 1 else 0 := by
  unfold density_requests
  cases i with
  | zero => rfl
  | succ i =>
    rw [if_neg (by omega), List.getD_cons_succ, List.getD_eq_getElem?_getD,
      List.getElem?_replicate]
    split <;> rfl

theorem requested_density (n sc i : Nat) :
    requested_in_span n (fun _ => density_requests sc) i = if i = 0 then n else 0 := by
  unfold requested_in_span
  rw [sum_map_const_range, density_requests_getD]
  split <;> simp

/-- In a state in which the rank `p` holds the keys of its chunks among the first `m`
keys of the span `s`, the ranks together hold `m` keys of the span. -/
theorem existing_dense (n : Nat) (hn : 0 < n) (s : KeySpan) (m : Nat)
    (usage : Nat → List KeyProc) (hm : s.1 + m ≤ s.2 + 1)
    (hkeys : ∀ p, p < n → ∀ k, k ∈ (usage p).map Prod.fst ↔
      (s.1 ≤ k ∧ k < s.1 + m ∧ chunk_owner n s k = p)) :
    existing_in_span n usage s = m := by
  unfold existing_in_span
  have hown := sum_length_filter_owner n (chunk_owner n s) (List.range' s.1 m)
    (fun k _ => Nat.mod_lt _ hn)
  rw [List.length_range'] at hown
  rw [← hown]
  apply sum_map_congr
  intro p hp
  apply keys_in_span_eq_length
  · exact ((List.pairwise_lt_range' s.1 m).imp (fun h => Nat.ne_of_lt h)).sublist
      (List.filter_sublist _)
  · intro k
    rw [List.mem_filter, List.mem_range'_1, hkeys p (List.mem_range.1 hp) k]
    simp only [decide_eq_true_eq]
    constructor
    · rintro ⟨⟨h1, h2⟩, h3⟩
      exact ⟨⟨h1, h2, h3⟩, h1, by omega⟩
    · rintro ⟨⟨h1, h2, h3⟩, _⟩
      exact ⟨⟨h1, h2⟩, h3⟩

/-- In a state in which no rank holds a key of the span `s`, no key of the span is in
use. -/
theorem existing_none (n : Nat) (s : KeySpan) (usage : Nat → List KeyProc)
    (hkeys : ∀ p, p < n → ∀ k, k ∈ (usage p).map Prod.fst → ¬ (s.1 ≤ k ∧ k ≤ s.2)) :
    existing_in_span n usage s = 0 := by
  unfold existing_in_span
  have h0 : ∀ p ∈ List.range n, keys_in_span s (usage p) = 0 := by
    intro p hp
    rw [keys_in_span_eq_length s (usage p) [] List.nodup_nil]
    · rfl
    · intro k
      constructor
      · intro h
        exact absurd h (List.not_mem_nil _)
      · rintro ⟨h1, h2⟩
        exact absurd h2 (hkeys p (List.mem_range.1 hp) k h1)
  rw [List.map_congr_left h0, List.map_const', List.sum_replicate]
  simp

/-- One call of the density scenario.  In a state in which every rank holds the keys of its
chunks among the first `m * n` keys of the span 0, with room for `n` more keys in the
span, the call returns on every rank; afterwards every rank holds the keys of its chunks
among the first `(m + 1) * n` keys, and the keys returned are the next `n` keys. -/
theorem density_step (n : Nat) (hn : 1 ≤ n) (spans : List KeySpan) (cf : Nat → List Nat)
    (usage : Nat → List KeyProc) (m : Nat) (hne : 0 < spans.length)
    (hspans : spans.Pairwise (fun a b => a.2 < b.1))
    (hvalid : ∀ s ∈ spans, s.1 ≤ s.2 ∧ s.2 + (n + 1) * 4096 < 2 ^ 64 ∧ n < 2 ^ 19)
    (hcap : ∀ s ∈ spans, span_capacity s < 2 ^ 61)
    (hchunk : ∀ p, p < n → chunk_first n (p : Int) spans = some (cf p))
    (hfit : (m + 1) * n ≤ span_capacity (spans.getD 0 (0, 0)))
    (hkeys : ∀ p, p < n → ∀ k, k ∈ (usage p).map Prod.fst ↔
      ((spans.getD 0 (0, 0)).1 ≤ k ∧ k < (spans.getD 0 (0, 0)).1 + m * n ∧
        chunk_owner n (spans.getD 0 (0, 0)) k = p))
    (hsorted : ∀ p, p < n → ((usage p).map Prod.fst).Pairwise (· ≤ ·)) :
    ∃ next, generate_on_all_ranks n spans cf usage (fun _ => density_requests spans.length)
        = some next ∧
      (∀ p, p < n → ∀ k, k ∈ (next.1.getD p []).map Prod.fst ↔
        ((spans.getD 0 (0, 0)).1 ≤ k ∧ k < (spans.getD 0 (0, 0)).1 + (m + 1) * n ∧
          chunk_owner n (spans.getD 0 (0, 0)) k = p)) ∧
      (∀ p, p < n → ((next.1.getD p []).map Prod.fst).Pairwise (· ≤ ·)) ∧
      ∀ k, k ∈ next.2 ↔
        ((spans.getD 0 (0, 0)).1 + m * n ≤ k ∧ k < (spans.getD 0 (0, 0)).1 + (m + 1) * n) := by
  have hmul : (m + 1) * n = m * n + n := Nat.succ_mul m n
  have hs0 := getD_mem spans 0 hne
  have hv0 := hvalid _ hs0
  have hc0 : span_capacity (spans.getD 0 (0, 0))
      = (spans.getD 0 (0, 0)).2 - (spans.getD 0 (0, 0)).1 + 1 := rfl
  generalize hs0def : spans.getD 0 (0, 0) = s0 at hs0 hv0 hc0 hfit hkeys ⊢
  have hsize : n < 2 ^ 64 := by omega
  have hin : ∀ p, p < n → ∀ e ∈ usage p, ∃ s ∈ spans, s.1 ≤ e.1 ∧ e.1 ≤ s.2 := by
    intro p hp e he
    have h := (hkeys p hp e.1).1 (List.mem_map_of_mem Prod.fst he)
    exact ⟨s0, hs0, h.1, by omega⟩
  have hexist : ∀ s ∈ spans, existing_in_span n usage s ≤ span_capacity s := by
    intro s _
    apply existing_le_capacity
    intro p hp q hq hpq x hx y hy hxy
    have h1 := (hkeys p hp x.1).1 (List.mem_map_of_mem Prod.fst hx)
    have h2 := (hkeys q hq y.1).1 (List.mem_map_of_mem Prod.fst hy)
    rw [hxy] at h1
    omega
  have hE0 : existing_in_span n usage s0 = m * n :=
    existing_dense n hn s0 (m * n) usage (by omega) hkeys
  have hEi : ∀ i, 0 < i → i < spans.length →
      existing_in_span n usage (spans.getD i (0, 0)) = 0 := by
    intro i hi0 hi
    apply existing_none
    intro p hp k hk hcon
    have h1 := (hkeys p hp k).1 hk
    have h2 := getD_lt_getD spans hspans 0 i hi0 hi
    rw [hs0def] at h2
    omega
  have hR := requested_density n spans.length
  have hreq : ∀ i, i < spans.length →
      requested_in_span n (fun _ => density_requests spans.length) i < 2 ^ 64 := by
    intro i _
    rw [hR]
    split <;> omega
  have hthrew : (generate_new_keys_global_counts n spans usage
      (fun _ => density_requests spans.length)).threw = false := by
    have hiff := global_counts_threw_iff n spans usage (fun _ => density_requests spans.length)
      hsize hspans (fun s hs => by
        have h1 := hvalid s hs
        have h2 := hcap s hs
        exact ⟨h1.1, by omega, by omega⟩) hsorted hin hexist hreq
    cases hth : (generate_new_keys_global_counts n spans usage
      (fun _ => density_requests spans.length)).threw with
    | false => rfl
    | true =>
      rcases hiff.1 hth with ⟨p, _, hlen⟩ | ⟨i, hi, hlt⟩
      · exact absurd (density_requests_length spans.length hne) hlen
      · rw [hR] at hlt
        by_cases hi0 : i = 0
        · rw [hi0, hs0def, hE0, if_pos rfl] at hlt
          omega
        · rw [if_neg hi0] at hlt
          omega
  have hpos : ∀ i, i < spans.length → 1 ≤ (spans.getD i (0, 0)).1 ∨
      1 ≤ existing_in_span n usage (spans.getD i (0, 0))
        + requested_in_span n (fun _ => density_requests spans.length) i := by
    intro i hi
    by_cases hi0 : i = 0
    · right
      rw [hR, if_pos hi0]
      omega
    · left
      have h2 := getD_lt_getD spans hspans 0 i (by omega) hi
      omega
  have hret := generate_new_keys_returns n spans cf usage
    (fun _ => density_requests spans.length) hspans hvalid hcap hchunk hsorted hin hexist hreq
    hpos hthrew
  have hres : ∀ p, p < n →
      generate_new_keys n spans cf usage (fun _ => density_requests spans.length) p =
        some ((generate_new_keys n spans cf usage
          (fun _ => density_requests spans.length) p).getD
            { threw := false, m_key_usage := [], requested_keys := [] }) ∧
      ((generate_new_keys n spans cf usage (fun _ => density_requests spans.length) p).getD
        { threw := false, m_key_usage := [], requested_keys := [] }).threw = false := by
    intro p hp
    obtain ⟨r0, h1, h2⟩ := hret p hp
    rw [h1]
    exact ⟨rfl, h2⟩
  have hplan := (generate_new_keys_returned n spans cf usage
    (fun _ => density_requests spans.length) 0 _ (hres 0 (by omega)).1 (hres 0 (by omega)).2).2.1
  have hgmax := key_global_max_of_planning n spans cf usage
    (fun _ => density_requests spans.length) hspans hvalid hsorted hin hexist hthrew 0 _
    (hplan 0 (by omega))
  have hC0 : ∀ p k, k ∈ rank_candidates n spans usage
      (fun _ => density_requests spans.length) p 0 ↔
      (s0.1 + m * n ≤ k ∧ k < s0.1 + (m + 1) * n ∧ chunk_owner n s0 k = p) := by
    intro p k
    have hg := hgmax 0 hne
    rw [hs0def, hE0, hR, if_pos rfl, Nat.mod_eq_of_lt hsize] at hg
    unfold rank_candidates
    rw [mem_candidates, hs0def]
    by_cases hp : p < n
    · rw [hkeys p hp k]
      constructor
      · rintro ⟨⟨h1, h2, h3⟩, h4⟩
        refine ⟨?_, by omega, h3⟩
        by_contra hlt
        exact h4 ⟨h1, by omega, h3⟩
      · rintro ⟨h1, h2, h3⟩
        exact ⟨⟨by omega, by omega, h3⟩, fun h4 => by omega⟩
    · have howner : chunk_owner n s0 k < n := Nat.mod_lt _ (by omega)
      constructor
      · rintro ⟨⟨_, _, h3⟩, _⟩
        omega
      · rintro ⟨_, _, h3⟩
        omega
  have hCi : ∀ p i, 0 < i → i < spans.length →
      rank_candidates n spans usage (fun _ => density_requests spans.length) p i = [] := by
    intro p i hi0 hi
    have hg := hgmax i hi
    rw [hEi i hi0 hi, hR, if_neg (by omega)] at hg
    unfold rank_candidates candidates
    have hz : key_global_max spans
        (generate_new_keys_global_counts n spans usage
          (fun _ => density_requests spans.length)).existing_global_sum
        (generate_new_keys_global_counts n spans usage
          (fun _ => density_requests spans.length)).requests_global_sum i + 1
        - (spans.getD i (0, 0)).1 = 0 := by
      omega
    rw [hz]
    rfl
  have hfound : ∀ i, i < spans.length →
      ((List.range n).map (fun p => (rank_candidates n spans usage
        (fun _ => density_requests spans.length) p i).length)).sum
        ≤ requested_in_span n (fun _ => density_requests spans.length) i := by
    intro i hi
    by_cases hi0 : i = 0
    · rw [hR, if_pos hi0, hi0]
      have hown := sum_length_filter_owner n (chunk_owner n s0) (List.range' (s0.1 + m * n) n)
        (fun k _ => Nat.mod_lt _ (by omega))
      rw [List.length_range'] at hown
      refine Nat.le_of_eq (Eq.trans ?_ hown)
      apply sum_map_congr
      intro p _
      congr 1
      apply eq_of_pairwise_lt
      · exact candidates_pairwise _ _ _ _ _
      · exact (List.pairwise_lt_range' _ _).sublist (List.filter_sublist _)
      · intro k
        rw [hC0, List.mem_filter, List.mem_range'_1]
        simp only [decide_eq_true_eq]
        constructor
        · rintro ⟨h1, h2, h3⟩
          exact ⟨⟨h1, by omega⟩, h3⟩
        · rintro ⟨⟨h1, h2⟩, h3⟩
          exact ⟨h1, by omega, h3⟩
    · have hz : ∀ p ∈ List.range n, (rank_candidates n spans usage
          (fun _ => density_requests spans.length) p i).length = 0 := by
        intro p _
        rw [hCi p i (by omega) hi]
        rfl
      rw [List.map_congr_left hz, List.map_const', List.sum_replicate]
      simp
  have hmem : ∀ p k, (∃ i, i < spans.length ∧ k ∈ rank_candidates n spans usage
      (fun _ => density_requests spans.length) p i) ↔
      (s0.1 + m * n ≤ k ∧ k < s0.1 + (m + 1) * n ∧ chunk_owner n s0 k = p) := by
    intro p k
    constructor
    · rintro ⟨i, hi, hk⟩
      by_cases hi0 : i = 0
      · rw [hi0] at hk
        exact (hC0 p k).1 hk
      · rw [hCi p i (by omega) hi] at hk
        exact absurd hk (List.not_mem_nil _)
    · intro h
      exact ⟨0, hne, (hC0 p k).2 h⟩
  have hall : ((List.range n).all
      (fun p =>
        ((generate_new_keys n spans cf usage (fun _ => density_requests spans.length) p).map
          (fun res => !res.threw)).getD false)) = true := by
    apply List.all_eq_true.2
    intro p hp
    have h := hres p (List.mem_range.1 hp)
    rw [h.1]
    simp only [Option.map_some', Option.getD_some, h.2, Bool.not_false]
  unfold generate_on_all_ranks
  rw [if_pos hall]
  refine ⟨_, rfl, ?_, ?_, ?_⟩
  · intro p hp k
    have h := hres p hp
    have hafter := mem_keys_after n spans cf usage (fun _ => density_requests spans.length)
      hspans hvalid hcap hchunk hsorted hin hexist hreq hthrew hplan hfound p hp _ h.1 h.2 k
    have hget : ∀ (f : Nat → List KeyProc), ((List.range n).map f).getD p [] = f p := by
      intro f
      rw [List.getD_eq_getElem?_getD, List.getElem?_map, List.getElem?_range hp]
      rfl
    dsimp only
    rw [hget, h.1]
    simp only [Option.map_some', Option.getD_some]
    rw [hafter, hmem, hkeys p hp k]
    constructor
    · rintro (⟨h1, h2, h3⟩ | ⟨h1, h2, h3⟩)
      · exact ⟨h1, by omega, h3⟩
      · exact ⟨by omega, h2, h3⟩
    · rintro ⟨h1, h2, h3⟩
      by_cases hlt : k < s0.1 + m * n
      · exact Or.inl ⟨h1, hlt, h3⟩
      · exact Or.inr ⟨by omega, h2, h3⟩
  · intro p hp
    have h := hres p hp
    have hget : ∀ (f : Nat → List KeyProc), ((List.range n).map f).getD p [] = f p := by
      intro f
      rw [List.getD_eq_getElem?_getD, List.getElem?_map, List.getElem?_range hp]
      rfl
    dsimp only
    rw [hget, h.1]
    simp only [Option.map_some', Option.getD_some]
    rw [generate_new_keys_usage n spans cf usage (fun _ => density_requests spans.length)
      p _ h.1 h.2]
    have hs := sort_sorted (usage p
      ++ (plannings n spans cf usage (fun _ => density_requests spans.length)
        p).requested_keys.map (fun key => ((key, (p : Int)) : KeyProc))
      ++ (rank_donations n spans
        (plannings n spans cf usage (fun _ => density_requests spans.length)) p).flatMap
        (fun donation => donation.2.map (fun key => ((key, (donation.1 : Int)) : KeyProc))))
    rw [List.pairwise_map]
    refine hs.imp ?_
    intro a b hab
    unfold KeyProcNotGreater at hab
    rw [keyProcLess_iff] at hab
    omega
  · intro k
    have hretk := mem_returned n spans cf usage (fun _ => density_requests spans.length)
      hspans hvalid hcap hchunk hsorted hin hexist hreq hthrew hplan hfound _ hres k
    dsimp only
    rw [List.mem_flatMap]
    constructor
    · rintro ⟨p, hp, hk⟩
      have hp2 := List.mem_range.1 hp
      rw [(hres p hp2).1] at hk
      simp only [Option.map_some', Option.getD_some] at hk
      obtain ⟨d, hd, hdk⟩ := hretk.1 ⟨p, hp2, hk⟩
      have := (hmem d k).1 hdk
      omega
    · rintro ⟨h1, h2⟩
      have howner : chunk_owner n s0 k < n := Nat.mod_lt _ (by omega)
      obtain ⟨r, hr, hk⟩ := hretk.2 ⟨chunk_owner n s0 k, howner,
        (hmem _ k).2 ⟨h1, h2, rfl⟩⟩
      refine ⟨r, List.mem_range.2 hr, ?_⟩
      rw [(hres r hr).1]
      simp only [Option.map_some', Option.getD_some]
      exact hk

/-- The density scenario after `calls` calls: it has returned on every rank every time,
every rank holds the keys of its chunks among the first `calls * n` keys of the span 0,
and these keys are the keys returned so far. -/
theorem density_run_spec (n : Nat) (hn : 1 ≤ n) (spans : List KeySpan) (cf : Nat → List Nat)
    (hne : 0 < spans.length)
    (hspans : spans.Pairwise (fun a b => a.2 < b.1))
    (hvalid : ∀ s ∈ spans, s.1 ≤ s.2 ∧ s.2 + (n + 1) * 4096 < 2 ^ 64 ∧ n < 2 ^ 19)
    (hcap : ∀ s ∈ spans, span_capacity s < 2 ^ 61)
    (hchunk : ∀ p, p < n → chunk_first n (p : Int) spans = some (cf p)) :
    ∀ calls, calls * n ≤ span_capacity (spans.getD 0 (0, 0)) →
      ∃ state, density_run n spans cf calls = some state ∧
        (∀ p, p < n → ∀ k, k ∈ (state.1.getD p []).map Prod.fst ↔
          ((spans.getD 0 (0, 0)).1 ≤ k ∧ k < (spans.getD 0 (0, 0)).1 + calls * n ∧
            chunk_owner n (spans.getD 0 (0, 0)) k = p)) ∧
        (∀ p, p < n → ((state.1.getD p []).map Prod.fst).Pairwise (· ≤ ·)) ∧
        ∀ k, k ∈ state.2 ↔
          ((spans.getD 0 (0, 0)).1 ≤ k ∧ k < (spans.getD 0 (0, 0)).1 + calls * n) := by
  intro calls
  induction calls with
  | zero =>
    intro _
    have hempty : ∀ p, (List.replicate n ([] : List KeyProc)).getD p [] = [] := by
      intro p
      rw [List.getD_eq_getElem?_getD, List.getElem?_replicate]
      split <;> rfl
    refine ⟨_, rfl, fun p _ k => ?_, fun p _ => ?_, fun k => ?_⟩
    · dsimp only
      rw [hempty]
      simp only [List.map_nil, List.not_mem_nil, false_iff]
      omega
    · dsimp only
      rw [hempty]
      exact List.Pairwise.nil
    · simp only [List.not_mem_nil, false_iff]
      omega
  | succ calls ih =>
    intro hfit
    have hmul : (calls + 1) * n = calls * n + n := Nat.succ_mul calls n
    obtain ⟨state, hrun, hkeys, hsorted, hret⟩ := ih (by omega)
    obtain ⟨next, hnext, hkeys2, hsorted2, hret2⟩ := density_step n hn spans cf
      (fun p => state.1.getD p []) calls
      hne hspans hvalid hcap hchunk hfit hkeys hsorted
    refine ⟨(next.1, state.2 ++ next.2), ?_, hkeys2, hsorted2, fun k => ?_⟩
    · unfold density_run
      rw [hrun]
      dsimp only
      rw [hnext]
    · rw [List.mem_append, hret, hret2]
      omega

/-- The walk along two lists of pairs, one after the other. -/
theorem donation_walk_append (don : Nat → Nat → Nat) (contrib : List Nat) :
    ∀ (o1 o2 : List (Nat × Nat)) (off : Nat),
      donation_walk don contrib (o1 ++ o2) off =
        donation_walk don contrib o1 off
          ++ donation_walk don contrib o2 (off + (o1.map (fun ip => don ip.1 ip.2)).sum) := by
  intro o1
  induction o1 with
  | nil =>
    intro o2 off
    rfl
  | cons ip rest ih =>
    intro o2 off
    rw [List.cons_append, donation_walk, donation_walk, ih, List.map_cons, List.sum_cons,
      List.cons_append, Nat.add_assoc]

/-- A walk that starts behind the first part of `contrib_keys` is a walk over the rest. -/
theorem donation_walk_shift (don : Nat → Nat → Nat) (a b : List Nat) :
    ∀ (order : List (Nat × Nat)) (off : Nat),
      donation_walk don (a ++ b) order (a.length + off) = donation_walk don b order off := by
  intro order
  induction order with
  | nil =>
    intro off
    rfl
  | cons ip rest ih =>
    intro off
    unfold donation_walk
    rw [List.drop_append, Nat.add_assoc, ih]

/-- A walk that ends inside the first part of `contrib_keys` is a walk over that part. -/
theorem donation_walk_prefix (don : Nat → Nat → Nat) (a b : List Nat) :
    ∀ (order : List (Nat × Nat)) (off : Nat),
      off + (order.map (fun ip => don ip.1 ip.2)).sum ≤ a.length →
      donation_walk don (a ++ b) order off = donation_walk don a order off := by
  intro order
  induction order with
  | nil =>
    intro off _
    rfl
  | cons ip rest ih =>
    intro off hoff
    rw [List.map_cons, List.sum_cons] at hoff
    unfold donation_walk
    rw [ih (off + don ip.1 ip.2) (by omega), List.drop_append_of_le_length (by omega),
      List.take_append_of_le_length (by rw [List.length_drop]; omega)]

theorem donation_order_succ (sc n : Nat) :
    donation_order (sc + 1) n =
      donation_order sc n ++ (List.range n).map (fun p => (sc, p)) := by
  unfold donation_order
  rw [List.range_succ, List.flatMap_append]
  simp

/-- When the donations of every span add up to the keys that `contrib_keys` holds for the
span, the walk over `contrib_keys` is, span after span, the walk over the keys of the
span. -/
theorem donation_walk_spans (don : Nat → Nat → Nat) (S : Nat → List Nat) (n : Nat) :
    ∀ sc, (∀ i, i < sc → ((List.range n).map (fun p => don i p)).sum = (S i).length) →
      donation_walk don ((List.range sc).flatMap S) (donation_order sc n) 0 =
        (List.range sc).flatMap
          (fun i => donation_walk don (S i) ((List.range n).map (fun p => (i, p))) 0) := by
  intro sc
  induction sc with
  | zero =>
    intro _
    rfl
  | succ sc ih =>
    intro h
    have hsum : ((donation_order sc n).map (fun ip => don ip.1 ip.2)).sum =
        ((List.range sc).flatMap S).length := by
      rw [sum_donation_order, length_flatMap_sum]
      apply sum_map_congr
      intro i hi
      exact h i (by have := List.mem_range.1 hi; omega)
    rw [donation_order_succ, donation_walk_append, List.range_succ, List.flatMap_append,
      List.flatMap_append, donation_walk_prefix don _ _ _ 0 (by omega),
      ih (fun i hi => h i (by omega)), Nat.zero_add, hsum]
    congr 1
    have := donation_walk_shift don ((List.range sc).flatMap S) ([sc].flatMap S)
      ((List.range n).map (fun p => (sc, p))) 0
    rw [Nat.add_zero] at this
    rw [this]
    simp

/-- The distinct keys of `key_usage` inside the span are at most the keys of a range that
holds them all. -/
theorem keys_in_span_le_filter (s : KeySpan) (l : List KeyProc) (m : Nat) (P : Nat → Bool)
    (h : ∀ k ∈ l.map Prod.fst, s.1 ≤ k → k ≤ s.2 → k < s.1 + m ∧ P k = true) :
    keys_in_span s l ≤
      ((List.range' s.1 m).filter (fun k => P k && decide (k ∈ l.map Prod.fst))).length := by
  have hnodup : ((List.range' s.1 m).filter
      (fun k => P k && decide (k ∈ l.map Prod.fst))).Nodup :=
    ((List.pairwise_lt_range' s.1 m).imp (fun h => Nat.ne_of_lt h)).sublist
      (List.filter_sublist _)
  rw [← List.toFinset_card_of_nodup hnodup]
  unfold keys_in_span
  apply Finset.card_le_card
  intro k hk
  rw [Finset.mem_filter, List.mem_toFinset] at hk
  rw [List.mem_toFinset, List.mem_filter, List.mem_range'_1]
  simp only [Bool.and_eq_true, decide_eq_true_eq]
  have h1 := h k hk.1 hk.2.1 hk.2.2
  exact ⟨⟨hk.2.1, h1.1⟩, h1.2, hk.1⟩

/-- When every key in use in the span lies up to `key_global_max` and is held by the rank
that local planning attributes it to, the candidates of all the ranks and the keys in use
in the span are at most the keys from the first key of the span up to `key_global_max`. -/
theorem sum_candidates_le (n : Nat) (hn : 0 < n) (s : KeySpan) (gmax : Nat)
    (usage : Nat → List KeyProc)
    (hown : ∀ p, p < n → ∀ k ∈ (usage p).map Prod.fst, s.1 ≤ k → k ≤ s.2 →
      k ≤ gmax ∧ chunk_owner n s k = p) :
    ((List.range n).map (fun p => (candidates n s gmax (usage p) p).length)).sum
      + existing_in_span n usage s ≤ gmax + 1 - s.1 := by
  have hsum := sum_length_filter_owner n (chunk_owner n s) (List.range' s.1 (gmax + 1 - s.1))
    (fun k _ => Nat.mod_lt _ hn)
  rw [List.length_range'] at hsum
  have hsplit : ∀ p ∈ List.range n,
      (candidates n s gmax (usage p) p).length + keys_in_span s (usage p) ≤
      ((List.range' s.1 (gmax + 1 - s.1)).filter
        (fun k => decide (chunk_owner n s k = p))).length := by
    intro p hp
    have h1 := length_filter_split (List.range' s.1 (gmax + 1 - s.1))
      (fun k => decide (chunk_owner n s k = p)) (fun k => decide (k ∈ (usage p).map Prod.fst))
    have h2 := keys_in_span_le_filter s (usage p) (gmax + 1 - s.1)
      (fun k => decide (chunk_owner n s k = p)) (fun k hk hk1 hk2 => by
        have := hown p (List.mem_range.1 hp) k hk hk1 hk2
        exact ⟨by omega, by simpa using this.2⟩)
    beta_reduce at h1 h2
    unfold candidates
    omega
  have hle := sum_map_le_sum _ _ _ hsplit
  rw [hsum, sum_map_add_fun] at hle
  unfold existing_in_span
  exact hle

/-- When every key in use lies below `first + existing + requested` of its span and is held
by the rank that local planning attributes it to, the ranks find in every span at most what
is requested from it. -/
theorem found_le_requested (n : Nat) (spans : List KeySpan) (cf : Nat → List Nat)
    (usage : Nat → List KeyProc) (requests : Nat → List Nat) (hn : 0 < n)
    (hspans : spans.Pairwise (fun a b => a.2 < b.1))
    (hvalid : ∀ s ∈ spans, s.1 ≤ s.2 ∧ s.2 + (n + 1) * 4096 < 2 ^ 64 ∧ n < 2 ^ 19)
    (hsorted : ∀ p, p < n → ((usage p).map Prod.fst).Pairwise (· ≤ ·))
    (hin : ∀ p, p < n → ∀ e ∈ usage p, ∃ s ∈ spans, s.1 ≤ e.1 ∧ e.1 ≤ s.2)
    (hexist : ∀ s ∈ spans, existing_in_span n usage s ≤ span_capacity s)
    (hthrew : (generate_new_keys_global_counts n spans usage requests).threw = false)
    (hplan : ∀ p, p < n → rank_planning n spans cf usage requests p =
      some (plannings n spans cf usage requests p))
    (hreq : ∀ i, i < spans.length → requested_in_span n requests i < 2 ^ 64)
    (hown : ∀ i, i < spans.length → ∀ p, p < n → ∀ e ∈ usage p,
      (spans.getD i (0, 0)).1 ≤ e.1 → e.1 ≤ (spans.getD i (0, 0)).2 →
      e.1 < (spans.getD i (0, 0)).1 + (existing_in_span n usage (spans.getD i (0, 0))
          + requested_in_span n requests i) ∧
        chunk_owner n (spans.getD i (0, 0)) e.1 = p)
    (i : Nat) (hi : i < spans.length) :
    ((List.range n).map (fun p => (rank_candidates n spans usage requests p i).length)).sum
      ≤ requested_in_span n requests i := by
  have hg := key_global_max_of_planning n spans cf usage requests hspans hvalid hsorted hin hexist
      hthrew 0 _
    (hplan 0 hn) i hi
  rw [Nat.mod_eq_of_lt (hreq i hi)] at hg
  have h := sum_candidates_le n hn (spans.getD i (0, 0))
    (key_global_max spans
        (generate_new_keys_global_counts n spans usage requests).existing_global_sum
        (generate_new_keys_global_counts n spans usage requests).requests_global_sum i) usage (fun
            p hp k hk hk1 hk2 => by
      obtain ⟨e, he, hek⟩ := List.mem_map.1 hk
      have := hown i hi p hp e he (by rw [hek]; exact hk1) (by rw [hek]; exact hk2)
      rw [hek] at this
      exact ⟨by omega, this.2⟩)
  unfold rank_candidates
  omega

/-- A sorted list is its keys up to `t` followed by its keys above `t`. -/
theorem sorted_split (t : Nat) :
    ∀ (l : List Nat), l.Pairwise (· ≤ ·) →
      l = l.filter (fun k => decide (k ≤ t)) ++ l.filter (fun k => !decide (k ≤ t)) := by
  intro l
  induction l with
  | nil =>
    intro _
    rfl
  | cons a rest ih =>
    intro h
    have hrest := ih (List.Pairwise.of_cons h)
    by_cases ha : a ≤ t
    · rw [List.filter_cons_of_pos (by simpa using ha),
        List.filter_cons_of_neg (by simpa using ha), List.cons_append, ← hrest]
    · have hnone : rest.filter (fun k => decide (k ≤ t)) = [] := by
        rw [List.filter_eq_nil_iff]
        intro k hk
        have := (List.pairwise_cons.1 h).1 k hk
        simp only [decide_eq_true_eq]
        omega
      have hall : rest.filter (fun k => !decide (k ≤ t)) = rest := by
        rw [List.filter_eq_self]
        intro k hk
        have := (List.pairwise_cons.1 h).1 k hk
        simp only [Bool.not_eq_true', decide_eq_false_iff_not]
        omega
      rw [List.filter_cons_of_neg (by simpa using ha),
        List.filter_cons_of_pos (by simpa using ha), hnone, hall]
      rfl

/-- The last loop of `generate_new_keys` on sorted keys that all lie in the spans, when
the count for every span is the number of the keys inside the span: `requested_keys[i]` is
given the keys inside the span `i`. -/
theorem requested_slices_spans :
    ∀ (spans : List KeySpan) (l : List Nat), spans.Pairwise (fun a b => a.2 < b.1) →
      l.Pairwise (· ≤ ·) → (∀ k ∈ l, ∃ s ∈ spans, s.1 ≤ k ∧ k ≤ s.2) →
      requested_slices
          (spans.map (fun s => (l.filter (fun k => decide (s.1 ≤ k) && decide (k ≤ s.2))).length))
          l =
        spans.map (fun s => l.filter (fun k => decide (s.1 ≤ k) && decide (k ≤ s.2))) := by
  intro spans
  induction spans with
  | nil =>
    intro l _ _ _
    rfl
  | cons s rest ih =>
    intro l hspans hl hin
    have hfirst : l.filter (fun k => decide (s.1 ≤ k) && decide (k ≤ s.2)) =
        l.filter (fun k => decide (k ≤ s.2)) := by
      apply List.filter_congr
      intro k hk
      obtain ⟨s', hs', h1, h2⟩ := hin k hk
      rcases List.mem_cons.1 hs' with rfl | hs'
      · simp [h1, h2]
      · have := (List.pairwise_cons.1 hspans).1 s' hs'
        have hk1 : ¬ k ≤ s.2 := by omega
        simp [hk1]
    have hsplit := sorted_split s.2 l hl
    have hl2 : (l.filter (fun k => !decide (k ≤ s.2))).Pairwise (· ≤ ·) :=
      hl.sublist (List.filter_sublist _)
    have hin2 : ∀ k ∈ l.filter (fun k => !decide (k ≤ s.2)),
        ∃ s' ∈ rest, s'.1 ≤ k ∧ k ≤ s'.2 := by
      intro k hk
      rw [List.mem_filter] at hk
      obtain ⟨s', hs', h1, h2⟩ := hin k hk.1
      rcases List.mem_cons.1 hs' with rfl | hs'
      · simp [h2] at hk
      · exact ⟨s', hs', h1, h2⟩
    have hrest : ∀ s' ∈ rest,
        (l.filter (fun k => !decide (k ≤ s.2))).filter
          (fun k => decide (s'.1 ≤ k) && decide (k ≤ s'.2)) =
        l.filter (fun k => decide (s'.1 ≤ k) && decide (k ≤ s'.2)) := by
      intro s' hs'
      have := (List.pairwise_cons.1 hspans).1 s' hs'
      rw [List.filter_filter]
      apply List.filter_congr
      intro k _
      by_cases hk : s'.1 ≤ k
      · have hk1 : ¬ k ≤ s.2 := by omega
        simp [hk, hk1]
      · simp [hk]
    have hih := ih (l.filter (fun k => !decide (k ≤ s.2))) (List.Pairwise.of_cons hspans)
      hl2 hin2
    rw [List.map_congr_left (fun s' hs' => by rw [hrest s' hs']),
      List.map_congr_left (fun s' hs' => hrest s' hs')] at hih
    rw [List.map_cons, List.map_cons, requested_slices, hfirst]
    have htake : ∀ (a b : List Nat), l = a ++ b → l.take a.length = a := by
      intro a b h
      rw [h]
      exact List.take_left' rfl
    have hdrop : ∀ (a b : List Nat), l = a ++ b → l.drop a.length = b := by
      intro a b h
      rw [h]
      exact List.drop_left' rfl
    rw [htake _ _ hsplit, hdrop _ _ hsplit, hih]

theorem length_filter_flatMap {β : Type} (l : List β) (f : β → List Nat) (p : Nat → Bool) :
    ((l.flatMap f).filter p).length = (l.map (fun x => ((f x).filter p).length)).sum := by
  induction l with
  | nil => rfl
  | cons a t ih =>
    rw [List.flatMap_cons, List.filter_append, List.length_append, ih, List.map_cons,
      List.sum_cons]

/-- Of keys that lie in the span `i`, all lie in the span `j` when `j = i` and none
otherwise. -/
theorem length_filter_span (spans : List KeySpan)
    (hspans : spans.Pairwise (fun a b => a.2 < b.1)) (keys : List Nat) (i j : Nat)
    (hi : i < spans.length) (hj : j < spans.length)
    (hkeys : ∀ k ∈ keys, (spans.getD i (0, 0)).1 ≤ k ∧ k ≤ (spans.getD i (0, 0)).2) :
    (keys.filter (fun k => decide ((spans.getD j (0, 0)).1 ≤ k)
      && decide (k ≤ (spans.getD j (0, 0)).2))).length = if i = j then keys.length else 0 := by
  by_cases hij : i = j
  · rw [if_pos hij, List.filter_eq_self.2]
    intro k hk
    have := hkeys k hk
    rw [hij] at this
    simp only [Bool.and_eq_true, decide_eq_true_eq]
    exact this
  · rw [if_neg hij, List.filter_eq_nil_iff.2]
    · rfl
    · intro k hk
      have h1 := hkeys k hk
      rcases Nat.lt_or_gt_of_ne hij with hlt | hgt
      · have h2 := getD_lt_getD spans hspans i j hlt hj
        simp only [Bool.and_eq_true, decide_eq_true_eq]
        omega
      · have h2 := getD_lt_getD spans hspans j i hgt hi
        simp only [Bool.and_eq_true, decide_eq_true_eq]
        omega

/-- The keys that a rank finds in a span lie in the span. -/
theorem rank_candidates_in_span (n : Nat) (spans : List KeySpan) (cf : Nat → List Nat)
    (usage : Nat → List KeyProc) (requests : Nat → List Nat)
    (hspans : spans.Pairwise (fun a b => a.2 < b.1))
    (hvalid : ∀ s ∈ spans, s.1 ≤ s.2 ∧ s.2 + (n + 1) * 4096 < 2 ^ 64 ∧ n < 2 ^ 19)
    (hsorted : ∀ p, p < n → ((usage p).map Prod.fst).Pairwise (· ≤ ·))
    (hin : ∀ p, p < n → ∀ e ∈ usage p, ∃ s ∈ spans, s.1 ≤ e.1 ∧ e.1 ≤ s.2)
    (hexist : ∀ s ∈ spans, existing_in_span n usage s ≤ span_capacity s)
    (hthrew : (generate_new_keys_global_counts n spans usage requests).threw = false)
    (hplan : ∀ p, p < n → rank_planning n spans cf usage requests p =
      some (plannings n spans cf usage requests p))
    (p : Nat) (hp : p < n) (i : Nat) (hi : i < spans.length) (k : Nat)
    (hk : k ∈ rank_candidates n spans usage requests p i) :
    (spans.getD i (0, 0)).1 ≤ k ∧ k ≤ (spans.getD i (0, 0)).2 := by
  have hmax := key_global_max_le n spans cf usage requests hspans hvalid hsorted hin hexist
    hthrew p _ (hplan p hp) i hi
  unfold rank_candidates at hk
  rw [mem_candidates] at hk
  exact ⟨hk.1.1, by omega⟩

/-- When the ranks find in every span at most what is requested from it, the walk of a
rank over `contrib_keys` is, span after span, the walk over the keys that it found in the
span and does not keep. -/
theorem rank_donations_spans (n : Nat) (spans : List KeySpan) (cf : Nat → List Nat)
    (usage : Nat → List KeyProc) (requests : Nat → List Nat)
    (hspans : spans.Pairwise (fun a b => a.2 < b.1))
    (hvalid : ∀ s ∈ spans, s.1 ≤ s.2 ∧ s.2 + (n + 1) * 4096 < 2 ^ 64 ∧ n < 2 ^ 19)
    (hcap : ∀ s ∈ spans, span_capacity s < 2 ^ 61)
    (hchunk : ∀ p, p < n → chunk_first n (p : Int) spans = some (cf p))
    (hsorted : ∀ p, p < n → ((usage p).map Prod.fst).Pairwise (· ≤ ·))
    (hin : ∀ p, p < n → ∀ e ∈ usage p, ∃ s ∈ spans, s.1 ≤ e.1 ∧ e.1 ≤ s.2)
    (hexist : ∀ s ∈ spans, existing_in_span n usage s ≤ span_capacity s)
    (hreq : ∀ i, i < spans.length → requested_in_span n requests i < 2 ^ 64)
    (hthrew : (generate_new_keys_global_counts n spans usage requests).threw = false)
    (hplan : ∀ p, p < n → rank_planning n spans cf usage requests p =
      some (plannings n spans cf usage requests p))
    (hfound : ∀ i, i < spans.length →
      ((List.range n).map (fun p => (rank_candidates n spans usage requests p i).length)).sum
        ≤ requested_in_span n requests i)
    (d : Nat) (hd : d < n) :
    rank_donations n spans (plannings n spans cf usage requests) d =
      (List.range spans.length).flatMap (fun i =>
        donation_walk (generate_new_keys_global_planning n d (fun q => (plannings n spans cf usage
            requests q).new_request))
          (surplus_keys ((requests d).getD i 0) (rank_candidates n spans usage requests d i))
          ((List.range n).map (fun p => (i, p))) 0) := by
  have hP := rank_planning_eq n spans cf usage requests hspans hvalid hsorted hin
    hexist hthrew d hd (hchunk d hd) _ (hplan d hd)
  unfold rank_donations
  rw [hP.2.2]
  exact donation_walk_spans _ _ n spans.length
    (fun i hi => sum_span_donations n spans cf usage requests hspans hvalid hcap hchunk hsorted
        hin hexist hreq hthrew hplan hfound d hd i hi)

/-- When the ranks find in every span at most what is requested from it, the keys that the
rank `r` receives from the rank `d` and that lie in the span `j` are as many as
`my_donations` of `d` says for the span `j` and the rank `r`. -/
theorem received_in_span (n : Nat) (spans : List KeySpan) (cf : Nat → List Nat)
    (usage : Nat → List KeyProc) (requests : Nat → List Nat)
    (hspans : spans.Pairwise (fun a b => a.2 < b.1))
    (hvalid : ∀ s ∈ spans, s.1 ≤ s.2 ∧ s.2 + (n + 1) * 4096 < 2 ^ 64 ∧ n < 2 ^ 19)
    (hcap : ∀ s ∈ spans, span_capacity s < 2 ^ 61)
    (hchunk : ∀ p, p < n → chunk_first n (p : Int) spans = some (cf p))
    (hsorted : ∀ p, p < n → ((usage p).map Prod.fst).Pairwise (· ≤ ·))
    (hin : ∀ p, p < n → ∀ e ∈ usage p, ∃ s ∈ spans, s.1 ≤ e.1 ∧ e.1 ≤ s.2)
    (hexist : ∀ s ∈ spans, existing_in_span n usage s ≤ span_capacity s)
    (hreq : ∀ i, i < spans.length → requested_in_span n requests i < 2 ^ 64)
    (hthrew : (generate_new_keys_global_counts n spans usage requests).threw = false)
    (hplan : ∀ p, p < n → rank_planning n spans cf usage requests p =
      some (plannings n spans cf usage requests p))
    (hfound : ∀ i, i < spans.length →
      ((List.range n).map (fun p => (rank_candidates n spans usage requests p i).length)).sum
        ≤ requested_in_span n requests i)
    (d : Nat) (hd : d < n) (r : Nat) (hr : r < n) (j : Nat) (hj : j < spans.length) :
    (((rank_donations n spans (plannings n spans cf usage requests) d).flatMap
        (fun donation => if donation.1 = r then donation.2 else [])).filter
      (fun k => decide ((spans.getD j (0, 0)).1 ≤ k)
        && decide (k ≤ (spans.getD j (0, 0)).2))).length =
      generate_new_keys_global_planning n d (fun q => (plannings n spans cf usage requests
          q).new_request) j r := by
  have hexact := fun i hi => sum_span_donations n spans cf usage requests hspans hvalid hcap
      hchunk hsorted hin hexist hreq hthrew hplan hfound d hd i hi
  have hmem : ∀ i, i < spans.length → ∀ k,
      k ∈ (donation_walk (generate_new_keys_global_planning n d (fun q => (plannings n spans cf
          usage requests q).new_request))
          (surplus_keys ((requests d).getD i 0) (rank_candidates n spans usage requests d i))
          ((List.range n).map (fun p => (i, p))) 0).flatMap
        (fun donation => if donation.1 = r then donation.2 else []) →
      (spans.getD i (0, 0)).1 ≤ k ∧ k ≤ (spans.getD i (0, 0)).2 := by
    intro i hi k hk
    obtain ⟨x, hx, hkx⟩ := List.mem_flatMap.1 hk
    have hk2 : k ∈ x.2 := by
      by_cases hxr : x.1 = r
      · rw [if_pos hxr] at hkx
        exact hkx
      · rw [if_neg hxr] at hkx
        exact absurd hkx (List.not_mem_nil _)
    have hsub := donation_walk_sublist (generate_new_keys_global_planning n d (fun q => (plannings
        n spans cf usage requests q).new_request))
      (surplus_keys ((requests d).getD i 0) (rank_candidates n spans usage requests d i))
      ((List.range n).map (fun p => (i, p))) 0
    rw [List.drop_zero] at hsub
    have hk3 := hsub.subset (List.mem_flatMap.2 ⟨x, hx, hk2⟩)
    exact rank_candidates_in_span n spans cf usage requests hspans hvalid hsorted hin hexist
        hthrew hplan d hd i hi
      k ((mem_kept_or_surplus _ _ _).2 (Or.inr hk3))
  rw [rank_donations_spans n spans cf usage requests hspans hvalid hcap hchunk hsorted hin hexist
      hreq hthrew hplan hfound d hd, List.flatMap_assoc, length_filter_flatMap,
    sum_map_congr _ _
      (fun i => if i = j then
        ((donation_walk (generate_new_keys_global_planning n d (fun q => (plannings n spans cf
            usage requests q).new_request))
          (surplus_keys ((requests d).getD i 0) (rank_candidates n spans usage requests d i))
          ((List.range n).map (fun p => (i, p))) 0).flatMap
        (fun donation => if donation.1 = r then donation.2 else [])).length else 0)
      (fun i hi => length_filter_span spans hspans _ i j (List.mem_range.1 hi) hj
        (hmem i (List.mem_range.1 hi))),
    sum_range_ite_right spans.length j _ hj,
    donation_walk_length _ _ r _ 0 (by
      rw [Nat.zero_add, List.map_map]
      exact Nat.le_of_eq (hexact j hj)),
    List.map_map]
  exact sum_range_ite_right n r
    (fun p => generate_new_keys_global_planning n d (fun q => (plannings n spans cf usage requests
        q).new_request) j p) hr

/-- When the ranks find in every span at most what is requested from it, a rank ends with
as many new keys of every span, kept and received, as it requested from the span. -/
theorem new_keys_in_span (n : Nat) (spans : List KeySpan) (cf : Nat → List Nat)
    (usage : Nat → List KeyProc) (requests : Nat → List Nat)
    (hspans : spans.Pairwise (fun a b => a.2 < b.1))
    (hvalid : ∀ s ∈ spans, s.1 ≤ s.2 ∧ s.2 + (n + 1) * 4096 < 2 ^ 64 ∧ n < 2 ^ 19)
    (hcap : ∀ s ∈ spans, span_capacity s < 2 ^ 61)
    (hchunk : ∀ p, p < n → chunk_first n (p : Int) spans = some (cf p))
    (hsorted : ∀ p, p < n → ((usage p).map Prod.fst).Pairwise (· ≤ ·))
    (hin : ∀ p, p < n → ∀ e ∈ usage p, ∃ s ∈ spans, s.1 ≤ e.1 ∧ e.1 ≤ s.2)
    (hexist : ∀ s ∈ spans, existing_in_span n usage s ≤ span_capacity s)
    (hreq : ∀ i, i < spans.length → requested_in_span n requests i < 2 ^ 64)
    (hthrew : (generate_new_keys_global_counts n spans usage requests).threw = false)
    (hplan : ∀ p, p < n → rank_planning n spans cf usage requests p =
      some (plannings n spans cf usage requests p))
    (hfound : ∀ i, i < spans.length →
      ((List.range n).map (fun p => (rank_candidates n spans usage requests p i).length)).sum
        ≤ requested_in_span n requests i)
    (r : Nat) (hr : r < n) (j : Nat) (hj : j < spans.length) :
    ((new_keys n spans cf usage requests r).filter
      (fun k => decide ((spans.getD j (0, 0)).1 ≤ k)
        && decide (k ≤ (spans.getD j (0, 0)).2))).length = (requests r).getD j 0 := by
  have hP := rank_planning_eq n spans cf usage requests hspans hvalid hsorted hin
    hexist hthrew r hr (hchunk r hr) _ (hplan r hr)
  have hx := new_request_eq n spans cf usage requests hspans hvalid hcap hchunk hsorted hin hexist
      hreq hthrew hplan
  have hsum := sum_new_request_le n spans cf usage requests hspans hvalid hcap hchunk hsorted hin
      hexist hreq hthrew hplan
  have hkept : ∀ i, i < spans.length → ∀ k,
      k ∈ kept_keys ((requests r).getD i 0) (rank_candidates n spans usage requests r i) →
      (spans.getD i (0, 0)).1 ≤ k ∧ k ≤ (spans.getD i (0, 0)).2 :=
    fun i hi k hk =>
      rank_candidates_in_span n spans cf usage requests hspans hvalid hsorted hin hexist hthrew
          hplan r hr i hi
        k ((mem_kept_or_surplus _ _ _).2 (Or.inl hk))
  unfold new_keys
  rw [((List.perm_insertionSort _ _).filter _).length_eq, List.filter_append,
    List.length_append, hP.2.1, length_filter_flatMap, length_filter_flatMap,
    sum_map_congr _ _
      (fun i => if i = j then (kept_keys ((requests r).getD i 0) (rank_candidates n spans usage
          requests r i)).length else 0)
      (fun i hi => length_filter_span spans hspans _ i j (List.mem_range.1 hi) hj
        (hkept i (List.mem_range.1 hi))),
    sum_range_ite_right spans.length j _ hj,
    sum_map_congr _ _
      (fun d => donation (fun q => new_request_global (fun q => (plannings n spans cf usage
          requests q).new_request) q j) d r)
      (fun d hd => by
        rw [received_in_span n spans cf usage requests hspans hvalid hcap hchunk hsorted hin
            hexist hreq hthrew hplan hfound d (List.mem_range.1 hd) r hr j hj]
        exact global_planning_eq n d _ j r hr
          (planning_in_range n spans cf usage requests hspans hvalid hcap hchunk hsorted hin
            hexist hreq hthrew hplan j hj).1
          ((planning_in_range n spans cf usage requests hspans hvalid hcap hchunk hsorted hin
            hexist hreq hthrew hplan j hj).2 d (List.mem_range.1 hd))),
    sum_donation_of_le (fun q => new_request_global (fun q => (plannings n spans cf usage requests
        q).new_request) q j) n r hr (hsum j hj)]
  rw [hx r hr j hj, length_kept_keys]
  omega

theorem map_spans_range {β : Type} (spans : List KeySpan) (g : KeySpan → β) :
    spans.map g = (List.range spans.length).map (fun i => g (spans.getD i (0, 0))) := by
  apply List.ext_getElem
  · simp
  · intro i h1 h2
    rw [List.getElem_map, List.getElem_map, List.getElem_range, List.getD_eq_getElem?_getD,
      List.getElem?_eq_getElem (by simpa using h1)]
    rfl

/-- The keys that a rank ends with, kept or received, are keys that some rank found in
some span. -/
theorem mem_new_keys (n : Nat) (spans : List KeySpan) (cf : Nat → List Nat)
    (usage : Nat → List KeyProc) (requests : Nat → List Nat)
    (hspans : spans.Pairwise (fun a b => a.2 < b.1))
    (hvalid : ∀ s ∈ spans, s.1 ≤ s.2 ∧ s.2 + (n + 1) * 4096 < 2 ^ 64 ∧ n < 2 ^ 19)
    (hchunk : ∀ p, p < n → chunk_first n (p : Int) spans = some (cf p))
    (hsorted : ∀ p, p < n → ((usage p).map Prod.fst).Pairwise (· ≤ ·))
    (hin : ∀ p, p < n → ∀ e ∈ usage p, ∃ s ∈ spans, s.1 ≤ e.1 ∧ e.1 ≤ s.2)
    (hexist : ∀ s ∈ spans, existing_in_span n usage s ≤ span_capacity s)
    (hthrew : (generate_new_keys_global_counts n spans usage requests).threw = false)
    (hplan : ∀ p, p < n → rank_planning n spans cf usage requests p =
      some (plannings n spans cf usage requests p))
    (r : Nat) (hr : r < n) (k : Nat) (hk : k ∈ new_keys n spans cf usage requests r) :
    ∃ d, d < n ∧ ∃ i, i < spans.length ∧ k ∈ rank_candidates n spans usage requests d i := by
  unfold new_keys at hk
  rw [List.mem_insertionSort, List.mem_append] at hk
  rcases hk with hk | hk
  · exact ⟨r, hr, (mem_kept_or_contrib n spans cf usage requests hspans hvalid hchunk hsorted hin
      hexist hthrew hplan r hr k).1 (Or.inl hk)⟩
  · obtain ⟨d, hd, hk2⟩ := List.mem_flatMap.1 hk
    obtain ⟨x, hx, hkx⟩ := List.mem_flatMap.1 hk2
    have hk3 : k ∈ x.2 := by
      by_cases hxr : x.1 = r
      · rw [if_pos hxr] at hkx
        exact hkx
      · rw [if_neg hxr] at hkx
        exact absurd hkx (List.not_mem_nil _)
    have hd2 := List.mem_range.1 hd
    unfold rank_donations at hx
    have hsub := donation_walk_sublist
      (generate_new_keys_global_planning n d (fun q => (plannings n spans cf usage requests
          q).new_request))
      (plannings n spans cf usage requests d).contrib_keys (donation_order spans.length n) 0
    rw [List.drop_zero] at hsub
    have hk4 := hsub.subset (List.mem_flatMap.2 ⟨x, hx, hk3⟩)
    exact ⟨d, hd2, (mem_kept_or_contrib n spans cf usage requests hspans hvalid hchunk hsorted hin
        hexist hthrew hplan d hd2 k).1 (Or.inr hk4)⟩

/-- When the ranks find in every span at most what is requested from it, a call that
returns without a throw gives `requested_keys[j]` the new keys of the rank that lie in the
span `j`. -/
theorem requested_keys_span (n : Nat) (spans : List KeySpan) (cf : Nat → List Nat)
    (usage : Nat → List KeyProc) (requests : Nat → List Nat)
    (hspans : spans.Pairwise (fun a b => a.2 < b.1))
    (hvalid : ∀ s ∈ spans, s.1 ≤ s.2 ∧ s.2 + (n + 1) * 4096 < 2 ^ 64 ∧ n < 2 ^ 19)
    (hcap : ∀ s ∈ spans, span_capacity s < 2 ^ 61)
    (hchunk : ∀ p, p < n → chunk_first n (p : Int) spans = some (cf p))
    (hsorted : ∀ p, p < n → ((usage p).map Prod.fst).Pairwise (· ≤ ·))
    (hin : ∀ p, p < n → ∀ e ∈ usage p, ∃ s ∈ spans, s.1 ≤ e.1 ∧ e.1 ≤ s.2)
    (hexist : ∀ s ∈ spans, existing_in_span n usage s ≤ span_capacity s)
    (hreq : ∀ i, i < spans.length → requested_in_span n requests i < 2 ^ 64)
    (hthrew : (generate_new_keys_global_counts n spans usage requests).threw = false)
    (hplan : ∀ p, p < n → rank_planning n spans cf usage requests p =
      some (plannings n spans cf usage requests p))
    (hfound : ∀ i, i < spans.length →
      ((List.range n).map (fun p => (rank_candidates n spans usage requests p i).length)).sum
        ≤ requested_in_span n requests i)
    (r : Nat) (hr : r < n) (res : GenerateResult)
    (h : generate_new_keys n spans cf usage requests r = some res) (hres : res.threw = false)
    (j : Nat) (hj : j < spans.length) :
    res.requested_keys.getD j [] =
      (new_keys n spans cf usage requests r).filter
        (fun k => decide ((spans.getD j (0, 0)).1 ≤ k)
          && decide (k ≤ (spans.getD j (0, 0)).2)) := by
  have h1 := generate_new_keys_success n spans cf usage requests r res h hres
    (requests_small n spans usage requests hspans hvalid hcap hsorted hin hexist hreq
      hthrew r hr)
  have hcounts : (List.range spans.length).map ((requests r).getD · 0) =
      spans.map (fun s => ((new_keys n spans cf usage requests r).filter
        (fun k => decide (s.1 ≤ k) && decide (k ≤ s.2))).length) := by
    rw [map_spans_range]
    apply List.map_congr_left
    intro i hi
    exact (new_keys_in_span n spans cf usage requests hspans hvalid hcap hchunk hsorted hin hexist
        hreq hthrew hplan hfound r hr i (List.mem_range.1 hi)).symm
  have hsorted2 : (new_keys n spans cf usage requests r).Pairwise (· ≤ ·) := by
    unfold new_keys
    exact List.sorted_insertionSort _ _
  have hin2 : ∀ k ∈ new_keys n spans cf usage requests r, ∃ s ∈ spans, s.1 ≤ k ∧ k ≤ s.2 := by
    intro k hk
    obtain ⟨d, hd, i, hi, hki⟩ := mem_new_keys n spans cf usage requests hspans hvalid hchunk
        hsorted hin hexist hthrew hplan r hr k hk
    exact ⟨_, getD_mem spans i hi,
      rank_candidates_in_span n spans cf usage requests hspans hvalid hsorted hin hexist hthrew
          hplan d hd i hi
        k hki⟩
  rw [h1.2.2.2.2, hcounts, requested_slices_spans spans _ hspans hsorted2 hin2,
    map_spans_range, List.getD_eq_getElem?_getD, List.getElem?_map, List.getElem?_range hj]
  rfl

/-- The keys returned for a span by a call of `generate_new_keys` on a consistent index on
which every key in use lies below `first + existing + requested` of its span and is held by
the rank that local planning attributes it to: the keys of the span below
`first + existing + requested` that no rank has in use. -/
theorem mem_requested_keys (n : Nat) (spans : List KeySpan) (cf : Nat → List Nat)
    (usage : Nat → List KeyProc) (requests : Nat → List Nat) (hn : 0 < n)
    (hspans : spans.Pairwise (fun a b => a.2 < b.1))
    (hvalid : ∀ s ∈ spans, s.1 ≤ s.2 ∧ s.2 + (n + 1) * 4096 < 2 ^ 64 ∧ n < 2 ^ 19)
    (hcap : ∀ s ∈ spans, span_capacity s < 2 ^ 61)
    (hchunk : ∀ p, p < n → chunk_first n (p : Int) spans = some (cf p))
    (hsorted : ∀ p, p < n → ((usage p).map Prod.fst).Pairwise (· ≤ ·))
    (hin : ∀ p, p < n → ∀ e ∈ usage p, ∃ s ∈ spans, s.1 ≤ e.1 ∧ e.1 ≤ s.2)
    (hexist : ∀ s ∈ spans, existing_in_span n usage s ≤ span_capacity s)
    (hreq : ∀ i, i < spans.length → requested_in_span n requests i < 2 ^ 64)
    (hown : ∀ i, i < spans.length → ∀ p, p < n → ∀ e ∈ usage p,
      (spans.getD i (0, 0)).1 ≤ e.1 → e.1 ≤ (spans.getD i (0, 0)).2 →
      e.1 < (spans.getD i (0, 0)).1 + (existing_in_span n usage (spans.getD i (0, 0))
          + requested_in_span n requests i) ∧
        chunk_owner n (spans.getD i (0, 0)) e.1 = p)
    (res : Nat → GenerateResult)
    (hres : ∀ p, p < n → generate_new_keys n spans cf usage requests p = some (res p) ∧
      (res p).threw = false)
    (i : Nat) (hi : i < spans.length) (k : Nat) :
    (∃ r, r < n ∧ k ∈ (res r).requested_keys.getD i []) ↔
      ((spans.getD i (0, 0)).1 ≤ k ∧
        k < (spans.getD i (0, 0)).1 + (existing_in_span n usage (spans.getD i (0, 0))
          + requested_in_span n requests i) ∧
        ∀ p, p < n → k ∉ (usage p).map Prod.fst) := by
  have h0 := generate_new_keys_returned n spans cf usage requests 0 (res 0) (hres 0 hn).1 (hres 0
      hn).2
  have hthrew := h0.1
  have hplan := h0.2.1
  have hfound := found_le_requested n spans cf usage requests hn hspans hvalid hsorted hin hexist
      hthrew hplan
    hreq hown
  have hg := key_global_max_of_planning n spans cf usage requests hspans hvalid hsorted hin hexist
      hthrew 0 _
    (hplan 0 hn) i hi
  rw [Nat.mod_eq_of_lt (hreq i hi)] at hg
  have hret := mem_returned n spans cf usage requests hspans hvalid hcap hchunk hsorted hin hexist
      hreq hthrew hplan hfound res hres k
  have hflat : ∀ r, r < n → (res r).requested_keys.flatten = new_keys n spans cf usage requests r
      := by
    intro r hr
    have h1 := generate_new_keys_success n spans cf usage requests r (res r) (hres r hr).1
      (hres r hr).2 (requests_small n spans usage requests hspans hvalid hcap hsorted hin hexist hreq
        hthrew r hr)
    rw [h1.2.2.2.2, requested_slices_flatten]
    exact List.take_of_length_le (by
      rw [length_new_keys n spans cf usage requests hspans hvalid hcap hchunk hsorted hin hexist
          hreq hthrew hplan r hr])
  have hslice := fun r hr => requested_keys_span n spans cf usage requests hspans hvalid hcap
      hchunk hsorted hin hexist hreq hthrew hplan hfound r hr (res r)
    (hres r hr).1 (hres r hr).2 i hi
  constructor
  · rintro ⟨r, hr, hk⟩
    rw [hslice r hr, List.mem_filter] at hk
    simp only [Bool.and_eq_true, decide_eq_true_eq] at hk
    obtain ⟨d, hd, i', hi', hki⟩ := mem_new_keys n spans cf usage requests hspans hvalid hchunk
        hsorted hin hexist hthrew hplan r hr k hk.1
    have hspan := rank_candidates_in_span n spans cf usage requests hspans hvalid hsorted hin
        hexist hthrew hplan
      d hd i' hi' k hki
    have hii : i' = i := by
      by_contra hne
      rcases Nat.lt_or_gt_of_ne hne with hlt | hgt
      · have := getD_lt_getD spans hspans i' i hlt hi
        omega
      · have := getD_lt_getD spans hspans i i' hgt hi'
        omega
    rw [hii] at hki
    unfold rank_candidates at hki
    rw [mem_candidates] at hki
    refine ⟨hki.1.1, by omega, fun p hp hkp => ?_⟩
    obtain ⟨e, he, hek⟩ := List.mem_map.1 hkp
    have := hown i hi p hp e he (by rw [hek]; exact hk.2.1) (by rw [hek]; exact hk.2.2)
    rw [hek, hki.1.2.2] at this
    rw [this.2] at hki
    exact hki.2 hkp
  · rintro ⟨h1, h2, h3⟩
    have howner : chunk_owner n (spans.getD i (0, 0)) k < n := Nat.mod_lt _ hn
    have hki : k ∈ rank_candidates n spans usage requests (chunk_owner n (spans.getD i (0, 0)) k)
        i := by
      unfold rank_candidates
      rw [mem_candidates]
      exact ⟨⟨h1, by omega, rfl⟩, h3 _ howner⟩
    obtain ⟨r, hr, hk⟩ := hret.2 ⟨_, howner, i, hi, hki⟩
    refine ⟨r, hr, ?_⟩
    rw [hflat r hr] at hk
    have hspan := rank_candidates_in_span n spans cf usage requests hspans hvalid hsorted hin
        hexist hthrew hplan
      _ howner i hi k hki
    rw [hslice r hr, List.mem_filter]
    simp only [Bool.and_eq_true, decide_eq_true_eq]
    exact ⟨hk, hspan⟩

/-! ## One span of local planning, the counts of one call and the reads past the end -/

theorem count_keys_length (n : Nat) (rank : Int) (keys : List Nat) :
    (count_keys n rank keys).length = n := by
  unfold count_keys
  have h : ∀ (init : List Nat),
      (keys.foldl
        (fun count i =>
          let p := to_which_proc n i
          if p ≠ rank then count.set p.toNat (count.getD p.toNat 0 + 1) else count)
        init).length = init.length := by
    induction keys with
    | nil => intro init; rfl
    | cons k t ih =>
      intro init
      rw [List.foldl_cons, ih]
      simp only []
      split
      · rw [List.length_set]
      · rfl
  rw [h, List.length_replicate]

/-- The sizing loop of `update_keys` stays inside `count_remove` and `count_add` exactly
on the ranks without a bad key. -/
theorem sizing_in_range_iff (n : Nat) (hn : 1 ≤ n) (rank : Int) (spans : List KeySpan)
    (add remove : List Nat) :
    sizing_in_range n (counts_at_sizing n rank spans add remove).1
        (counts_at_sizing n rank spans add remove).2 = true
      ↔ local_bad_input spans add = 0 := by
  unfold sizing_in_range counts_at_sizing
  by_cases hbad : 0 < local_bad_input spans add
  · rw [if_pos hbad]
    constructor
    · intro h
      rw [List.all_eq_true] at h
      have := h 0 (List.mem_range.2 (by omega))
      simp at this
    · intro h
      omega
  · rw [if_neg hbad]
    constructor
    · intro _
      omega
    · intro _
      rw [List.all_eq_true]
      intro p hp
      have hp2 := List.mem_range.1 hp
      simp only [count_keys_length, Bool.and_eq_true, decide_eq_true_eq]
      exact ⟨hp2, hp2⟩

/-- The end read of the counting loop for one span: it happens exactly when every entry
left has a key up to `key_span_last` and a key is being skipped or an entry is left. -/
theorem count_used_reads_end_iff (last : Nat) (l : List KeyProc) :
    ∀ (cur : Option Nat), (∀ c, cur = some c → c ≤ last) →
      (count_used_reads_end last cur l = true ↔
        (∀ e ∈ l, e.1 ≤ last) ∧ (cur.isSome = true ∨ l ≠ [])) := by
  induction l with
  | nil =>
    intro cur _
    unfold count_used_reads_end
    simp
  | cons j rest ih =>
    intro cur hcur
    unfold count_used_reads_end
    by_cases h1 : cur = some j.1
    · rw [if_pos h1, ih cur hcur]
      have hj := hcur j.1 h1
      have hsome : cur.isSome = true := by rw [h1]; rfl
      constructor
      · rintro ⟨ha, _⟩
        refine ⟨?_, Or.inl hsome⟩
        intro e he
        rcases List.mem_cons.1 he with rfl | he
        · exact hj
        · exact ha e he
      · rintro ⟨ha, _⟩
        exact ⟨fun e he => ha e (List.mem_cons_of_mem _ he), Or.inl hsome⟩
    · rw [if_neg h1]
      by_cases h2 : j.1 ≤ last
      · rw [if_pos h2, ih (some j.1) (fun c hc => by cases hc; exact h2)]
        constructor
        · rintro ⟨ha, _⟩
          refine ⟨?_, Or.inr (List.cons_ne_nil _ _)⟩
          intro e he
          rcases List.mem_cons.1 he with rfl | he
          · exact h2
          · exact ha e he
        · rintro ⟨ha, _⟩
          exact ⟨fun e he => ha e (List.mem_cons_of_mem _ he), Or.inl rfl⟩
      · rw [if_neg h2]
        constructor
        · intro h
          exact absurd h (by simp)
        · rintro ⟨ha, _⟩
          exact absurd (ha j (List.mem_cons_self _ _)) h2

/-- The end read of the counting loop over the spans, for a `key_usage` sorted by key:
it happens exactly when `key_usage` is not empty and no key is beyond the end of some
span. -/
theorem local_used_reads_end_iff (spans : List KeySpan)
    (hspans : spans.Pairwise (fun a b => a.2 ≤ b.2)) :
    ∀ (l : List KeyProc), (l.map Prod.fst).Pairwise (· ≤ ·) →
      (local_used_reads_end spans l = true ↔
        l ≠ [] ∧ ∃ s ∈ spans, ∀ e ∈ l, e.1 ≤ s.2) := by
  induction spans with
  | nil =>
    intro l _
    unfold local_used_reads_end
    simp
  | cons s rest ih =>
    intro l hs
    rw [List.pairwise_cons] at hspans
    have hcount := (count_used_eq s.2 l hs none (fun c hc => Option.noConfusion hc)).2
    have hsub : ((l.filter (fun e => decide (s.2 < e.1))).map Prod.fst).Pairwise (· ≤ ·) :=
      hs.sublist ((List.filter_sublist _).map _)
    unfold local_used_reads_end
    rw [Bool.or_eq_true, count_used_reads_end_iff s.2 l none (fun c hc => Option.noConfusion hc),
      hcount, ih hspans.2 _ hsub]
    constructor
    · rintro (⟨ha, hne⟩ | ⟨hne, s2, hs2, ha⟩)
      · refine ⟨?_, s, List.mem_cons_self _ _, ha⟩
        rcases hne with h | h
        · exact absurd h (by simp)
        · exact h
      · refine ⟨?_, s2, List.mem_cons_of_mem _ hs2, ?_⟩
        · intro hl
          rw [hl] at hne
          exact hne rfl
        · intro e he
          by_cases hle : e.1 ≤ s.2
          · exact Nat.le_trans hle (hspans.1 s2 hs2)
          · exact ha e (List.mem_filter.2 ⟨he, by simpa using hle⟩)
    · rintro ⟨hne, s2, hs2, ha⟩
      rcases List.mem_cons.1 hs2 with rfl | hs2
      · exact Or.inl ⟨ha, Or.inr hne⟩
      · by_cases hall : ∀ e ∈ l, e.1 ≤ s.2
        · exact Or.inl ⟨hall, Or.inr hne⟩
        · right
          push_neg at hall
          obtain ⟨e, he, hlt⟩ := hall
          refine ⟨?_, s2, hs2, ?_⟩
          · intro hnil
            have : e ∈ l.filter (fun e => decide (s.2 < e.1)) :=
              List.mem_filter.2 ⟨he, by simpa using hlt⟩
            rw [hnil] at this
            exact absurd this (List.not_mem_nil _)
          · intro e2 he2
            exact ha e2 (List.mem_filter.1 he2).1

theorem clean_mark_scan_neg (kp : KeyProc) (hkp : kp.2 < 0) (l : List KeyProc) :
    clean (mark_scan kp l) = clean l := by
  induction l with
  | nil => rfl
  | cons i rest ih =>
    unfold mark_scan
    by_cases h : kp = i
    · subst h
      simp only [ne_eq, not_true_eq_false, if_false]
      unfold clean
      rw [List.filter_cons_of_neg (by simp), List.filter_cons_of_neg (by simpa using hkp)]
    · simp only [ne_eq, h, not_false_eq_true, if_true]
      unfold clean
      rw [List.filter_cons, List.filter_cons]
      unfold clean at ih
      rw [ih]

/-- On a `key_usage` sorted by key, one `mark` followed by `clean` erases the first live
occurrence of the pair, whatever the rank of the pair. -/
theorem clean_mark_erase (l : List KeyProc) (kp : KeyProc)
    (hs : (l.map Prod.fst).Pairwise (· ≤ ·)) :
    clean (mark l kp) = (clean l).erase kp := by
  by_cases hkp : 0 ≤ kp.2
  · exact clean_mark l kp hkp hs
  · have hnot : kp ∉ clean l := fun hc => hkp (mem_clean.1 hc).2
    rw [List.erase_of_not_mem hnot]
    unfold mark
    simp only []
    rw [clean_append, clean_mark_scan_neg kp (by omega), ← clean_append,
      List.take_append_drop]

theorem clean_foldl_mark_diff (marks : List KeyProc) (l : List KeyProc)
    (hs : (l.map Prod.fst).Pairwise (· ≤ ·)) :
    clean (marks.foldl mark l) = (clean l).diff marks := by
  induction marks generalizing l with
  | nil => rfl
  | cons kp t ih =>
    rw [List.foldl_cons, ih (mark l kp) (by rw [map_fst_mark]; exact hs),
      clean_mark_erase l kp hs, List.diff_cons]

/-- A key of `m_key_usage` after marks was a key of it before. -/
theorem map_fst_foldl_mark (marks l : List KeyProc) :
    (marks.foldl mark l).map Prod.fst = l.map Prod.fst := by
  induction marks generalizing l with
  | nil => rfl
  | cons kp t ih => rw [List.foldl_cons, ih, map_fst_mark]

/-- The call `update_keys` keeps owner-only storage: when every key held by the rank `r`
is owned by `r` in the sense of `to_which_proc`, the same holds afterwards. -/
theorem update_keys_owner_only (n : Nat) (spans : List KeySpan) (add remove : Nat → List Nat)
    (usage : Nat → List KeyProc) (r : Nat) (hr : r < n)
    (hown : ∀ e ∈ usage r, to_which_proc n e.1 = (r : Int)) :
    ∀ e ∈ (update_keys n spans add remove usage r).m_key_usage,
      to_which_proc n e.1 = (r : Int) := by
  intro e he
  cases hthrew : (update_keys n spans add remove usage r).threw with
  | true =>
    unfold update_keys at he hthrew
    by_cases hflag : allocate_buffers n
        (fun p => decide (0 < local_bad_input spans (add p))) = true
    · simp only [hflag, if_true] at he
      exact hown e he
    · simp only [hflag] at hthrew
      exact absurd hthrew (by simp)
  | false =>
    rw [update_keys_threw_eq_false n spans add remove usage r hthrew,
      update_keys_apply_eq n r hr, mem_sort_unique, List.mem_append] at he
    rcases he with h | h
    · have hkey : e.1 ∈ ((pairs_at n remove r).foldl mark (usage r)).map Prod.fst :=
        List.mem_map_of_mem _ (mem_clean.1 h).1
      rw [map_fst_foldl_mark, List.mem_map] at hkey
      obtain ⟨e2, he2, hk⟩ := hkey
      rw [← hk]
      exact hown e2 he2
    · obtain ⟨_, _, _, _, h4⟩ := (mem_pairs_at n r hr add e).1 h
      exact h4

/-- A span that starts at the key 0, holds no key in use and is asked for no key gives
`key_global_max = 0 + 0 - 1`, the largest key. -/
theorem key_global_max_zero_span (n : Nat) (spans : List KeySpan)
    (usage : Nat → List KeyProc) (requests : Nat → List Nat)
    (hspans : spans.Pairwise (fun a b => a.2 < b.1)) (hvalid : ∀ s ∈ spans, s.1 ≤ s.2)
    (hsorted : ∀ p, p < n → ((usage p).map Prod.fst).Pairwise (· ≤ ·))
    (hin : ∀ p, p < n → ∀ e ∈ usage p, ∃ s ∈ spans, s.1 ≤ e.1 ∧ e.1 ≤ s.2)
    (i : Nat) (hi : i < spans.length) (hfirst : (spans.getD i (0, 0)).1 = 0)
    (hexisting : existing_in_span n usage (spans.getD i (0, 0)) = 0)
    (hrequested : requested_in_span n requests i = 0) :
    key_global_max spans
        (generate_new_keys_global_counts n spans usage requests).existing_global_sum
        (generate_new_keys_global_counts n spans usage requests).requests_global_sum i
      = 2 ^ 64 - 1 := by
  unfold key_global_max generate_new_keys_global_counts
  simp only []
  rw [getD_map_range _ _ _ hi, getD_map_range _ _ _ hi,
    all_reduce_used n spans usage requests hspans hvalid hsorted hin i hi,
    all_reduce_requested n spans usage requests i hi, hfirst, hexisting, hrequested]
  rfl

/-- A span that starts above the key 0, holds no key in use and is asked for no key: its
`key_global_max` is the key before the span, the loop over the chunks is not entered and
local planning finds no key in it. -/
theorem plan_span_nothing_to_find (n : Nat) (spans : List KeySpan) (cf E R req : List Nat)
    (i : Nat) (st : Planning) (hfirst : 1 ≤ (spans.getD i (0, 0)).1)
    (hvalid : (spans.getD i (0, 0)).1 + n * 4096 < 2 ^ 64) (hcf : cf.getD i 0 < n)
    (hzero : (E.getD i 0 + R.getD i 0) % 2 ^ 64 = 0) :
    ∃ res, plan_span n spans cf E R req i st = some res ∧
      res.requested_keys = st.requested_keys ∧ res.contrib_keys = st.contrib_keys ∧
      res.j = st.j := by
  have hmul : cf.getD i 0 * 4096 < n * 4096 := Nat.mul_lt_mul_of_pos_right hcf (by decide)
  have hchunks : plan_chunks
      (((spans.getD i (0, 0)).1 + (E.getD i 0 + R.getD i 0) % 2 ^ 64 + 2 ^ 64 - 1) % 2 ^ 64)
      (chunk_inc n) (2 ^ 52 + 1)
      (((spans.getD i (0, 0)).1 + cf.getD i 0 * DISTRIBUTED_INDEX_CHUNK_SIZE) % 2 ^ 64)
      (st.j, st.contrib_keys) = some (st.j, st.contrib_keys) := by
    unfold plan_chunks
    rw [if_neg]
    rw [hzero]
    have hsize : DISTRIBUTED_INDEX_CHUNK_SIZE = 4096 := rfl
    rw [hsize]
    omega
  have hspan : plan_span n spans cf E R req i st =
      some
        { j := st.j,
          new_request := st.new_request ++
            [to_long ((req.getD i 0 : Int)
              - ((st.contrib_keys.length - st.contrib_keys.length : Nat) : Int))],
          requested_keys := st.requested_keys ++
            st.contrib_keys.drop (st.contrib_keys.length
              - min (req.getD i 0) (st.contrib_keys.length - st.contrib_keys.length)),
          contrib_keys :=
            st.contrib_keys.take (st.contrib_keys.length
              - min (req.getD i 0) (st.contrib_keys.length - st.contrib_keys.length)) } := by
    unfold plan_span
    simp only []
    rw [hchunks]
    rfl
  exact ⟨_, hspan, by simp, by simp, rfl⟩

theorem plan_key_length (key_iter : Nat) (state : List KeyProc × List Nat) :
    state.2.length ≤ (plan_key key_iter state).2.length := by
  unfold plan_key
  split
  · rw [List.length_append]
    omega
  · split
    · rw [List.length_append]
      omega
    · exact Nat.le_refl _

theorem plan_key_foldl_length (keys : List Nat) :
    ∀ (state : List KeyProc × List Nat),
      state.2.length ≤
        (keys.foldl (fun state key_iter => plan_key key_iter state) state).2.length := by
  induction keys with
  | nil =>
    intro state
    exact Nat.le_refl _
  | cons k t ih =>
    intro state
    rw [List.foldl_cons]
    exact Nat.le_trans (plan_key_length k state) (ih _)

theorem plan_chunk_length (key_begin key_global_max : Nat) (state res : List KeyProc × List Nat)
    (h : plan_chunk key_begin key_global_max state = some res) :
    state.2.length ≤ res.2.length := by
  unfold plan_chunk at h
  simp only [] at h
  split at h
  · exact Option.noConfusion h
  · rw [Option.some.injEq] at h
    rw [← h]
    exact plan_key_foldl_length _ (state.1.drop (lower_bound state.1 key_begin), state.2)

/-- The loop over the chunks of local planning only appends to `contrib_keys`. -/
theorem plan_chunks_length (key_global_max chunk_inc : Nat) :
    ∀ (fuel key_begin : Nat) (state res : List KeyProc × List Nat),
      plan_chunks key_global_max chunk_inc fuel key_begin state = some res →
      state.2.length ≤ res.2.length := by
  intro fuel
  induction fuel with
  | zero =>
    intro key_begin state res h
    unfold plan_chunks at h
    exact Option.noConfusion h
  | succ fuel ih =>
    intro key_begin state res h
    unfold plan_chunks at h
    split at h
    · cases hc : plan_chunk key_begin key_global_max state with
      | none =>
        rw [hc] at h
        exact Option.noConfusion h
      | some mid =>
        rw [hc, Option.some_bind] at h
        exact Nat.le_trans (plan_chunk_length _ _ _ _ hc) (ih _ _ _ h)
    · rw [Option.some.injEq] at h
      rw [h]

/-- One span of local planning: the two key vectors together only grow, `new_request`
gets one entry, and when the vectors hold fewer than `2 ^ 63` keys, what the rank keeps and
what it still needs for the span is at most what it requested. -/
theorem plan_span_counts (n : Nat) (spans : List KeySpan) (cf E R req : List Nat) (i : Nat)
    (st res : Planning) (h : plan_span n spans cf E R req i st = some res) :
    st.requested_keys.length + st.contrib_keys.length ≤
        res.requested_keys.length + res.contrib_keys.length ∧
      res.new_request.length = st.new_request.length + 1 ∧
      (res.requested_keys.length + res.contrib_keys.length < 2 ^ 63 →
        res.requested_keys.length + still_needed res.new_request ≤
          st.requested_keys.length + still_needed st.new_request + req.getD i 0) := by
  unfold plan_span at h
  simp only [] at h
  obtain ⟨walked, hw, hres⟩ := Option.map_eq_some'.1 h
  have hlen := plan_chunks_length _ _ _ _ _ _ hw
  simp only [] at hlen
  rw [← hres]
  simp only [List.length_append, List.length_drop, List.length_take, List.length_singleton]
  refine ⟨by omega, trivial, ?_⟩
  intro hsize
  unfold still_needed
  rw [List.map_append, List.sum_append, List.map_singleton, List.sum_singleton]
  have hto : ∀ (a c : Nat), c < 2 ^ 63 →
      min a c + (max (to_long ((a : Int) - (c : Int))) 0).toNat ≤ a := by
    intro a c hc
    unfold to_long
    omega
  have := hto (req.getD i 0) (walked.2.length - st.contrib_keys.length) (by omega)
  omega

/-- The loop over the spans of local planning, in the same terms. -/
theorem plan_spans_counts (n : Nat) (spans : List KeySpan) (cf E R req : List Nat) :
    ∀ (is : List Nat) (st res : Planning),
      plan_spans n spans cf E R req is st = some res →
      st.requested_keys.length + st.contrib_keys.length ≤
          res.requested_keys.length + res.contrib_keys.length ∧
        res.new_request.length = st.new_request.length + is.length ∧
        (res.requested_keys.length + res.contrib_keys.length < 2 ^ 63 →
          res.requested_keys.length + still_needed res.new_request ≤
            st.requested_keys.length + still_needed st.new_request
              + (is.map (fun i => req.getD i 0)).sum) := by
  intro is
  induction is with
  | nil =>
    intro st res h
    unfold plan_spans at h
    rw [Option.some.injEq] at h
    rw [h]
    exact ⟨Nat.le_refl _, rfl, fun _ => by simp⟩
  | cons i rest ih =>
    intro st res h
    unfold plan_spans at h
    cases hs : plan_span n spans cf E R req i st with
    | none =>
      rw [hs] at h
      exact Option.noConfusion h
    | some mid =>
      rw [hs, Option.some_bind] at h
      obtain ⟨h1, h2, h3⟩ := plan_span_counts n spans cf E R req i st mid hs
      obtain ⟨h4, h5, h6⟩ := ih mid res h
      refine ⟨by omega, by rw [h5, h2, List.length_cons]; omega, ?_⟩
      intro hsize
      have h7 := h6 hsize
      have h8 := h3 (by omega)
      rw [List.map_cons, List.sum_cons]
      omega

theorem still_needed_eq (new_request : List Int) (m : Nat) (h : new_request.length = m) :
    still_needed new_request =
      ((List.range m).map (fun i => (max (new_request.getD i 0) 0).toNat)).sum := by
  unfold still_needed
  congr 1
  apply List.ext_getElem
  · rw [List.length_map, List.length_map, List.length_range, h]
  · intro i h1 h2
    rw [List.length_map] at h1
    rw [List.getElem_map, List.getElem_map, List.getElem_range, List.getD_eq_getElem?_getD,
      List.getElem?_eq_getElem h1]
    rfl

/-- What the local planning of a rank that holds fewer than `2 ^ 63` keys in its two key
vectors keeps and still needs is at most what the rank requested. -/
theorem planning_counts (n : Nat) (spans : List KeySpan) (cf : Nat → List Nat)
    (usage : Nat → List KeyProc) (requests : Nat → List Nat) (r : Nat)
    (hplan : rank_planning n spans cf usage requests r =
      some (plannings n spans cf usage requests r))
    (hsize : (plannings n spans cf usage requests r).requested_keys.length
      + (plannings n spans cf usage requests r).contrib_keys.length < 2 ^ 63) :
    (plannings n spans cf usage requests r).requested_keys.length
        + ((List.range spans.length).map
          (fun i =>
            (max ((plannings n spans cf usage requests r).new_request.getD i 0) 0).toNat)).sum ≤
      ((List.range spans.length).map (fun i => (requests r).getD i 0)).sum := by
  unfold rank_planning generate_new_keys_local_planning at hplan
  obtain ⟨-, h2, h3⟩ := plan_spans_counts _ _ _ _ _ _ _ _ _ hplan
  have h4 := h3 hsize
  rw [still_needed_eq _ spans.length (by rw [h2, List.length_range]; simp)] at h4
  simpa [still_needed] using h4

/-- The keys of the sorted `new_keys` of a rank: the keys that it kept and the keys that
the ranks donated to it. -/
theorem mem_new_keys_iff (n : Nat) (spans : List KeySpan) (cf : Nat → List Nat)
    (usage : Nat → List KeyProc) (requests : Nat → List Nat) (r k : Nat) :
    k ∈ new_keys n spans cf usage requests r ↔
      k ∈ (plannings n spans cf usage requests r).requested_keys ∨
        ∃ d, d < n ∧ ∃ x ∈ rank_donations n spans (plannings n spans cf usage requests) d,
          x.1 = r ∧ k ∈ x.2 := by
  unfold new_keys
  rw [List.mem_insertionSort, List.mem_append]
  apply or_congr Iff.rfl
  simp only [List.mem_flatMap, List.mem_range]
  constructor
  · rintro ⟨d, hd, x, hx, hk⟩
    by_cases hxr : x.1 = r
    · rw [if_pos hxr] at hk
      exact ⟨d, hd, x, hx, hxr, hk⟩
    · rw [if_neg hxr] at hk
      exact absurd hk (List.not_mem_nil _)
  · rintro ⟨d, hd, x, hx, hxr, hk⟩
    exact ⟨d, hd, x, hx, by rw [if_pos hxr]; exact hk⟩

/-- The entries that a rank appends: the kept keys with the rank itself and the donated
keys with their receivers. -/
theorem mem_appended_entries (n : Nat) (spans : List KeySpan) (planning : Nat → Planning)
    (d k : Nat) (q : Int) :
    ((k, q) : KeyProc) ∈ appended_entries n spans planning d ↔
      (q = (d : Int) ∧ k ∈ (planning d).requested_keys) ∨
        ∃ x ∈ rank_donations n spans planning d, q = (x.1 : Int) ∧ k ∈ x.2 := by
  unfold appended_entries
  rw [List.mem_append, List.mem_map, List.mem_flatMap]
  constructor
  · rintro (⟨key, hkey, heq⟩ | ⟨x, hx, hmem⟩)
    · rw [Prod.mk.injEq] at heq
      exact Or.inl ⟨heq.2.symm, by rw [← heq.1]; exact hkey⟩
    · obtain ⟨key, hkey, heq⟩ := List.mem_map.1 hmem
      rw [Prod.mk.injEq] at heq
      exact Or.inr ⟨x, hx, heq.2.symm, by rw [← heq.1]; exact hkey⟩
  · rintro (⟨hq, hk⟩ | ⟨x, hx, hq, hk⟩)
    · exact Or.inl ⟨k, hk, by rw [hq]⟩
    · exact Or.inr ⟨x, hx, List.mem_map.2 ⟨k, hk, by rw [hq]⟩⟩

theorem chunk_owner_lt (n : Nat) (hn : 1 ≤ n) (span : KeySpan) (k : Nat) :
    chunk_owner n span k < n := by
  unfold chunk_owner
  exact Nat.mod_lt _ (by omega)

/-- One span of local planning for a walked key range that does not wrap around: the keys
that the walk appends to `requested_keys` and `contrib_keys` are the candidates of the
rank. -/
theorem plan_span_found (n p : Nat) (hp : p < n) (spans : List KeySpan)
    (cf E R req : List Nat) (i : Nat) (st res : Planning)
    (hs : (st.j.map Prod.fst).Pairwise (· ≤ ·))
    (hmax : key_global_max spans E R i + (n + 1) * 4096 < 2 ^ 64) (hranks : n < 2 ^ 19)
    (hfirst : (spans.getD i (0, 0)).1 ≤ key_global_max spans E R i + 1)
    (hcf : cf.getD i 0 < n ∧
      (((spans.getD i (0, 0)).1 >>> DISTRIBUTED_INDEX_CHUNK_BITS) + cf.getD i 0) % n = p)
    (hres : plan_span n spans cf E R req i st = some res) (k : Nat) :
    (k ∈ res.requested_keys.drop st.requested_keys.length ∨
        k ∈ res.contrib_keys.drop st.contrib_keys.length) ↔
      k ∈ candidates n (spans.getD i (0, 0)) (key_global_max spans E R i) st.j p := by
  obtain ⟨B2, -, -, heq⟩ := plan_span_eq n p hp spans cf E R req st.j hs i st res 0
    (key_global_max spans E R i)
    (List.filter_eq_self.2 (fun e _ => by simp)).symm rfl hmax hranks hfirst (Nat.zero_le _) hcf
    hres
  rw [heq]
  simp only [List.drop_left]
  rw [Or.comm, ← List.mem_append, List.take_append_drop]

/-- Local planning inside one call, on a consistent index whose arithmetic does not wrap
around: when the global counts do not throw and local planning ends, the keys that the
rank `p` finds in the span `i` are, in increasing order, the keys from the first key of the span up to
`key_global_max` of the chunks of the rank that the rank does not hold; with `c` their
number, `requested_keys` is made of the last `min requests[i] c` of them, span after span,
`contrib_keys` of the first `c - min requests[i] c`, and `new_request[i]` is the `long`
value of `requests[i] - c`, which is the difference itself for a request below `2 ^ 63`. -/
theorem rank_planning_keeps_last (n : Nat) (spans : List KeySpan) (cf : Nat → List Nat)
    (usage : Nat → List KeyProc) (requests : Nat → List Nat)
    (hspans : spans.Pairwise (fun a b => a.2 < b.1))
    (hvalid : ∀ s ∈ spans, s.1 ≤ s.2 ∧ s.2 + (n + 1) * 4096 < 2 ^ 64 ∧ n < 2 ^ 19)
    (hcap : ∀ s ∈ spans, span_capacity s < 2 ^ 61)
    (hchunk : ∀ p, p < n → chunk_first n (p : Int) spans = some (cf p))
    (hsorted : ∀ p, p < n → ((usage p).map Prod.fst).Pairwise (· ≤ ·))
    (hin : ∀ p, p < n → ∀ e ∈ usage p, ∃ s ∈ spans, s.1 ≤ e.1 ∧ e.1 ≤ s.2)
    (hexist : ∀ s ∈ spans, existing_in_span n usage s ≤ span_capacity s)
    (hthrew : (generate_new_keys_global_counts n spans usage requests).threw = false)
    (hplan : ∀ p, p < n → rank_planning n spans cf usage requests p =
      some (plannings n spans cf usage requests p))
    (p : Nat) (hp : p < n) :
    (plannings n spans cf usage requests p).requested_keys =
        (List.range spans.length).flatMap (fun i =>
          (rank_candidates n spans usage requests p i).drop
            ((rank_candidates n spans usage requests p i).length
              - min ((requests p).getD i 0) (rank_candidates n spans usage requests p i).length)) ∧
      (plannings n spans cf usage requests p).contrib_keys =
        (List.range spans.length).flatMap (fun i =>
          (rank_candidates n spans usage requests p i).take
            ((rank_candidates n spans usage requests p i).length
              - min ((requests p).getD i 0) (rank_candidates n spans usage requests p i).length)) ∧
      ∀ i, i < spans.length →
        (rank_candidates n spans usage requests p i).Pairwise (· < ·) ∧
        (∀ k, k ∈ rank_candidates n spans usage requests p i ↔
          ((spans.getD i (0, 0)).1 ≤ k ∧ k ≤ key_global_max spans
        (generate_new_keys_global_counts n spans usage requests).existing_global_sum
        (generate_new_keys_global_counts n spans usage requests).requests_global_sum i ∧
            chunk_owner n (spans.getD i (0, 0)) k = p) ∧ k ∉ (usage p).map Prod.fst) ∧
        (plannings n spans cf usage requests p).new_request.getD i 0 =
          to_long (((requests p).getD i 0 : Int)
            - ((rank_candidates n spans usage requests p i).length : Int)) ∧
        ((requests p).getD i 0 < 2 ^ 63 →
          (plannings n spans cf usage requests p).new_request.getD i 0 =
            ((requests p).getD i 0 : Int)
              - ((rank_candidates n spans usage requests p i).length : Int)) := by
  have hP := rank_planning_eq n spans cf usage requests hspans hvalid hsorted hin hexist hthrew
    p hp (hchunk p hp) _ (hplan p hp)
  refine ⟨hP.2.1, hP.2.2, ?_⟩
  intro i hi
  have hnr : (plannings n spans cf usage requests p).new_request.getD i 0 =
      to_long (((requests p).getD i 0 : Int)
        - ((rank_candidates n spans usage requests p i).length : Int)) := by
    rw [hP.1, getD_map_range_int _ _ _ hi]
  refine ⟨candidates_pairwise _ _ _ _ _, fun k => mem_candidates _ _ _ _ _ _, hnr, ?_⟩
  intro hsmall
  rw [hnr]
  have hmax := key_global_max_le n spans cf usage requests hspans hvalid hsorted hin hexist
    hthrew p _ (hplan p hp) i hi
  have hlen : (rank_candidates n spans usage requests p i).length ≤
      key_global_max spans
        (generate_new_keys_global_counts n spans usage requests).existing_global_sum
        (generate_new_keys_global_counts n spans usage requests).requests_global_sum i + 1
        - (spans.getD i (0, 0)).1 :=
    length_candidates_le _ _ _ _ _
  have hc := hcap _ (getD_mem spans i hi)
  unfold span_capacity at hc
  apply to_long_eq
  · omega
  · omega

/-- The keys found inside one call, on a consistent index whose arithmetic does not wrap
around: when the global counts do not throw and local planning ends on every rank, no key is found (kept or left in
`contrib_keys`) by two distinct ranks, and every key `k` from the first key of a span `i` up
to its `key_global_max` is examined by the rank `chunk_owner` of its chunk and by no other
rank: that rank finds `k` or holds it in its `m_key_usage`, and every rank that finds `k`
is that rank. -/
theorem found_keys_partition (n : Nat) (spans : List KeySpan) (cf : Nat → List Nat)
    (usage : Nat → List KeyProc) (requests : Nat → List Nat) (hn : 1 ≤ n)
    (hspans : spans.Pairwise (fun a b => a.2 < b.1))
    (hvalid : ∀ s ∈ spans, s.1 ≤ s.2 ∧ s.2 + (n + 1) * 4096 < 2 ^ 64 ∧ n < 2 ^ 19)
    (hchunk : ∀ p, p < n → chunk_first n (p : Int) spans = some (cf p))
    (hsorted : ∀ p, p < n → ((usage p).map Prod.fst).Pairwise (· ≤ ·))
    (hin : ∀ p, p < n → ∀ e ∈ usage p, ∃ s ∈ spans, s.1 ≤ e.1 ∧ e.1 ≤ s.2)
    (hexist : ∀ s ∈ spans, existing_in_span n usage s ≤ span_capacity s)
    (hthrew : (generate_new_keys_global_counts n spans usage requests).threw = false)
    (hplan : ∀ p, p < n → rank_planning n spans cf usage requests p =
      some (plannings n spans cf usage requests p)) :
    (∀ p q, p < n → q < n → p ≠ q → ∀ k,
        (k ∈ (plannings n spans cf usage requests p).requested_keys ∨
          k ∈ (plannings n spans cf usage requests p).contrib_keys) →
        ¬ (k ∈ (plannings n spans cf usage requests q).requested_keys ∨
          k ∈ (plannings n spans cf usage requests q).contrib_keys)) ∧
      ∀ i, i < spans.length → ∀ k, (spans.getD i (0, 0)).1 ≤ k →
        k ≤ key_global_max spans
        (generate_new_keys_global_counts n spans usage requests).existing_global_sum
        (generate_new_keys_global_counts n spans usage requests).requests_global_sum i →
        chunk_owner n (spans.getD i (0, 0)) k < n ∧
          ((k ∈ (plannings n spans cf usage requests
                (chunk_owner n (spans.getD i (0, 0)) k)).requested_keys ∨
              k ∈ (plannings n spans cf usage requests
                (chunk_owner n (spans.getD i (0, 0)) k)).contrib_keys) ∨
            k ∈ (usage (chunk_owner n (spans.getD i (0, 0)) k)).map Prod.fst) ∧
          ∀ q, q < n →
            (k ∈ (plannings n spans cf usage requests q).requested_keys ∨
              k ∈ (plannings n spans cf usage requests q).contrib_keys) →
            q = chunk_owner n (spans.getD i (0, 0)) k := by
  have hmax : ∀ i, i < spans.length →
      key_global_max spans
        (generate_new_keys_global_counts n spans usage requests).existing_global_sum
        (generate_new_keys_global_counts n spans usage requests).requests_global_sum i
        ≤ (spans.getD i (0, 0)).2 := fun i hi =>
    key_global_max_le n spans cf usage requests hspans hvalid hsorted hin hexist hthrew 0 _
      (hplan 0 (by omega)) i hi
  have hfound := mem_kept_or_contrib n spans cf usage requests
    hspans hvalid hchunk hsorted hin hexist hthrew hplan
  refine ⟨?_, ?_⟩
  · intro p q hp hq hpq k hk hk2
    obtain ⟨i, hi, hki⟩ := (hfound p hp k).1 hk
    obtain ⟨j, hj, hkj⟩ := (hfound q hq k).1 hk2
    exact hpq (rank_candidates_unique n spans usage requests hspans hmax p q i j k hi hj hki
      hkj).1
  · intro i hi k h1 h2
    have hlt := chunk_owner_lt n hn (spans.getD i (0, 0)) k
    refine ⟨hlt, ?_, ?_⟩
    · by_cases hused : k ∈ (usage (chunk_owner n (spans.getD i (0, 0)) k)).map Prod.fst
      · exact Or.inr hused
      · left
        refine (hfound _ hlt k).2 ⟨i, hi, ?_⟩
        unfold rank_candidates
        rw [mem_candidates]
        exact ⟨⟨h1, h2, rfl⟩, hused⟩
    · intro q hq hk
      obtain ⟨j, hj, hkj⟩ := (hfound q hq k).1 hk
      unfold rank_candidates at hkj
      rw [mem_candidates] at hkj
      obtain ⟨⟨h4, h5, h6⟩, -⟩ := hkj
      have hij : i = j := by
        rcases Nat.lt_trichotomy i j with hlt2 | heq | hgt
        · have h7 := getD_lt_getD spans hspans i j hlt2 hj
          have h8 := hmax i hi
          omega
        · exact heq
        · have h7 := getD_lt_getD spans hspans j i hgt hi
          have h8 := hmax j hj
          omega
      subst hij
      exact h6.symm

/-- What the counting loop leaves of `key_usage` is an end piece of it. -/
theorem count_used_suffix (last : Nat) (l : List KeyProc) :
    ∀ (cur : Option Nat), (count_used last cur l).2 <:+ l := by
  induction l with
  | nil =>
    intro cur
    unfold count_used
    exact List.suffix_refl _
  | cons j rest ih =>
    intro cur
    unfold count_used
    by_cases h1 : cur = some j.1
    · rw [if_pos h1]
      exact (ih cur).trans (List.suffix_cons j rest)
    · rw [if_neg h1]
      by_cases h2 : j.1 ≤ last
      · rw [if_pos h2]
        exact (ih (some j.1)).trans (List.suffix_cons j rest)
      · rw [if_neg h2]

/-- When the counting loop with the explicit end read stays inside the vector, it counts
what `count_used` counts. -/
theorem count_used_stored_some (last behind : Nat) (l : List KeyProc) :
    ∀ (cur : Option Nat) (counted : Nat × List KeyProc),
      count_used_stored last behind cur l = some counted → counted = count_used last cur l := by
  induction l with
  | nil =>
    intro cur counted h
    unfold count_used_stored at h
    unfold count_used
    split at h
    · exact Option.noConfusion h
    · exact (Option.some.inj h).symm
  | cons j rest ih =>
    intro cur counted h
    unfold count_used_stored at h
    unfold count_used
    by_cases h1 : cur = some j.1
    · rw [if_pos h1] at h
      rw [if_pos h1]
      exact ih cur counted h
    · rw [if_neg h1] at h
      rw [if_neg h1]
      by_cases h2 : j.1 ≤ last
      · rw [if_pos h2] at h
        rw [if_pos h2]
        rw [Option.map_eq_some'] at h
        obtain ⟨c, hc, hcounted⟩ := h
        rw [← hcounted, ih (some j.1) c hc]
      · rw [if_neg h2] at h
        rw [if_neg h2]
        exact (Option.some.inj h).symm

/-- The counting loop with the explicit end read is `count_used` when the key read at the
end position is no key of the vector and not the key being skipped. -/
theorem count_used_stored_of_ne (last behind : Nat) (l : List KeyProc) :
    ∀ (cur : Option Nat), cur ≠ some behind → (∀ e ∈ l, e.1 ≠ behind) →
      count_used_stored last behind cur l = some (count_used last cur l) := by
  induction l with
  | nil =>
    intro cur hcur _
    unfold count_used_stored count_used
    rw [if_neg hcur]
  | cons j rest ih =>
    intro cur hcur hl
    have hj : (some j.1 : Option Nat) ≠ some behind := fun h =>
      hl j (List.mem_cons_self _ _) (Option.some.inj h)
    have hrest : ∀ e ∈ rest, e.1 ≠ behind := fun e he => hl e (List.mem_cons_of_mem _ he)
    unfold count_used_stored count_used
    by_cases h1 : cur = some j.1
    · rw [if_pos h1, if_pos h1]
      exact ih cur hcur hrest
    · rw [if_neg h1, if_neg h1]
      by_cases h2 : j.1 ≤ last
      · rw [if_pos h2, if_pos h2, ih (some j.1) hj hrest]
        rfl
      · rw [if_neg h2, if_neg h2]

/-- The counting loop with the explicit end read is `count_used` when the loop does not
read the end position. -/
theorem count_used_stored_of_no_read (last behind : Nat) (l : List KeyProc) :
    ∀ (cur : Option Nat), count_used_reads_end last cur l = false →
      count_used_stored last behind cur l = some (count_used last cur l) := by
  induction l with
  | nil =>
    intro cur h
    unfold count_used_reads_end at h
    unfold count_used_stored count_used
    rw [if_neg (fun hc => by rw [hc] at h; exact Bool.noConfusion h)]
  | cons j rest ih =>
    intro cur h
    unfold count_used_reads_end at h
    unfold count_used_stored count_used
    by_cases h1 : cur = some j.1
    · rw [if_pos h1] at h
      rw [if_pos h1, if_pos h1]
      exact ih cur h
    · rw [if_neg h1] at h
      rw [if_neg h1, if_neg h1]
      by_cases h2 : j.1 ≤ last
      · rw [if_pos h2] at h
        rw [if_pos h2, if_pos h2, ih (some j.1) h]
        rfl
      · rw [if_neg h2, if_neg h2]

/-- The counting loop leaves the vector when it reads the end position and finds there the
key of the last entry. -/
theorem count_used_stored_none (last behind : Nat) (l : List KeyProc) :
    ∀ (cur : Option Nat), l ≠ [] → (l.getLast?.map Prod.fst = some behind) →
      count_used_reads_end last cur l = true →
      count_used_stored last behind cur l = none := by
  induction l with
  | nil =>
    intro cur h
    exact absurd rfl h
  | cons j rest ih =>
    intro cur _ hlast hread
    unfold count_used_reads_end at hread
    unfold count_used_stored
    cases rest with
    | nil =>
      have hj : j.1 = behind := by
        simpa using hlast
      by_cases h1 : cur = some j.1
      · rw [if_pos h1, h1]
        unfold count_used_stored
        rw [if_pos (by rw [hj])]
      · rw [if_neg h1]
        rw [if_neg h1] at hread
        by_cases h2 : j.1 ≤ last
        · rw [if_pos h2]
          unfold count_used_stored
          rw [if_pos (by rw [hj])]
          rfl
        · rw [if_neg h2] at hread
          exact Bool.noConfusion hread
    | cons a t =>
      rw [List.getLast?_cons_cons] at hlast
      by_cases h1 : cur = some j.1
      · rw [if_pos h1]
        rw [if_pos h1] at hread
        exact ih cur (List.cons_ne_nil _ _) hlast hread
      · rw [if_neg h1]
        rw [if_neg h1] at hread
        by_cases h2 : j.1 ≤ last
        · rw [if_pos h2]
          rw [if_pos h2] at hread
          rw [ih (some j.1) (List.cons_ne_nil _ _) hlast hread]
          rfl
        · rw [if_neg h2] at hread
          exact Bool.noConfusion hread

theorem local_used_reads_end_nil (spans : List KeySpan) :
    local_used_reads_end spans [] = false := by
  induction spans with
  | nil => rfl
  | cons s rest ih =>
    unfold local_used_reads_end
    rw [show count_used s.2 none [] = (0, []) from rfl, ih]
    rfl

/-- When the loop over the spans with the explicit end read stays inside the vector, its
counts are those of `local_used`. -/
theorem local_used_stored_some (behind : Nat) (spans : List KeySpan) :
    ∀ (l : List KeyProc) (counts : List Nat),
      local_used_stored behind spans l = some counts → counts = local_used spans l := by
  induction spans with
  | nil =>
    intro l counts h
    unfold local_used_stored at h
    unfold local_used
    exact (Option.some.inj h).symm
  | cons s rest ih =>
    intro l counts h
    unfold local_used_stored at h
    unfold local_used
    rw [Option.bind_eq_some] at h
    obtain ⟨c, hc, h2⟩ := h
    rw [Option.map_eq_some'] at h2
    obtain ⟨cs, hcs, hcounts⟩ := h2
    have h3 := count_used_stored_some s.2 behind l none c hc
    rw [← hcounts, ih c.2 cs hcs, h3]

/-- The loop over the spans with the explicit end read is `local_used` when the key read at
the end position is no key of the vector. -/
theorem local_used_stored_of_ne (behind : Nat) (spans : List KeySpan) :
    ∀ (l : List KeyProc), (∀ e ∈ l, e.1 ≠ behind) →
      local_used_stored behind spans l = some (local_used spans l) := by
  induction spans with
  | nil =>
    intro l _
    rfl
  | cons s rest ih =>
    intro l hl
    unfold local_used_stored local_used
    rw [count_used_stored_of_ne s.2 behind l none (fun h => Option.noConfusion h) hl,
      Option.some_bind, ih _ (fun e he => hl e ((count_used_suffix s.2 l none).subset he))]
    rfl

/-- The loop over the spans leaves the vector when it reads the end position and finds
there the key of the last entry. -/
theorem local_used_stored_none (behind : Nat) (spans : List KeySpan) :
    ∀ (l : List KeyProc), (l.getLast?.map Prod.fst = some behind) →
      local_used_reads_end spans l = true → local_used_stored behind spans l = none := by
  induction spans with
  | nil =>
    intro l _ h
    unfold local_used_reads_end at h
    exact Bool.noConfusion h
  | cons s rest ih =>
    intro l hlast hread
    have hne : l ≠ [] := by
      intro h
      rw [h] at hlast
      exact Option.noConfusion hlast
    unfold local_used_reads_end at hread
    unfold local_used_stored
    by_cases h1 : count_used_reads_end s.2 none l = true
    · rw [count_used_stored_none s.2 behind l none hne hlast h1]
      rfl
    · have h2 : count_used_reads_end s.2 none l = false := by
        simpa using h1
      rw [h2, Bool.false_or] at hread
      rw [count_used_stored_of_no_read s.2 behind l none h2, Option.some_bind]
      have hsuf := count_used_suffix s.2 l none
      have hne2 : (count_used s.2 none l).2 ≠ [] := by
        intro h
        rw [h, local_used_reads_end_nil] at hread
        exact Bool.noConfusion hread
      have hlast2 : (count_used s.2 none l).2.getLast?.map Prod.fst = some behind := by
        obtain ⟨t, ht⟩ := hsuf
        have h3 := List.getLast?_append_of_ne_nil t hne2
        rw [ht] at h3
        rw [← h3, hlast]
      rw [ih _ hlast2 hread]
      rfl

/-- A call that returns with the end read made explicit is the call of
`generate_new_keys`, and the counting loop of every rank has stayed inside its vector. -/
theorem generate_new_keys_stored_some (n : Nat) (spans : List KeySpan) (cf : Nat → List Nat)
    (usage : Nat → List KeyProc) (behind : Nat → Nat) (requests : Nat → List Nat) (r : Nat)
    (res : GenerateResult)
    (h : generate_new_keys_stored n spans cf usage behind requests r = some res) :
    generate_new_keys n spans cf usage requests r = some res ∧
      ∀ p, p < n → local_used_stored (behind p) spans (usage p) =
        some (local_used spans (usage p)) := by
  unfold generate_new_keys_stored at h
  split at h
  · rename_i hall
    refine ⟨h, fun p hp => ?_⟩
    have hsome := List.all_eq_true.1 hall p (List.mem_range.2 hp)
    obtain ⟨c, hc⟩ := Option.isSome_iff_exists.1 hsome
    rw [hc, local_used_stored_some (behind p) spans (usage p) c hc]
  · exact Option.noConfusion h

/-- When the counting loop of every rank stays inside its vector, the call with the end
read made explicit is the call of `generate_new_keys`. -/
theorem generate_new_keys_stored_eq (n : Nat) (spans : List KeySpan) (cf : Nat → List Nat)
    (usage : Nat → List KeyProc) (behind : Nat → Nat) (requests : Nat → List Nat) (r : Nat)
    (hstored : ∀ p, p < n → (local_used_stored (behind p) spans (usage p)).isSome = true) :
    generate_new_keys_stored n spans cf usage behind requests r =
      generate_new_keys n spans cf usage requests r := by
  unfold generate_new_keys_stored
  rw [if_pos (List.all_eq_true.2 (fun p hp => hstored p (List.mem_range.1 hp)))]

/-- One span `i` of the local planning of all the ranks, for fewer than `2 ^ 19` ranks and a
walked key range that does not wrap around: with `m_key_usage` of every rank sorted by
key from its iterator `j` on and `m_chunk_first[i]` of every rank its first chunk, the walk
ends on every rank, no
key is found (appended to `requested_keys` or `contrib_keys`) by two distinct ranks, every
key found lies between the first key of the span and `key_global_max`, and every key `k` of
that range is examined by the rank `chunk_owner` of its chunk and by no other rank: that
rank finds `k` or has it in `m_key_usage`, and every rank that finds `k` is that rank. -/
theorem plan_span_partition (n : Nat) (hn : 1 ≤ n) (spans : List KeySpan)
    (cf : Nat → List Nat) (E R : List Nat) (req : Nat → List Nat) (i : Nat)
    (st : Nat → Planning)
    (hs : ∀ p, p < n → ((st p).j.map Prod.fst).Pairwise (· ≤ ·))
    (hmax : key_global_max spans E R i + (n + 1) * 4096 < 2 ^ 64) (hranks : n < 2 ^ 19)
    (hfirst : (spans.getD i (0, 0)).1 ≤ key_global_max spans E R i + 1)
    (hcf : ∀ p, p < n → (cf p).getD i 0 < n ∧
      (((spans.getD i (0, 0)).1 >>> DISTRIBUTED_INDEX_CHUNK_BITS) + (cf p).getD i 0) % n = p) :
    ∃ res : Nat → Planning,
      (∀ p, p < n → plan_span n spans (cf p) E R (req p) i (st p) = some (res p)) ∧
      (∀ p q, p < n → q < n → p ≠ q → ∀ k,
        (k ∈ (res p).requested_keys.drop (st p).requested_keys.length ∨
          k ∈ (res p).contrib_keys.drop (st p).contrib_keys.length) →
        ¬ (k ∈ (res q).requested_keys.drop (st q).requested_keys.length ∨
          k ∈ (res q).contrib_keys.drop (st q).contrib_keys.length)) ∧
      (∀ p, p < n → ∀ k,
        (k ∈ (res p).requested_keys.drop (st p).requested_keys.length ∨
          k ∈ (res p).contrib_keys.drop (st p).contrib_keys.length) →
        (spans.getD i (0, 0)).1 ≤ k ∧ k ≤ key_global_max spans E R i ∧
          k ∉ (st p).j.map Prod.fst) ∧
      ∀ k, (spans.getD i (0, 0)).1 ≤ k → k ≤ key_global_max spans E R i →
        chunk_owner n (spans.getD i (0, 0)) k < n ∧
          ((k ∈ (res (chunk_owner n (spans.getD i (0, 0)) k)).requested_keys.drop
                (st (chunk_owner n (spans.getD i (0, 0)) k)).requested_keys.length ∨
              k ∈ (res (chunk_owner n (spans.getD i (0, 0)) k)).contrib_keys.drop
                (st (chunk_owner n (spans.getD i (0, 0)) k)).contrib_keys.length) ∨
            k ∈ (st (chunk_owner n (spans.getD i (0, 0)) k)).j.map Prod.fst) ∧
          ∀ q, q < n →
            (k ∈ (res q).requested_keys.drop (st q).requested_keys.length ∨
              k ∈ (res q).contrib_keys.drop (st q).contrib_keys.length) →
            q = chunk_owner n (spans.getD i (0, 0)) k := by
  have hsome : ∀ p, p < n →
      plan_span n spans (cf p) E R (req p) i (st p) =
        some ((plan_span n spans (cf p) E R (req p) i (st p)).getD (st p)) := by
    intro p _
    obtain ⟨res, hres⟩ := plan_span_some n hn spans (cf p) E R (req p) i (st p) hmax hranks
    rw [hres]
    rfl
  have hfound := fun p hp k =>
    plan_span_found n p hp spans (cf p) E R (req p) i (st p) _ (hs p hp) hmax hranks hfirst
      (hcf p hp) (hsome p hp) k
  refine ⟨fun p => (plan_span n spans (cf p) E R (req p) i (st p)).getD (st p), hsome,
    ?_, ?_, ?_⟩
  · intro p q hp hq hpq k hk hk2
    have h1 := (mem_candidates _ _ _ _ _ _).1 ((hfound p hp k).1 hk)
    have h2 := (mem_candidates _ _ _ _ _ _).1 ((hfound q hq k).1 hk2)
    exact hpq (h1.1.2.2.symm.trans h2.1.2.2)
  · intro p hp k hk
    have h1 := (mem_candidates _ _ _ _ _ _).1 ((hfound p hp k).1 hk)
    exact ⟨h1.1.1, h1.1.2.1, h1.2⟩
  · intro k h1 h2
    have hlt := chunk_owner_lt n hn (spans.getD i (0, 0)) k
    refine ⟨hlt, ?_, ?_⟩
    · by_cases hused : k ∈ (st (chunk_owner n (spans.getD i (0, 0)) k)).j.map Prod.fst
      · exact Or.inr hused
      · exact Or.inl ((hfound _ hlt k).2 ((mem_candidates _ _ _ _ _ _).2
          ⟨⟨h1, h2, rfl⟩, hused⟩))
    · intro q hq hk
      exact ((mem_candidates _ _ _ _ _ _).1 ((hfound q hq k).1 hk)).1.2.2.symm

/-- The counts of `local_counts`, which takes the read at the end of `key_usage` to yield
another key: for increasing spans and a `key_usage` sorted by key with every key inside a
span, the entry of `local_counts` for the span `i` is the number of distinct keys of
`key_usage` inside the span; it is at most the number of entries inside the span and
smaller when a key has several entries. -/
theorem local_counts_distinct_keys (spans : List KeySpan) (key_usage : List KeyProc)
    (requests : List Nat)
    (hspans : spans.Pairwise (fun a b => a.2 < b.1)) (hvalid : ∀ s ∈ spans, s.1 ≤ s.2)
    (hsorted : (key_usage.map Prod.fst).Pairwise (· ≤ ·))
    (hin : ∀ e ∈ key_usage, ∃ s ∈ spans, s.1 ≤ e.1 ∧ e.1 ≤ s.2)
    (i : Nat) (hi : i < spans.length) :
    (local_counts spans key_usage requests).getD i 0 =
        ((key_usage.map Prod.fst).toFinset.filter
          (fun k => (spans.getD i (0, 0)).1 ≤ k ∧ k ≤ (spans.getD i (0, 0)).2)).card ∧
      (local_counts spans key_usage requests).getD i 0 ≤
        (key_usage.filter (fun e => decide ((spans.getD i (0, 0)).1 ≤ e.1)
          && decide (e.1 ≤ (spans.getD i (0, 0)).2))).length := by
  have hcount : (local_counts spans key_usage requests).getD i 0 =
      keys_in_span (spans.getD i (0, 0)) key_usage := by
    rw [local_counts_used _ _ _ _ hi, local_used_eq spans key_usage hspans hvalid hsorted hin,
      List.getD_eq_getElem?_getD, List.getD_eq_getElem?_getD, List.getElem?_map,
      List.getElem?_eq_getElem hi]
    rfl
  refine ⟨hcount, ?_⟩
  rw [hcount]
  unfold keys_in_span
  have hset : (key_usage.map Prod.fst).toFinset.filter
      (fun k => (spans.getD i (0, 0)).1 ≤ k ∧ k ≤ (spans.getD i (0, 0)).2) =
      ((key_usage.filter (fun e => decide ((spans.getD i (0, 0)).1 ≤ e.1)
        && decide (e.1 ≤ (spans.getD i (0, 0)).2))).map Prod.fst).toFinset := by
    ext k
    simp only [Finset.mem_filter, List.mem_toFinset, List.mem_map, List.mem_filter,
      Bool.and_eq_true, decide_eq_true_eq]
    constructor
    · rintro ⟨⟨e, he, rfl⟩, h1, h2⟩
      exact ⟨e, ⟨he, h1, h2⟩, rfl⟩
    · rintro ⟨e, ⟨he, h1, h2⟩, rfl⟩
      exact ⟨⟨e, he, rfl⟩, h1, h2⟩
  rw [hset]
  refine Nat.le_trans (List.toFinset_card_le _) ?_
  rw [List.length_map]

/-- A call with the end read made explicit that returns without a throw on every rank is
such a call of `generate_new_keys`. -/
theorem returned_of_stored (n : Nat) (spans : List KeySpan) (cf : Nat → List Nat)
    (usage : Nat → List KeyProc) (behind : Nat → Nat) (requests : Nat → List Nat)
    (res : Nat → GenerateResult)
    (hres : ∀ p, p < n →
      generate_new_keys_stored n spans cf usage behind requests p = some (res p) ∧
        (res p).threw = false) :
    ∀ p, p < n → generate_new_keys n spans cf usage requests p = some (res p) ∧
      (res p).threw = false :=
  fun p hp => ⟨(generate_new_keys_stored_some n spans cf usage behind requests p (res p)
    (hres p hp).1).1, (hres p hp).2⟩

/-- On a consistent index of fewer than `2 ^ 19` ranks whose spans end `m_comm_size + 1`
chunks below `2 ^ 64`, when `generate_new_keys` returns without a throw on every rank, the
counting loops having stayed inside the vectors, the keys returned across all the ranks
and all the spans are pairwise distinct. -/
theorem returned_keys_distinct (n : Nat) (spans : List KeySpan) (cf : Nat → List Nat)
    (usage : Nat → List KeyProc) (behind : Nat → Nat) (requests : Nat → List Nat)
    (res : Nat → GenerateResult)
    (hspans : spans.Pairwise (fun a b => a.2 < b.1))
    (hvalid : ∀ s ∈ spans, s.1 ≤ s.2 ∧ s.2 + (n + 1) * 4096 < 2 ^ 64 ∧ n < 2 ^ 19)
    (hchunk : ∀ p, p < n → chunk_first n (p : Int) spans = some (cf p))
    (hsorted : ∀ p, p < n → ((usage p).map Prod.fst).Pairwise (· ≤ ·))
    (hin : ∀ p, p < n → ∀ e ∈ usage p, ∃ s ∈ spans, s.1 ≤ e.1 ∧ e.1 ≤ s.2)
    (hexist : ∀ s ∈ spans, existing_in_span n usage s ≤ span_capacity s)
    (hres : ∀ p, p < n →
      generate_new_keys_stored n spans cf usage behind requests p = some (res p) ∧
        (res p).threw = false) :
    ((List.range n).flatMap (fun p => (res p).requested_keys.flatten)).Nodup := by
  have hres2 := returned_of_stored n spans cf usage behind requests res hres
  by_cases hn : n = 0
  · subst hn
    exact List.nodup_nil
  have h0 := generate_new_keys_returned n spans cf usage requests
    0 (res 0) (hres2 0 (by omega)).1 (hres2 0 (by omega)).2
  rw [List.nodup_iff_count_le_one]
  intro k
  rw [count_flatMap_sum]
  refine le_trans (sum_map_le_sum _ _
    (fun r => (new_keys n spans cf usage requests r).count k)
    ?_) (count_new_keys_le n spans cf usage requests hspans
      hvalid hchunk hsorted hin hexist h0.1 h0.2.1 k)
  intro r hr
  have hr2 := List.mem_range.1 hr
  have h1 := generate_new_keys_returned n spans cf usage requests
    r (res r) (hres2 r hr2).1 (hres2 r hr2).2
  rw [h1.2.2.2.2, requested_slices_flatten]
  exact (List.take_sublist _ _).count_le k

/-- C23 fails as stated: four ranks, spans `[(0, 10000)]`, empty index, every rank requests
`[3]`.  Rank 0 finds the twelve keys `0 .. 11`, keeps the last three of them and is
returned `[9, 10, 11]`, not `[0, 1, 2]`. -/
theorem generate_new_keys_rank_zero_counterexample :
    generate_new_keys 4 [(0, 10000)]
        (fun p => (chunk_first 4 (p : Int) [(0, 10000)]).getD []) (fun _ => [])
        (fun _ => [3]) 0 =
        some { threw := false,
               m_key_usage := [(0, 1), (1, 1), (2, 1), (3, 2), (4, 2), (5, 2), (6, 3), (7, 3),
                 (8, 3), (9, 0), (10, 0), (11, 0)],
               requested_keys := [[9, 10, 11]] } ∧
      ([[9, 10, 11]] : List (List Nat)) ≠ [[0, 1, 2]] := by
  decide

/-- C23, amended: four ranks, spans `[(0, 10000)]`, empty index, every rank requests `[3]`.
Rank 0, which owns the chunk 0, finds the keys `0 .. 11`, keeps `9, 10, 11` for itself and
donates `0, 1, 2` to rank 1, `3, 4, 5` to rank 2 and `6, 7, 8` to rank 3; every rank is
returned three keys. -/
theorem generate_new_keys_four_ranks :
    to_which_proc 4 0 = 0 ∧
      rank_planning 4 [(0, 10000)] (fun p => (chunk_first 4 (p : Int) [(0, 10000)]).getD [])
        (fun _ => []) (fun _ => [3]) 0 =
        some { j := [], new_request := [-9], requested_keys := [9, 10, 11],
               contrib_keys := [0, 1, 2, 3, 4, 5, 6, 7, 8] } ∧
      ∀ p, p < 4 →
        generate_new_keys 4 [(0, 10000)]
          (fun p => (chunk_first 4 (p : Int) [(0, 10000)]).getD []) (fun _ => [])
          (fun _ => [3]) p =
          some { threw := false,
                 m_key_usage := if p = 0 then
                   [(0, 1), (1, 1), (2, 1), (3, 2), (4, 2), (5, 2), (6, 3), (7, 3), (8, 3),
                     (9, 0), (10, 0), (11, 0)] else [],
                 requested_keys := [if p = 0 then [9, 10, 11] else if p = 1 then [0, 1, 2]
                   else if p = 2 then [3, 4, 5] else [6, 7, 8]] } := by
  decide

/-- C26: failure is the same on every rank.  For any per-rank inputs and any two ranks,
`update_keys` throws on the one exactly when it throws on the other, and so does
`generate_new_keys`; one rank with an add key outside every span makes `update_keys` throw
on every rank, and one rank with a request list of the wrong length makes
`generate_new_keys` throw on every rank. -/
theorem throws_on_every_rank (m_comm_size : Nat) (m_key_span : List KeySpan)
    (add_new_keys remove_existing_keys : Nat → List Nat) (m_chunk_first : Nat → List Nat)
    (m_key_usage : Nat → List KeyProc) (requests : Nat → List Nat) (r₁ r₂ : Nat) :
    ((update_keys m_comm_size m_key_span add_new_keys remove_existing_keys m_key_usage r₁).threw
          = true ↔
        (update_keys m_comm_size m_key_span add_new_keys remove_existing_keys m_key_usage
          r₂).threw = true) ∧
      ((∃ res, generate_new_keys m_comm_size m_key_span m_chunk_first m_key_usage requests r₁
            = some res ∧ res.threw = true) ↔
        (∃ res, generate_new_keys m_comm_size m_key_span m_chunk_first m_key_usage requests r₂
            = some res ∧ res.threw = true)) ∧
      ((∃ p, p < m_comm_size ∧ ∃ k ∈ add_new_keys p,
          ∀ j ∈ m_key_span, ¬ (j.1 ≤ k ∧ k ≤ j.2)) →
        (update_keys m_comm_size m_key_span add_new_keys remove_existing_keys m_key_usage
          r₁).threw = true) ∧
      (m_comm_size < 2 ^ 64 →
        (∃ p, p < m_comm_size ∧ (requests p).length ≠ m_key_span.length) →
        ∃ res, generate_new_keys m_comm_size m_key_span m_chunk_first m_key_usage requests r₁
          = some res ∧ res.threw = true) := by
  have hup : ∀ r, (update_keys m_comm_size m_key_span add_new_keys remove_existing_keys
      m_key_usage r).threw = true ↔
      allocate_buffers m_comm_size
        (fun p => decide (0 < local_bad_input m_key_span (add_new_keys p))) = true := by
    intro r
    unfold update_keys
    by_cases hbad : allocate_buffers m_comm_size
        (fun p => decide (0 < local_bad_input m_key_span (add_new_keys p))) = true
    · simp [hbad]
    · simp [hbad]
  refine ⟨(hup r₁).trans (hup r₂).symm,
    (generate_new_keys_threw_iff _ _ _ _ _ r₁).trans (generate_new_keys_threw_iff _ _ _ _ _
        r₂).symm,
    fun h => (hup r₁).2 ((global_bad_input_iff _ _ _).2 h), fun hn h => ?_⟩
  rw [generate_new_keys_threw_iff]
  unfold generate_new_keys_global_counts
  simp only [Bool.or_eq_true, decide_eq_true_eq]
  left
  exact (all_reduce_flag m_comm_size hn _ _ _).2 h

/-- C28: on every rank `r` of `m_comm_size ≥ 1` ranks (at most `2 ^ 52`, which the range of
the rank type `int` guarantees) the search loops of the constructor end, for every span list,
and `m_chunk_first[ i ]` is the smallest `c` for which the rank owns the key
`m_key_span[ i ].first + c * 4096`, computed in 64 bits. -/
theorem chunk_first_smallest (m_comm_size r : Nat) (m_key_span : List KeySpan)
    (hr : r < m_comm_size) (hsize : m_comm_size ≤ 2 ^ 52) :
    ∃ m_chunk_first, chunk_first m_comm_size (r : Int) m_key_span = some m_chunk_first ∧
      m_chunk_first.length = m_key_span.length ∧
      ∀ i, i < m_key_span.length →
        to_which_proc m_comm_size
            (((m_key_span.getD i (0, 0)).1
              + m_chunk_first.getD i 0 * DISTRIBUTED_INDEX_CHUNK_SIZE) % 2 ^ 64) = (r : Int) ∧
          ∀ c, c < m_chunk_first.getD i 0 →
            to_which_proc m_comm_size
              (((m_key_span.getD i (0, 0)).1 + c * DISTRIBUTED_INDEX_CHUNK_SIZE) % 2 ^ 64)
              ≠ (r : Int) := by
  induction m_key_span with
  | nil =>
    exact ⟨[], rfl, rfl, fun i hi => absurd hi (by simp)⟩
  | cons span rest ih =>
    obtain ⟨cf, hcf, hlen, hall⟩ := ih
    obtain ⟨cstar, hlt, hown⟩ := chunk_owned_within m_comm_size r span.1 hr hsize
    obtain ⟨c, hc⟩ := chunk_first_loop_ends m_comm_size (r : Int) span.1 (2 ^ 52) 0 cstar
      (Nat.zero_le _) (by omega) hown
    obtain ⟨_, h2, h3⟩ := chunk_first_loop_least m_comm_size (r : Int) span.1 (2 ^ 52) 0 c hc
    refine ⟨c :: cf, ?_, by simp [hlen], fun i hi => ?_⟩
    · unfold chunk_first
      rw [hc, hcf]
      rfl
    · cases i with
      | zero => exact ⟨h2, fun c' hc' => h3 c' (Nat.zero_le _) hc'⟩
      | succ i =>
        have hi' : i < rest.length := by
          simpa using hi
        simpa using hall i hi'

/-- Witness of C28: on rank 1 of 4 ranks, for the spans `[(0, 10000), (20000, 30000)]`. -/
theorem chunk_first_smallest_witness :
    ∃ m_chunk_first, chunk_first 4 ((1 : Nat) : Int) [(0, 10000), (20000, 30000)]
        = some m_chunk_first ∧
      m_chunk_first.length = [((0, 10000) : KeySpan), (20000, 30000)].length ∧
      ∀ i, i < [((0, 10000) : KeySpan), (20000, 30000)].length →
        to_which_proc 4
            ((([((0, 10000) : KeySpan), (20000, 30000)].getD i (0, 0)).1
              + m_chunk_first.getD i 0 * DISTRIBUTED_INDEX_CHUNK_SIZE) % 2 ^ 64)
              = ((1 : Nat) : Int) ∧
          ∀ c, c < m_chunk_first.getD i 0 →
            to_which_proc 4
              ((([((0, 10000) : KeySpan), (20000, 30000)].getD i (0, 0)).1
                + c * DISTRIBUTED_INDEX_CHUNK_SIZE) % 2 ^ 64) ≠ ((1 : Nat) : Int) :=
  chunk_first_smallest 4 1 [(0, 10000), (20000, 30000)] (by decide) (by decide)

/-- C30 fails as stated: three ranks, spans `[(0, 10)]`, empty index, requests
`2 ^ 63 - 5`, `2 ^ 63 + 5` and `1`, whose sum is `1` in 64 bits, so that the global counts
do not throw.  Rank 1 finds no key; its `new_request`, `2 ^ 63 + 5` converted to `long`, is
`-(2 ^ 63 - 5)`, which makes it a donor: it donates `2 ^ 63 - 6` keys to rank 0 and `1` to
rank 2 out of an empty `contrib_keys`, and the walk reads past the end on the first key. -/
theorem donation_walk_past_end_counterexample :
    (generate_new_keys_global_counts 3 [(0, 10)] (fun _ => [])
        (fun p => if p = 0 then [2 ^ 63 - 5] else if p = 1 then [2 ^ 63 + 5] else [1])).threw
        = false ∧
      rank_planning 3 [(0, 10)] (fun p => (chunk_first 3 (p : Int) [(0, 10)]).getD [])
        (fun _ => [])
        (fun p => if p = 0 then [2 ^ 63 - 5] else if p = 1 then [2 ^ 63 + 5] else [1]) 1 =
        some { j := [], new_request := [-9223372036854775803], requested_keys := [],
               contrib_keys := [] } ∧
      (List.range 3).map (generate_new_keys_global_planning 3 1
        (fun q => (plannings 3 [(0, 10)] (fun p => (chunk_first 3 (p : Int) [(0, 10)]).getD [])
          (fun _ => [])
          (fun p => if p = 0 then [2 ^ 63 - 5] else if p = 1 then [2 ^ 63 + 5] else [1])
          q).new_request) 0) = [9223372036854775802, 0, 1] ∧
      rank_donations_in_range 3 [(0, 10)]
        (plannings 3 [(0, 10)] (fun p => (chunk_first 3 (p : Int) [(0, 10)]).getD [])
          (fun _ => [])
          (fun p => if p = 0 then [2 ^ 63 - 5] else if p = 1 then [2 ^ 63 + 5] else [1])) 1
        = false ∧
      ∀ r, r < 3 →
        generate_new_keys 3 [(0, 10)] (fun p => (chunk_first 3 (p : Int) [(0, 10)]).getD [])
          (fun _ => [])
          (fun p => if p = 0 then [2 ^ 63 - 5] else if p = 1 then [2 ^ 63 + 5] else [1]) r
          = none := by
  decide

/-- C25: on every rank the constructor returns or throws, and it throws exactly when the
span list of the rank 0, which is the list that all the ranks use, has a span with
`second < first` or a span other than the first that starts at or before the end of the
span before it.  After a construction that does not throw, `m_key_span` is not empty, its
spans have `first ≤ second` and each ends before the next ones start; it is the given list,
or the span of all keys for an empty list.  A list of one single-key span is accepted. -/
theorem ctor_throws_iff (m_comm_size : Nat) (partition_bounds : Nat → List KeySpan) (r : Nat)
    (hr : r < m_comm_size) (hsize : m_comm_size ≤ 2 ^ 52) :
    (∃ res, ctor m_comm_size partition_bounds r = some res ∧
      (res.threw = true ↔
        (∃ s ∈ partition_bounds 0, s.2 < s.1) ∨
          ∃ i, i + 1 < (partition_bounds 0).length ∧
            ((partition_bounds 0).getD (i + 1) (0, 0)).1
              ≤ ((partition_bounds 0).getD i (0, 0)).2) ∧
      (res.threw = false →
        res.m_key_span ≠ [] ∧ (∀ s ∈ res.m_key_span, s.1 ≤ s.2) ∧
          res.m_key_span.Pairwise (fun a b => a.2 < b.1) ∧
          ((partition_bounds 0).length < 2 ^ 32 →
            res.m_key_span = constructed_key_span (partition_bounds 0)))) ∧
      ∀ key, ∃ res, ctor m_comm_size (fun _ => [(key, key)]) r = some res ∧
        res.threw = false ∧ res.m_key_span = [(key, key)] := by
  have hgood : ∀ pb : Nat → List KeySpan, check_spans none (pb 0) 0 = 0 →
      ∃ cf, ctor m_comm_size pb r = some
        { threw := false,
          m_span_count := if (pb 0).length % 2 ^ 32 = 0 then 1 else (pb 0).length % 2 ^ 32,
          m_key_span :=
            if (pb 0).length % 2 ^ 32 = 0 then
              (if 0 < (pb 0).length % 2 ^ 32 then
                if r = 0 then pb r else (pb 0).take ((pb 0).length % 2 ^ 32)
              else []) ++ [(0, 2 ^ 64 - 1)]
            else
              (if 0 < (pb 0).length % 2 ^ 32 then
                if r = 0 then pb r else (pb 0).take ((pb 0).length % 2 ^ 32)
              else []),
          m_chunk_first := cf } := by
    intro pb h0
    obtain ⟨cf, hcf⟩ := chunk_first_ends m_comm_size r
      ((if (pb 0).length % 2 ^ 32 = 0 then
          (if 0 < (pb 0).length % 2 ^ 32 then
            if r = 0 then pb r else (pb 0).take ((pb 0).length % 2 ^ 32)
          else []) ++ [(0, 2 ^ 64 - 1)]
        else
          (if 0 < (pb 0).length % 2 ^ 32 then
            if r = 0 then pb r else (pb 0).take ((pb 0).length % 2 ^ 32)
          else [])).take
        (if (pb 0).length % 2 ^ 32 = 0 then 1 else (pb 0).length % 2 ^ 32)) hr hsize
    refine ⟨cf, ?_⟩
    unfold ctor MPI_Bcast
    simp only [h0, ne_eq, not_true_eq_false, if_false]
    rw [hcf]
    rfl
  refine ⟨?_, fun key => ?_⟩
  · by_cases h0 : check_spans none (partition_bounds 0) 0 = 0
    · obtain ⟨cf, hcf⟩ := hgood partition_bounds h0
      refine ⟨_, hcf, ?_, fun _ => ?_⟩
      · rw [← check_spans_ne_zero_iff]
        simp [h0]
      · have hv := (check_spans_none_eq_zero _).1 h0
        have hpw := pairwise_of_chain_spans _ hv.1 hv.2
        dsimp only
        by_cases hlen : (partition_bounds 0).length % 2 ^ 32 = 0
        · rw [if_pos hlen, if_neg (by omega)]
          refine ⟨by simp, by simp, by simp, fun hlt => ?_⟩
          have hl : (partition_bounds 0).length = 0 := by omega
          unfold constructed_key_span
          rw [if_pos hl]
          rfl
        · rw [if_neg hlen, if_pos (by omega)]
          have hne : partition_bounds 0 ≠ [] := by
            intro hnil
            rw [hnil] at hlen
            exact hlen rfl
          by_cases hr0 : r = 0
          · rw [if_pos hr0, hr0]
            refine ⟨hne, hv.1, hpw, fun hlt => ?_⟩
            unfold constructed_key_span
            rw [if_neg (fun hl => hne (List.length_eq_zero.1 hl))]
          · rw [if_neg hr0]
            refine ⟨?_, fun s hs => hv.1 s (List.mem_of_mem_take hs),
              hpw.sublist (List.take_sublist _ _), fun hlt => ?_⟩
            · intro hnil
              have hl := congrArg List.length hnil
              rw [List.length_take] at hl
              simp only [List.length_nil] at hl
              have := Nat.mod_le (partition_bounds 0).length (2 ^ 32)
              omega
            · unfold constructed_key_span
              rw [if_neg (fun hl => hne (List.length_eq_zero.1 hl)), Nat.mod_eq_of_lt hlt,
                List.take_length]
    · refine ⟨{ threw := true, m_span_count := 0,
                m_key_span :=
                  if 0 < (partition_bounds 0).length % 2 ^ 32 then
                    if r = 0 then partition_bounds r
                    else (partition_bounds 0).take ((partition_bounds 0).length % 2 ^ 32)
                  else [],
                m_chunk_first := [] }, ?_, ?_, ?_⟩
      · unfold ctor MPI_Bcast
        simp only [ne_eq, h0, not_false_eq_true, if_true]
      · rw [← check_spans_ne_zero_iff]
        simp [h0]
      · intro h
        exact absurd h (by simp)
  · obtain ⟨cf, hcf⟩ := hgood (fun _ => [(key, key)]) (by simp [check_spans])
    refine ⟨_, hcf, rfl, ?_⟩
    by_cases hr0 : r = 0
    · simp [hr0]
    · simp [hr0]

/-- Witness of C25: on rank 1 of 4 ranks that all give the spans `[(0, 10000)]`. -/
theorem ctor_throws_iff_witness :
    (∃ res, ctor 4 (fun _ => [(0, 10000)]) 1 = some res ∧
      (res.threw = true ↔
        (∃ s ∈ (fun _ => [(0, 10000)] : Nat → List KeySpan) 0, s.2 < s.1) ∨
          ∃ i, i + 1 < ((fun _ => [(0, 10000)] : Nat → List KeySpan) 0).length ∧
            (((fun _ => [(0, 10000)] : Nat → List KeySpan) 0).getD (i + 1) (0, 0)).1
              ≤ (((fun _ => [(0, 10000)] : Nat → List KeySpan) 0).getD i (0, 0)).2) ∧
      (res.threw = false →
        res.m_key_span ≠ [] ∧ (∀ s ∈ res.m_key_span, s.1 ≤ s.2) ∧
          res.m_key_span.Pairwise (fun a b => a.2 < b.1) ∧
          (((fun _ => [(0, 10000)] : Nat → List KeySpan) 0).length < 2 ^ 32 →
            res.m_key_span =
              constructed_key_span ((fun _ => [(0, 10000)] : Nat → List KeySpan) 0)))) ∧
      ∀ key, ∃ res, ctor 4 (fun _ => [(key, key)]) 1 = some res ∧
        res.threw = false ∧ res.m_key_span = [(key, key)] :=
  ctor_throws_iff 4 (fun _ => [(0, 10000)]) 1 (by decide) (by decide)

/-- C27 fails on a state that three calls reach from the empty index of two ranks with the
spans `[(4095, 4096)]`.  First rank 0 asks `generate_new_keys` for two keys and is given
`4095` and `4096`, which it records.  Then rank 1 adds the key `4096` with `update_keys`;
`to_which_proc` sends it to rank 1, which records it too, so that every key in use lies in
the span while the counts of the two ranks add up to three keys in a span of two.  In the
next `generate_new_keys` the subtraction `span_available` wraps around, the request of
rank 0 for one key is accepted and answered with the key `4098`, which rank 0 records:
the key lies in no span. -/
theorem generate_new_keys_leaves_span :
    (∀ p, p < 2 →
      ctor 2 (fun _ => [(4095, 4096)]) p =
        some { threw := false, m_span_count := 1, m_key_span := [(4095, 4096)],
               m_chunk_first := (chunk_first 2 (p : Int) [(4095, 4096)]).getD [] }) ∧
      (∀ p, p < 2 →
        generate_new_keys 2 [(4095, 4096)]
          (fun p => (chunk_first 2 (p : Int) [(4095, 4096)]).getD []) (fun _ => [])
          (fun p => if p = 0 then [2] else [0]) p =
          some { threw := false,
                 m_key_usage := if p = 0 then [(4095, 0), (4096, 0)] else [],
                 requested_keys := if p = 0 then [[4095, 4096]] else [[]] }) ∧
      (∀ p, p < 2 →
        update_keys 2 [(4095, 4096)] (only_rank 1 [4096]) no_keys
          (fun p => if p = 0 then [(4095, 0), (4096, 0)] else []) p =
          { threw := false,
            m_key_usage := if p = 0 then [(4095, 0), (4096, 0)] else [(4096, 1)] }) ∧
      (∀ p, p < 2 →
        ∀ e ∈ (if p = 0 then [((4095, 0) : KeyProc), (4096, 0)] else [(4096, 1)]),
          ∃ s ∈ [((4095, 4096) : KeySpan)], s.1 ≤ e.1 ∧ e.1 ≤ s.2) ∧
      (∀ p, p < 2 →
        generate_new_keys 2 [(4095, 4096)]
          (fun p => (chunk_first 2 (p : Int) [(4095, 4096)]).getD [])
          (fun p => if p = 0 then [(4095, 0), (4096, 0)] else [(4096, 1)])
          (fun p => if p = 0 then [1] else [0]) p =
          some { threw := false,
                 m_key_usage :=
                   if p = 0 then [(4095, 0), (4096, 0), (4098, 0)] else [(4096, 1)],
                 requested_keys := if p = 0 then [[4098]] else [[]] }) ∧
      ¬ ∃ s ∈ [((4095, 4096) : KeySpan)], s.1 ≤ 4098 ∧ 4098 ≤ s.2 := by
  decide

/-- C24 fails on a state that three calls reach from the empty index of two ranks with the
spans `[(8191, 8192), (12288, 12288), (12289, 12300)]`.  Rank 1 is given `8191`, `8192`
and `12288` by `generate_new_keys`; rank 0 adds the key `8192` with `update_keys` and,
owning it by `to_which_proc`, records it; rank 1 asks for one more key of the first span
and, the count of that span being three for two keys, is given `8194`.  Every `m_key_usage`
is strictly sorted.  In the next call rank 1 requests `[0, 2, 2]`: its key `8194` is
counted in the second span, whose planning then runs up to `12291`, into the third span,
and the key `12290` is kept for both spans.  The pair `(12290, 1)` is appended twice and
the final `std::sort` leaves both copies. -/
theorem generate_new_keys_duplicate_entry :
    (∀ p, p < 2 →
      ctor 2 (fun _ => [(8191, 8192), (12288, 12288), (12289, 12300)]) p =
        some { threw := false, m_span_count := 3,
               m_key_span := [(8191, 8192), (12288, 12288), (12289, 12300)],
               m_chunk_first :=
                 (chunk_first 2 (p : Int)
                   [(8191, 8192), (12288, 12288), (12289, 12300)]).getD [] }) ∧
      (∀ p, p < 2 →
        generate_new_keys 2 [(8191, 8192), (12288, 12288), (12289, 12300)]
          (fun p => (chunk_first 2 (p : Int)
            [(8191, 8192), (12288, 12288), (12289, 12300)]).getD [])
          (fun _ => []) (fun p => if p = 1 then [2, 1, 0] else [0, 0, 0]) p =
          some { threw := false,
                 m_key_usage := if p = 1 then [(8191, 1), (8192, 1), (12288, 1)] else [],
                 requested_keys :=
                   if p = 1 then [[8191, 8192], [12288], []] else [[], [], []] }) ∧
      (∀ p, p < 2 →
        update_keys 2 [(8191, 8192), (12288, 12288), (12289, 12300)] (only_rank 0 [8192])
          no_keys (fun p => if p = 1 then [(8191, 1), (8192, 1), (12288, 1)] else []) p =
          { threw := false,
            m_key_usage :=
              if p = 1 then [(8191, 1), (8192, 1), (12288, 1)] else [(8192, 0)] }) ∧
      (∀ p, p < 2 →
        generate_new_keys 2 [(8191, 8192), (12288, 12288), (12289, 12300)]
          (fun p => (chunk_first 2 (p : Int)
            [(8191, 8192), (12288, 12288), (12289, 12300)]).getD [])
          (fun p => if p = 1 then [(8191, 1), (8192, 1), (12288, 1)] else [(8192, 0)])
          (fun p => if p = 1 then [1, 0, 0] else [0, 0, 0]) p =
          some { threw := false,
                 m_key_usage :=
                   if p = 1 then [(8191, 1), (8192, 1), (8194, 1), (12288, 1)]
                   else [(8192, 0)],
                 requested_keys := if p = 1 then [[8194], [], []] else [[], [], []] }) ∧
      (∀ p, p < 2 →
        (if p = 1 then [((8191, 1) : KeyProc), (8192, 1), (8194, 1), (12288, 1)]
          else [(8192, 0)]).Pairwise KeyProcLess) ∧
      generate_new_keys 2 [(8191, 8192), (12288, 12288), (12289, 12300)]
          (fun p => (chunk_first 2 (p : Int)
            [(8191, 8192), (12288, 12288), (12289, 12300)]).getD [])
          (fun p => if p = 1 then [(8191, 1), (8192, 1), (8194, 1), (12288, 1)]
            else [(8192, 0)])
          (fun p => if p = 1 then [0, 2, 2] else [0, 0, 0]) 1 =
          some { threw := false,
                 m_key_usage :=
                   [(8191, 1), (8192, 1), (8194, 1), (12288, 1), (12289, 1), (12290, 1),
                     (12290, 1), (12291, 1)],
                 requested_keys := [[], [12289, 12290], [12290, 12291]] } ∧
      ¬ [((8191, 1) : KeyProc), (8192, 1), (8194, 1), (12288, 1), (12289, 1), (12290, 1),
          (12290, 1), (12291, 1)].Nodup := by
  decide

/-! ## The statements of the specification: local planning, erasure and the reads of the
loops -/

/-- C34: for a `key_usage` strictly increasing in `KeyProcLess` (sorted and without
duplicates) with no negative rank and for every list of pairs, `RemoveKeyProc::mark` for
each pair of the list and then `RemoveKeyProc::clean` leave the entries of `key_usage` that
are not in the list, in their order: a sublist of `key_usage`, still strictly
increasing. -/
theorem tombstone_erase (key_usage remove : List KeyProc)
    (hstrict : key_usage.Pairwise KeyProcLess) (hnn : ∀ x ∈ key_usage, 0 ≤ x.2) :
    clean (remove.foldl mark key_usage) = key_usage.filter (fun x => decide (x ∉ remove)) ∧
      (clean (remove.foldl mark key_usage)).Sublist key_usage ∧
      (clean (remove.foldl mark key_usage)).Pairwise KeyProcLess := by
  have heq : clean (remove.foldl mark key_usage)
      = key_usage.filter (fun x => decide (x ∉ remove)) := by
    rw [clean_foldl_mark_diff remove key_usage (strict_map_fst_sorted hstrict),
      clean_of_nonneg hnn, (strict_nodup hstrict).diff_eq_filter]
  rw [heq]
  exact ⟨rfl, List.filter_sublist _, hstrict.sublist (List.filter_sublist _)⟩

/-- Witness of C34: the pairs `(9, 2)`, twice, and `(5, 0)` are erased, the pairs `(7, 0)`
and `(5, 3)` are not in the index. -/
theorem tombstone_erase_witness :
    clean ([((9, 2) : KeyProc), (5, 0), (9, 2), (7, 0), (5, 3)].foldl mark
        [(1, 0), (5, 0), (5, 1), (9, 2)])
      = ([((1, 0) : KeyProc), (5, 0), (5, 1), (9, 2)]).filter
        (fun x => decide (x ∉ [((9, 2) : KeyProc), (5, 0), (9, 2), (7, 0), (5, 3)])) ∧
      (clean ([((9, 2) : KeyProc), (5, 0), (9, 2), (7, 0), (5, 3)].foldl mark
        [(1, 0), (5, 0), (5, 1), (9, 2)])).Sublist [(1, 0), (5, 0), (5, 1), (9, 2)] ∧
      (clean ([((9, 2) : KeyProc), (5, 0), (9, 2), (7, 0), (5, 3)].foldl mark
        [(1, 0), (5, 0), (5, 1), (9, 2)])).Pairwise KeyProcLess :=
  tombstone_erase [(1, 0), (5, 0), (5, 1), (9, 2)] [(9, 2), (5, 0), (9, 2), (7, 0), (5, 3)]
    (by decide) (by decide)

/-- C36 fails for `generate_new_keys` on the empty index of two ranks with the spans
`[(4095, 4096)]`, where owner-only storage holds on both ranks.  Rank 0 requests two keys
and rank 1 none; the call returns on both ranks without a throw, and rank 0 records the
pairs `(4095, 0)` and `(4096, 0)`, although `to_which_proc` gives the key `4096` to
rank 1: local planning counts the chunk of rank 0 from the first key of the span. -/
theorem generate_new_keys_breaks_owner_only :
    (∀ p, p < 2 →
      ctor 2 (fun _ => [(4095, 4096)]) p =
        some { threw := false, m_span_count := 1, m_key_span := [(4095, 4096)],
               m_chunk_first := (chunk_first 2 (p : Int) [(4095, 4096)]).getD [] }) ∧
      (∀ p, p < 2 → ∀ e ∈ (fun _ => [] : Nat → List KeyProc) p,
        to_which_proc 2 e.1 = (p : Int)) ∧
      (∀ p, p < 2 →
        generate_new_keys 2 [(4095, 4096)]
          (fun p => (chunk_first 2 (p : Int) [(4095, 4096)]).getD []) (fun _ => [])
          (fun p => if p = 0 then [2] else [0]) p =
          some { threw := false,
                 m_key_usage := if p = 0 then [(4095, 0), (4096, 0)] else [],
                 requested_keys := if p = 0 then [[4095, 4096]] else [[]] }) ∧
      to_which_proc 2 4095 = 0 ∧ to_which_proc 2 4096 = 1 ∧
      ¬ ∀ e ∈ [((4095, 0) : KeyProc), (4096, 0)], to_which_proc 2 e.1 = ((0 : Nat) : Int) := by
  decide

/-- C37 fails when the span starts at the key 0: for increasing spans and, on every rank,
a `key_usage` sorted by key with every key inside a span, if the span `i` starts at the
key 0, holds no key in use on any rank and no rank requests a key from it, then
`key_global_max = 0 + 0 - 1` wraps around to the largest key, the loop over the chunks of
local planning ends on no rank, and the collective `generate_new_keys`, which does not
throw, returns on no rank. -/
theorem generate_new_keys_zero_span_hangs (n : Nat) (hn : 1 ≤ n) (spans : List KeySpan)
    (cf : Nat → List Nat) (usage : Nat → List KeyProc) (requests : Nat → List Nat)
    (hspans : spans.Pairwise (fun a b => a.2 < b.1)) (hvalid : ∀ s ∈ spans, s.1 ≤ s.2)
    (hsorted : ∀ p, p < n → ((usage p).map Prod.fst).Pairwise (· ≤ ·))
    (hin : ∀ p, p < n → ∀ e ∈ usage p, ∃ s ∈ spans, s.1 ≤ e.1 ∧ e.1 ≤ s.2)
    (hthrew : (generate_new_keys_global_counts n spans usage requests).threw = false)
    (i : Nat) (hi : i < spans.length) (hfirst : (spans.getD i (0, 0)).1 = 0)
    (hexisting : existing_in_span n usage (spans.getD i (0, 0)) = 0)
    (hrequested : requested_in_span n requests i = 0) :
    (∀ p, rank_planning n spans cf usage requests p = none) ∧
      ∀ r, generate_new_keys n spans cf usage requests r = none := by
  have hnone : ∀ p, rank_planning n spans cf usage requests p = none := by
    intro p
    unfold rank_planning generate_new_keys_local_planning
    exact plan_spans_none n spans (cf p) _ _ (requests p) i
      (key_global_max_zero_span n spans usage requests hspans hvalid hsorted hin i hi hfirst
        hexisting hrequested)
      (List.range spans.length) _ (List.mem_range.2 hi)
  refine ⟨hnone, ?_⟩
  intro r
  have hall : (List.range n).all
      (fun p => (rank_planning n spans cf usage requests p).isSome) = false := by
    rw [List.all_eq_false]
    refine ⟨0, List.mem_range.2 (by omega), ?_⟩
    rw [hnone 0]
    simp
  unfold generate_new_keys
  rw [hthrew]
  simp only [Bool.false_eq_true, if_false, hall]

/-- Witness of C37: one rank, the spans `[(0, 99)]`, the empty index, the request `[0]`. -/
theorem generate_new_keys_zero_span_hangs_witness :
    (∀ p, rank_planning 1 [(0, 99)] (fun _ => [0]) (fun _ => []) (fun _ => [0]) p = none) ∧
      ∀ r, generate_new_keys 1 [(0, 99)] (fun _ => [0]) (fun _ => []) (fun _ => [0]) r
        = none :=
  generate_new_keys_zero_span_hangs 1 (by decide) [(0, 99)] (fun _ => [0]) (fun _ => [])
    (fun _ => [0]) (by simp) (by simp) (by simp) (by simp) (by decide) 0 (by decide)
    (by decide) (by decide) (by decide)

/-- C38 fails on every index that holds a key: for increasing spans and a `key_usage`
sorted by key, not empty, with every key inside a span, the counting loop of
`generate_new_keys_global_counts` reads `j->first` at `m_key_usage.end()`.  The entries of
the largest key are skipped by `while ( key == j->first ) { ++j ; }`, which has no test for
the end, so its condition is evaluated once more when `j` has reached the end. -/
theorem counting_loop_reads_end (spans : List KeySpan) (key_usage : List KeyProc)
    (hspans : spans.Pairwise (fun a b => a.2 < b.1)) (hvalid : ∀ s ∈ spans, s.1 ≤ s.2)
    (hsorted : (key_usage.map Prod.fst).Pairwise (· ≤ ·))
    (hin : ∀ e ∈ key_usage, ∃ s ∈ spans, s.1 ≤ e.1 ∧ e.1 ≤ s.2)
    (hne : key_usage ≠ []) :
    local_used_reads_end spans key_usage = true := by
  have hmono : spans.Pairwise (fun a b => a.2 ≤ b.2) := by
    refine List.Pairwise.imp_of_mem ?_ hspans
    intro a b _ hb hab
    have := hvalid b hb
    omega
  rw [local_used_reads_end_iff spans hmono key_usage hsorted]
  refine ⟨hne, ?_⟩
  obtain ⟨s, hs, _, hle⟩ := hin (key_usage.getLast hne) (List.getLast_mem hne)
  refine ⟨s, hs, ?_⟩
  intro e he
  have hsplit := List.dropLast_append_getLast hne
  rw [← hsplit] at he hsorted
  rcases List.mem_append.1 he with h | h
  · rw [List.map_append, List.pairwise_append] at hsorted
    have := hsorted.2.2 e.1 (List.mem_map_of_mem _ h) (key_usage.getLast hne).1
      (List.mem_map_of_mem _ (List.mem_singleton_self _))
    omega
  · rw [List.mem_singleton] at h
    rw [h]
    exact hle

/-- Witness of C38: the index `[(7, 0)]` with the spans `[(0, 99)]`. -/
theorem counting_loop_reads_end_witness :
    local_used_reads_end [(0, 99)] [(7, 0)] = true :=
  counting_loop_reads_end [(0, 99)] [(7, 0)] (by simp) (by simp) (by simp) (by simp)
    (by simp)

/-- C39 fails on every rank that has a key outside the spans among its `add_new_keys`: in
a collective `update_keys` of `n ≥ 1` ranks such a rank `r` has emptied `count_remove` and
`count_add` with `clear()` when the sizing loop starts, the loop runs `p` over
`0 .. n - 1` and reads `count_remove[0]` in a vector of size zero.  The rank throws only
after the loop, in the collective error check. -/
theorem sizing_loop_reads_cleared (n : Nat) (spans : List KeySpan)
    (add remove : Nat → List Nat) (usage : Nat → List KeyProc) (r : Nat) (hr : r < n)
    (hbad : 0 < local_bad_input spans (add r)) :
    (counts_at_sizing n (r : Int) spans (add r) (remove r)).1.length = 0 ∧
      (counts_at_sizing n (r : Int) spans (add r) (remove r)).2.length = 0 ∧
      sizing_in_range n (counts_at_sizing n (r : Int) spans (add r) (remove r)).1
        (counts_at_sizing n (r : Int) spans (add r) (remove r)).2 = false ∧
      (update_keys n spans add remove usage r).threw = true := by
  refine ⟨?_, ?_, ?_, ?_⟩
  · unfold counts_at_sizing
    rw [if_pos hbad]
    rfl
  · unfold counts_at_sizing
    rw [if_pos hbad]
    rfl
  · cases hs : sizing_in_range n (counts_at_sizing n (r : Int) spans (add r) (remove r)).1
        (counts_at_sizing n (r : Int) spans (add r) (remove r)).2 with
    | false => rfl
    | true =>
      have := (sizing_in_range_iff n (by omega) (r : Int) spans (add r) (remove r)).1 hs
      omega
  · unfold update_keys
    have hflag : allocate_buffers n
        (fun p => decide (0 < local_bad_input spans (add p))) = true := by
      unfold allocate_buffers
      rw [List.any_eq_true]
      exact ⟨r, List.mem_range.2 hr, by simpa using hbad⟩
    simp only [hflag, if_true]

/-- Witness of C39: two ranks with the spans `[(100, 200)]`, rank 0 adds the key `50`. -/
theorem sizing_loop_reads_cleared_witness :
    (counts_at_sizing 2 ((0 : Nat) : Int) [(100, 200)] (only_rank 0 [50] 0) (no_keys 0)).1.length
        = 0 ∧
      (counts_at_sizing 2 ((0 : Nat) : Int) [(100, 200)] (only_rank 0 [50] 0)
        (no_keys 0)).2.length = 0 ∧
      sizing_in_range 2
        (counts_at_sizing 2 ((0 : Nat) : Int) [(100, 200)] (only_rank 0 [50] 0) (no_keys 0)).1
        (counts_at_sizing 2 ((0 : Nat) : Int) [(100, 200)] (only_rank 0 [50] 0) (no_keys 0)).2
        = false ∧
      (update_keys 2 [(100, 200)] (only_rank 0 [50]) no_keys (fun _ => []) 0).threw = true :=
  sizing_loop_reads_cleared 2 [(100, 200)] (only_rank 0 [50]) no_keys (fun _ => []) 0
    (by decide) (by decide)

/-! ## The statements of the specification: the counts, the donations and the keys of one
call, with the reads at the end of `m_key_usage` -/

/-- C14 fails as stated: two ranks, spans `[(1, 5)]`, empty index, every rank requests
`2 ^ 63` keys.  The sum of the requests, `2 ^ 64`, exceeds the 5 free keys of the span,
but the all-reduced counter wraps around to `0` and the global counts do not throw: the
call returns without a throw, with no key. -/
theorem generate_new_keys_overflow_counterexample :
    span_capacity (1, 5) - existing_in_span 2 (fun _ => []) (1, 5) <
        requested_in_span 2 (fun _ => [2 ^ 63]) 0 ∧
      (generate_new_keys_global_counts 2 [(1, 5)] (fun _ => [])
        (fun _ => [2 ^ 63])).threw = false ∧
      generate_new_keys_stored 2 [(1, 5)] (fun p => (chunk_first 2 (p : Int) [(1, 5)]).getD [])
        (fun _ => []) (fun _ => 0) (fun _ => [2 ^ 63]) 0 =
        some { threw := false, m_key_usage := [], requested_keys := [[]] } := by
  decide

/-- C14, amended: the spans are increasing, each has fewer than `2 ^ 64` keys, every
`m_key_usage` is sorted by key with every key inside a span, the sum over the ranks of the
numbers of distinct keys that the ranks hold in a span is at most the number of keys of the
span, the sum over the ranks of the requests for a span is below `2 ^ 64`, and the counting
loop of every rank stays inside its `m_key_usage`.  Then `generate_new_keys` throws on the
rank `r` if and only if some rank passes a request vector whose size is not `m_span_count`,
or for some span the sum of the requests exceeds the number of keys of the span minus the
sum over the ranks of the numbers of distinct keys that the ranks hold in it. -/
theorem generate_new_keys_throws_iff (n : Nat) (spans : List KeySpan) (cf : Nat → List Nat)
    (usage : Nat → List KeyProc) (behind : Nat → Nat) (requests : Nat → List Nat) (r : Nat)
    (hsize : n < 2 ^ 64)
    (hspans : spans.Pairwise (fun a b => a.2 < b.1))
    (hvalid : ∀ s ∈ spans, s.1 ≤ s.2 ∧ s.2 < 2 ^ 64 ∧ span_capacity s < 2 ^ 64)
    (hsorted : ∀ p, p < n → ((usage p).map Prod.fst).Pairwise (· ≤ ·))
    (hin : ∀ p, p < n → ∀ e ∈ usage p, ∃ s ∈ spans, s.1 ≤ e.1 ∧ e.1 ≤ s.2)
    (hexist : ∀ s ∈ spans, existing_in_span n usage s ≤ span_capacity s)
    (hreq : ∀ i, i < spans.length → requested_in_span n requests i < 2 ^ 64)
    (hstored : ∀ p, p < n → (local_used_stored (behind p) spans (usage p)).isSome = true) :
    (∃ res, generate_new_keys_stored n spans cf usage behind requests r = some res ∧
        res.threw = true) ↔
      (∃ p, p < n ∧ (requests p).length ≠ spans.length) ∨
        ∃ i, i < spans.length ∧
          span_capacity (spans.getD i (0, 0)) - existing_in_span n usage (spans.getD i (0, 0))
            < requested_in_span n requests i := by
  rw [generate_new_keys_stored_eq n spans cf usage behind requests r hstored,
    generate_new_keys_threw_iff]
  exact global_counts_threw_iff n spans usage requests hsize hspans hvalid hsorted hin hexist
    hreq

/-- Witness of C14: four ranks, spans `[(0, 4)]`, empty index, every rank requests `[2]`;
8 exceeds 5 and the call throws on rank 0. -/
theorem generate_new_keys_throws_iff_witness :
    ((∃ res, generate_new_keys_stored 4 [(0, 4)]
        (fun p => (chunk_first 4 (p : Int) [(0, 4)]).getD [])
        (fun _ => []) (fun _ => 0) (fun _ => [2]) 0 = some res ∧ res.threw = true) ↔
      (∃ p, p < 4 ∧ ((fun _ => [2] : Nat → List Nat) p).length
          ≠ ([(0, 4)] : List KeySpan).length) ∨
        ∃ i, i < ([(0, 4)] : List KeySpan).length ∧
          span_capacity (([(0, 4)] : List KeySpan).getD i (0, 0))
              - existing_in_span 4 (fun _ => []) (([(0, 4)] : List KeySpan).getD i (0, 0))
            < requested_in_span 4 (fun _ => [2]) i) ∧
      generate_new_keys_stored 4 [(0, 4)] (fun p => (chunk_first 4 (p : Int) [(0, 4)]).getD [])
        (fun _ => []) (fun _ => 0) (fun _ => [2]) 0 =
        some { threw := true, m_key_usage := [], requested_keys := [] } :=
  ⟨generate_new_keys_throws_iff 4 [(0, 4)] (fun p => (chunk_first 4 (p : Int) [(0, 4)]).getD [])
    (fun _ => []) (fun _ => 0) (fun _ => [2]) 0 (by decide) (by decide) (by decide) (by decide)
    (by decide) (by decide) (by decide) (by decide), by decide⟩

/-- C17, the code at the failing input: two ranks with the spans
`[(8191, 8192), (8193, 8200)]` and the empty index.  Rank 1 is given `8191` and `8192` by
`generate_new_keys`; then both ranks add the key `8192` with `update_keys`, and rank 0,
which owns it by `to_which_proc`, records `(8192, 0)` and `(8192, 1)`.  Every
`m_key_usage` is strictly sorted, every key lies in a span and every entry is held on the
rank that owns its key, but the key `8192` is counted on both ranks: three keys in a span
of two.  In the next call rank 0 requests `[1, 0]` and rank 1 requests `[0, 1]`: the
planning of the first span runs up to `8194`, rank 1 finds `8193` there and donates it to
rank 0; the planning of the second span finds `8193` on rank 0, which donates it to rank 1.
The call returns without a throw on both ranks and returns the key `8193` to both.  (The
storage of every `m_key_usage` is taken to hold behind its end a key that is not in
use.) -/
theorem generate_new_keys_returns_key_twice :
    (∀ p, p < 2 →
      ctor 2 (fun _ => [(8191, 8192), (8193, 8200)]) p =
        some { threw := false, m_span_count := 2,
               m_key_span := [(8191, 8192), (8193, 8200)],
               m_chunk_first :=
                 (chunk_first 2 (p : Int) [(8191, 8192), (8193, 8200)]).getD [] }) ∧
      (∀ p, p < 2 →
        generate_new_keys_stored 2 [(8191, 8192), (8193, 8200)]
          (fun p => (chunk_first 2 (p : Int) [(8191, 8192), (8193, 8200)]).getD [])
          (fun _ => []) (fun _ => 0) (fun p => if p = 1 then [2, 0] else [0, 0]) p =
          some { threw := false,
                 m_key_usage := if p = 1 then [(8191, 1), (8192, 1)] else [],
                 requested_keys := if p = 1 then [[8191, 8192], []] else [[], []] }) ∧
      (∀ p, p < 2 →
        update_keys 2 [(8191, 8192), (8193, 8200)] (fun _ => [8192]) no_keys
          (fun p => if p = 1 then [(8191, 1), (8192, 1)] else []) p =
          { threw := false,
            m_key_usage :=
              if p = 1 then [(8191, 1), (8192, 1)] else [(8192, 0), (8192, 1)] }) ∧
      (∀ p, p < 2 →
        (if p = 1 then [((8191, 1) : KeyProc), (8192, 1)]
          else [(8192, 0), (8192, 1)]).Pairwise KeyProcLess ∧
          ∀ e ∈ (if p = 1 then [((8191, 1) : KeyProc), (8192, 1)] else [(8192, 0), (8192, 1)]),
            in_some_span [(8191, 8192), (8193, 8200)] e.1 = true ∧
              e ∈ (if to_which_proc 2 e.1 = 1 then [((8191, 1) : KeyProc), (8192, 1)]
                else [(8192, 0), (8192, 1)])) ∧
      (∀ p, p < 2 →
        generate_new_keys_stored 2 [(8191, 8192), (8193, 8200)]
          (fun p => (chunk_first 2 (p : Int) [(8191, 8192), (8193, 8200)]).getD [])
          (fun p => if p = 1 then [(8191, 1), (8192, 1)] else [(8192, 0), (8192, 1)])
          (fun _ => 0) (fun p => if p = 1 then [0, 1] else [1, 0]) p =
          some { threw := false,
                 m_key_usage :=
                   if p = 1 then [(8191, 1), (8192, 1), (8193, 0)]
                   else [(8192, 0), (8192, 1), (8193, 1)],
                 requested_keys := if p = 1 then [[], [8193]] else [[8193], []] }) ∧
      ¬ ((List.range 2).flatMap
        (fun p => (if p = 1 then [[], [8193]] else [[8193], []] :
          List (List Nat)).flatten)).Nodup := by
  decide

/-- C20 fails as stated: four ranks, spans `[(1, 5)]`, empty index, every rank requests
`2 ^ 62` keys.  The sum of the requests is `0` in 64 bits, the global counts do not throw,
no key is found, and the range `[ new_keys.begin() , new_keys.begin() + requests[0] )` of
the last loop ends `8 * 2 ^ 62` bytes behind its start, which is its start in 64 bits: the
call returns without a throw and `requested_keys[0]` is empty, not `2 ^ 62` keys. -/
theorem generate_new_keys_empty_range_counterexample :
    slice_count (2 ^ 62) = 0 ∧
      generate_new_keys_stored 4 [(1, 5)] (fun p => (chunk_first 4 (p : Int) [(1, 5)]).getD [])
        (fun _ => []) (fun _ => 0) (fun _ => [2 ^ 62]) 0 =
        some { threw := false, m_key_usage := [], requested_keys := [[]] } ∧
      ([[]] : List (List Nat)).map List.length ≠ [2 ^ 62] := by
  decide

/-- C20, amended: on an index of fewer than `2 ^ 19` ranks with increasing spans that end
`m_comm_size + 1` chunks below `2 ^ 64` and have fewer than `2 ^ 61` keys each, with
`m_chunk_first` as the constructor computes it and a consistent state (every `m_key_usage`
sorted by key with its keys inside the spans, and the numbers of distinct keys that the
ranks hold in a span summing to at most the number of keys of the span), for request sums
below `2 ^ 64`: when `generate_new_keys` returns without a throw on every rank, the
counting loops having stayed inside the vectors, `requested_keys` of the rank `r` has
`m_span_count` entries, `requested_keys[i]` holds exactly `requests[i]` keys, in strictly
ascending order, and the number of keys the rank keeps plus the number it receives, the
size of `new_keys`, is the sum of its requests. -/
theorem generate_new_keys_counts (n : Nat) (spans : List KeySpan) (cf : Nat → List Nat)
    (usage : Nat → List KeyProc) (behind : Nat → Nat) (requests : Nat → List Nat)
    (res : Nat → GenerateResult) (hsize : n < 2 ^ 64)
    (hspans : spans.Pairwise (fun a b => a.2 < b.1))
    (hvalid : ∀ s ∈ spans, s.1 ≤ s.2 ∧ s.2 + (n + 1) * 4096 < 2 ^ 64 ∧ n < 2 ^ 19)
    (hcap : ∀ s ∈ spans, span_capacity s < 2 ^ 61)
    (hchunk : ∀ p, p < n → chunk_first n (p : Int) spans = some (cf p))
    (hsorted : ∀ p, p < n → ((usage p).map Prod.fst).Pairwise (· ≤ ·))
    (hin : ∀ p, p < n → ∀ e ∈ usage p, ∃ s ∈ spans, s.1 ≤ e.1 ∧ e.1 ≤ s.2)
    (hexist : ∀ s ∈ spans, existing_in_span n usage s ≤ span_capacity s)
    (hreq : ∀ i, i < spans.length → requested_in_span n requests i < 2 ^ 64)
    (hres : ∀ p, p < n →
      generate_new_keys_stored n spans cf usage behind requests p = some (res p) ∧
        (res p).threw = false)
    (r : Nat) (hr : r < n) :
    (res r).requested_keys.length = spans.length ∧
      (res r).requested_keys.map List.length = requests r ∧
      (∀ keys ∈ (res r).requested_keys, keys.Pairwise (· < ·)) ∧
      (new_keys n spans cf usage requests r).length = (requests r).sum := by
  have hres2 := returned_of_stored n spans cf usage behind requests res hres
  have h0 := generate_new_keys_returned n spans cf usage requests r (res r) (hres2 r hr).1
    (hres2 r hr).2
  have hthrew := h0.1
  have hplan := h0.2.1
  obtain ⟨-, -, hrange, hfit, hkeys⟩ :=
    generate_new_keys_success n spans cf usage requests r (res r) (hres2 r hr).1 (hres2 r hr).2
      (requests_small n spans usage requests hspans hvalid hcap hsorted hin hexist hreq
        hthrew r hr)
  have hlen := requests_length_of_not_threw n hsize spans usage requests hthrew r hr
  have hmap := map_getD_range (requests r) spans.length hlen
  have heq := length_new_keys n spans cf usage requests hspans hvalid hcap hchunk hsorted hin
    hexist hreq hthrew hplan r hr
  have hnodup : (new_keys n spans cf usage requests r).Nodup := by
    rw [List.nodup_iff_count_le_one]
    intro k
    exact le_trans
      (le_sum_range n (fun q => (new_keys n spans cf usage requests q).count k) r hr)
      (count_new_keys_le n spans cf usage requests hspans hvalid hchunk hsorted hin hexist
        hthrew hplan k)
  have hsortedkeys : (new_keys n spans cf usage requests r).Pairwise (· < ·) := by
    apply List.Sorted.lt_of_le _ hnodup
    unfold new_keys
    exact List.sorted_insertionSort _ _
  rw [hkeys]
  refine ⟨?_, ?_, ?_, ?_⟩
  · rw [requested_slices_length, List.length_map, List.length_range]
  · rw [requested_slices_lengths _ _ hfit, hmap]
  · intro keys hk
    exact hsortedkeys.sublist (requested_slices_sublist _ _ keys hk)
  · rw [← hmap]
    exact heq

/-- Witness of C20: four ranks, spans `[(0, 10000)]`, rank 0 holds the key 1 and its
storage holds the key `0` behind the end, every rank requests `[3]`; rank 1 receives its
three keys `0, 2, 3` from rank 0. -/
theorem generate_new_keys_counts_witness :
    (∀ p, p < 4 →
      generate_new_keys_stored 4 [(0, 10000)]
          (fun p => (chunk_first 4 (p : Int) [(0, 10000)]).getD [])
          (fun p => if p = 0 then [(1, 0)] else []) (fun _ => 0) (fun _ => [3]) p =
        some { threw := false,
               m_key_usage := if p = 0 then
                 [(0, 1), (1, 0), (2, 1), (3, 1), (4, 2), (5, 2), (6, 2), (7, 3), (8, 3), (9, 3),
                   (10, 0), (11, 0), (12, 0)] else [],
               requested_keys := [if p = 0 then [10, 11, 12] else if p = 1 then [0, 2, 3]
                 else if p = 2 then [4, 5, 6] else [7, 8, 9]] }) ∧
      ([[0, 2, 3]] : List (List Nat)).length = ([(0, 10000)] : List KeySpan).length ∧
      ([[0, 2, 3]] : List (List Nat)).map List.length = [3] ∧
      (∀ keys ∈ ([[0, 2, 3]] : List (List Nat)), keys.Pairwise (· < ·)) ∧
      (new_keys 4 [(0, 10000)] (fun p => (chunk_first 4 (p : Int) [(0, 10000)]).getD [])
        (fun p => if p = 0 then [(1, 0)] else []) (fun _ => [3]) 1).length =
        ([3] : List Nat).sum :=
  have hres : ∀ p, p < 4 →
      generate_new_keys_stored 4 [(0, 10000)]
          (fun p => (chunk_first 4 (p : Int) [(0, 10000)]).getD [])
          (fun p => if p = 0 then [(1, 0)] else []) (fun _ => 0) (fun _ => [3]) p =
        some { threw := false,
               m_key_usage := if p = 0 then
                 [(0, 1), (1, 0), (2, 1), (3, 1), (4, 2), (5, 2), (6, 2), (7, 3), (8, 3), (9, 3),
                   (10, 0), (11, 0), (12, 0)] else [],
               requested_keys := [if p = 0 then [10, 11, 12] else if p = 1 then [0, 2, 3]
                 else if p = 2 then [4, 5, 6] else [7, 8, 9]] } := by
    decide
  ⟨hres,
    generate_new_keys_counts 4 [(0, 10000)]
      (fun p => (chunk_first 4 (p : Int) [(0, 10000)]).getD [])
      (fun p => if p = 0 then [(1, 0)] else []) (fun _ => 0) (fun _ => [3]) _ (by decide)
      (by decide) (by decide) (by decide) (by decide) (by decide) (by decide) (by decide)
      (by decide) (fun p hp => ⟨hres p hp, rfl⟩) 1 (by decide)⟩

/-- C21, the code at the failing input: an index constructed with an empty span list, so
with the span of all keys, on one rank and on three ranks.  The density scenario asks every
rank for one key of the span 0; the number of keys of the span, `2 ^ 64`, wraps around to
`0` in `span_available`, and already the first call throws on every rank: no key is
returned, where the claim has the keys `0 .. m_comm_size - 1`. -/
theorem density_whole_range_throws :
    constructed_key_span [] = [(0, 2 ^ 64 - 1)] ∧
      1 * 3 ≤ span_capacity ((constructed_key_span []).getD 0 (0, 0)) ∧
      (∀ p, p < 3 →
        generate_new_keys 3 (constructed_key_span [])
          (fun p => (chunk_first 3 (p : Int) (constructed_key_span [])).getD [])
          (fun _ => []) (fun _ => density_requests 1) p =
          some { threw := true, m_key_usage := [], requested_keys := [] }) ∧
      density_run 3 (constructed_key_span [])
        (fun p => (chunk_first 3 (p : Int) (constructed_key_span [])).getD []) 1 = none ∧
      density_run 1 (constructed_key_span [])
        (fun p => (chunk_first 1 (p : Int) (constructed_key_span [])).getD []) 1 = none := by
  decide

/-- C22 fails as stated: one rank, spans `[(0, 99)]`.  After `update_keys` has added the
key `50`, a request for two keys plans the keys up to `key_global_max = 2`, finds `0, 1, 2`
free and keeps the last two: the call returns `1` and `2`, although the key `0` is free and
smaller.  (The storage of `m_key_usage` is taken to hold behind its end a key other than
`50`.) -/
theorem generate_new_keys_not_smallest_counterexample :
    update_keys 1 [(0, 99)] (only_rank 0 [50]) no_keys (fun _ => []) 0 =
        { threw := false, m_key_usage := [(50, 0)] } ∧
      generate_new_keys_stored 1 [(0, 99)]
          (fun p => (chunk_first 1 (p : Int) [(0, 99)]).getD [])
          (fun _ => [(50, 0)]) (fun _ => 0) (fun _ => [2]) 0 =
          some { threw := false, m_key_usage := [(1, 0), (2, 0), (50, 0)],
                 requested_keys := [[1, 2]] } ∧
      (0 : Nat) ∉ [((50, 0) : KeyProc)].map Prod.fst ∧ (0 : Nat) ∉ [1, 2] := by
  decide

/-- C22, amended: on a consistent index of fewer than `2 ^ 19` ranks whose arithmetic does
not wrap around, with spans of fewer than `2 ^ 61` keys and request sums below `2 ^ 64`, on
which every key in use lies below `first + existing + requested` of its span and is held by
the rank that local planning attributes it to: when `generate_new_keys` returns without a
throw on every rank, the counting loops having stayed inside the vectors, the keys
returned for the span `i` across the ranks are exactly the keys of the span below
`first + existing + requested` that were not in use; they are as many as requested, and
every other key of the span that was not in use is larger than each of them. -/
theorem generate_new_keys_smallest_free (n : Nat) (spans : List KeySpan) (cf : Nat → List Nat)
    (usage : Nat → List KeyProc) (behind : Nat → Nat) (requests : Nat → List Nat)
    (res : Nat → GenerateResult) (hsize : 0 < n)
    (hspans : spans.Pairwise (fun a b => a.2 < b.1))
    (hvalid : ∀ s ∈ spans, s.1 ≤ s.2 ∧ s.2 + (n + 1) * 4096 < 2 ^ 64 ∧ n < 2 ^ 19)
    (hcap : ∀ s ∈ spans, span_capacity s < 2 ^ 61)
    (hchunk : ∀ p, p < n → chunk_first n (p : Int) spans = some (cf p))
    (hsorted : ∀ p, p < n → ((usage p).map Prod.fst).Pairwise (· ≤ ·))
    (hin : ∀ p, p < n → ∀ e ∈ usage p, ∃ s ∈ spans, s.1 ≤ e.1 ∧ e.1 ≤ s.2)
    (hexist : ∀ s ∈ spans, existing_in_span n usage s ≤ span_capacity s)
    (hreq : ∀ i, i < spans.length → requested_in_span n requests i < 2 ^ 64)
    (hown : ∀ i, i < spans.length → ∀ p, p < n → ∀ e ∈ usage p,
      (spans.getD i (0, 0)).1 ≤ e.1 → e.1 ≤ (spans.getD i (0, 0)).2 →
      e.1 < (spans.getD i (0, 0)).1 + (existing_in_span n usage (spans.getD i (0, 0))
          + requested_in_span n requests i) ∧
        chunk_owner n (spans.getD i (0, 0)) e.1 = p)
    (hres : ∀ p, p < n →
      generate_new_keys_stored n spans cf usage behind requests p = some (res p) ∧
        (res p).threw = false)
    (i : Nat) (hi : i < spans.length) :
    (∀ k, (∃ r, r < n ∧ k ∈ (res r).requested_keys.getD i []) ↔
        ((spans.getD i (0, 0)).1 ≤ k ∧
          k < (spans.getD i (0, 0)).1
            + (existing_in_span n usage (spans.getD i (0, 0))
              + requested_in_span n requests i) ∧
          ∀ p, p < n → k ∉ (usage p).map Prod.fst)) ∧
      ((List.range n).map
        (fun r => ((res r).requested_keys.getD i []).length)).sum =
        requested_in_span n requests i ∧
      ∀ k k', (∃ r, r < n ∧ k ∈ (res r).requested_keys.getD i []) →
        (spans.getD i (0, 0)).1 ≤ k' → k' ≤ (spans.getD i (0, 0)).2 →
        (∀ p, p < n → k' ∉ (usage p).map Prod.fst) →
        (¬ ∃ r, r < n ∧ k' ∈ (res r).requested_keys.getD i []) → k < k' := by
  have hres2 := returned_of_stored n spans cf usage behind requests res hres
  have hmem := mem_requested_keys n spans cf usage requests
    hsize hspans hvalid hcap hchunk hsorted hin hexist hreq hown res hres2 i hi
  have h0 := generate_new_keys_returned n spans cf usage
    requests 0 (res 0) (hres2 0 hsize).1 (hres2 0 hsize).2
  have hfound := found_le_requested n spans cf usage requests
    hsize hspans hvalid hsorted hin hexist h0.1 h0.2.1 hreq hown
  refine ⟨hmem, ?_, fun k k' hk h1 h2 h3 h4 => ?_⟩
  · unfold requested_in_span
    apply sum_map_congr
    intro r hr
    have hr2 := List.mem_range.1 hr
    rw [requested_keys_span n spans cf usage requests hspans
      hvalid hcap hchunk hsorted hin hexist hreq h0.1 h0.2.1 hfound r hr2 (res r)
      (hres2 r hr2).1 (hres2 r hr2).2 i hi]
    exact new_keys_in_span n spans cf usage requests hspans
      hvalid hcap hchunk hsorted hin hexist hreq h0.1 h0.2.1 hfound r hr2 i hi
  · have hk2 := (hmem k).1 hk
    by_contra hlt
    exact h4 ((hmem k').2 ⟨h1, by omega, h3⟩)

/-- Witness of C22: four ranks, spans `[(0, 10000)]`, rank 0 holds the key `1` and its
storage holds the key `0` behind the end, every rank requests `[3]`; the keys returned are
the twelve keys `0, 2, 3, ..., 12`. -/
theorem generate_new_keys_smallest_free_witness :
    ∃ res : Nat → GenerateResult,
      (∀ p, p < 4 →
        generate_new_keys_stored 4 [(0, 10000)]
          (fun p => (chunk_first 4 (p : Int) [(0, 10000)]).getD [])
          (fun p => if p = 0 then [(1, 0)] else []) (fun _ => 0) (fun _ => [3]) p =
          some (res p) ∧
        (res p).threw = false) ∧
      (∀ k, (∃ r, r < 4 ∧ k ∈ (res r).requested_keys.getD 0 []) ↔
        (([((0, 10000) : KeySpan)].getD 0 (0, 0)).1 ≤ k ∧
          k < ([((0, 10000) : KeySpan)].getD 0 (0, 0)).1
            + (existing_in_span 4 (fun p => if p = 0 then [(1, 0)] else [])
                ([((0, 10000) : KeySpan)].getD 0 (0, 0))
              + requested_in_span 4 (fun _ => [3]) 0) ∧
          ∀ p, p < 4 →
            k ∉ ((fun p => if p = 0 then [(1, 0)] else [] : Nat → List KeyProc) p).map
              Prod.fst)) ∧
      ((List.range 4).map (fun r => ((res r).requested_keys.getD 0 []).length)).sum =
        requested_in_span 4 (fun _ => [3]) 0 ∧
      ∀ k k', (∃ r, r < 4 ∧ k ∈ (res r).requested_keys.getD 0 []) →
        ([((0, 10000) : KeySpan)].getD 0 (0, 0)).1 ≤ k' →
        k' ≤ ([((0, 10000) : KeySpan)].getD 0 (0, 0)).2 →
        (∀ p, p < 4 →
          k' ∉ ((fun p => if p = 0 then [(1, 0)] else [] : Nat → List KeyProc) p).map
            Prod.fst) →
        (¬ ∃ r, r < 4 ∧ k' ∈ (res r).requested_keys.getD 0 []) → k < k' :=
  ⟨fun p =>
      { threw := false,
        m_key_usage := if p = 0 then
          [(0, 1), (1, 0), (2, 1), (3, 1), (4, 2), (5, 2), (6, 2), (7, 3), (8, 3), (9, 3),
            (10, 0), (11, 0), (12, 0)] else [],
        requested_keys := [if p = 0 then [10, 11, 12] else if p = 1 then [0, 2, 3]
          else if p = 2 then [4, 5, 6] else [7, 8, 9]] },
    by decide,
    generate_new_keys_smallest_free 4 [(0, 10000)]
      (fun p => (chunk_first 4 (p : Int) [(0, 10000)]).getD [])
      (fun p => if p = 0 then [(1, 0)] else []) (fun _ => 0) (fun _ => [3]) _ (by decide)
      (by decide) (by decide) (by decide) (by decide) (by decide) (by decide) (by decide)
      (by decide) (by decide) (by decide) 0 (by decide)⟩

/-- C29 fails as stated: three ranks, spans `[(0, 10)]`, empty index, requests `2 ^ 63`,
`2 ^ 63` and `5`.  Local planning leaves the table `2 ^ 63 - 5`, `-2 ^ 63`, `5` for the
span: rank 1 is the only donor and offers `2 ^ 63` keys, as many as the receivers need.  In
`long`, `- new_request[i]` of rank 1 is `-2 ^ 63` again, the guard `0 < my_total_donate`
fails, rank 1 donates nothing, and the donations to the receiver 0 add up to `0`. -/
theorem donations_overflow_counterexample :
    (∀ q, q < 3 →
      (plannings 3 [(0, 10)] (fun p => (chunk_first 3 (p : Int) [(0, 10)]).getD [])
        (fun _ => []) (fun p => if p = 2 then [5] else [2 ^ 63]) q).new_request =
        [[2 ^ 63 - 5, -2 ^ 63, 5].getD q (0 : Int)]) ∧
      ((List.range 3).map (fun q => max (new_request_global
          (fun q => [[2 ^ 63 - 5, -2 ^ 63, 5].getD q (0 : Int)]) q 0) 0)).sum ≤
        ((List.range 3).map (fun q => max (- new_request_global
          (fun q => [[2 ^ 63 - 5, -2 ^ 63, 5].getD q (0 : Int)]) q 0) 0)).sum ∧
      span_donations 3 1 (fun q => [[2 ^ 63 - 5, -2 ^ 63, 5].getD q (0 : Int)]) 0 = [0, 0, 0] ∧
      0 < new_request_global (fun q => [[2 ^ 63 - 5, -2 ^ 63, 5].getD q (0 : Int)]) 0 0 ∧
      ((((List.range 3).map
        (fun d => generate_new_keys_global_planning 3 d
          (fun q => [[2 ^ 63 - 5, -2 ^ 63, 5].getD q (0 : Int)]) 0 0)).sum : Nat) : Int) ≠
        new_request_global (fun q => [[2 ^ 63 - 5, -2 ^ 63, 5].getD q (0 : Int)]) 0 0 := by
  decide

/-- C29, amended: for a span `i` and a gathered table `new_request` in which the donors
(entries `< 0`) offer less than `2 ^ 63` keys in all and at least what the receivers
(entries `> 0`) need, the `my_donations[ p, i ]` computed by all the ranks `d` add up to
`new_request[ p ][ i ]` for every receiver `p`, and a rank that is not a donor has
`my_donations` all `0`. -/
theorem donations_serve_receivers (m_comm_size : Nat) (new_request : Nat → List Int) (i : Nat)
    (hoffer : ((List.range m_comm_size).map
        (fun q => max (- new_request_global new_request q i) 0)).sum < 2 ^ 63)
    (hsurplus : ((List.range m_comm_size).map
        (fun q => max (new_request_global new_request q i) 0)).sum ≤
      ((List.range m_comm_size).map
        (fun q => max (- new_request_global new_request q i) 0)).sum) :
    (∀ p, p < m_comm_size → 0 < new_request_global new_request p i →
      ((((List.range m_comm_size).map
        (fun d => generate_new_keys_global_planning m_comm_size d new_request i p)).sum : Nat)
          : Int) = new_request_global new_request p i) ∧
      ∀ d, 0 ≤ new_request_global new_request d i →
        span_donations m_comm_size d new_request i = List.replicate m_comm_size 0 ∧
          ∀ p, generate_new_keys_global_planning m_comm_size d new_request i p = 0 := by
  have hdon : donate_before (fun q => new_request_global new_request q i) m_comm_size
      < 2 ^ 63 := hoffer
  have hrecv : receive_before (fun q => new_request_global new_request q i) m_comm_size
      < 2 ^ 63 := lt_of_le_of_lt hsurplus hoffer
  refine ⟨fun p hp hpos => ?_, fun d hd => ?_⟩
  · have hsum : ((List.range m_comm_size).map (fun q => new_request_global new_request q i)).sum
        ≤ 0 := by
      have h := receive_sub_donate (fun q => new_request_global new_request q i) m_comm_size
      unfold receive_before donate_before at h
      beta_reduce at h
      omega
    rw [sum_map_congr _ _ _
      (fun d hd => global_planning_eq m_comm_size d new_request i p hp hrecv
        (lt_of_le_of_lt (donate_before_mono _ (d + 1) m_comm_size
          (Nat.succ_le_of_lt (List.mem_range.1 hd))) hdon)),
      sum_donation_of_le (fun q => new_request_global new_request q i) m_comm_size p hp hsum]
    omega
  · have h : span_donations m_comm_size d new_request i = List.replicate m_comm_size 0 := by
      unfold span_donations
      rw [if_neg (by omega)]
    refine ⟨h, fun p => ?_⟩
    unfold generate_new_keys_global_planning
    rw [h]
    by_cases hp : p < m_comm_size
    · rw [List.getD_eq_getElem?_getD, List.getElem?_replicate, if_pos hp]
      rfl
    · rw [List.getD_eq_getElem?_getD, List.getElem?_replicate, if_neg hp]
      rfl

/-- Witness of C29: three ranks with the requests `-5, 2, 3` for the span `0`. -/
theorem donations_serve_receivers_witness :
    (∀ p, p < 3 → 0 < new_request_global (fun q => [[-5, 2, 3].getD q (0 : Int)]) p 0 →
      ((((List.range 3).map
        (fun d => generate_new_keys_global_planning 3 d
          (fun q => [[-5, 2, 3].getD q (0 : Int)]) 0 p)).sum : Nat) : Int)
          = new_request_global (fun q => [[-5, 2, 3].getD q (0 : Int)]) p 0) ∧
      ∀ d, 0 ≤ new_request_global (fun q => [[-5, 2, 3].getD q (0 : Int)]) d 0 →
        span_donations 3 d (fun q => [[-5, 2, 3].getD q (0 : Int)]) 0 = List.replicate 3 0 ∧
          ∀ p, generate_new_keys_global_planning 3 d
            (fun q => [[-5, 2, 3].getD q (0 : Int)]) 0 p = 0 :=
  donations_serve_receivers 3 (fun q => [[-5, 2, 3].getD q (0 : Int)]) 0 (by decide)
    (by decide)

/-- C30, amended: for every table `new_request` in which, for the span `i`, the requests of
the receivers and the surpluses of the donors each sum to less than `2 ^ 63`, and for every
rank `d`, the entries `my_donations` are `≥ 0` and sum to at most the surplus
`-new_request[i]` of the rank.  On a consistent index of fewer than `2 ^ 19` ranks whose
arithmetic does not wrap around, with span capacities below `2 ^ 61` and request sums below
`2 ^ 64`, when the counting loop of every rank stays inside its `m_key_usage`, the global
counts do not throw and local planning ends, the counts of the call are those of
`local_used`, the keys that a rank donates are at most `contrib_keys.size()` and the
walk over `contrib_keys` stays inside the vector. -/
theorem donations_within_contrib (m_comm_size : Nat) (m_key_span : List KeySpan)
    (m_chunk_first : Nat → List Nat) (m_key_usage : Nat → List KeyProc) (behind : Nat → Nat)
    (requests : Nat → List Nat) (new_request : Nat → List Int)
    (hspans : m_key_span.Pairwise (fun a b => a.2 < b.1))
    (hvalid : ∀ s ∈ m_key_span, s.1 ≤ s.2 ∧ s.2 + (m_comm_size + 1) * 4096 < 2 ^ 64 ∧
      m_comm_size < 2 ^ 19)
    (hcap : ∀ s ∈ m_key_span, span_capacity s < 2 ^ 61)
    (hchunk : ∀ p, p < m_comm_size →
      chunk_first m_comm_size (p : Int) m_key_span = some (m_chunk_first p))
    (hsorted : ∀ p, p < m_comm_size → ((m_key_usage p).map Prod.fst).Pairwise (· ≤ ·))
    (hin : ∀ p, p < m_comm_size → ∀ e ∈ m_key_usage p,
      ∃ s ∈ m_key_span, s.1 ≤ e.1 ∧ e.1 ≤ s.2)
    (hexist : ∀ s ∈ m_key_span, existing_in_span m_comm_size m_key_usage s ≤ span_capacity s)
    (hreq : ∀ i, i < m_key_span.length → requested_in_span m_comm_size requests i < 2 ^ 64)
    (hstored : ∀ p, p < m_comm_size →
      (local_used_stored (behind p) m_key_span (m_key_usage p)).isSome = true)
    (hthrew : (generate_new_keys_global_counts m_comm_size m_key_span m_key_usage
      requests).threw = false)
    (hplan : ∀ p, p < m_comm_size →
      rank_planning m_comm_size m_key_span m_chunk_first m_key_usage requests p =
        some (plannings m_comm_size m_key_span m_chunk_first m_key_usage requests p))
    (d : Nat) (hd : d < m_comm_size) :
    (∀ i,
        ((List.range m_comm_size).map
          (fun q => max (new_request_global new_request q i) 0)).sum < 2 ^ 63 →
        ((List.range m_comm_size).map
          (fun q => max (- new_request_global new_request q i) 0)).sum < 2 ^ 63 →
        (∀ e ∈ span_donations m_comm_size d new_request i, 0 ≤ e) ∧
        ((List.range m_comm_size).map
          (generate_new_keys_global_planning m_comm_size d new_request i)).sum ≤
          (- new_request_global new_request d i).toNat) ∧
      (∀ p, p < m_comm_size → local_used_stored (behind p) m_key_span (m_key_usage p) =
        some (local_used m_key_span (m_key_usage p))) ∧
      ((donation_order m_key_span.length m_comm_size).map
          (fun ip => generate_new_keys_global_planning m_comm_size d
            (fun q => (plannings m_comm_size m_key_span m_chunk_first m_key_usage requests
              q).new_request) ip.1 ip.2)).sum ≤
        (plannings m_comm_size m_key_span m_chunk_first m_key_usage requests
          d).contrib_keys.length ∧
      rank_donations_in_range m_comm_size m_key_span
        (plannings m_comm_size m_key_span m_chunk_first m_key_usage requests) d = true := by
  have hrange := rank_donations_in_range_of m_comm_size m_key_span m_chunk_first m_key_usage
    requests hspans hvalid hcap hchunk hsorted hin hexist hreq hthrew hplan d hd
  refine ⟨fun i hneed hoffer => ?_, fun p hp => ?_, ?_, hrange⟩
  · have hrecv : receive_before (fun q => new_request_global new_request q i) m_comm_size
        < 2 ^ 63 := hneed
    have hdon : donate_before (fun q => new_request_global new_request q i) (d + 1)
        < 2 ^ 63 :=
      lt_of_le_of_lt (donate_before_mono _ (d + 1) m_comm_size (Nat.succ_le_of_lt hd)) hoffer
    refine ⟨?_, ?_⟩
    · rw [span_donations_eq_exact m_comm_size d new_request i hrecv hdon]
      exact span_donations_exact_nonneg m_comm_size d new_request i
    · rw [sum_map_congr _ _ _
        (fun p hp => global_planning_eq m_comm_size d new_request i p (List.mem_range.1 hp)
          hrecv hdon)]
      refine le_trans (sum_donation_le (fun q => new_request_global new_request q i) d
        m_comm_size) ?_
      beta_reduce
      omega
  · obtain ⟨c, hc⟩ := Option.isSome_iff_exists.1 (hstored p hp)
    rw [hc, local_used_stored_some (behind p) m_key_span (m_key_usage p) c hc]
  · unfold rank_donations_in_range donation_walk_in_range at hrange
    exact of_decide_eq_true hrange

/-- Witness of C30: four ranks, spans `[(0, 10000)]`, rank 0 holds the key `1` and its
storage holds the key `0` behind the end, every rank requests three keys; the donor is
rank 0, and the table of the first part is `-5, 2, 3`. -/
theorem donations_within_contrib_witness :
    (∀ i,
        ((List.range 4).map
          (fun q => max (new_request_global
            (fun q => [[-5, 2, 3].getD q (0 : Int)]) q i) 0)).sum < 2 ^ 63 →
        ((List.range 4).map
          (fun q => max (- new_request_global
            (fun q => [[-5, 2, 3].getD q (0 : Int)]) q i) 0)).sum < 2 ^ 63 →
        (∀ e ∈ span_donations 4 0 (fun q => [[-5, 2, 3].getD q (0 : Int)]) i, 0 ≤ e) ∧
        ((List.range 4).map
          (generate_new_keys_global_planning 4 0
            (fun q => [[-5, 2, 3].getD q (0 : Int)]) i)).sum ≤
          (- new_request_global (fun q => [[-5, 2, 3].getD q (0 : Int)]) 0 i).toNat) ∧
      (∀ p, p < 4 →
        local_used_stored ((fun _ => 0 : Nat → Nat) p) [(0, 10000)]
            ((fun p => if p = 0 then [(1, 0)] else [] : Nat → List KeyProc) p) =
          some (local_used [(0, 10000)]
            ((fun p => if p = 0 then [(1, 0)] else [] : Nat → List KeyProc) p))) ∧
      ((donation_order [((0, 10000) : KeySpan)].length 4).map
          (fun ip => generate_new_keys_global_planning 4 0
            (fun q => (plannings 4 [(0, 10000)]
          (fun p => (chunk_first 4 (p : Int) [(0, 10000)]).getD [])
          (fun p => if p = 0 then [(1, 0)] else []) (fun _ => [3])
              q).new_request) ip.1 ip.2)).sum ≤
        (plannings 4 [(0, 10000)]
          (fun p => (chunk_first 4 (p : Int) [(0, 10000)]).getD [])
          (fun p => if p = 0 then [(1, 0)] else []) (fun _ => [3])
          0).contrib_keys.length ∧
      rank_donations_in_range 4 [(0, 10000)]
        (plannings 4 [(0, 10000)]
          (fun p => (chunk_first 4 (p : Int) [(0, 10000)]).getD [])
          (fun p => if p = 0 then [(1, 0)] else []) (fun _ => [3])) 0 = true :=
  donations_within_contrib 4 [(0, 10000)]
    (fun p => (chunk_first 4 (p : Int) [(0, 10000)]).getD [])
    (fun p => if p = 0 then [(1, 0)] else []) (fun _ => 0) (fun _ => [3])
    (fun q => [[-5, 2, 3].getD q (0 : Int)])
    (by decide) (by decide) (by decide) (by decide) (by decide) (by decide) (by decide)
    (by decide) (by decide) (by decide) (by decide) 0 (by decide)

/-- C33 fails after an erase.  For increasing spans and a `key_usage` sorted by key with
every key inside a span: when the storage of the vector holds behind its end the key of the
last entry (the copy that `RemoveKeyProc::clean` leaves there, `clean_leaves`), the counting
loop of `generate_new_keys_global_counts` reads that key at the end position, takes it for
one more entry of the run it is skipping and leaves the vector: from there on the loops
read and count what the memory behind the vector holds, and the count of the span is not
determined by `key_usage`. -/
theorem counting_loop_leaves_vector (spans : List KeySpan) (key_usage : List KeyProc)
    (behind : Nat)
    (hspans : spans.Pairwise (fun a b => a.2 < b.1)) (hvalid : ∀ s ∈ spans, s.1 ≤ s.2)
    (hsorted : (key_usage.map Prod.fst).Pairwise (· ≤ ·))
    (hin : ∀ e ∈ key_usage, ∃ s ∈ spans, s.1 ≤ e.1 ∧ e.1 ≤ s.2)
    (hlast : key_usage.getLast?.map Prod.fst = some behind) :
    local_used_stored behind spans key_usage = none := by
  have hne : key_usage ≠ [] := by
    intro h
    rw [h] at hlast
    exact Option.noConfusion hlast
  have hmono : spans.Pairwise (fun a b => a.2 ≤ b.2) := by
    refine List.Pairwise.imp_of_mem ?_ hspans
    intro a b _ hb hab
    have := hvalid b hb
    omega
  apply local_used_stored_none behind spans key_usage hlast
  rw [local_used_reads_end_iff spans hmono key_usage hsorted]
  refine ⟨hne, ?_⟩
  obtain ⟨s, hs, _, hle⟩ := hin (key_usage.getLast hne) (List.getLast_mem hne)
  refine ⟨s, hs, fun e he => ?_⟩
  have hsplit := List.dropLast_append_getLast hne
  rw [← hsplit] at he hsorted
  rcases List.mem_append.1 he with h | h
  · rw [List.map_append, List.pairwise_append] at hsorted
    have := hsorted.2.2 e.1 (List.mem_map_of_mem _ h) (key_usage.getLast hne).1
      (List.mem_map_of_mem _ (List.mem_singleton_self _))
    omega
  · rw [List.mem_singleton] at h
    rw [h]
    exact hle

/-- Witness of C33, the failing input: one rank, the spans `[(0, 99)]`.  `update_keys` adds
the keys `0` and `1`; a second `update_keys` removes the key `0`: `mark` turns `(0, 0)` into
`(0, -1)`, `clean` moves `(1, 0)` to the front and leaves its old copy behind the new end.
The vector is `[(1, 0)]`, one key in the span, and the key behind its end is `1`: the
counting loop leaves the vector, where `local_used` counts one key. -/
theorem counting_loop_leaves_vector_witness :
    (update_keys 1 [(0, 99)] (fun _ => [0, 1]) (fun _ => []) (fun _ => []) 0).m_key_usage =
        [(0, 0), (1, 0)] ∧
      mark [(0, 0), (1, 0)] (0, 0) = [(0, -1), (1, 0)] ∧
      clean [(0, -1), (1, 0)] = [(1, 0)] ∧
      clean_leaves [(0, -1), (1, 0)] = [(1, 0)] ∧
      (update_keys 1 [(0, 99)] (fun _ => []) (fun _ => [0]) (fun _ => [(0, 0), (1, 0)])
        0).m_key_usage = [(1, 0)] ∧
      local_used [(0, 99)] [(1, 0)] = [1] ∧
      local_used_stored 1 [(0, 99)] [(1, 0)] = none :=
  ⟨by decide, by decide, by decide, by decide, by decide, by decide,
    counting_loop_leaves_vector [(0, 99)] [(1, 0)] 1 (by decide) (by decide) (by decide)
      (by decide) (by decide)⟩

/-- C35 fails as stated: eight ranks, spans `[(1, 10)]`, rank 0 holds the key `9`, every
rank requests `2 ^ 61` keys.  The sum of the requests is `0` in 64 bits and the global
counts do not throw; `key_global_max` is `1`, rank 0 finds the key `1`, keeps it and appends
`(1, 0)` to its `m_key_usage`.  The range of the last loop for `2 ^ 61` keys of 8 bytes is
empty in 64 bits: the call returns without a throw on every rank and returns no key, so the
entry `(1, 0)` was added for a key that was returned to no rank.  (The storage of
`m_key_usage` of rank 0 is taken to hold behind its end a key other than `9`.) -/
theorem generate_new_keys_unreturned_entry_counterexample :
    generate_new_keys_stored 8 [(1, 10)]
        (fun p => (chunk_first 8 (p : Int) [(1, 10)]).getD [])
        (fun p => if p = 0 then [(9, 0)] else []) (fun _ => 0) (fun _ => [2 ^ 61]) 0 =
        some { threw := false, m_key_usage := [(1, 0), (9, 0)], requested_keys := [[]] } ∧
      ∀ p, p < 8 →
        (generate_new_keys_stored 8 [(1, 10)]
          (fun p => (chunk_first 8 (p : Int) [(1, 10)]).getD [])
          (fun p => if p = 0 then [(9, 0)] else []) (fun _ => 0) (fun _ => [2 ^ 61]) p).map
            (fun res => (res.threw, res.requested_keys)) = some (false, [[]]) := by
  decide

/-- C35, amended: on a consistent index of fewer than `2 ^ 19` ranks whose arithmetic does
not wrap around, with spans of fewer than `2 ^ 61` keys and request sums below `2 ^ 64`,
after a call of `generate_new_keys` that returns without a throw on every rank, the
counting loops having stayed inside the vectors, `m_key_usage` of each rank is the sorted
sequence of its entries before the call and of the entries that it appended, and a pair
`(k, q)` was appended on some rank exactly when `q` is a rank to which the key `k` was
returned. -/
theorem generate_new_keys_records_returned (n : Nat) (spans : List KeySpan) (cf : Nat → List Nat)
    (usage : Nat → List KeyProc) (behind : Nat → Nat) (requests : Nat → List Nat)
    (res : Nat → GenerateResult)
    (hspans : spans.Pairwise (fun a b => a.2 < b.1))
    (hvalid : ∀ s ∈ spans, s.1 ≤ s.2 ∧ s.2 + (n + 1) * 4096 < 2 ^ 64 ∧ n < 2 ^ 19)
    (hcap : ∀ s ∈ spans, span_capacity s < 2 ^ 61)
    (hchunk : ∀ p, p < n → chunk_first n (p : Int) spans = some (cf p))
    (hsorted : ∀ p, p < n → ((usage p).map Prod.fst).Pairwise (· ≤ ·))
    (hin : ∀ p, p < n → ∀ e ∈ usage p, ∃ s ∈ spans, s.1 ≤ e.1 ∧ e.1 ≤ s.2)
    (hexist : ∀ s ∈ spans, existing_in_span n usage s ≤ span_capacity s)
    (hreq : ∀ i, i < spans.length → requested_in_span n requests i < 2 ^ 64)
    (hres : ∀ p, p < n →
      generate_new_keys_stored n spans cf usage behind requests p = some (res p) ∧
        (res p).threw = false) :
    (∀ d, d < n →
      (res d).m_key_usage =
        sort (usage d ++ appended_entries n spans (plannings n spans cf usage requests) d)) ∧
      ∀ (k : Nat) (q : Int),
        (∃ d, d < n ∧
          ((k, q) : KeyProc) ∈
            appended_entries n spans (plannings n spans cf usage requests) d) ↔
        ∃ p, p < n ∧ q = (p : Int) ∧ k ∈ (res p).requested_keys.flatten := by
  have hres2 := returned_of_stored n spans cf usage behind requests res hres
  have hflat : ∀ r, r < n →
      (res r).requested_keys.flatten = new_keys n spans cf usage requests r := by
    intro r hr
    have h0 := generate_new_keys_returned n spans cf usage requests r (res r) (hres2 r hr).1
      (hres2 r hr).2
    have h1 := generate_new_keys_success n spans cf usage requests r (res r) (hres2 r hr).1
      (hres2 r hr).2
      (requests_small n spans usage requests hspans hvalid hcap hsorted hin hexist hreq
        h0.1 r hr)
    rw [h1.2.2.2.2, requested_slices_flatten]
    exact List.take_of_length_le (Nat.le_of_eq
      (length_new_keys n spans cf usage requests hspans hvalid hcap hchunk hsorted hin hexist
        hreq h0.1 h0.2.1 r hr))
  refine ⟨?_, ?_⟩
  · intro d hd
    rw [generate_new_keys_usage n spans cf usage requests d (res d) (hres2 d hd).1
      (hres2 d hd).2, List.append_assoc]
    rfl
  · intro k q
    constructor
    · rintro ⟨d, hd, hmem⟩
      rcases (mem_appended_entries _ _ _ _ _ _).1 hmem with ⟨hq, hk⟩ | ⟨x, hx, hq, hk⟩
      · refine ⟨d, hd, hq, ?_⟩
        rw [hflat d hd, mem_new_keys_iff]
        exact Or.inl hk
      · have hx2 := hx
        unfold rank_donations at hx2
        obtain ⟨ip, hip, hxr⟩ := donation_walk_receiver _ _ _ _ x hx2
        have hr := (mem_donation_order _ _ ip hip).2
        refine ⟨x.1, by omega, hq, ?_⟩
        rw [hflat x.1 (by omega), mem_new_keys_iff]
        exact Or.inr ⟨d, hd, x, hx, rfl, hk⟩
    · rintro ⟨p, hp, hq, hk⟩
      rw [hflat p hp, mem_new_keys_iff] at hk
      rcases hk with hk | ⟨d, hd, x, hx, hxp, hk⟩
      · exact ⟨p, hp, (mem_appended_entries _ _ _ _ _ _).2 (Or.inl ⟨hq, hk⟩)⟩
      · exact ⟨d, hd, (mem_appended_entries _ _ _ _ _ _).2
          (Or.inr ⟨x, hx, by rw [hq, hxp], hk⟩)⟩

/-- Witness of C35: four ranks with the spans `[(0, 10000)]` and the empty index, every
rank requests three keys; rank 0 keeps `9, 10, 11` and donates three keys to each of the
other ranks. -/
theorem generate_new_keys_records_returned_witness :
    ∃ res : Nat → GenerateResult,
      (∀ p, p < 4 →
        generate_new_keys_stored 4 [(0, 10000)]
          (fun p => (chunk_first 4 (p : Int) [(0, 10000)]).getD []) (fun _ => [])
          (fun _ => 0) (fun _ => [3]) p = some (res p) ∧ (res p).threw = false) ∧
      (∀ d : Nat, d < 4 →
        (res d).m_key_usage =
          sort ((fun _ => [] : Nat → List KeyProc) d
            ++ appended_entries 4 [(0, 10000)] (plannings 4 [(0, 10000)]
            (fun p => (chunk_first 4 (p : Int) [(0, 10000)]).getD []) (fun _ => [])
            (fun _ => [3])) d)) ∧
      ∀ (k : Nat) (q : Int),
        (∃ d : Nat, d < 4 ∧
          ((k, q) : KeyProc) ∈ appended_entries 4 [(0, 10000)] (plannings 4 [(0, 10000)]
            (fun p => (chunk_first 4 (p : Int) [(0, 10000)]).getD []) (fun _ => [])
            (fun _ => [3])) d) ↔
        ∃ p : Nat, p < 4 ∧ q = (p : Int) ∧ k ∈ (res p).requested_keys.flatten :=
  ⟨fun p =>
      { threw := false,
        m_key_usage := if p = 0 then
          [(0, 1), (1, 1), (2, 1), (3, 2), (4, 2), (5, 2), (6, 3), (7, 3), (8, 3),
            (9, 0), (10, 0), (11, 0)] else [],
        requested_keys := [if p = 0 then [9, 10, 11] else if p = 1 then [0, 1, 2]
          else if p = 2 then [3, 4, 5] else [6, 7, 8]] },
    by decide,
    generate_new_keys_records_returned 4 [(0, 10000)]
      (fun p => (chunk_first 4 (p : Int) [(0, 10000)]).getD []) (fun _ => [])
      (fun _ => 0) (fun _ => [3]) _ (by decide) (by decide) (by decide) (by decide)
      (by decide) (by decide) (by decide) (by decide) (by decide)⟩

end DistributedIndex
